import Mathlib

/-!
# Graph visualisation: data model, traversals and structural analysis

A shallow embedding of `script.js`.

Modelling conventions.
* JavaScript numbers are modelled by an exact linearly ordered ring `R`
  (for instance `ℤ` or `ℚ`), a field where a layout divides; the value
  `Infinity` is the top element of `WithTop R`.  `NaN` and rounding are not
  modelled, and `Math.cos`, `Math.sin` and `Math.PI` are parameters
  (`JsMath`).
* A JavaScript `Map` is an association list in insertion order, a `Set` is a
  list in insertion order, an array is a list.
* A property read that yields `undefined` is `none`.
* A thrown `TypeError` and a loop that never ends are the two failures of
  `Except JsError`.
-/

namespace GraphVis

/-! ## JavaScript `Map` and `Set` as insertion-ordered lists -/

/-- The method `Map.prototype.get`: the value stored under a key, or `none` for `undefined`. -/
def mapGet {β : Type} : List (String × β) → String → Option β
  | [], _ => none
  | (k', v) :: m, k => if k' = k then some v else mapGet m k

/-- The method `Map.prototype.has`. -/
def mapHas {β : Type} (m : List (String × β)) (k : String) : Bool :=
  (mapGet m k).isSome

/-- The method `Map.prototype.set`: an existing key keeps its place in the insertion
order and gets the new value, a new key goes to the end. -/
def mapSet {β : Type} : List (String × β) → String → β → List (String × β)
  | [], k, v => [(k, v)]
  | (k', v') :: m, k, v => if k' = k then (k, v) :: m else (k', v') :: mapSet m k v

/-- The method `Map.prototype.delete`. -/
def mapDelete {β : Type} (m : List (String × β)) (k : String) : List (String × β) :=
  m.filter (fun p => p.1 ≠ k)

/-- The keys of a map in enumeration order. -/
def mapKeys {β : Type} (m : List (String × β)) : List String :=
  m.map Prod.fst

/-- The method `Set.prototype.add`. -/
def setAdd (s : List String) (k : String) : List String :=
  if k ∈ s then s else s ++ [k]

/-- The method `Set.prototype.delete`. -/
def setDelete (s : List String) (k : String) : List String :=
  s.filter (fun x => x ≠ k)

/-! ## Data model (`class Graph`) -/

/-- A vertex record `{ id, label, x, y, color, radius }`. -/
structure Vertex (R : Type) where
  id : String
  label : String
  x : R
  y : R
  color : String
  radius : R
  deriving DecidableEq, Repr

/-- An edge record `{ from, to, weight, label, color, width, isDirected }`;
the fields `from` and `to` are spelled `from_` and `to_`. -/
structure Edge (R : Type) where
  from_ : String
  to_ : String
  weight : R
  label : String
  color : String
  width : R
  isDirected : Bool
  deriving DecidableEq, Repr

/-- The class `Graph`: `vertices` is a `Map` from id to vertex, `edges` an array. -/
structure Graph (R : Type) where
  vertices : List (String × Vertex R)
  edges : List (Edge R)
  deriving DecidableEq, Repr

variable {R : Type}

namespace Graph

/-- The constructor of `Graph`. -/
def empty : Graph R := ⟨[], []⟩

/-- The method `addVertex(id, label, x, y, color, radius)` with every argument supplied. -/
def addVertex (g : Graph R) (id label : String) (x y : R) (color : String) (radius : R) :
    Graph R :=
  { g with vertices := mapSet g.vertices id ⟨id, label, x, y, color, radius⟩ }

/-- The method `addEdge(from, to, weight, label, color, width, isDirected)` with every
argument supplied. -/
def addEdge (g : Graph R) (from_ to_ : String) (weight : R) (label color : String) (width : R)
    (isDirected : Bool) : Graph R :=
  { g with edges := g.edges ++ [⟨from_, to_, weight, label, color, width, isDirected⟩] }

/-- The method `removeVertex(id)`. -/
def removeVertex (g : Graph R) (id : String) : Graph R :=
  { vertices := mapDelete g.vertices id
    edges := g.edges.filter (fun e => e.from_ ≠ id ∧ e.to_ ≠ id) }

/-- The method `removeEdge(index)`, that is `edges.splice(index, 1)` at a non-negative index. -/
def removeEdge (g : Graph R) (index : Nat) : Graph R :=
  { g with edges := g.edges.eraseIdx index }

/-- The method `removeEdge(index)` at any integer index: `splice` counts a negative index
from the end of the array and stops at its start. -/
def removeEdgeAt (g : Graph R) (index : ℤ) : Graph R :=
  if 0 ≤ index then g.removeEdge index.toNat
  else g.removeEdge (g.edges.length - index.natAbs)

/-- The method `clear()`. -/
def clear (_g : Graph R) : Graph R := ⟨[], []⟩

end Graph

/-! ## Snapshots (`toJSON` / `fromJSON`) -/

/-- A vertex record of a snapshot; a field that is absent reads as `undefined`, here `none`. -/
structure VertexRec (R : Type) where
  id : String
  label : Option String
  x : Option R
  y : Option R
  color : Option String
  radius : Option R
  deriving DecidableEq, Repr

/-- An edge record of a snapshot; a field that is absent reads as `undefined`, here `none`. -/
structure EdgeRec (R : Type) where
  from_ : String
  to_ : String
  weight : Option R
  label : Option String
  color : Option String
  width : Option R
  isDirected : Option Bool
  deriving DecidableEq, Repr

/-- A snapshot `{ vertices: [...], edges: [...] }`. -/
structure Snapshot (R : Type) where
  vertices : List (VertexRec R)
  edges : List (EdgeRec R)
  deriving DecidableEq, Repr

/-- The expression `s || d` on an optional string: `undefined` and the empty string are falsy. -/
def orStr (s : Option String) (d : String) : String :=
  match s with
  | some v => if v = "" then d else v
  | none => d

/-- The expression `n || d` on an optional number: `undefined` and `0` are falsy. -/
def orNum [Zero R] [DecidableEq R] (n : Option R) (d : R) : R :=
  match n with
  | some v => if v = 0 then d else v
  | none => d

/-- The expression `b || false` on an optional boolean. -/
def orBool (b : Option Bool) : Bool :=
  match b with
  | some v => v
  | none => false

namespace Graph

/-- The method `toJSON()`: the vertex records in enumeration order and the edge array. -/
def toJSON (g : Graph R) : Snapshot R :=
  { vertices := g.vertices.map (fun p =>
      ⟨p.2.id, some p.2.label, some p.2.x, some p.2.y, some p.2.color, some p.2.radius⟩)
    edges := g.edges.map (fun e =>
      ⟨e.from_, e.to_, some e.weight, some e.label, some e.color, some e.width,
        some e.isDirected⟩) }

/-- The call `this.addVertex(v.id, v.label, v.x, v.y, v.color || '#208141', v.radius || 25)`:
an `undefined` label, x or y takes the parameter default of `addVertex`. -/
def loadVertex [Ring R] [DecidableEq R] (g : Graph R) (v : VertexRec R) : Graph R :=
  g.addVertex v.id (v.label.getD v.id) (v.x.getD 0) (v.y.getD 0)
    (orStr v.color "#208141") (orNum v.radius 25)

/-- The call `this.addEdge(e.from, e.to, e.weight || 1, e.label || '', e.color || '#626c7c',
e.width || 2, e.isDirected || false)`. -/
def loadEdge [Ring R] [DecidableEq R] (g : Graph R) (e : EdgeRec R) : Graph R :=
  g.addEdge e.from_ e.to_ (orNum e.weight 1) (orStr e.label "") (orStr e.color "#626c7c")
    (orNum e.width 2) (orBool e.isDirected)

/-- The method `fromJSON(data)`. -/
def fromJSON [Ring R] [DecidableEq R] (g : Graph R) (data : Snapshot R) : Graph R :=
  data.edges.foldl loadEdge (data.vertices.foldl loadVertex g.clear)

end Graph

/-! ## Application state -/

/-- The values of `state.algoMode`. -/
inductive AlgoMode
  | off
  | bfs
  | dfs
  | dijkstra
  deriving DecidableEq, Repr

/-- The values of `state.algoStepMode`. -/
inductive StepMode
  | off
  | space
  | auto
  deriving DecidableEq, Repr

/-- The two ways a call can fail: a `TypeError` (a property read on `undefined`), or a loop
that never ends. -/
inductive JsError
  | typeError
  | diverges
  deriving DecidableEq, Repr

/-- A timer registered with `setInterval`: its id, the step function it calls and the
interval it was given (`none` when the argument was `undefined`). -/
structure Timer (R : Type) where
  id : Nat
  callback : AlgoMode
  interval : Option R
  deriving DecidableEq, Repr

/-- What a call shows with `alert`. -/
inductive Report (R : Type)
  | noPath
  | pathFound (dist : Option (WithTop R)) (path : List String) (labels : List String)
  | bfsOrder (labels : List String)
  | dfsOrder (labels : List String)
  | graphEmpty
  | components (labels : List (List String))
  | matrixMissing
  | cellNotNumber (row column : Nat)
  | cellOutOfRange (row column : Nat)
  | matrixNotSquare
  | labelCountMismatch (labels size : Nat)
  | matrixLoaded
  deriving DecidableEq, Repr

/-- The part of the global `state` object the algorithms use, together with the timer
service (`timers`, `timerSeq`) and the log of `alert` calls. -/
structure State (R : Type) where
  graph : Graph R
  algoMode : AlgoMode
  algoStepMode : StepMode
  algoDelay : R
  algoTimerId : Option Nat
  algoCurrent : Option String
  algoNext : Option String
  bfsQueue : List String
  bfsVisited : List String
  bfsOrder : List String
  dfsStack : List String
  dfsVisited : List String
  dfsOrder : List String
  djUnvisited : List String
  djDistances : List (String × WithTop R)
  djPrevious : List (String × Option String)
  djOrder : List String
  dijkstraStart : Option String
  dijkstraEnd : Option String
  componentsOriginalColors : Option (List (String × String))
  isVisualizationRunning : Bool
  timers : List (Timer R)
  timerSeq : Nat
  alerts : List (Report R)

/-- The initial value of `state` around a given graph. -/
def State.init [Ring R] (g : Graph R) : State R :=
  { graph := g, algoMode := .off, algoStepMode := .off, algoDelay := 1000,
    algoTimerId := none, algoCurrent := none, algoNext := none,
    bfsQueue := [], bfsVisited := [], bfsOrder := [],
    dfsStack := [], dfsVisited := [], dfsOrder := [],
    djUnvisited := [], djDistances := [], djPrevious := [], djOrder := [],
    dijkstraStart := none, dijkstraEnd := none,
    componentsOriginalColors := none, isVisualizationRunning := false,
    timers := [], timerSeq := 0, alerts := [] }

/-- The statement `if (state.algoTimerId) { clearInterval(state.algoTimerId);
state.algoTimerId = null; }`.  The timer service hands out positive ids, so an id that is
not `null` is truthy. -/
def clearTimer (s : State R) : State R :=
  match s.algoTimerId with
  | some id =>
    { s with timers := s.timers.filter (fun t => t.id ≠ id)
             algoTimerId := none }
  | none => s

/-- The statement `state.algoTimerId = setInterval(step, interval)`; the timer service hands
out the ids 1, 2, 3, ... -/
def setTimer (s : State R) (callback : AlgoMode) (interval : Option R) : State R :=
  { s with timers := s.timers ++ [⟨s.timerSeq + 1, callback, interval⟩]
           timerSeq := s.timerSeq + 1
           algoTimerId := some (s.timerSeq + 1) }

/-- The function `startVisualizationMode`, as far as it touches the modelled state. -/
def startVisualizationMode (s : State R) : State R :=
  { s with isVisualizationRunning := true }

/-- The function `stopVisualizationMode`, as far as it touches the modelled state. -/
def stopVisualizationMode (s : State R) : State R :=
  { s with isVisualizationRunning := false }

/-- The expression `state.graph.vertices.get(id).label || id`: a `TypeError` when the id is
not a key of the vertex map. -/
def labelOf (g : Graph R) (id : String) : Except JsError String :=
  match mapGet g.vertices id with
  | some v => .ok (if v.label = "" then id else v.label)
  | none => .error .typeError

/-- The expression `ids.map(id => state.graph.vertices.get(id).label || id)`. -/
def labelsOf (g : Graph R) : List String → Except JsError (List String)
  | [] => .ok []
  | id :: ids =>
    match labelOf g id with
    | .error e => .error e
    | .ok l =>
      match labelsOf g ids with
      | .error e => .error e
      | .ok ls => .ok (l :: ls)

/-- The expression `parseFloat(input.value) || 1`, on the parsed value (`none` for `NaN`). -/
def delayOr1 [Ring R] [DecidableEq R] (parsed : Option R) : R :=
  orNum parsed 1

/-! ## Breadth-first search -/

/-- The function `startBfsVisualization`; `start`, `mode` and the parsed delay are the values
read from the dialog.  The interval handed to `setInterval` is `state.bfsDelay`, a property
that is never assigned. -/
def startBfsVisualization [Ring R] [DecidableEq R] (s : State R) (start : String)
    (mode : StepMode) (delayInput : Option R) : State R :=
  let s := startVisualizationMode s
  let delaySec := delayOr1 delayInput
  let s := clearTimer s
  let s := { s with algoMode := .bfs, algoStepMode := mode, algoDelay := delaySec * 1000,
                    bfsVisited := [], bfsOrder := [], bfsQueue := [start],
                    algoCurrent := none, algoNext := some start }
  if mode = .auto then setTimer s .bfs none else s

/-- One pass of the body of the neighbour loop of `bfsStep` for the edge `e`. -/
def bfsPush (current : String) (visited queue : List String) (e : Edge R) : List String :=
  if e.from_ = current ∧ e.to_ ∉ visited ∧ e.to_ ∉ queue then queue ++ [e.to_]
  else if e.isDirected = false ∧ e.to_ = current ∧ e.from_ ∉ visited ∧ e.from_ ∉ queue then
    queue ++ [e.from_]
  else queue

/-- The function `bfsStep`. -/
def bfsStep (s : State R) : Except JsError (State R) :=
  match s.bfsQueue with
  | [] =>
    let s := clearTimer s
    let s := { s with algoCurrent := none, algoNext := none }
    let s := stopVisualizationMode s
    match labelsOf s.graph s.bfsOrder with
    | .error e => .error e
    | .ok labels =>
      .ok { s with alerts := s.alerts ++ [.bfsOrder labels]
                   algoMode := .off, algoStepMode := .off }
  | current :: rest =>
    let visited := setAdd s.bfsVisited current
    let queue := s.graph.edges.foldl (bfsPush current visited) rest
    .ok { s with algoCurrent := some current, bfsVisited := visited,
                 bfsOrder := s.bfsOrder ++ [current], bfsQueue := queue,
                 algoNext := queue.head? }

/-- Repeated `bfsStep` while a breadth-first run is active (the space-key handler and the
timer both call `bfsStep` only while `state.algoMode` is `bfs`); `fuel` bounds the number
of calls. -/
def runBfs : Nat → State R → Except JsError (State R)
  | 0, s => .ok s
  | fuel + 1, s =>
    if s.algoMode = .bfs then
      match bfsStep s with
      | .error e => .error e
      | .ok s' => runBfs fuel s'
    else .ok s

/-! ## Depth-first search -/

/-- The function `startDfsVisualization`. -/
def startDfsVisualization [Ring R] [DecidableEq R] (s : State R) (start : String)
    (mode : StepMode) (delayInput : Option R) : State R :=
  let s := startVisualizationMode s
  let delaySec := delayOr1 delayInput
  let s := clearTimer s
  let s := { s with algoMode := .dfs, algoStepMode := mode, algoDelay := delaySec * 1000,
                    dfsVisited := [], dfsOrder := [], dfsStack := [start],
                    algoCurrent := none, algoNext := some start }
  if mode = .auto then setTimer s .dfs (some s.algoDelay) else s

/-- The neighbour list built by the first loop of `dfsStep`. -/
def dfsNeighbors (edges : List (Edge R)) (current : String) : List String :=
  edges.foldl (fun acc e =>
    if e.from_ = current then acc ++ [e.to_]
    else if e.isDirected = false ∧ e.to_ = current then acc ++ [e.from_]
    else acc) []

/-- The callback of `neighbors.reverse().forEach(...)` in `dfsStep`; the stack is kept with
its top at the end of the list, as the array is. -/
def dfsPush (visited : List String) (stack : List String) (n : String) : List String :=
  if n ∉ visited ∧ n ∉ stack then stack ++ [n] else stack

/-- The function `dfsStep`. -/
def dfsStep (s : State R) : Except JsError (State R) :=
  match s.dfsStack.getLast? with
  | none =>
    let s := clearTimer s
    let s := { s with algoCurrent := none, algoNext := none }
    let s := stopVisualizationMode s
    match labelsOf s.graph s.dfsOrder with
    | .error e => .error e
    | .ok labels =>
      .ok { s with alerts := s.alerts ++ [.dfsOrder labels]
                   algoMode := .off, algoStepMode := .off }
  | some current =>
    let stack := s.dfsStack.dropLast
    if current ∈ s.dfsVisited then
      .ok { s with dfsStack := stack, algoCurrent := some current,
                   algoNext := stack.getLast? }
    else
      let visited := setAdd s.dfsVisited current
      let neighbors := dfsNeighbors s.graph.edges current
      let stack := neighbors.reverse.foldl (dfsPush visited) stack
      .ok { s with dfsVisited := visited, dfsOrder := s.dfsOrder ++ [current],
                   algoCurrent := some current, dfsStack := stack,
                   algoNext := stack.getLast? }

/-- Repeated `dfsStep` while a depth-first run is active; `fuel` bounds the number of
calls. -/
def runDfs : Nat → State R → Except JsError (State R)
  | 0, s => .ok s
  | fuel + 1, s =>
    if s.algoMode = .dfs then
      match dfsStep s with
      | .error e => .error e
      | .ok s' => runDfs fuel s'
    else .ok s

/-! ## Dijkstra -/

/-- The loop `for (let [id] of state.graph.vertices)` of `startDijkstraVisualization`,
one pass. -/
def djInit [Ring R] (start : String)
    (acc : List (String × WithTop R) × List (String × Option String) × List String)
    (id : String) : List (String × WithTop R) × List (String × Option String) × List String :=
  (mapSet acc.1 id (if id = start then ((0 : R) : WithTop R) else ⊤),
   mapSet acc.2.1 id none,
   setAdd acc.2.2 id)

/-- The function `startDijkstraVisualization`; `start`, `end_`, `mode` and the parsed delay
are the values read from the dialog. -/
def startDijkstraVisualization [Ring R] [DecidableEq R] (s : State R) (start end_ : String)
    (mode : StepMode) (delayInput : Option R) : State R :=
  let s := startVisualizationMode s
  let delaySec := delayOr1 delayInput
  let s := clearTimer s
  let init := (mapKeys s.graph.vertices).foldl (djInit start) ([], [], [])
  let s := { s with algoMode := .dijkstra, algoStepMode := mode, algoDelay := delaySec * 1000,
                    djDistances := init.1, djPrevious := init.2.1, djUnvisited := init.2.2,
                    djOrder := [], dijkstraStart := some start, dijkstraEnd := some end_,
                    algoCurrent := none, algoNext := some start }
  if mode = .auto then setTimer s .dijkstra (some s.algoDelay) else s

/-- One pass of the selection loop of `dijkstraStep`: `acc` holds the variables
`(current, minDist)`; a distance that reads `undefined` never compares below. -/
def djSelectStep [LinearOrder R] (dist : List (String × WithTop R))
    (acc : Option String × WithTop R) (id : String) : Option String × WithTop R :=
  match mapGet dist id with
  | some d => if d < acc.2 then (some id, d) else acc
  | none => acc

/-- The selection loop of `dijkstraStep` (used for `current` and again for `next`): the
first unvisited id, in the iteration order of the set, whose distance is strictly below
every earlier one. -/
def djSelect [LinearOrder R] (dist : List (String × WithTop R)) (unvisited : List String) :
    Option String × WithTop R :=
  unvisited.foldl (djSelectStep dist) (none, ⊤)

/-- The neighbour chosen for one edge in the relaxation loop of `dijkstraStep`. -/
def djNeighbor (current : String) (unvisited : List String) (e : Edge R) : Option String :=
  if e.from_ = current ∧ e.to_ ∈ unvisited then some e.to_
  else if e.isDirected = false ∧ e.to_ = current ∧ e.from_ ∈ unvisited then some e.from_
  else none

/-- One pass of the relaxation loop of `dijkstraStep`; when a distance reads `undefined`
the comparison `alt < ...` is false. -/
def djRelax [LinearOrder R] [Add R] (current : String) (unvisited : List String)
    (dp : List (String × WithTop R) × List (String × Option String)) (e : Edge R) :
    List (String × WithTop R) × List (String × Option String) :=
  match djNeighbor current unvisited e with
  | none => dp
  | some neighbor =>
    match mapGet dp.1 current, mapGet dp.1 neighbor with
    | some dc, some dn =>
      let alt := dc + (e.weight : WithTop R)
      if alt < dn then (mapSet dp.1 neighbor alt, mapSet dp.2 neighbor (some current)) else dp
    | _, _ => dp

/-- The loop `while (cur !== null) { path.unshift(cur); cur = state.djPrevious.get(cur); }`
of `finishDijkstra`.  `cur` is `none` for `null`.  A read of `undefined` never becomes
`null`, so the loop never ends; running out of `fuel` is reported the same way. -/
def djPath (prev : List (String × Option String)) :
    Nat → Option String → List String → Except JsError (List String)
  | 0, _, _ => .error .diverges
  | _ + 1, none, path => .ok path
  | fuel + 1, some c, path =>
    match mapGet prev c with
    | none => .error .diverges
    | some p => djPath prev fuel p (c :: path)

/-- The function `finishDijkstra`.  The path loop is given one more round than
`djPrevious` has keys: a chain that is longer repeats a key and never ends. -/
def finishDijkstra (s : State R) : Except JsError (State R) :=
  let s := clearTimer s
  let start := s.dijkstraStart
  match s.dijkstraEnd with
  | none => .error .diverges
  | some end_ =>
    match djPath s.djPrevious (s.djPrevious.length + 1) (some end_) [] with
    | .error e => .error e
    | .ok path =>
      let done (s : State R) : State R :=
        stopVisualizationMode
          { s with algoCurrent := none, algoNext := none, algoMode := .off,
                   algoStepMode := .off }
      if path.head? ≠ start then
        .ok (done { s with alerts := s.alerts ++ [.noPath] })
      else
        match labelsOf s.graph path with
        | .error e => .error e
        | .ok labels =>
          .ok (done { s with alerts :=
            s.alerts ++ [.pathFound (mapGet s.djDistances end_) path labels] })

/-- The function `dijkstraStep`. -/
def dijkstraStep [LinearOrder R] [Add R] (s : State R) : Except JsError (State R) :=
  if s.djUnvisited = [] then finishDijkstra s
  else
    match djSelect s.djDistances s.djUnvisited with
    | (none, _) => finishDijkstra s
    | (some current, minDist) =>
      if minDist = ⊤ then finishDijkstra s
      else
        let unvisited := setDelete s.djUnvisited current
        let dp := s.graph.edges.foldl (djRelax current unvisited) (s.djDistances, s.djPrevious)
        let next := (djSelect dp.1 unvisited).1
        let s := { s with djUnvisited := unvisited, djOrder := s.djOrder ++ [current],
                          algoCurrent := some current, djDistances := dp.1,
                          djPrevious := dp.2, algoNext := next }
        if some current = s.dijkstraEnd then finishDijkstra s else .ok s

/-- Repeated `dijkstraStep` while a Dijkstra run is active; `fuel` bounds the number of
calls. -/
def runDijkstra [LinearOrder R] [Add R] : Nat → State R → Except JsError (State R)
  | 0, s => .ok s
  | fuel + 1, s =>
    if s.algoMode = .dijkstra then
      match dijkstraStep s with
      | .error e => .error e
      | .ok s' => runDijkstra fuel s'
    else .ok s

/-! ## Cut vertices and bridges (`tarjanArticulationAndBridges`) -/

/-- The local variables of `tarjanArticulationAndBridges` that the inner function `dfs`
updates.  The values of `low` are `none` for `NaN`. -/
structure TarjanState where
  ids : List (String × Nat)
  low : List (String × Option Nat)
  visited : List String
  time : Nat
  cutVertices : List String
  bridges : List (String × String)
  deriving DecidableEq, Repr

/-- The expression `Math.min(a, b)`; `none` stands for `undefined` or `NaN`. -/
def jsMin (a b : Option Nat) : Option Nat :=
  match a, b with
  | some x, some y => some (min x y)
  | _, _ => none

/-- The comparison `a > b`, false when an operand is `undefined` or `NaN`. -/
def jsGt (a b : Option Nat) : Bool :=
  match a, b with
  | some x, some y => decide (x > y)
  | _, _ => false

/-- The comparison `a >= b`, false when an operand is `undefined` or `NaN`. -/
def jsGe (a b : Option Nat) : Bool :=
  match a, b with
  | some x, some y => decide (x ≥ y)
  | _, _ => false

/-- The read `low.get(v)`. -/
def lowGet (st : TarjanState) (v : String) : Option Nat :=
  (mapGet st.low v).join

/-- The read `ids.get(v)`. -/
def idsGet (st : TarjanState) (v : String) : Option Nat :=
  mapGet st.ids v

/-- The first four statements of `dfs(at, parent)`. -/
def tarjanEnter (st : TarjanState) (at_ : String) : TarjanState :=
  { st with visited := setAdd st.visited at_
            ids := mapSet st.ids at_ st.time
            low := mapSet st.low at_ (some st.time)
            time := st.time + 1 }

/-- The neighbour `to` that the loop of `dfs` computes for one edge. -/
def tarjanTo (at_ : String) (e : Edge R) : Option String :=
  if e.from_ = at_ then some e.to_
  else if e.isDirected = false ∧ e.to_ = at_ then some e.from_
  else none

/-- The statements of `dfs` after the recursive call `dfs(to, at)` has returned. -/
def tarjanAfterChild (at_ : String) (parent : Option String) (to_ : String)
    (st : TarjanState) : TarjanState :=
  let st := { st with low := mapSet st.low at_ (jsMin (lowGet st at_) (lowGet st to_)) }
  let st := if jsGt (lowGet st to_) (idsGet st at_) then
      { st with bridges := st.bridges ++ [(at_, to_)] } else st
  if parent ≠ none ∧ jsGe (lowGet st to_) (idsGet st at_) then
    { st with cutVertices := setAdd st.cutVertices at_ } else st

/-- The back-edge branch of `dfs`. -/
def tarjanBack (at_ to_ : String) (st : TarjanState) : TarjanState :=
  { st with low := mapSet st.low at_ (jsMin (lowGet st at_) (idsGet st to_)) }

/-- The statement after the loop of `dfs`. -/
def tarjanExit (at_ : String) (parent : Option String) (children : Nat) (st : TarjanState) :
    TarjanState :=
  if parent = none ∧ children > 1 then
    { st with cutVertices := setAdd st.cutVertices at_ } else st

/-- The inner function `dfs(at, parent)` from the point where its loop has the edges `rest`
still to go and `children` counted so far.  A recursive call `dfs(to, at)` is this function
on the entered state with the whole edge list.  Every loop pass and every call takes one
unit of `fuel`; `none` means the fuel ran out. -/
def tarjanLoop (edges : List (Edge R)) :
    Nat → String → Option String → List (Edge R) → Nat → TarjanState → Option TarjanState
  | 0, _, _, _, _, _ => none
  | _ + 1, at_, parent, [], children, st => some (tarjanExit at_ parent children st)
  | fuel + 1, at_, parent, e :: rest, children, st =>
    match tarjanTo at_ e with
    | none => tarjanLoop edges fuel at_ parent rest children st
    | some to_ =>
      if some to_ = parent then tarjanLoop edges fuel at_ parent rest children st
      else if to_ ∉ st.visited then
        match tarjanLoop edges fuel to_ (some at_) edges 0 (tarjanEnter st to_) with
        | none => none
        | some st1 =>
          tarjanLoop edges fuel at_ parent rest (children + 1)
            (tarjanAfterChild at_ parent to_ st1)
      else tarjanLoop edges fuel at_ parent rest children (tarjanBack at_ to_ st)

/-- The call `dfs(at, parent)`. -/
def tarjanDfs (edges : List (Edge R)) (fuel : Nat) (at_ : String) (parent : Option String)
    (st : TarjanState) : Option TarjanState :=
  tarjanLoop edges fuel at_ parent edges 0 (tarjanEnter st at_)

/-- The final loop `for (const [id] of state.graph.vertices) if (!visited.has(id))
dfs(id, null)`, one pass. -/
def tarjanRoot (edges : List (Edge R)) (fuel : Nat) (st : Option TarjanState) (id : String) :
    Option TarjanState :=
  match st with
  | none => none
  | some st => if id ∉ st.visited then tarjanDfs edges fuel id none st else some st

/-- The function `tarjanArticulationAndBridges` with `fuel` for every top-level call of
`dfs`; the result is the pair `{ cutVertices, bridges }`. -/
def tarjanWithFuel (g : Graph R) (fuel : Nat) : Option (List String × List (String × String)) :=
  match (mapKeys g.vertices).foldl (tarjanRoot g.edges fuel) (some ⟨[], [], [], 0, [], []⟩) with
  | none => none
  | some st => some (st.cutVertices, st.bridges)

/-- The function `tarjanArticulationAndBridges`: the recursion of `dfs` is at most as deep
as there are vertices and every level runs one loop over the edges, so this fuel is
enough. -/
def tarjanArticulationAndBridges (g : Graph R) : Option (List String × List (String × String)) :=
  tarjanWithFuel g ((g.edges.length + 2) * (g.vertices.length + g.edges.length * 2 + 2))

/-! ## Connected components (`findConnectedComponents`) -/

/-- The statements `let neighbor = null; if (edge.from === v) neighbor = edge.to; else if
(!edge.isDirected && edge.to === v) neighbor = edge.from;` of `findConnectedComponents` and
`applyTreeLayout`; `none` is `null`. -/
def edgeNeighbor (v : String) (e : Edge R) : Option String :=
  if e.from_ = v then some e.to_
  else if e.isDirected = false ∧ e.to_ = v then some e.from_
  else none

/-- One pass of the edge loop of `findConnectedComponents`; `vq` holds the set `visited`
and the array `queue`. -/
def componentPush (v : String) (vq : List String × List String) (e : Edge R) :
    List String × List String :=
  match edgeNeighbor v e with
  | some n => if n ∉ vq.1 then (setAdd vq.1 n, vq.2 ++ [n]) else vq
  | none => vq

/-- The loop `while (queue.length > 0)` of `findConnectedComponents`: the result is the
set `visited` and the array `component` when the queue is empty, `none` when `fuel` passes
were not enough. -/
def componentLoop (edges : List (Edge R)) :
    Nat → List String → List String → List String → Option (List String × List String)
  | 0, _, _, _ => none
  | _ + 1, [], visited, component => some (visited, component)
  | fuel + 1, v :: queue, visited, component =>
    let vq := edges.foldl (componentPush v) (visited, queue)
    componentLoop edges fuel vq.2 vq.1 (component ++ [v])

/-- One pass of the loop `for (const start of vertices)` of `findConnectedComponents`;
the accumulator holds `visited` and `components`. -/
def componentStart (edges : List (Edge R)) (fuel : Nat)
    (acc : Option (List String × List (List String))) (start : String) :
    Option (List String × List (List String)) :=
  match acc with
  | none => none
  | some (visited, components) =>
    if start ∈ visited then some (visited, components)
    else
      match componentLoop edges fuel [start] (setAdd visited start) [] with
      | none => none
      | some (visited', component) => some (visited', components ++ [component])

/-- The array `components` that `findConnectedComponents` builds.  Every pass of a
`while` loop takes one id from the queue, an id is queued once, and an id is a key of the
vertex map or an end of an edge, so the fuel is enough for every graph. -/
def connectedComponents (g : Graph R) : Option (List (List String)) :=
  match (mapKeys g.vertices).foldl
      (componentStart g.edges (g.vertices.length + 2 * g.edges.length + 2)) (some ([], [])) with
  | none => none
  | some (_, components) => some components

/-- The array `palette` of `findConnectedComponents`. -/
def palette : List String :=
  ["#e6194b", "#3cb44b", "#4363d8", "#f58231", "#911eb4", "#46f0f0", "#f032e6", "#bcf60c",
   "#fabebe", "#008080"]

/-- The statements `const v = state.graph.vertices.get(id); if (v) v.color = color;`. -/
def paintVertex (color : String) (vs : List (String × Vertex R)) (id : String) :
    List (String × Vertex R) :=
  match mapGet vs id with
  | some v => mapSet vs id { v with color := color }
  | none => vs

/-- The loop `components.forEach((comp, index) => ...)` from the index `index` on. -/
def paintFrom : Nat → List (List String) → List (String × Vertex R) → List (String × Vertex R)
  | _, [], vs => vs
  | index, comp :: rest, vs =>
    paintFrom (index + 1) rest
      (comp.foldl (paintVertex (palette.getD (index % palette.length) "")) vs)

/-- The expression `state.graph.vertices.get(id)?.label || id`. -/
def labelOrId (g : Graph R) (id : String) : String :=
  match mapGet g.vertices id with
  | some v => if v.label = "" then id else v.label
  | none => id

/-- The function `findConnectedComponents`. -/
def findConnectedComponents (s : State R) : Except JsError (State R) :=
  if (mapKeys s.graph.vertices).length = 0 then
    .ok { s with alerts := s.alerts ++ [.graphEmpty] }
  else
    let originalColors := s.graph.vertices.foldl (fun m p => mapSet m p.1 p.2.color) []
    let s := { s with componentsOriginalColors := some originalColors }
    match connectedComponents s.graph with
    | none => .error .diverges
    | some components =>
      let s := { s with graph := { s.graph with
                          vertices := paintFrom 0 components s.graph.vertices }
                        algoCurrent := none, algoNext := none }
      .ok { s with alerts := s.alerts ++
              [.components (components.map (fun c => c.map (labelOrId s.graph)))] }

/-! ## Layouts (`circleLayout`, `gridLayout`, `applyTreeLayout`) -/

/-- The functions and the constant of the object `Math` that `circleLayout` uses. -/
structure JsMath (R : Type) where
  cos : R → R
  sin : R → R
  pi : R

/-- The callback of `vertices.forEach((vertex, i) => ...)` in `circleLayout`, from the
index `i` on; `n` is `vertices.length`. -/
def circlePlace [DivisionRing R] (M : JsMath R) (n : Nat) (radius : R) :
    Nat → List (String × Vertex R) → List (String × Vertex R)
  | _, [] => []
  | i, (id, v) :: vs =>
    (id, { v with x := 0 + M.cos (((i : R) / (n : R)) * M.pi * 2) * radius
                  y := 0 + M.sin (((i : R) / (n : R)) * M.pi * 2) * radius }) ::
      circlePlace M n radius (i + 1) vs

/-- The function `circleLayout`. -/
def circleLayout [LinearOrderedField R] (M : JsMath R) (s : State R) : State R :=
  { s with graph := { s.graph with
      vertices := circlePlace M s.graph.vertices.length
        (max 200 ((s.graph.vertices.length : R) * 30)) 0 s.graph.vertices } }

/-- The value `Math.ceil(Math.sqrt(n))` for a count `n`: the least `c` with `n ≤ c * c`. -/
def ceilSqrt (n : Nat) : Nat :=
  ((List.range (n + 1)).find? (fun c => n ≤ c * c)).getD n

/-- The callback of `vertices.forEach((vertex, i) => ...)` in `gridLayout`, from the index
`i` on. -/
def gridPlace [DivisionRing R] (cols : Nat) :
    Nat → List (String × Vertex R) → List (String × Vertex R)
  | _, [] => []
  | i, (id, v) :: vs =>
    (id, { v with x := (((i % cols : Nat) : R) - (cols : R) / 2) * 150
                  y := (((i / cols : Nat) : R) - (cols : R) / 2) * 150 }) ::
      gridPlace cols (i + 1) vs

/-- The function `gridLayout`. -/
def gridLayout [DivisionRing R] (s : State R) : State R :=
  { s with graph := { s.graph with
      vertices := gridPlace (ceilSqrt s.graph.vertices.length) 0 s.graph.vertices } }

/-- The statements `if (!levels[depth]) levels[depth] = []; levels[depth].push(current);`.
An entry of the array that is absent is the empty list here: `forEach` skips the one and
does nothing on the other. -/
def levelsPush : List (List String) → Nat → String → List (List String)
  | [], 0, c => [[c]]
  | [], d + 1, c => [] :: levelsPush [] d c
  | l :: ls, 0, c => (l ++ [c]) :: ls
  | l :: ls, d + 1, c => l :: levelsPush ls d c

/-- One pass of the edge loop of `applyTreeLayout`; the accumulator holds `visited`,
`levelMap` and `queue`. -/
def treePush (current : String) (depth : Nat)
    (acc : List String × List (String × Nat) × List String) (e : Edge R) :
    List String × List (String × Nat) × List String :=
  match edgeNeighbor current e with
  | some n =>
    if n ∉ acc.1 then (setAdd acc.1 n, mapSet acc.2.1 n (depth + 1), acc.2.2 ++ [n]) else acc
  | none => acc

/-- The loop `while (queue.length > 0)` of `applyTreeLayout`: the result is `visited` and
`levels` when the queue is empty; `none` when `fuel` passes were not enough, or when an id
in the queue has no entry in `levelMap` (every id gets its entry when it is queued). -/
def treeLoop (edges : List (Edge R)) :
    Nat → List String → List String → List (String × Nat) → List (List String) →
      Option (List String × List (List String))
  | 0, _, _, _, _ => none
  | _ + 1, [], visited, _, levels => some (visited, levels)
  | fuel + 1, current :: queue, visited, levelMap, levels =>
    match mapGet levelMap current with
    | none => none
    | some depth =>
      let acc := edges.foldl (treePush current depth) (visited, levelMap, queue)
      treeLoop edges fuel acc.2.2 acc.1 acc.2.1 (levelsPush levels depth current)

/-- The statements `const v = state.graph.vertices.get(id); if (v) { v.x = x; v.y = y; }`. -/
def placeVertex (x y : R) (vs : List (String × Vertex R)) (id : String) :
    List (String × Vertex R) :=
  match mapGet vs id with
  | some v => mapSet vs id { v with x := x, y := y }
  | none => vs

/-- The loop `level.forEach(id => { ...; x += nodeSpacing; })` with the running value of
`x`. -/
def placeRow [Ring R] (y : R) : R → List String → List (String × Vertex R) →
    List (String × Vertex R)
  | _, [], vs => vs
  | x, id :: ids, vs => placeRow y (x + 120) ids (placeVertex x y vs id)

/-- The loop `levels.forEach((level, depth) => ...)` from the index `depth` on. -/
def placeLevels [DivisionRing R] :
    Nat → List (List String) → List (String × Vertex R) → List (String × Vertex R)
  | _, [], vs => vs
  | depth, level :: rest, vs =>
    placeLevels (depth + 1) rest
      (placeRow ((depth : R) * 150) (-(((level.length : R) - 1) * 120) / 2) level vs)

/-- The function `applyTreeLayout`; `rootId` is the value read from the dialog.  The fuel
of the loop is enough for every graph, as in `connectedComponents`. -/
def applyTreeLayout [DivisionRing R] (s : State R) (rootId : String) : Option (State R) :=
  if mapHas s.graph.vertices rootId = false then some s
  else
    match treeLoop s.graph.edges (s.graph.vertices.length + 2 * s.graph.edges.length + 2)
        [rootId] (setAdd [] rootId) (mapSet [] rootId 0) [] with
    | none => none
    | some (visited, levels) =>
      let vs := placeLevels 0 levels s.graph.vertices
      let notPlaced := (mapKeys vs).filter (fun id => id ∉ visited)
      let vs := if notPlaced.length > 0 then
          placeRow ((levels.length : R) * 150) (-(((notPlaced.length : R) - 1) * 120) / 2)
            notPlaced vs
        else vs
      some { s with graph := { s.graph with vertices := vs } }

/-! ## Reference notions used by the statements -/

/-- The neighbour rule: the edge `e` gives `v` the neighbour `e.to` when `e.from = v`, and
`e.from` when `e` is undirected and `e.to = v`. -/
def neighborRule (v : String) (e : Edge R) : Option String :=
  if e.from_ = v then some e.to_
  else if e.isDirected = false ∧ e.to_ = v then some e.from_
  else none

/-- The neighbours of `v` in edge-list order. -/
def neighborsOf (edges : List (Edge R)) (v : String) : List String :=
  edges.filterMap (neighborRule v)

/-- Every edge has both endpoints among the keys of the vertex map. -/
def EndpointsExist (g : Graph R) : Prop :=
  ∀ e ∈ g.edges, e.from_ ∈ mapKeys g.vertices ∧ e.to_ ∈ mapKeys g.vertices

instance (g : Graph R) : Decidable (EndpointsExist g) := by
  unfold EndpointsExist
  infer_instance

/-- The relation `u` has the traversal neighbour `v`. -/
def Adj (edges : List (Edge R)) (u v : String) : Prop :=
  ∃ e ∈ edges, neighborRule u e = some v

/-- Reachability under the neighbour rule. -/
def Reach (edges : List (Edge R)) (u v : String) : Prop :=
  Relation.ReflTransGen (Adj edges) u v

/-- Recursive depth-first search: visit `v` unless it is visited, then try its neighbours
in edge-list order and descend into each one not yet visited; the result is the preorder
so far.  `fuel` bounds the depth of the recursion. -/
def dfsRec (edges : List (Edge R)) : Nat → String → List String → List String
  | 0, _, order => order
  | fuel + 1, v, order =>
    if v ∈ order then order
    else (neighborsOf edges v).foldl (fun acc n => dfsRec edges fuel n acc) (order ++ [v])

/-- The preorder of the recursive depth-first search from `start`; the depth never exceeds
the number of distinct ids, which `2 * edges.length + 1` bounds. -/
def dfsPreorder (edges : List (Edge R)) (start : String) : List String :=
  dfsRec edges (2 * edges.length + 2) start []

/-- Reference breadth-first search, one neighbour: a neighbour that is not marked is
marked visited and enqueued at the same moment. -/
def bfsRefVisit (qm : List String × List String) (n : String) : List String × List String :=
  if n ∈ qm.2 then qm else (qm.1 ++ [n], qm.2 ++ [n])

/-- Reference breadth-first search with a FIFO queue: take the head of the queue, emit it,
scan its neighbours in edge-list order; the result is the visit order once the queue is
empty, `none` when `fuel` rounds were not enough. -/
def bfsRefLoop (edges : List (Edge R)) :
    Nat → List String → List String → List String → Option (List String)
  | 0, _, _, _ => none
  | _ + 1, [], _, order => some order
  | fuel + 1, v :: queue, marked, order =>
    let qm := (neighborsOf edges v).foldl bfsRefVisit (queue, marked)
    bfsRefLoop edges fuel qm.1 qm.2 (order ++ [v])

/-- The reference breadth-first order from `start`: the start is marked and enqueued. -/
def bfsReference (edges : List (Edge R)) (fuel : Nat) (start : String) : Option (List String) :=
  bfsRefLoop edges fuel [start] [start] []

/-- The invariant of the reference breadth-first search over a universe `U` of ids. -/
structure BfsInv (edges : List (Edge R)) (start : String) (U queue marked order : List String) :
    Prop where
  nodup : (order ++ queue).Nodup
  mark : ∀ x, x ∈ marked ↔ x ∈ order ++ queue
  reach : ∀ x ∈ order ++ queue, Reach edges start x
  closed : ∀ x ∈ order, ∀ y, Adj edges x y → y ∈ order ++ queue
  hasStart : start ∈ order ++ queue
  sub : ∀ x ∈ order ++ queue, x ∈ U

/-- A walk through the vertices of the graph: `Walk g src p v w` says that `p` is a list
of vertices of `g` that starts at `src` and ends at `v`, that every next vertex is a
neighbour of the one before it under the neighbour rule, through some edge of `g`, and
that `w` is the total weight of the edges used. -/
inductive Walk [LinearOrderedRing R] (g : Graph R) (src : String) :
    List String → String → R → Prop
  | nil : src ∈ mapKeys g.vertices → Walk g src [src] src 0
  | snoc {p : List String} {v : String} {w : R} (e : Edge R) (x : String) :
      Walk g src p v w → e ∈ g.edges → neighborRule v e = some x →
      x ∈ mapKeys g.vertices → Walk g src (p ++ [x]) x (w + e.weight)

/-- The predecessor chain of a finalized vertex: `Chain g src U D P p v d` says that `v`
and all vertices of `p` are finalized (vertices of `g` outside `U`), that following the
predecessor map `P` back from `v` runs through `p` in reverse down to `src`, whose
predecessor is `null`, and that the distance map `D` holds at every vertex of `p` the weight
of the walk `p` up to it, `d` at `v`. -/
inductive Chain [LinearOrderedRing R] (g : Graph R) (src : String) (U : List String)
    (D : List (String × WithTop R)) (P : List (String × Option String)) :
    List String → String → R → Prop
  | root : src ∈ mapKeys g.vertices → src ∉ U → mapGet D src = some ((0 : R) : WithTop R) →
      mapGet P src = some none → Chain g src U D P [src] src 0
  | link {p : List String} {u : String} {du : R} (e : Edge R) (v : String) :
      Chain g src U D P p u du → e ∈ g.edges → neighborRule u e = some v →
      v ∈ mapKeys g.vertices → v ∉ U → v ∉ p →
      mapGet D v = some ((du + e.weight : R) : WithTop R) → mapGet P v = some (some u) →
      Chain g src U D P (p ++ [v]) v (du + e.weight)

/-- The invariant of the relaxation loop of `dijkstraStep` for the vertex `c` with
distance `dc`, over the maps `D`, `P` the loop started with: maps `dp` reached in the loop
agree with `D`, `P` outside the unvisited set `U`, and an unvisited vertex either is as it
was or has got the distance `dc + e.weight` and the predecessor `c` from an edge `e` that
makes it a neighbour of `c`. -/
structure RelaxInv [LinearOrderedRing R] (edges : List (Edge R)) (c : String) (dc : R)
    (U : List String) (D : List (String × WithTop R)) (P : List (String × Option String))
    (dp : List (String × WithTop R) × List (String × Option String)) : Prop where
  outside : ∀ y, y ∉ U → mapGet dp.1 y = mapGet D y ∧ mapGet dp.2 y = mapGet P y
  inside : ∀ x ∈ U, (mapGet dp.1 x = mapGet D x ∧ mapGet dp.2 x = mapGet P x) ∨
    ∃ e ∈ edges, neighborRule c e = some x ∧
      mapGet dp.1 x = some ((dc + e.weight : R) : WithTop R) ∧ mapGet dp.2 x = some (some c)
  defined : ∀ x ∈ U, ∃ d, mapGet dp.1 x = some d

/-- The invariant of the Dijkstra run from `src` on the unvisited set `U`, the distance
map `D` and the predecessor map `P`. -/
structure DjInv [LinearOrderedRing R] (g : Graph R) (src : String) (U : List String)
    (D : List (String × WithTop R)) (P : List (String × Option String)) : Prop where
  src_mem : src ∈ mapKeys g.vertices
  unv_nodup : U.Nodup
  unv_sub : ∀ u ∈ U, u ∈ mapKeys g.vertices
  dist_def : ∀ v ∈ mapKeys g.vertices, ∃ d, mapGet D v = some d
  prev_def : ∀ v ∈ mapKeys g.vertices, ∃ q, mapGet P v = some q
  fin : ∀ v ∈ mapKeys g.vertices, v ∉ U → ∃ p d, Chain g src U D P p v d
  tent : ∀ x ∈ U, (mapGet D x = some ⊤ ∧ mapGet P x = some none) ∨
    (x = src ∧ mapGet D x = some ((0 : R) : WithTop R) ∧ mapGet P x = some none) ∨
    ∃ p u du e, Chain g src U D P p u du ∧ e ∈ g.edges ∧ neighborRule u e = some x ∧
      mapGet D x = some ((du + e.weight : R) : WithTop R) ∧ mapGet P x = some (some u)
  src_unv : src ∈ U → mapGet D src = some ((0 : R) : WithTop R)
  fresh : src ∈ U → ∀ x ∈ U, x ≠ src → mapGet D x = some ⊤
  closed : ∀ f ∈ mapKeys g.vertices, f ∉ U → ∀ e ∈ g.edges, ∀ x,
    neighborRule f e = some x → x ∈ U → ∃ d : R, mapGet D x = some (d : WithTop R)

/-- The optimality part of the invariant, for non-negative weights: a finalized distance
is a lower bound for every walk to the vertex, and every edge out of a finalized vertex
has been relaxed. -/
structure DjOpt [LinearOrderedRing R] (g : Graph R) (src : String) (U : List String)
    (D : List (String × WithTop R)) : Prop where
  opt : ∀ f ∈ mapKeys g.vertices, f ∉ U → ∀ d : R, mapGet D f = some (d : WithTop R) →
    ∀ p w, Walk g src p f w → d ≤ w
  relaxed : ∀ f ∈ mapKeys g.vertices, f ∉ U → ∀ e ∈ g.edges, ∀ x,
    neighborRule f e = some x → x ∈ U → ∀ df dx, mapGet D f = some df →
    mapGet D x = some dx → dx ≤ df + (e.weight : WithTop R)

/-- A Dijkstra run in progress from `src` to `tgt`: the state of a run that started with
the alert log `alerts0` and has not finalized the target yet. -/
structure DjRun [LinearOrderedRing R] (g : Graph R) (src tgt : String)
    (alerts0 : List (Report R)) (s : State R) : Prop where
  graph : s.graph = g
  mode : s.algoMode = .dijkstra
  hstart : s.dijkstraStart = some src
  hend : s.dijkstraEnd = some tgt
  alerts : s.alerts = alerts0
  tgt_unv : tgt ∈ s.djUnvisited
  inv : DjInv g src s.djUnvisited s.djDistances s.djPrevious
  opt : (∀ e ∈ g.edges, 0 ≤ e.weight) → DjOpt g src s.djUnvisited s.djDistances

/-- A finished Dijkstra run from `src` to `tgt`: the cleanup of `finishDijkstra` is done,
and either `no path` was reported and no walk leads from `src` to `tgt`, or a path `p`
with distance `d` was reported, `p` is a walk from `src` to `tgt` of weight `d`, `d` is
`djDistances[tgt]`, and with non-negative weights no walk from `src` to `tgt` is
lighter. -/
structure DjDone [LinearOrderedRing R] (g : Graph R) (src tgt : String)
    (alerts0 : List (Report R)) (s : State R) : Prop where
  graph : s.graph = g
  mode : s.algoMode = .off
  stepMode : s.algoStepMode = .off
  current : s.algoCurrent = none
  next : s.algoNext = none
  timer : s.algoTimerId = none
  outcome : (s.alerts = alerts0 ++ [.noPath] ∧ ¬ ∃ p w, Walk g src p tgt w) ∨
    ∃ p d labels, s.alerts = alerts0 ++ [.pathFound (some (d : WithTop R)) p labels] ∧
      Walk g src p tgt d ∧ mapGet s.djDistances tgt = some (d : WithTop R) ∧
      labelsOf g p = .ok labels ∧
      ((∀ e ∈ g.edges, 0 ≤ e.weight) → ∀ p' w', Walk g src p' tgt w' → d ≤ w')

/-- Every edge of the graph is undirected. -/
def AllUndirected (g : Graph R) : Prop :=
  ∀ e ∈ g.edges, e.isDirected = false

instance (g : Graph R) : Decidable (AllUndirected g) := by
  unfold AllUndirected
  infer_instance

/-- Two edges join the same pair of vertices. -/
def SamePair (e f : Edge R) : Prop :=
  (e.from_ = f.from_ ∧ e.to_ = f.to_) ∨ (e.from_ = f.to_ ∧ e.to_ = f.from_)

instance (e f : Edge R) : Decidable (SamePair e f) := by
  unfold SamePair
  infer_instance

/-- No two edges of the graph (two places of the edge list) join the same pair of
vertices. -/
def NoParallel (g : Graph R) : Prop :=
  g.edges.Pairwise (fun e f => ¬ SamePair e f)

instance (g : Graph R) : Decidable (NoParallel g) := by
  unfold NoParallel
  infer_instance

/-- The connected components of the graph: the vertices (keys of the vertex map) up to
the equivalence that adjacency generates. -/
def Components (g : Graph R) : Type :=
  Quot (fun a b : {x : String // x ∈ mapKeys g.vertices} => Adj g.edges a.1 b.1)

/-- Connected in the graph without the vertex `v`. -/
def ConnAvoidV (edges : List (Edge R)) (v : String) : String → String → Prop :=
  Relation.ReflTransGen (fun x y => Adj edges x y ∧ x ≠ v ∧ y ≠ v)

/-- The vertex `v` separates two of its neighbours. -/
def IsCutN (edges : List (Edge R)) (v : String) : Prop :=
  ∃ a b, Adj edges v a ∧ Adj edges v b ∧ a ≠ v ∧ b ≠ v ∧ ¬ ConnAvoidV edges v a b

/-- Adjacent through an edge other than `e`. -/
def AdjAvoidE (edges : List (Edge R)) (e : Edge R) (x y : String) : Prop :=
  ∃ f ∈ edges, f ≠ e ∧ neighborRule x f = some y

/-- Connected in the graph without the edge `e`. -/
def ConnAvoidE (edges : List (Edge R)) (e : Edge R) : String → String → Prop :=
  Relation.ReflTransGen (AdjAvoidE edges e)

/-- The ends of the edge `e` are not connected without `e`. -/
def IsBridge (edges : List (Edge R)) (e : Edge R) : Prop :=
  ¬ ConnAvoidE edges e e.from_ e.to_

/-- The discovery time `ids.get(x)`, 0 when it is not set. -/
def idOf (st : TarjanState) (x : String) : Nat := (idsGet st x).getD 0

/-- The low-link value `low.get(x)`, 0 when it is not set. -/
def lowOf (st : TarjanState) (x : String) : Nat := (lowGet st x).getD 0

/-- Connected by a path that stays inside the vertex set `S`. -/
def ConnIn (edges : List (Edge R)) (S : String → Prop) : String → String → Prop :=
  Relation.ReflTransGen (fun x y => Adj edges x y ∧ S x ∧ S y)

/-- The pair of ends of the edge `e` is in the bridge list, in one of the two
orientations. -/
def Reported (e : Edge R) (st : TarjanState) : Prop :=
  (e.from_, e.to_) ∈ st.bridges ∨ (e.to_, e.from_) ∈ st.bridges

/-- What a run of `dfs` leaves unchanged between two states, for the vertex `at_` whose
loop is running: visited vertices stay visited and keep their discovery time, every
visited vertex other than `at_` keeps its low-link value, the result sets only grow, and
vertices visited in between have discovery times from the earlier clock value on. -/
structure Frame (at_ : String) (st st' : TarjanState) : Prop where
  vis : ∀ x ∈ st.visited, x ∈ st'.visited
  ids : ∀ x ∈ st.visited, idsGet st' x = idsGet st x
  low : ∀ x ∈ st.visited, x ≠ at_ → lowGet st' x = lowGet st x
  cut : ∀ x ∈ st.cutVertices, x ∈ st'.cutVertices
  br : ∀ ab ∈ st.bridges, ab ∈ st'.bridges
  time : st.time ≤ st'.time
  new_ids : ∀ x ∈ st'.visited, x ∉ st.visited → st.time ≤ idOf st' x

/-- The structural invariant of the low-link search for the stack `stk` of vertices whose
call of `dfs` is running (innermost first): visited vertices are vertices of the graph and
have a discovery time below the clock and a low-link value; the stack is visited, ordered
by discovery time and each entry is adjacent to the next; a visited vertex off the stack
has only visited neighbours. -/
structure InvA (g : Graph R) (stk : List String) (st : TarjanState) : Prop where
  vis_sub : ∀ x ∈ st.visited, x ∈ mapKeys g.vertices
  ids_def : ∀ x ∈ st.visited, ∃ t, idsGet st x = some t ∧ t < st.time
  low_def : ∀ x ∈ st.visited, ∃ l, lowGet st x = some l
  stk_sub : ∀ x ∈ stk, x ∈ st.visited
  stk_sorted : stk.Pairwise (fun a b => idOf st b < idOf st a)
  stk_chain : stk.Chain' (fun a b => Adj g.edges a b)
  closed : ∀ x ∈ st.visited, x ∉ stk → ∀ w, Adj g.edges x w → w ∈ st.visited

/-- The facts about the running call `dfs(at_, parent)`: `σ` is the stack below `at_`,
`old` the visited set when the call began, `done` the edges its loop has passed and `rest`
the edges still to go. -/
structure LocA (g : Graph R) (at_ : String) (parent : Option String) (σ old : List String)
    (done rest : List (Edge R)) (st : TarjanState) : Prop where
  hpar : parent = σ.head?
  split : g.edges = done ++ rest
  at_vis : at_ ∈ st.visited
  at_new : at_ ∉ old
  old_sub : ∀ x ∈ old, x ∈ st.visited
  stk_old : ∀ x ∈ σ, x ∈ old
  entry_closed : ∀ w ∈ old, w ∉ σ → ∀ y, Adj g.edges w y → y ∈ old
  ids_ge : ∀ x ∈ st.visited, x ∉ old → idOf st at_ ≤ idOf st x
  done_vis : ∀ e ∈ done, ∀ w, neighborRule at_ e = some w → w ∈ st.visited
  te : ∀ x ∈ st.visited, x ∉ old → x ≠ at_ →
    ∃ f ∈ done, ∃ c, neighborRule at_ f = some c ∧ c ∈ st.visited ∧ c ∉ old ∧ c ≠ at_ ∧
      ConnIn g.edges (fun y => y ∈ st.visited ∧ y ∉ old ∧ y ≠ at_) c x

/-- The low-link value of `at_` during its loop: it is at most the discovery time of
`at_`, at most the discovery time of every vertex visited before the call that is adjacent
to a vertex visited during the call (for `at_` itself: through a passed edge that does not
lead to the parent), and it is one of these values. -/
structure LocLow (g : Graph R) (at_ : String) (parent : Option String) (old : List String)
    (done : List (Edge R)) (st : TarjanState) : Prop where
  low_le : lowOf st at_ ≤ idOf st at_
  low_lb : ∀ x ∈ st.visited, x ∉ old → x ≠ at_ → ∀ w ∈ old, Adj g.edges x w →
    lowOf st at_ ≤ idOf st w
  low_lb_at : ∀ e ∈ done, ∀ w, neighborRule at_ e = some w → w ∈ old → some w ≠ parent →
    lowOf st at_ ≤ idOf st w
  low_ach : lowOf st at_ = idOf st at_ ∨
    ∃ x w, x ∈ st.visited ∧ x ∉ old ∧ w ∈ old ∧ Adj g.edges x w ∧
      ¬ (x = at_ ∧ some w = parent) ∧ lowOf st at_ = idOf st w

/-- The structural facts when the call `dfs(at_, parent)` returns. -/
structure PostA (g : Graph R) (at_ : String) (σ old : List String) (st : TarjanState) :
    Prop where
  inv : InvA g σ st
  at_vis : at_ ∈ st.visited
  at_new : at_ ∉ old
  old_sub : ∀ x ∈ old, x ∈ st.visited
  ids_ge : ∀ x ∈ st.visited, x ∉ old → idOf st at_ ≤ idOf st x
  conn : ∀ x ∈ st.visited, x ∉ old →
    ConnIn g.edges (fun y => y ∈ st.visited ∧ y ∉ old) at_ x

/-- The low-link value of `at_` when the call `dfs(at_, parent)` returns. -/
structure PostLow (g : Graph R) (at_ : String) (parent : Option String) (old : List String)
    (st : TarjanState) : Prop where
  low_le : lowOf st at_ ≤ idOf st at_
  low_lb : ∀ x ∈ st.visited, x ∉ old → ∀ w ∈ old, Adj g.edges x w →
    ¬ (x = at_ ∧ some w = parent) → lowOf st at_ ≤ idOf st w
  low_ach : lowOf st at_ = idOf st at_ ∨
    ∃ x w, x ∈ st.visited ∧ x ∉ old ∧ w ∈ old ∧ Adj g.edges x w ∧
      ¬ (x = at_ ∧ some w = parent) ∧ lowOf st at_ = idOf st w

/-- The cut-vertex invariant for the stack `stk`: every vertex in the set separates two
of its neighbours, and a visited vertex off the stack that separates two of its neighbours
is in the set. -/
structure InvCut (g : Graph R) (stk : List String) (st : TarjanState) : Prop where
  sound : ∀ x ∈ st.cutVertices, IsCutN g.edges x
  complete : ∀ x ∈ st.visited, x ∉ stk → IsCutN g.edges x → x ∈ st.cutVertices

/-- The cut-vertex facts of the running call `dfs(at_, parent)` with `children` counted so
far.  With a parent `pp`: `at_` is in the set already, or every other vertex visited
during the call is connected to `pp` without `at_`.  At a root: the vertices visited
during the call are `at_` alone before the first child, they are connected to each other
without `at_` up to the first child, and from the second child on `at_` separates two of
its neighbours. -/
def LocCut (g : Graph R) (at_ : String) (parent : Option String) (old : List String)
    (children : Nat) (st : TarjanState) : Prop :=
  match parent with
  | some pp => at_ ∈ st.cutVertices ∨
      ∀ x ∈ st.visited, x ∉ old → x ≠ at_ → ConnAvoidV g.edges at_ x pp
  | none =>
    (children = 0 → ∀ x ∈ st.visited, x ∉ old → x = at_) ∧
    (1 ≤ children → ∃ c1, Adj g.edges at_ c1 ∧ c1 ∈ st.visited ∧ c1 ∉ old ∧ c1 ≠ at_) ∧
    (children ≤ 1 → ∀ x ∈ st.visited, x ∉ old → x ≠ at_ → ∀ y ∈ st.visited, y ∉ old →
      y ≠ at_ → ConnIn g.edges (fun z => z ∈ st.visited ∧ z ∉ old ∧ z ≠ at_) x y) ∧
    (2 ≤ children → IsCutN g.edges at_)

/-- The bridge invariant for the stack `stk`: every pair in the list is joined by an edge
whose ends are not connected without it, its second entry is a visited vertex off the
stack with the later discovery time, no pair is listed twice, and every such edge at a
visited vertex off the stack is listed. -/
structure InvBr (g : Graph R) (stk : List String) (st : TarjanState) : Prop where
  sound : ∀ ab ∈ st.bridges,
    (∃ e ∈ g.edges, neighborRule ab.1 e = some ab.2 ∧ IsBridge g.edges e) ∧
    ab.1 ∈ st.visited ∧ ab.2 ∈ st.visited ∧ ab.2 ∉ stk ∧ idOf st ab.1 < idOf st ab.2
  nodup : st.bridges.Nodup
  complete : ∀ e ∈ g.edges, ∀ x ∈ st.visited, x ∉ stk → (e.from_ = x ∨ e.to_ = x) →
    IsBridge g.edges e → Reported e st

/-- The bridge facts of the running call: every passed edge at `at_` that does not lead
to the parent is listed if its ends are not connected without it. -/
def LocBr (g : Graph R) (at_ : String) (parent : Option String) (done : List (Edge R))
    (st : TarjanState) : Prop :=
  ∀ e ∈ done, ∀ w, neighborRule at_ e = some w → some w ≠ parent → IsBridge g.edges e →
    Reported e st

/-- The bridge facts when the call `dfs(at_, parent)` returns: as the invariant, but the
edge between `at_` and its parent is still to be judged by the parent. -/
structure PostBr (g : Graph R) (at_ : String) (parent : Option String) (σ : List String)
    (st : TarjanState) : Prop where
  sound : ∀ ab ∈ st.bridges,
    (∃ e ∈ g.edges, neighborRule ab.1 e = some ab.2 ∧ IsBridge g.edges e) ∧
    ab.1 ∈ st.visited ∧ ab.2 ∈ st.visited ∧ ab.2 ∉ at_ :: σ ∧ idOf st ab.1 < idOf st ab.2
  nodup : st.bridges.Nodup
  complete : ∀ e ∈ g.edges, ∀ x ∈ st.visited, x ∉ σ → (e.from_ = x ∨ e.to_ = x) →
    IsBridge g.edges e →
    Reported e st ∨ ∃ p, parent = some p ∧ neighborRule at_ e = some p

/-- Everything known while the loop of `dfs(at_, parent)` runs: the invariants for the
stack `at_ :: σ` and the facts of the running call. -/
structure TjPre (g : Graph R) (at_ : String) (parent : Option String) (σ old : List String)
    (done rest : List (Edge R)) (children : Nat) (st : TarjanState) : Prop where
  a : InvA g (at_ :: σ) st
  la : LocA g at_ parent σ old done rest st
  low : LocLow g at_ parent old done st
  cut : InvCut g (at_ :: σ) st
  lcut : LocCut g at_ parent old children st
  br : InvBr g (at_ :: σ) st
  lbr : LocBr g at_ parent done st

/-- Everything known when the call `dfs(at_, parent)` returns. -/
structure TjPost (g : Graph R) (at_ : String) (parent : Option String) (σ old : List String)
    (st : TarjanState) : Prop where
  a : PostA g at_ σ old st
  low : PostLow g at_ parent old st
  cut : InvCut g σ st
  br : PostBr g at_ parent σ st

/-- The number of entries of the vertex map that are not visited. -/
def unvisited (g : Graph R) (st : TarjanState) : Nat :=
  (mapKeys g.vertices).countP (fun x => decide (x ∉ st.visited))

/-- The invariants between two top-level calls of `dfs`, when no call is running. -/
structure TopInv (g : Graph R) (st : TarjanState) : Prop where
  a : InvA g [] st
  cut : InvCut g [] st
  br : InvBr g [] st

/-- The states of a Dijkstra run that `startDijkstraVisualization` begins on the state
`s0`: the state it leaves, and every state a call of `dijkstraStep` returns from there. -/
inductive DjReachable [LinearOrderedRing R] (s0 : State R) (start end_ : String)
    (mode : StepMode) (delayInput : Option R) : State R → Prop
  | init : DjReachable s0 start end_ mode delayInput
      (startDijkstraVisualization s0 start end_ mode delayInput)
  | step {s s' : State R} : DjReachable s0 start end_ mode delayInput s →
      dijkstraStep s = .ok s' → DjReachable s0 start end_ mode delayInput s'

/-- The vertex map with every colour blanked: two vertex maps with the same image have the
same keys in the same order and agree on every field other than `color`. -/
def eraseColors (vs : List (String × Vertex R)) : List (String × Vertex R) :=
  vs.map (fun p => (p.1, { p.2 with color := "" }))

/-- The invariant of a `while` loop of `findConnectedComponents` over the vertex ids `K`:
`V0` is the set `visited` before the loop's start vertex was added, `l` is the array
`component` followed by the array `queue`. -/
structure CompInv (K V0 : List String) (start : String) (l visited : List String) : Prop where
  nodup : l.Nodup
  vis : ∀ x, x ∈ visited ↔ x ∈ V0 ∨ x ∈ l
  disj : ∀ x ∈ l, x ∉ V0
  head : l.head? = some start
  sub : ∀ x ∈ l, x ∈ K

/-- The invariant of the loop `for (const start of vertices)` of `findConnectedComponents`
after the ids `pre` of the enumeration `K`. -/
structure CompOuter (K pre visited : List String) (comps : List (List String)) : Prop where
  nodup : comps.flatten.Nodup
  vis : ∀ x, x ∈ visited ↔ x ∈ comps.flatten
  pre_vis : ∀ x ∈ pre, x ∈ visited
  sub : ∀ x ∈ visited, x ∈ K
  heads : ∀ c ∈ comps, ∃ h t, c = h :: t ∧ K.indexOf h < pre.length ∧
    ∀ x ∈ c, K.indexOf h ≤ K.indexOf x
  sorted : comps.Pairwise (fun c d => ∀ a b, c.head? = some a → d.head? = some b →
    K.indexOf a < K.indexOf b)

/-- The vertex `v` is reached from `u` by exactly `n` steps of the neighbour rule. -/
def ReachIn (edges : List (Edge R)) : Nat → String → String → Prop
  | 0, u, v => u = v
  | n + 1, u, v => ∃ w, ReachIn edges n u w ∧ Adj edges w v

/-- The least number of edges from `root` to `v` under the neighbour rule is `d`. -/
def DistIs (edges : List (Edge R)) (root v : String) (d : Nat) : Prop :=
  ReachIn edges d root v ∧ ∀ k, ReachIn edges k root v → d ≤ k

/-- The read `levelMap.get(x)`, 0 when it is not set. -/
def levelOf (levelMap : List (String × Nat)) (x : String) : Nat :=
  (mapGet levelMap x).getD 0

/-- The invariant of the breadth-first loop of `applyTreeLayout` over the vertex ids `K`,
while the edge loop for the vertex `cur` of level `d` has the edges `rest` still to go:
the ids in `levels` and in the queue are the visited ones, each once; the level of a
visited id is its least number of edges from the root; the queue is ordered by level and
holds the levels `d` and `d + 1` only; the ids in `levels` have levels up to `d` and sit in
the list of their level; every neighbour of an id in `levels` is visited, except through
the edges that the loop for `cur` has still to go. -/
structure TreeInv (edges : List (Edge R)) (K : List String) (root cur : String) (d : Nat)
    (rest : List (Edge R)) (queue visited : List String) (levelMap : List (String × Nat))
    (levels : List (List String)) : Prop where
  rest_sub : ∀ e ∈ rest, e ∈ edges
  root_vis : root ∈ visited
  cur_mem : cur ∈ levels.flatten
  cur_lvl : levelOf levelMap cur = d
  nodup : (levels.flatten ++ queue).Nodup
  vis : ∀ x, x ∈ visited ↔ x ∈ levels.flatten ++ queue
  sub : ∀ x ∈ visited, x ∈ K
  lvl : ∀ x ∈ visited, ∃ k, mapGet levelMap x = some k ∧ DistIs edges root x k
  sorted : queue.Pairwise (fun a b => levelOf levelMap a ≤ levelOf levelMap b)
  qlo : ∀ q ∈ queue, d ≤ levelOf levelMap q
  qhi : ∀ q ∈ queue, levelOf levelMap q ≤ d + 1
  before : ∀ p ∈ levels.flatten, levelOf levelMap p ≤ d
  closed : ∀ p ∈ levels.flatten, ∀ e ∈ edges, ∀ y, neighborRule p e = some y →
    y ∈ visited ∨ (p = cur ∧ e ∈ rest)
  len : levels.length = d + 1
  lev : ∀ i l, levels[i]? = some l → ∀ x ∈ l, levelOf levelMap x = i

/-! ## The key handler and the reachable states -/

/-- The `keydown` handler for the key Shift, as far as it touches the modelled state: the
saved component colours are written back and forgotten, and the markers of the current
and the next vertex are reset.  (`state._originalVertexColors` is never assigned, so the
second block of the handler does nothing.) -/
def shiftKey (s : State R) : State R :=
  let s := match s.componentsOriginalColors with
    | some colors =>
      { s with graph := { s.graph with
                  vertices := colors.foldl
                    (fun vs (p : String × String) => paintVertex p.2 vs p.1) s.graph.vertices }
               componentsOriginalColors := none }
    | none => s
  { s with algoCurrent := none, algoNext := none }

/-- The value of `state` when a call of `bfsStep` or `dfsStep` throws: the `TypeError`
comes from the label lookup of the termination branch, after the timer is cancelled, the
markers are reset and `stopVisualizationMode` has run. -/
def stepThrown (s : State R) : State R :=
  stopVisualizationMode { clearTimer s with algoCurrent := none, algoNext := none }

/-- The value of `state` with which `dijkstraStep` calls `finishDijkstra`, on the paths on
which it does. -/
def dijkstraAtFinish [LinearOrder R] [Add R] (s : State R) : State R :=
  if s.djUnvisited = [] then s
  else
    match djSelect s.djDistances s.djUnvisited with
    | (none, _) => s
    | (some current, minDist) =>
      if minDist = ⊤ then s
      else
        let unvisited := setDelete s.djUnvisited current
        let dp := s.graph.edges.foldl (djRelax current unvisited) (s.djDistances, s.djPrevious)
        let next := (djSelect dp.1 unvisited).1
        { s with djUnvisited := unvisited, djOrder := s.djOrder ++ [current],
                 algoCurrent := some current, djDistances := dp.1,
                 djPrevious := dp.2, algoNext := next }

/-- The value of `state` when a call of `dijkstraStep` throws: the `TypeError` comes from
the label lookup of `finishDijkstra`, after the timer is cancelled. -/
def dijkstraThrown [LinearOrder R] [Add R] (s : State R) : State R :=
  clearTimer (dijkstraAtFinish s)

/-- The states reached from `s0` by any sequence of calls of the three start functions
(with any dialog values) and of the three step functions, both the calls that return and
the calls that throw. -/
inductive RunReachable [LinearOrderedRing R] (s0 : State R) : State R → Prop
  | init : RunReachable s0 s0
  | afterStartBfs {s : State R} (start : String) (mode : StepMode) (delayInput : Option R) :
      RunReachable s0 s → RunReachable s0 (startBfsVisualization s start mode delayInput)
  | afterStartDfs {s : State R} (start : String) (mode : StepMode) (delayInput : Option R) :
      RunReachable s0 s → RunReachable s0 (startDfsVisualization s start mode delayInput)
  | afterStartDijkstra {s : State R} (start end_ : String) (mode : StepMode)
      (delayInput : Option R) :
      RunReachable s0 s →
      RunReachable s0 (startDijkstraVisualization s start end_ mode delayInput)
  | afterBfsStep {s s' : State R} : RunReachable s0 s → bfsStep s = .ok s' →
      RunReachable s0 s'
  | afterDfsStep {s s' : State R} : RunReachable s0 s → dfsStep s = .ok s' →
      RunReachable s0 s'
  | afterDijkstraStep {s s' : State R} : RunReachable s0 s → dijkstraStep s = .ok s' →
      RunReachable s0 s'
  | afterBfsThrow {s : State R} : RunReachable s0 s → bfsStep s = .error .typeError →
      RunReachable s0 (stepThrown s)
  | afterDfsThrow {s : State R} : RunReachable s0 s → dfsStep s = .error .typeError →
      RunReachable s0 (stepThrown s)
  | afterDijkstraThrow {s : State R} : RunReachable s0 s →
      dijkstraStep s = .error .typeError → RunReachable s0 (dijkstraThrown s)

/-- The timer invariant: no timer is live and none is recorded, or exactly one timer is
live, it is the recorded one, and its id is one the timer service has handed out. -/
def TimerInv (s : State R) : Prop :=
  (s.algoTimerId = none ∧ s.timers = []) ∨
  ∃ t, s.algoTimerId = some t.id ∧ s.timers = [t] ∧ t.id ≤ s.timerSeq

/-- What a start function does to the timers, from the state `s` to the state `s'`: with
the mode `auto` exactly one timer is live afterwards, it calls `callback`, it is the
recorded one and it was not live before; with another mode no timer is live and none is
recorded. -/
def StartsFresh (s s' : State R) (mode : StepMode) (callback : AlgoMode) : Prop :=
  (mode = .auto → ∃ t, s'.timers = [t] ∧ s'.algoTimerId = some t.id ∧
    t.callback = callback ∧ t ∉ s.timers) ∧
  (mode ≠ .auto → s'.timers = [] ∧ s'.algoTimerId = none)

/-! ## Loading an adjacency matrix (`confirmLoadMatrix`) -/

/-- A value of `Number(token)`: a finite number, or one of `NaN`, `Infinity` and
`-Infinity`. -/
inductive Cell (R : Type)
  | finite (value : R)
  | notFinite
  deriving DecidableEq, Repr

/-- The call `alert(...)`. -/
def showAlert (s : State R) (report : Report R) : State R :=
  { s with alerts := s.alerts ++ [report] }

/-- The body of the first loop of `confirmLoadMatrix` for the cell in row `i`, column `j`:
the alert it returns with, or `none` when the loop goes on. -/
def checkCell [LinearOrderedRing R] (i j : Nat) : Cell R → Option (Report R)
  | .finite value =>
    if value = 0 then none
    else if value < 0 ∨ value > 100 then some (.cellOutOfRange (i + 1) (j + 1))
    else none
  | .notFinite => some (.cellNotNumber (i + 1) (j + 1))

/-- The inner loop `for (let j = 0; j < lines[i].length; j++)` from the column `j` on. -/
def checkRow [LinearOrderedRing R] (i : Nat) : Nat → List (Cell R) → Option (Report R)
  | _, [] => none
  | j, cell :: rest =>
    match checkCell i j cell with
    | some report => some report
    | none => checkRow i (j + 1) rest

/-- The outer loop `for (let i = 0; i < size; i++)` from the row `i` on. -/
def checkRows [LinearOrderedRing R] : Nat → List (List (Cell R)) → Option (Report R)
  | _, [] => none
  | i, line :: rest =>
    match checkRow i 0 line with
    | some report => some report
    | none => checkRows (i + 1) rest

/-- The body of the edge loops of `confirmLoadMatrix` for the cell `lines[i][j]`, `none`
for `undefined`.  (A cell that is not finite does not get here: the first loop has
returned on it.) -/
def matrixEdge [LinearOrderedRing R] (numToString : R → String) (isDirected : Bool)
    (i j : Nat) (g : Graph R) (cell : Option (Cell R)) : Graph R :=
  match cell with
  | some (.finite weight) =>
    if weight ≠ 0 ∧ (isDirected = true ∨ i ≤ j) then
      g.addEdge (toString i) (toString j) weight (numToString weight) "#626c7c" 2 isDirected
    else g
  | _ => g

/-- The function `confirmLoadMatrix` on the values read from the dialog: `matrix` is the
array `lines` that the parse of the text yields, `none` when the text is empty;
`labelsInput` is the list of the labels, `none` when the label text is empty;
`numToString` is `Number.prototype.toString`. -/
def confirmLoadMatrix [LinearOrderedRing R] (numToString : R → String) (s : State R)
    (matrix : Option (List (List (Cell R)))) (labelsInput : Option (List String))
    (isDirected : Bool) : State R :=
  match matrix with
  | none => showAlert s .matrixMissing
  | some lines =>
    let size := lines.length
    match checkRows 0 lines with
    | some report => showAlert s report
    | none =>
      if lines.any (fun line => decide (line.length ≠ size)) then showAlert s .matrixNotSquare
      else
        let labels := match labelsInput with
          | some l => l
          | none => (List.range size).map (fun i => "V" ++ toString i)
        if labels.length ≠ size then showAlert s (.labelCountMismatch labels.length size)
        else
          let g := (List.range size).foldl (fun g i =>
            g.addVertex (toString i) (labels.getD i "") ((i : R) * 100 - (size : R) * 50) 0
              "#208141" 25) s.graph.clear
          let g := (List.range size).foldl (fun g i =>
            (List.range size).foldl (fun g j =>
              matrixEdge numToString isDirected i j g ((lines.getD i [])[j]?)) g) g
          showAlert { s with graph := g } .matrixLoaded

/-- A matrix input that `confirmLoadMatrix` has to refuse: a row whose length is not the
number of rows, a cell that is not finite, a cell that is not zero and below 0 or above
100, or a label list whose length is not the number of rows. -/
def Malformed [LinearOrderedRing R] (lines : List (List (Cell R)))
    (labelsInput : Option (List String)) : Prop :=
  (∃ line ∈ lines, line.length ≠ lines.length) ∨
  (∃ line ∈ lines, ∃ cell ∈ line, cell = .notFinite ∨
    ∃ value, cell = .finite value ∧ value ≠ 0 ∧ (value < 0 ∨ 100 < value)) ∨
  (∃ l, labelsInput = some l ∧ l.length ≠ lines.length)

/-- The invariant of the predecessor map `P` in a Dijkstra run over the vertex ids `keys`,
with the unvisited set `U` and the finalization order `order`: a predecessor that is not
`null` is finalized, and before the vertex that points to it when that one is finalized
too. -/
structure PrevInv (keys U order : List String) (P : List (String × Option String)) :
    Prop where
  order_sub : ∀ x ∈ order, x ∈ keys ∧ x ∉ U
  unv_sub : ∀ x ∈ U, x ∈ keys
  prev_def : ∀ v ∈ keys, ∃ q, mapGet P v = some q
  prev_lt : ∀ v u, mapGet P v = some (some u) →
    u ∈ order ∧ (v ∈ U ∨ (v ∈ order ∧ order.indexOf u < order.indexOf v))

/-- The states of a depth-first run that `startDfsVisualization` begins on the state `s0`:
the state it leaves, and every state that a call of `dfsStep` leaves from there, when it
returns and when it throws. -/
inductive DfsReachable [Ring R] [DecidableEq R] (s0 : State R) (start : String)
    (mode : StepMode) (delayInput : Option R) : State R → Prop
  | init : DfsReachable s0 start mode delayInput
      (startDfsVisualization s0 start mode delayInput)
  | step {s s' : State R} : DfsReachable s0 start mode delayInput s →
      dfsStep s = .ok s' → DfsReachable s0 start mode delayInput s'
  | thrown {s : State R} : DfsReachable s0 start mode delayInput s →
      dfsStep s = .error .typeError → DfsReachable s0 start mode delayInput (stepThrown s)

/-- The invariant of a depth-first run from `start` over the edge list `edges`. -/
structure DfsInv (edges : List (Edge R)) (start : String) (s : State R) : Prop where
  graph : s.graph.edges = edges
  nodup : (s.dfsStack ++ s.dfsVisited).Nodup
  ord : s.dfsOrder = s.dfsVisited
  reach : ∀ x ∈ s.dfsStack ++ s.dfsVisited, Reach edges start x
  closed : ∀ x ∈ s.dfsVisited, ∀ y, Adj edges x y → y ∈ s.dfsVisited ∨ y ∈ s.dfsStack
  hasStart : start ∈ s.dfsStack ++ s.dfsVisited

/-- The ids a traversal from `start` can meet: `start` and the endpoints of the edges. -/
def dfsUniverse (edges : List (Edge R)) (start : String) : List String :=
  start :: (edges.map (fun e => [e.from_, e.to_])).flatten

/-! ## Force-directed layout (`forceDirectedLayout`) -/

/-- The statements `forces.get(id).x += fx; forces.get(id).y += fy`: a `TypeError` when
`forces.get(id)` is `undefined`. -/
def addForce [Add R] (forces : List (String × (R × R))) (id : String) (fx fy : R) :
    Except JsError (List (String × (R × R))) :=
  match mapGet forces id with
  | none => .error .typeError
  | some f => .ok (mapSet forces id (f.1 + fx, f.2 + fy))

/-- The statements `forces.get(id).x -= fx; forces.get(id).y -= fy`. -/
def subForce [Sub R] (forces : List (String × (R × R))) (id : String) (fx fy : R) :
    Except JsError (List (String × (R × R))) :=
  match mapGet forces id with
  | none => .error .typeError
  | some f => .ok (mapSet forces id (f.1 - fx, f.2 - fy))

/-- The body of the inner repulsion loop of `forceDirectedLayout` for the pair `v1`, `v2`;
`hypot` is `Math.hypot`, the constant `k` is 100 and `0.1` is one tenth. -/
def repel [LinearOrderedField R] (hypot : R → R → R) (v1 v2 : Vertex R)
    (forces : List (String × (R × R))) : Except JsError (List (String × (R × R))) :=
  let dx := v2.x - v1.x
  let dy := v2.y - v1.y
  let dist := hypot dx dy + 1 / 10
  let force := (100 * 100) / dist
  match subForce forces v1.id (force * dx / dist) (force * dy / dist) with
  | .error e => .error e
  | .ok forces => addForce forces v2.id (force * dx / dist) (force * dy / dist)

/-- The loop `for (let j = i + 1; j < vertices.length; j++)` for a fixed `v1`, over the
vertices after it. -/
def repelFrom [LinearOrderedField R] (hypot : R → R → R) (v1 : Vertex R) :
    List (Vertex R) → List (String × (R × R)) → Except JsError (List (String × (R × R)))
  | [], forces => .ok forces
  | v2 :: rest, forces =>
    match repel hypot v1 v2 forces with
    | .error e => .error e
    | .ok forces => repelFrom hypot v1 rest forces

/-- The loop `for (let i = 0; i < vertices.length; i++)` of the repulsion. -/
def repelAll [LinearOrderedField R] (hypot : R → R → R) :
    List (Vertex R) → List (String × (R × R)) → Except JsError (List (String × (R × R)))
  | [], forces => .ok forces
  | v1 :: rest, forces =>
    match repelFrom hypot v1 rest forces with
    | .error e => .error e
    | .ok forces => repelAll hypot rest forces

/-- The body of the attraction loop for one edge: a `TypeError` when an endpoint is not a
key of the vertex map. -/
def attract [LinearOrderedField R] (hypot : R → R → R) (vertices : List (String × Vertex R))
    (e : Edge R) (forces : List (String × (R × R))) :
    Except JsError (List (String × (R × R))) :=
  match mapGet vertices e.from_, mapGet vertices e.to_ with
  | some v1, some v2 =>
    let dx := v2.x - v1.x
    let dy := v2.y - v1.y
    let dist := hypot dx dy + 1 / 10
    let force := (dist * dist) / 100
    match addForce forces v1.id (force * dx / dist) (force * dy / dist) with
    | .error e => .error e
    | .ok forces => subForce forces v2.id (force * dx / dist) (force * dy / dist)
  | _, _ => .error .typeError

/-- The loop `for (let edge of state.graph.edges)` of the attraction. -/
def attractAll [LinearOrderedField R] (hypot : R → R → R)
    (vertices : List (String × Vertex R)) :
    List (Edge R) → List (String × (R × R)) → Except JsError (List (String × (R × R)))
  | [], forces => .ok forces
  | e :: rest, forces =>
    match attract hypot vertices e forces with
    | .error e => .error e
    | .ok forces => attractAll hypot vertices rest forces

/-- The map `forces` at the end of the two force loops of one iteration. -/
def computeForces [LinearOrderedField R] (hypot : R → R → R) (g : Graph R) :
    Except JsError (List (String × (R × R))) :=
  let forces := (mapKeys g.vertices).foldl (fun f id => mapSet f id ((0 : R), (0 : R))) []
  match repelAll hypot (g.vertices.map Prod.snd) forces with
  | .error e => .error e
  | .ok forces => attractAll hypot g.vertices g.edges forces

/-- The update of one vertex by the force `f` in the last loop of an iteration; the
constant `c` is one tenth. -/
def moveBy [LinearOrderedField R] (hypot : R → R → R) (f : R × R) (v : Vertex R) :
    Vertex R :=
  let dist := hypot f.1 f.2
  if dist > 0 then
    { v with
      x := v.x + 1 / 10 * (f.1 / dist) * min dist 50
      y := v.y + 1 / 10 * (f.2 / dist) * min dist 50 }
  else v

/-- The loop `for (let [id, vertex] of state.graph.vertices)` that applies the forces. -/
def moveAll [LinearOrderedField R] (hypot : R → R → R) (forces : List (String × (R × R))) :
    List (String × Vertex R) → Except JsError (List (String × Vertex R))
  | [] => .ok []
  | (id, v) :: rest =>
    match mapGet forces id with
    | none => .error .typeError
    | some f =>
      match moveAll hypot forces rest with
      | .error e => .error e
      | .ok rest => .ok ((id, moveBy hypot f v) :: rest)

/-- One pass of the loop `for (let iter = 0; iter < iterations; iter++)`. -/
def forceIteration [LinearOrderedField R] (hypot : R → R → R) (g : Graph R) :
    Except JsError (Graph R) :=
  match computeForces hypot g with
  | .error e => .error e
  | .ok forces =>
    match moveAll hypot forces g.vertices with
    | .error e => .error e
    | .ok vertices => .ok { g with vertices := vertices }

/-- The first `n` passes of the loop over `iter`. -/
def forceRounds [LinearOrderedField R] (hypot : R → R → R) :
    Nat → Graph R → Except JsError (Graph R)
  | 0, g => .ok g
  | n + 1, g =>
    match forceIteration hypot g with
    | .error e => .error e
    | .ok g => forceRounds hypot n g

/-- The function `forceDirectedLayout`, with the function `Math.hypot` as a parameter. -/
def forceDirectedLayout [LinearOrderedField R] (hypot : R → R → R) (s : State R) :
    Except JsError (State R) :=
  match forceRounds hypot 100 s.graph with
  | .error e => .error e
  | .ok g => .ok { s with graph := g }

/-- The condition under which the force loops find every record they read: the edges
reference existing vertices, and every vertex record is stored under its own id (as
`addVertex` stores it). -/
def LayoutReady (g : Graph R) : Prop :=
  EndpointsExist g ∧ ∀ p ∈ g.vertices, p.2.id = p.1

/-! ## Example graphs -/

/-- An undirected edge with the default style. -/
def undirectedEdge (a b : String) (w : ℤ) : Edge ℤ := ⟨a, b, w, "", "#626c7c", 2, false⟩

/-- A graph with default vertex records on the given ids. -/
def graphOf (ids : List String) (edges : List (Edge ℤ)) : Graph ℤ :=
  ⟨ids.map (fun v => (v, ⟨v, v, 0, 0, "#208141", 25⟩)), edges⟩

/-- A graph reached by `addVertex` and `addEdge` whose vertex has radius 0 and an empty
color and whose edge has weight 0, width 0 and an empty color. -/
def falsyGraph : Graph ℤ :=
  ((Graph.empty.addVertex "A" "A" 0 0 "" 0).addEdge "A" "A" 0 "" "" 0 false)

/-- A graph with a vertex `A`. -/
def oneVertexGraph : Graph ℤ := Graph.empty.addVertex "A" "old" 1 2 "#208141" 25

/-- The graph with edges A-B, A-C, A-D, B-D. -/
def kiteGraph : Graph ℤ :=
  graphOf ["A", "B", "C", "D"]
    [undirectedEdge "A" "B" 1, undirectedEdge "A" "C" 1, undirectedEdge "A" "D" 1,
     undirectedEdge "B" "D" 1]

/-- The graph with edges A-B, A-C, B-D. -/
def treeGraph : Graph ℤ :=
  graphOf ["A", "B", "C", "D"]
    [undirectedEdge "A" "B" 1, undirectedEdge "A" "C" 1, undirectedEdge "B" "D" 1]

/-- The graph with edges A-B of weight 1, B-C of weight 2 and A-C of weight 5. -/
def triangleGraph : Graph ℤ :=
  graphOf ["A", "B", "C"]
    [undirectedEdge "A" "B" 1, undirectedEdge "B" "C" 2, undirectedEdge "A" "C" 5]

/-- Two vertices joined by two parallel undirected edges. -/
def doubleEdgeGraph : Graph ℤ :=
  graphOf ["A", "B"] [undirectedEdge "A" "B" 1, undirectedEdge "A" "B" 1]

/-- The graph with edges A-B, A-C, B-D and a fifth vertex E without edges. -/
def isolatedGraph : Graph ℤ :=
  graphOf ["A", "B", "C", "D", "E"]
    [undirectedEdge "A" "B" 1, undirectedEdge "A" "C" 1, undirectedEdge "B" "D" 1]

/-- The path A-B-C-D. -/
def pathGraph : Graph ℤ :=
  graphOf ["A", "B", "C", "D"]
    [undirectedEdge "A" "B" 1, undirectedEdge "B" "C" 1, undirectedEdge "C" "D" 1]

/-- The 4-cycle A-B-C-D-A. -/
def cycleGraph : Graph ℤ :=
  graphOf ["A", "B", "C", "D"]
    [undirectedEdge "A" "B" 1, undirectedEdge "B" "C" 1, undirectedEdge "C" "D" 1,
     undirectedEdge "D" "A" 1]

/-- A directed edge with the default style. -/
def directedEdge (a b : String) (w : ℤ) : Edge ℤ := ⟨a, b, w, "", "#626c7c", 2, true⟩

/-- The graph on A, B, C with the directed edge B→A and the undirected edge B-C. -/
def orientedPathGraph : Graph ℤ :=
  graphOf ["A", "B", "C"] [directedEdge "B" "A" 1, undirectedEdge "B" "C" 1]

/-- The graph on A, B, C with the undirected edges B-A and B-C. -/
def plainPathGraph : Graph ℤ :=
  graphOf ["A", "B", "C"] [undirectedEdge "B" "A" 1, undirectedEdge "B" "C" 1]

/-- The graph on A, B with the directed edge B→A. -/
def oneArcGraph : Graph ℤ := graphOf ["A", "B"] [directedEdge "B" "A" 1]

/-- The graph on A, B, C, D with the undirected edges A-B and C-D. -/
def twoEdgesGraph : Graph ℤ :=
  graphOf ["A", "B", "C", "D"] [undirectedEdge "A" "B" 1, undirectedEdge "C" "D" 1]

/-- A graph over the numbers `R` with default vertex records on the given ids and no
edges. -/
def pointsGraph (R : Type) [Ring R] (ids : List String) : Graph R :=
  ⟨ids.map (fun v => (v, ⟨v, v, 0, 0, "#208141", 25⟩)), []⟩

/-- The graph over the rational numbers on A, B, C, D, E with the undirected edges A-B,
A-C and D-E. -/
def forestGraph : Graph ℚ :=
  ⟨(pointsGraph ℚ ["A", "B", "C", "D", "E"]).vertices,
    [⟨"A", "B", 1, "", "#626c7c", 2, false⟩, ⟨"A", "C", 1, "", "#626c7c", 2, false⟩,
     ⟨"D", "E", 1, "", "#626c7c", 2, false⟩]⟩

/-- Two vertices at the same place joined by an edge, over the numbers `R`. -/
def linkedPoints (R : Type) [Ring R] : Graph R :=
  ⟨(pointsGraph R ["A", "B"]).vertices, [⟨"A", "B", 1, "", "#626c7c", 2, false⟩]⟩

/-! ## Graph store -/

theorem mem_mapKeys_mapDelete {β : Type} (m : List (String × β)) (k k' : String) :
    k' ∈ mapKeys (mapDelete m k) ↔ k' ∈ mapKeys m ∧ k' ≠ k := by
  simp only [mapKeys, mapDelete, List.mem_map, List.mem_filter]
  constructor
  · rintro ⟨p, ⟨hp, hk⟩, rfl⟩
    exact ⟨⟨p, hp, rfl⟩, by simpa using hk⟩
  · rintro ⟨⟨p, hp, rfl⟩, hk⟩
    exact ⟨p, ⟨hp, by simpa using hk⟩, rfl⟩

theorem mapGet_isSome_iff {β : Type} (m : List (String × β)) (k : String) :
    (mapGet m k).isSome = true ↔ k ∈ mapKeys m := by
  induction m with
  | nil => simp [mapGet, mapKeys]
  | cons p m ih =>
    obtain ⟨k', v⟩ := p
    by_cases h : k' = k
    · simp [mapGet, mapKeys, h]
    · have h' : ¬ k = k' := fun e => h e.symm
      simpa [mapGet, mapKeys, h, h'] using ih

theorem mapHas_iff {β : Type} (m : List (String × β)) (k : String) :
    mapHas m k = true ↔ k ∈ mapKeys m :=
  mapGet_isSome_iff m k

theorem mapGet_eq_none_iff {β : Type} (m : List (String × β)) (k : String) :
    mapGet m k = none ↔ k ∉ mapKeys m := by
  rw [← mapGet_isSome_iff]
  cases mapGet m k <;> simp

theorem mapKeys_mapSet_of_mem {β : Type} (m : List (String × β)) (k : String) (v : β)
    (h : k ∈ mapKeys m) : mapKeys (mapSet m k v) = mapKeys m := by
  induction m with
  | nil => simp [mapKeys] at h
  | cons p m ih =>
    obtain ⟨k', v'⟩ := p
    by_cases hk : k' = k
    · simp [mapSet, mapKeys, hk]
    · have hm : k ∈ mapKeys m := by
        have : k = k' ∨ k ∈ mapKeys m := by simpa [mapKeys] using h
        rcases this with e | e
        · exact absurd e.symm hk
        · exact e
      have := ih hm
      simp only [mapKeys] at this
      simp [mapSet, mapKeys, hk, this]

theorem mapKeys_mapSet_of_not_mem {β : Type} (m : List (String × β)) (k : String) (v : β)
    (h : k ∉ mapKeys m) : mapSet m k v = m ++ [(k, v)] := by
  induction m with
  | nil => simp [mapSet]
  | cons p m ih =>
    obtain ⟨k', v'⟩ := p
    have h1 : ¬ k' = k := fun e => h (by simp [mapKeys, e])
    have h2 : k ∉ mapKeys m := fun e => h (by simp only [mapKeys] at e; simp [mapKeys, e])
    simp [mapSet, h1, ih h2]

theorem mapGet_mapSet_self {β : Type} (m : List (String × β)) (k : String) (v : β) :
    mapGet (mapSet m k v) k = some v := by
  induction m with
  | nil => simp [mapSet, mapGet]
  | cons p m ih =>
    obtain ⟨k', v'⟩ := p
    by_cases hk : k' = k
    · simp [mapSet, mapGet, hk]
    · simp [mapSet, mapGet, hk, ih]

theorem mapGet_mapSet_of_ne {β : Type} (m : List (String × β)) (k k' : String) (v : β)
    (h : k' ≠ k) : mapGet (mapSet m k v) k' = mapGet m k' := by
  induction m with
  | nil =>
    have : ¬ k = k' := fun e => h e.symm
    simp [mapSet, mapGet, this]
  | cons p m ih =>
    obtain ⟨k'', v'⟩ := p
    by_cases hk : k'' = k
    · subst hk
      have : ¬ k'' = k' := fun e => h e.symm
      simp [mapSet, mapGet, this]
    · by_cases hk' : k'' = k'
      · subst hk'
        simp [mapSet, mapGet, hk]
      · simp [mapSet, mapGet, hk, hk', ih]

/-- C1: for every graph and every id, after `removeVertex(id)` the vertex map has no key
`id` and the edge list has no edge whose `from` or `to` equals `id`. -/
theorem removeVertex_no_key_no_incident_edge (g : Graph R) (id : String) :
    mapHas (g.removeVertex id).vertices id = false ∧
    id ∉ mapKeys (g.removeVertex id).vertices ∧
    ∀ e ∈ (g.removeVertex id).edges, e.from_ ≠ id ∧ e.to_ ≠ id := by
  have hk : id ∉ mapKeys (g.removeVertex id).vertices := by
    simp [Graph.removeVertex, mem_mapKeys_mapDelete]
  refine ⟨?_, hk, ?_⟩
  · cases h : mapHas (g.removeVertex id).vertices id
    · rfl
    · exact absurd ((mapHas_iff _ _).1 h) hk
  · intro e he
    simpa [Graph.removeVertex] using (List.mem_filter.1 he).2

/-- C2, evaluated on `falsyGraph`: `fromJSON(toJSON(g))` stores weight 1, width 2 and color
`#626c7c` for the edge and radius 25 and color `#208141` for the vertex, where `g` holds
weight 0, width 0, radius 0 and empty colors; the result differs from `g`. -/
theorem fromJSON_toJSON_falsyGraph :
    falsyGraph.edges = [⟨"A", "A", 0, "", "", 0, false⟩] ∧
    falsyGraph.vertices = [("A", ⟨"A", "A", 0, 0, "", 0⟩)] ∧
    (falsyGraph.fromJSON falsyGraph.toJSON).edges = [⟨"A", "A", 1, "", "#626c7c", 2, false⟩] ∧
    (falsyGraph.fromJSON falsyGraph.toJSON).vertices =
      [("A", ⟨"A", "A", 0, 0, "#208141", 25⟩)] ∧
    falsyGraph.fromJSON falsyGraph.toJSON ≠ falsyGraph := by
  decide

/-- C3, refuted on `oneVertexGraph`: `addVertex` with the id of an existing vertex returns
a graph (nothing is raised) in which the record under that id is the new one, so the
existing vertex is not left unchanged. -/
theorem addVertex_duplicate_overwrites :
    mapGet oneVertexGraph.vertices "A" = some ⟨"A", "old", 1, 2, "#208141", 25⟩ ∧
    mapGet (oneVertexGraph.addVertex "A" "new" 7 8 "#ff0000" 9).vertices "A" =
      some ⟨"A", "new", 7, 8, "#ff0000", 9⟩ ∧
    mapGet (oneVertexGraph.addVertex "A" "new" 7 8 "#ff0000" 9).vertices "A" ≠
      mapGet oneVertexGraph.vertices "A" := by
  decide

/-- C3 as amended: when a vertex with that id exists, `addVertex(id, ...)` replaces the
record stored under `id` by the new record, keeps the enumeration order of the keys, and
leaves every other vertex and the edge list unchanged. -/
theorem addVertex_existing_replaces (g : Graph R) (id label : String) (x y : R)
    (color : String) (radius : R) (h : mapHas g.vertices id = true) :
    mapGet (g.addVertex id label x y color radius).vertices id =
      some ⟨id, label, x, y, color, radius⟩ ∧
    mapKeys (g.addVertex id label x y color radius).vertices = mapKeys g.vertices ∧
    (∀ k, k ≠ id →
      mapGet (g.addVertex id label x y color radius).vertices k = mapGet g.vertices k) ∧
    (g.addVertex id label x y color radius).edges = g.edges :=
  ⟨mapGet_mapSet_self _ _ _, mapKeys_mapSet_of_mem _ _ _ ((mapHas_iff _ _).1 h),
    fun _ hk => mapGet_mapSet_of_ne _ _ _ _ hk, rfl⟩

/-- Witness for `addVertex_existing_replaces` on `oneVertexGraph`. -/
theorem addVertex_existing_replaces_witness :
    mapHas oneVertexGraph.vertices "A" = true ∧
    mapKeys (oneVertexGraph.addVertex "A" "new" 7 8 "#ff0000" 9).vertices =
      mapKeys oneVertexGraph.vertices :=
  ⟨by decide, (addVertex_existing_replaces oneVertexGraph "A" "new" 7 8 "#ff0000" 9
    (by decide)).2.1⟩

/-! ## Depth-first search on the kite graph -/

/-- C7, evaluated on `kiteGraph` (edges A-B, A-C, A-D, B-D) from A: repeated `dfsStep`
ends with `dfsOrder` A,B,C,D while the recursive depth-first preorder is A,B,D,C; on
the graph A-B, A-C, B-D both are A,B,D,C. -/
theorem dfsStep_order_kiteGraph :
    (runDfs 6 (startDfsVisualization (State.init kiteGraph) "A" .space none)).toOption.map
      (fun s => (s.algoMode, s.dfsOrder)) = some (.off, ["A", "B", "C", "D"]) ∧
    dfsPreorder kiteGraph.edges "A" = ["A", "B", "D", "C"] ∧
    (runDfs 6 (startDfsVisualization (State.init treeGraph) "A" .space none)).toOption.map
      (fun s => (s.algoMode, s.dfsOrder)) = some (.off, ["A", "B", "D", "C"]) ∧
    dfsPreorder treeGraph.edges "A" = ["A", "B", "D", "C"] := by
  decide

/-! ## Bridges on a double edge -/

/-- C10, evaluated on `doubleEdgeGraph` (A and B joined by two parallel undirected edges):
`tarjanArticulationAndBridges` returns the bridge list with the pair (A, B). -/
theorem tarjan_doubleEdge_reports_bridge :
    tarjanArticulationAndBridges doubleEdgeGraph = some ([], [("A", "B")]) := by
  decide

/-! ## Breadth-first search -/

theorem bfsPush_eq (current : String) (visited queue : List String) (e : Edge R)
    (hc : current ∈ visited) :
    bfsPush current visited queue e =
      match neighborRule current e with
      | some n => if n ∉ visited ∧ n ∉ queue then queue ++ [n] else queue
      | none => queue := by
  unfold bfsPush neighborRule
  by_cases h1 : e.from_ = current
  · subst h1
    by_cases h2 : e.to_ ∉ visited ∧ e.to_ ∉ queue
    · simp [h2]
    · have h3 : ¬ (e.isDirected = false ∧ e.to_ = e.from_ ∧ e.from_ ∉ visited ∧
          e.from_ ∉ queue) := by
        rintro ⟨_, _, h, _⟩
        exact h hc
      simp only [true_and, if_neg h2, if_neg h3, if_true]
  · by_cases h2 : e.isDirected = false ∧ e.to_ = current
    · simp [h1, h2]
    · have h3 : ¬ (e.isDirected = false ∧ e.to_ = current ∧ e.from_ ∉ visited ∧
          e.from_ ∉ queue) := by
        rintro ⟨a, b, _, _⟩
        exact h2 ⟨a, b⟩
      simp only [h1, false_and, if_false, if_neg h2, if_neg h3]

theorem bfs_inner_refines (edges : List (Edge R)) (current : String) (visited : List String)
    (hc : current ∈ visited) :
    ∀ (queue marked : List String), (∀ x, x ∈ marked ↔ x ∈ visited ∨ x ∈ queue) →
      edges.foldl (bfsPush current visited) queue =
        ((neighborsOf edges current).foldl bfsRefVisit (queue, marked)).1 ∧
      (∀ x, x ∈ ((neighborsOf edges current).foldl bfsRefVisit (queue, marked)).2 ↔
        x ∈ visited ∨ x ∈ ((neighborsOf edges current).foldl bfsRefVisit (queue, marked)).1) := by
  induction edges with
  | nil => intro queue marked h; exact ⟨rfl, h⟩
  | cons e es ih =>
    intro queue marked h
    have hpush := bfsPush_eq current visited queue e hc
    cases hn : neighborRule current e with
    | none =>
      rw [hn] at hpush
      have : neighborsOf (e :: es) current = neighborsOf es current := by
        simp [neighborsOf, List.filterMap_cons, hn]
      rw [List.foldl_cons, hpush, this]
      exact ih queue marked h
    | some n =>
      rw [hn] at hpush
      have : neighborsOf (e :: es) current = n :: neighborsOf es current := by
        simp [neighborsOf, List.filterMap_cons, hn]
      rw [List.foldl_cons, hpush, this, List.foldl_cons]
      by_cases hm : n ∈ marked
      · have h2 : ¬ (n ∉ visited ∧ n ∉ queue) := by
          rintro ⟨a, b⟩
          rcases (h n).1 hm with c | c
          · exact a c
          · exact b c
        simp only [if_neg h2, bfsRefVisit, if_pos hm]
        exact ih queue marked h
      · have h2 : n ∉ visited ∧ n ∉ queue :=
          ⟨fun c => hm ((h n).2 (Or.inl c)), fun c => hm ((h n).2 (Or.inr c))⟩
        simp only [if_pos h2, bfsRefVisit, if_neg hm]
        apply ih
        intro x
        simp only [List.mem_append, List.mem_singleton, h x]
        tauto

theorem clearTimer_graph (s : State R) : (clearTimer s).graph = s.graph := by
  unfold clearTimer; split <;> rfl

theorem clearTimer_bfsOrder (s : State R) : (clearTimer s).bfsOrder = s.bfsOrder := by
  unfold clearTimer; split <;> rfl

theorem clearTimer_algoTimerId (s : State R) : (clearTimer s).algoTimerId = none := by
  unfold clearTimer
  split
  · rfl
  · assumption

theorem labelOf_ok (g : Graph R) (id : String) (h : id ∈ mapKeys g.vertices) :
    ∃ l, labelOf g id = .ok l := by
  unfold labelOf
  cases hg : mapGet g.vertices id with
  | none => exact absurd h ((mapGet_eq_none_iff _ _).1 hg)
  | some v => exact ⟨_, rfl⟩

theorem labelsOf_ok (g : Graph R) (ids : List String)
    (h : ∀ x ∈ ids, x ∈ mapKeys g.vertices) : ∃ ls, labelsOf g ids = .ok ls := by
  induction ids with
  | nil => exact ⟨[], rfl⟩
  | cons id ids ih =>
    obtain ⟨l, hl⟩ := labelOf_ok g id (h id (by simp))
    obtain ⟨ls, hls⟩ := ih (fun x hx => h x (by simp [hx]))
    exact ⟨l :: ls, by simp [labelsOf, hl, hls]⟩

theorem runBfs_of_not_bfs (n : Nat) (s : State R) (h : s.algoMode ≠ .bfs) :
    runBfs n s = .ok s := by
  cases n with
  | zero => rfl
  | succ n => simp [runBfs, h]

theorem bfsStep_nil (s : State R) (h : s.bfsQueue = []) (ls : List String)
    (hl : labelsOf s.graph s.bfsOrder = .ok ls) :
    ∃ s', bfsStep s = .ok s' ∧ s'.bfsOrder = s.bfsOrder ∧ s'.algoMode = .off ∧
      s'.graph = s.graph ∧ s'.algoStepMode = .off ∧ s'.algoCurrent = none ∧
      s'.algoNext = none ∧ s'.algoTimerId = (clearTimer s).algoTimerId := by
  unfold bfsStep
  rw [h]
  simp only [stopVisualizationMode, clearTimer_graph, clearTimer_bfsOrder, hl]
  exact ⟨_, rfl, rfl, rfl, rfl, rfl, rfl, rfl, rfl⟩

theorem bfsStep_cons (s : State R) (c : String) (rest : List String)
    (h : s.bfsQueue = c :: rest) :
    bfsStep s = .ok { s with
      algoCurrent := some c, bfsVisited := setAdd s.bfsVisited c,
      bfsOrder := s.bfsOrder ++ [c],
      bfsQueue := s.graph.edges.foldl (bfsPush c (setAdd s.bfsVisited c)) rest,
      algoNext := (s.graph.edges.foldl (bfsPush c (setAdd s.bfsVisited c)) rest).head? } := by
  unfold bfsStep
  rw [h]

theorem mem_setAdd (s : List String) (k x : String) : x ∈ setAdd s k ↔ x ∈ s ∨ x = k := by
  unfold setAdd
  split
  · rename_i h
    constructor
    · exact Or.inl
    · rintro (a | a)
      · exact a
      · exact a ▸ h
  · simp

/-- The run of `bfsStep` follows the reference search: from a state whose marked set is
the visited set together with the queue, `n` rounds of the reference search that end with
the order `o` are `n` calls of `bfsStep` that end with `bfsOrder = o`. -/
theorem runBfs_refines (n : Nat) : ∀ (s : State R) (marked o : List String) (k : Nat),
    s.algoMode = .bfs →
    (∀ x, x ∈ marked ↔ x ∈ s.bfsVisited ∨ x ∈ s.bfsQueue) →
    bfsRefLoop s.graph.edges n s.bfsQueue marked s.bfsOrder = some o →
    (∀ x ∈ o, x ∈ mapKeys s.graph.vertices) →
    ∃ s', runBfs (n + k) s = .ok s' ∧ s'.bfsOrder = o ∧ s'.algoMode = .off ∧
      s'.graph = s.graph ∧ s'.algoStepMode = .off ∧ s'.algoCurrent = none ∧
      s'.algoNext = none ∧ s'.algoTimerId = none := by
  induction n with
  | zero => intro s marked o k _ _ h; simp [bfsRefLoop] at h
  | succ n ih =>
    intro s marked o k hmode hmark href hkeys
    have hfuel : n + 1 + k = (n + k) + 1 := by omega
    rw [hfuel]
    cases hq : s.bfsQueue with
    | nil =>
      rw [hq] at href
      simp only [bfsRefLoop, Option.some.injEq] at href
      subst href
      obtain ⟨ls, hls⟩ := labelsOf_ok s.graph s.bfsOrder hkeys
      obtain ⟨s', hs', h1, h2, h3, h4, h5, h6, h7⟩ := bfsStep_nil s hq ls hls
      refine ⟨s', ?_, h1, h2, h3, h4, h5, h6, ?_⟩
      · simp only [runBfs]
        rw [if_pos hmode, hs']
        exact runBfs_of_not_bfs _ _ (by simp [h2])
      · rw [h7]
        exact clearTimer_algoTimerId s
    | cons c rest =>
      rw [hq] at href
      simp only [bfsRefLoop] at href
      have hstep := bfsStep_cons s c rest hq
      have hin := bfs_inner_refines s.graph.edges c (setAdd s.bfsVisited c)
        ((mem_setAdd _ _ _).2 (Or.inr rfl)) rest marked (by
          intro x
          rw [hmark x, hq, mem_setAdd]
          simp only [List.mem_cons]
          tauto)
      simp only [runBfs]
      rw [if_pos hmode, hstep]
      have := ih { s with
          algoCurrent := some c, bfsVisited := setAdd s.bfsVisited c,
          bfsOrder := s.bfsOrder ++ [c],
          bfsQueue := s.graph.edges.foldl (bfsPush c (setAdd s.bfsVisited c)) rest,
          algoNext := (s.graph.edges.foldl (bfsPush c (setAdd s.bfsVisited c)) rest).head? }
        ((neighborsOf s.graph.edges c).foldl bfsRefVisit (rest, marked)).2 o k hmode
        (by
          intro x
          simp only
          rw [hin.1]
          exact hin.2 x)
        (by
          simp only
          rw [hin.1]
          exact href)
        hkeys
      exact this

theorem mem_neighborsOf (edges : List (Edge R)) (v n : String) :
    n ∈ neighborsOf edges v ↔ Adj edges v n := by
  simp [neighborsOf, Adj, List.mem_filterMap]


theorem bfsRefVisit_foldl (order : List String) (ns : List String) :
    ∀ (queue marked : List String), (order ++ queue).Nodup →
      (∀ x, x ∈ marked ↔ x ∈ order ++ queue) →
      (order ++ (ns.foldl bfsRefVisit (queue, marked)).1).Nodup ∧
      (∀ x, x ∈ (ns.foldl bfsRefVisit (queue, marked)).2 ↔
        x ∈ order ++ (ns.foldl bfsRefVisit (queue, marked)).1) ∧
      (∀ x, x ∈ order ++ (ns.foldl bfsRefVisit (queue, marked)).1 ↔
        x ∈ order ++ queue ∨ x ∈ ns) := by
  induction ns with
  | nil => intro queue marked h1 h2; exact ⟨h1, h2, by simp⟩
  | cons n ns ih =>
    intro queue marked h1 h2
    rw [List.foldl_cons]
    by_cases hm : n ∈ marked
    · simp only [bfsRefVisit, if_pos hm]
      obtain ⟨a, b, c⟩ := ih queue marked h1 h2
      refine ⟨a, b, fun x => ?_⟩
      rw [c x]
      have := (h2 n).1 hm
      simp only [List.mem_cons]
      constructor
      · rintro (h | h)
        · exact Or.inl h
        · exact Or.inr (Or.inr h)
      · rintro (h | h | h)
        · exact Or.inl h
        · exact Or.inl (h ▸ this)
        · exact Or.inr h
    · simp only [bfsRefVisit, if_neg hm]
      have hn : n ∉ order ++ queue := fun h => hm ((h2 n).2 h)
      obtain ⟨a, b, c⟩ := ih (queue ++ [n]) (marked ++ [n])
        (by
          rw [← List.append_assoc]
          exact List.Nodup.append h1 (List.nodup_singleton n) (by
            intro x hx hx'
            rw [List.mem_singleton] at hx'
            exact hn (hx' ▸ hx)))
        (by
          intro x
          simp only [List.mem_append, List.mem_singleton]
          have := h2 x
          simp only [List.mem_append] at this
          tauto)
      refine ⟨a, b, fun x => ?_⟩
      rw [c x]
      simp only [List.mem_append, List.mem_singleton, List.mem_cons]
      tauto

theorem bfsInv_step {edges : List (Edge R)} {start : String} {U : List String}
    (hU : ∀ x ∈ U, ∀ y, Adj edges x y → y ∈ U)
    {v : String} {rest marked order : List String}
    (h : BfsInv edges start U (v :: rest) marked order) :
    BfsInv edges start U ((neighborsOf edges v).foldl bfsRefVisit (rest, marked)).1
      ((neighborsOf edges v).foldl bfsRefVisit (rest, marked)).2 (order ++ [v]) := by
  have e1 : (order ++ [v]) ++ rest = order ++ v :: rest := by simp
  obtain ⟨a, b, c⟩ := bfsRefVisit_foldl (order ++ [v]) (neighborsOf edges v) rest marked
    (by rw [e1]; exact h.nodup) (by intro x; rw [e1]; exact h.mark x)
  have hv : v ∈ order ++ v :: rest := by simp
  refine ⟨a, b, ?_, ?_, ?_, ?_⟩
  · intro x hx
    rcases (c x).1 hx with hx | hx
    · exact h.reach x (e1 ▸ hx)
    · exact Relation.ReflTransGen.tail (h.reach v hv) ((mem_neighborsOf _ _ _).1 hx)
  · intro x hx y hy
    rw [c y]
    rcases List.mem_append.1 hx with hx | hx
    · left
      rw [e1]
      exact h.closed x hx y hy
    · right
      rw [List.mem_singleton] at hx
      subst hx
      exact (mem_neighborsOf _ _ _).2 hy
  · rw [c start]
    left
    rw [e1]
    exact h.hasStart
  · intro x hx
    rcases (c x).1 hx with hx | hx
    · exact h.sub x (e1 ▸ hx)
    · exact hU v (h.sub v hv) x ((mem_neighborsOf _ _ _).1 hx)

theorem bfsInv_final {edges : List (Edge R)} {start : String} {U marked order : List String}
    (h : BfsInv edges start U [] marked order) :
    order.Nodup ∧ ∀ v, v ∈ order ↔ Reach edges start v := by
  have hn := h.nodup
  rw [List.append_nil] at hn
  refine ⟨hn, fun v => ⟨fun hv => h.reach v (by simpa using hv), fun hv => ?_⟩⟩
  have hs : start ∈ order := by simpa using h.hasStart
  induction hv with
  | refl => exact hs
  | tail _ hab ih => simpa using h.closed _ ih _ hab

theorem bfsRefLoop_terminates {edges : List (Edge R)} {start : String} {U : List String}
    (hU : ∀ x ∈ U, ∀ y, Adj edges x y → y ∈ U) (k : Nat) :
    ∀ (queue marked order : List String), BfsInv edges start U queue marked order →
      U.length < order.length + k →
      ∃ n o, n ≤ k ∧ bfsRefLoop edges n queue marked order = some o ∧
        o.Nodup ∧ (∀ v, v ∈ o ↔ Reach edges start v) ∧ ∀ v ∈ o, v ∈ U := by
  induction k with
  | zero =>
    intro queue marked order h hlen
    have : (order ++ queue).length ≤ U.length :=
      (List.Nodup.subperm h.nodup (fun x hx => h.sub x hx)).length_le
    simp only [List.length_append] at this
    omega
  | succ k ih =>
    intro queue marked order h hlen
    cases queue with
    | nil =>
      refine ⟨1, order, by omega, rfl, (bfsInv_final h).1, (bfsInv_final h).2, fun v hv => h.sub v (by simpa using hv)⟩
    | cons v rest =>
      have hl : (order ++ v :: rest).length ≤ U.length :=
        (List.Nodup.subperm h.nodup (fun x hx => h.sub x hx)).length_le
      simp only [List.length_append, List.length_cons] at hl
      obtain ⟨n, o, hn, ho, h1, h2, h3⟩ := ih _ _ _ (bfsInv_step hU h) (by
        simp only [List.length_append, List.length_singleton]
        omega)
      exact ⟨n + 1, o, by omega, by simpa [bfsRefLoop] using ho, h1, h2, h3⟩

theorem bfsRefLoop_mono (edges : List (Edge R)) (n : Nat) :
    ∀ (queue marked order o : List String) (k : Nat),
      bfsRefLoop edges n queue marked order = some o →
      bfsRefLoop edges (n + k) queue marked order = some o := by
  induction n with
  | zero => intro _ _ _ _ _ h; simp [bfsRefLoop] at h
  | succ n ih =>
    intro queue marked order o k h
    have hfuel : n + 1 + k = (n + k) + 1 := by omega
    rw [hfuel]
    cases queue with
    | nil => simpa [bfsRefLoop] using h
    | cons v rest =>
      simp only [bfsRefLoop] at h ⊢
      exact ih _ _ _ _ _ h

theorem startBfsVisualization_fields [Ring R] [DecidableEq R] (s : State R) (start : String)
    (mode : StepMode) (delayInput : Option R) :
    (startBfsVisualization s start mode delayInput).graph = s.graph ∧
    (startBfsVisualization s start mode delayInput).algoMode = .bfs ∧
    (startBfsVisualization s start mode delayInput).bfsQueue = [start] ∧
    (startBfsVisualization s start mode delayInput).bfsVisited = [] ∧
    (startBfsVisualization s start mode delayInput).bfsOrder = [] := by
  unfold startBfsVisualization
  by_cases h : mode = .auto
  · simp [h, setTimer, clearTimer_graph, startVisualizationMode]
  · simp [h, clearTimer_graph, startVisualizationMode]

theorem adj_mem_keys {g : Graph R} (hinv : EndpointsExist g) {x y : String}
    (h : Adj g.edges x y) : y ∈ mapKeys g.vertices := by
  obtain ⟨e, he, hn⟩ := h
  unfold neighborRule at hn
  split at hn
  · cases hn
    exact (hinv e he).2
  · split at hn
    · cases hn
      exact (hinv e he).1
    · cases hn

/-- C6: for every graph whose edges reference existing vertices and every start vertex,
repeated `bfsStep` from the state set up by `startBfsVisualization` terminates (within one
call more than there are vertices) and the visit order `bfsOrder` at termination is the
order the reference FIFO breadth-first search produces; it contains exactly the vertices
reachable from the start, each once; on A-B, A-C, B-D from A it is A,B,C,D. -/
theorem bfsStep_order_eq_reference [Ring R] [DecidableEq R] (s : State R) (start : String)
    (mode : StepMode) (delayInput : Option R) (fuel : Nat)
    (hinv : EndpointsExist s.graph) (hstart : start ∈ mapKeys s.graph.vertices)
    (hfuel : s.graph.vertices.length + 1 ≤ fuel) :
    (∃ s', runBfs fuel (startBfsVisualization s start mode delayInput) = .ok s' ∧
      s'.algoMode = .off ∧
      bfsReference s.graph.edges fuel start = some s'.bfsOrder ∧
      s'.bfsOrder.Nodup ∧
      ∀ v, v ∈ s'.bfsOrder ↔ Reach s.graph.edges start v) ∧
    (runBfs 5 (startBfsVisualization (State.init treeGraph) "A" .space none)).toOption.map
      (fun s => (s.algoMode, s.bfsOrder)) = some (.off, ["A", "B", "C", "D"]) := by
  refine ⟨?_, by decide⟩
  obtain ⟨hg, hm, hq, hv, ho⟩ := startBfsVisualization_fields s start mode delayInput
  have hU : ∀ x ∈ mapKeys s.graph.vertices, ∀ y, Adj s.graph.edges x y →
      y ∈ mapKeys s.graph.vertices := fun _ _ _ h => adj_mem_keys hinv h
  have hinit : BfsInv s.graph.edges start (mapKeys s.graph.vertices) [start] [start] [] :=
    ⟨by simp, by simp, by simp [Reach, Relation.ReflTransGen.refl], by simp, by simp,
      by simpa using hstart⟩
  obtain ⟨n, o, hn, hrun, hnd, hreach, hsub⟩ :=
    bfsRefLoop_terminates hU (s.graph.vertices.length + 1) _ _ _ hinit (by simp [mapKeys])
  obtain ⟨k, hk⟩ : ∃ k, fuel = n + k := ⟨fuel - n, by omega⟩
  obtain ⟨s', h1, h2, h3, -⟩ := runBfs_refines n (startBfsVisualization s start mode delayInput)
    [start] o k hm (by intro x; rw [hv, hq]; simp) (by rw [hg, hq, ho]; exact hrun)
    (by rw [hg]; exact hsub)
  refine ⟨s', hk ▸ h1, h3, ?_, h2 ▸ hnd, h2 ▸ hreach⟩
  rw [h2, hk]
  exact bfsRefLoop_mono _ _ _ _ _ _ _ hrun

/-- Witness for `bfsStep_order_eq_reference` on the graph A-B, A-C, B-D from A. -/
theorem bfsStep_order_eq_reference_witness :
    EndpointsExist (State.init treeGraph).graph ∧
    "A" ∈ mapKeys (State.init treeGraph).graph.vertices ∧
    ∃ s', runBfs 5 (startBfsVisualization (State.init treeGraph) "A" .space none) = .ok s' ∧
      s'.algoMode = .off ∧
      bfsReference (State.init treeGraph).graph.edges 5 "A" = some s'.bfsOrder ∧
      s'.bfsOrder.Nodup ∧
      ∀ v, v ∈ s'.bfsOrder ↔ Reach (State.init treeGraph).graph.edges "A" v :=
  ⟨by decide, by decide,
    (bfsStep_order_eq_reference (State.init treeGraph) "A" .space none 5 (by decide)
      (by decide) (by decide)).1⟩

/-! ## Dijkstra -/

theorem djNeighbor_eq_some (c : String) (U : List String) (e : Edge R) (x : String)
    (hc : c ∉ U) : djNeighbor c U e = some x ↔ neighborRule c e = some x ∧ x ∈ U := by
  unfold djNeighbor neighborRule
  by_cases h1 : e.from_ = c
  · subst h1
    by_cases h2 : e.to_ ∈ U
    · simp only [true_and, h2, if_true, Option.some.injEq]
      constructor
      · intro h; exact ⟨h, h ▸ h2⟩
      · intro h; exact h.1
    · have h3 : ¬ (e.isDirected = false ∧ e.to_ = e.from_ ∧ e.from_ ∈ U) := by
        rintro ⟨_, _, h⟩
        exact hc h
      simp only [true_and, if_neg h2, if_neg h3, if_true, Option.some.injEq]
      constructor
      · intro h; cases h
      · rintro ⟨h, h'⟩; exact absurd (h ▸ h') h2
  · by_cases h2 : e.isDirected = false ∧ e.to_ = c
    · by_cases h3 : e.from_ ∈ U
      · have h4 : e.isDirected = false ∧ e.to_ = c ∧ e.from_ ∈ U := ⟨h2.1, h2.2, h3⟩
        simp only [h1, false_and, if_false, if_pos h4, if_pos h2, Option.some.injEq]
        constructor
        · intro h; exact ⟨h, h ▸ h3⟩
        · intro h; exact h.1
      · have h4 : ¬ (e.isDirected = false ∧ e.to_ = c ∧ e.from_ ∈ U) := by
          rintro ⟨_, _, h⟩
          exact h3 h
        simp only [h1, false_and, if_false, if_neg h4, if_pos h2, Option.some.injEq]
        constructor
        · intro h; cases h
        · rintro ⟨h, h'⟩; exact absurd (h ▸ h') h3
    · have h4 : ¬ (e.isDirected = false ∧ e.to_ = c ∧ e.from_ ∈ U) := by
        rintro ⟨a, b, _⟩
        exact h2 ⟨a, b⟩
      simp [h1, if_neg h4, if_neg h2]

theorem clearTimer_fields (s : State R) :
    (clearTimer s).dijkstraStart = s.dijkstraStart ∧
    (clearTimer s).dijkstraEnd = s.dijkstraEnd ∧
    (clearTimer s).djPrevious = s.djPrevious ∧
    (clearTimer s).djDistances = s.djDistances ∧
    (clearTimer s).djUnvisited = s.djUnvisited ∧
    (clearTimer s).alerts = s.alerts ∧
    (clearTimer s).algoMode = s.algoMode := by
  unfold clearTimer
  split <;> exact ⟨rfl, rfl, rfl, rfl, rfl, rfl, rfl⟩

theorem djNeighbor_eq_none (c : String) (U : List String) (e : Edge R)
    (hc : c ∉ U) : djNeighbor c U e = none ↔ ∀ x, neighborRule c e = some x → x ∉ U := by
  constructor
  · intro h x hx hxU
    have := (djNeighbor_eq_some c U e x hc).2 ⟨hx, hxU⟩
    rw [h] at this
    cases this
  · intro h
    cases hn : djNeighbor c U e with
    | none => rfl
    | some x =>
      have := (djNeighbor_eq_some c U e x hc).1 hn
      exact absurd this.2 (h x this.1)

section Dijkstra
variable [LinearOrderedRing R]

theorem chain_walk {g : Graph R} {src : String} {U : List String}
    {D : List (String × WithTop R)} {P : List (String × Option String)}
    {p : List String} {v : String} {d : R} (h : Chain g src U D P p v d) :
    Walk g src p v d := by
  induction h with
  | root h1 _ _ _ => exact Walk.nil h1
  | link e v _ he hn hv _ _ _ _ ih => exact Walk.snoc e v ih he hn hv

theorem chain_mem {g : Graph R} {src : String} {U : List String}
    {D : List (String × WithTop R)} {P : List (String × Option String)}
    {p : List String} {v : String} {d : R} (h : Chain g src U D P p v d) :
    ∀ x ∈ p, x ∈ mapKeys g.vertices ∧ x ∉ U := by
  induction h with
  | root h1 h2 _ _ =>
    intro x hx
    rw [List.mem_singleton] at hx
    exact hx ▸ ⟨h1, h2⟩
  | link e v _ _ _ hv hu _ _ _ ih =>
    intro x hx
    rcases List.mem_append.1 hx with hx | hx
    · exact ih x hx
    · rw [List.mem_singleton] at hx
      exact hx ▸ ⟨hv, hu⟩

theorem chain_last_mem {g : Graph R} {src : String} {U : List String}
    {D : List (String × WithTop R)} {P : List (String × Option String)}
    {p : List String} {v : String} {d : R} (h : Chain g src U D P p v d) : v ∈ p := by
  cases h <;> simp

theorem chain_nodup {g : Graph R} {src : String} {U : List String}
    {D : List (String × WithTop R)} {P : List (String × Option String)}
    {p : List String} {v : String} {d : R} (h : Chain g src U D P p v d) : p.Nodup := by
  induction h with
  | root _ _ _ _ => simp
  | link e v _ _ _ _ _ hp _ _ ih =>
    exact List.Nodup.append ih (List.nodup_singleton v) (by
      intro x hx hx'
      rw [List.mem_singleton] at hx'
      exact hp (hx' ▸ hx))

theorem chain_dist {g : Graph R} {src : String} {U : List String}
    {D : List (String × WithTop R)} {P : List (String × Option String)}
    {p : List String} {v : String} {d : R} (h : Chain g src U D P p v d) :
    mapGet D v = some (d : WithTop R) := by
  cases h with
  | root _ _ h3 _ => exact h3
  | link e v _ _ _ _ _ _ h7 _ => exact h7

theorem chain_head {g : Graph R} {src : String} {U : List String}
    {D : List (String × WithTop R)} {P : List (String × Option String)}
    {p : List String} {v : String} {d : R} (h : Chain g src U D P p v d) :
    p.head? = some src := by
  induction h with
  | root _ _ _ _ => rfl
  | @link p u du e v _ _ _ _ _ _ _ _ ih =>
    cases p with
    | nil => simp at ih
    | cons a p => simpa using ih

/-- A chain stays a chain when the unvisited set shrinks and the maps keep their values
at the finalized vertices. -/
theorem chain_mono {g : Graph R} {src : String} {U U' : List String}
    {D D' : List (String × WithTop R)} {P P' : List (String × Option String)}
    (hU : ∀ x, x ∈ U' → x ∈ U)
    (hD : ∀ x, x ∉ U → mapGet D' x = mapGet D x)
    (hP : ∀ x, x ∉ U → mapGet P' x = mapGet P x)
    {p : List String} {v : String} {d : R} (h : Chain g src U D P p v d) :
    Chain g src U' D' P' p v d := by
  induction h with
  | root h1 h2 h3 h4 =>
    exact Chain.root h1 (fun h => h2 (hU _ h)) (by rw [hD _ h2]; exact h3)
      (by rw [hP _ h2]; exact h4)
  | link e v _ he hn hv hu hp h7 h8 ih =>
    exact Chain.link e v ih he hn hv (fun h => hu (hU _ h)) hp (by rw [hD _ hu]; exact h7)
      (by rw [hP _ hu]; exact h8)

/-- The path loop of `finishDijkstra` on a chain returns the chain. -/
theorem djPath_chain {g : Graph R} {src : String} {U : List String}
    {D : List (String × WithTop R)} {P : List (String × Option String)}
    {p : List String} {v : String} {d : R} (h : Chain g src U D P p v d) :
    ∀ (fuel : Nat) (acc : List String), p.length + 1 ≤ fuel →
      djPath P fuel (some v) acc = .ok (p ++ acc) := by
  induction h with
  | root _ _ _ h4 =>
    intro fuel acc hf
    obtain ⟨f, rfl⟩ : ∃ f, fuel = f + 1 + 1 := ⟨fuel - 2, by simp at hf; omega⟩
    simp [djPath, h4]
  | link e v _ _ _ _ _ _ _ h8 ih =>
    intro fuel acc hf
    obtain ⟨f, rfl⟩ : ∃ f, fuel = f + 1 := ⟨fuel - 1, by omega⟩
    simp only [djPath, h8]
    rw [ih f (v :: acc) (by simp at hf; omega)]
    simp

/-- One pass of the relaxation loop, in terms of the neighbour rule. -/
theorem djRelax_cases (c : String) (U : List String)
    (dp : List (String × WithTop R) × List (String × Option String)) (e : Edge R)
    (hc : c ∉ U) (dc : R) (hdc : mapGet dp.1 c = some (dc : WithTop R))
    (hdef : ∀ x ∈ U, ∃ d, mapGet dp.1 x = some d) :
    (djRelax c U dp e = dp ∧
      ∀ x, neighborRule c e = some x → x ∈ U →
        ∃ d, mapGet dp.1 x = some d ∧ d ≤ ((dc + e.weight : R) : WithTop R)) ∨
    (∃ x dx, neighborRule c e = some x ∧ x ∈ U ∧ mapGet dp.1 x = some dx ∧
      ((dc + e.weight : R) : WithTop R) < dx ∧
      djRelax c U dp e = (mapSet dp.1 x ((dc + e.weight : R) : WithTop R),
        mapSet dp.2 x (some c))) := by
  unfold djRelax
  cases hn : djNeighbor c U e with
  | none =>
    left
    refine ⟨rfl, fun x hx hxU => ?_⟩
    exact absurd hxU ((djNeighbor_eq_none c U e hc).1 hn x hx)
  | some x =>
    obtain ⟨hx, hxU⟩ := (djNeighbor_eq_some c U e x hc).1 hn
    obtain ⟨dx, hdx⟩ := hdef x hxU
    simp only [hdc, hdx]
    by_cases hlt : ((dc + e.weight : R) : WithTop R) < dx
    · right
      refine ⟨x, dx, hx, hxU, hdx, hlt, ?_⟩
      rw [WithTop.coe_add] at hlt ⊢
      simp [hlt]
    · left
      refine ⟨?_, fun y hy _ => ?_⟩
      · rw [WithTop.coe_add] at hlt
        simp [hlt]
      rw [hx] at hy
      cases hy
      exact ⟨dx, hdx, not_lt.1 hlt⟩

theorem djRelax_step (edges : List (Edge R)) (c : String) (dc : R) (U : List String)
    (D : List (String × WithTop R)) (P : List (String × Option String))
    (dp : List (String × WithTop R) × List (String × Option String)) (e : Edge R)
    (he : e ∈ edges) (hc : c ∉ U) (hdc : mapGet D c = some (dc : WithTop R))
    (h : RelaxInv edges c dc U D P dp) :
    RelaxInv edges c dc U D P (djRelax c U dp e) ∧
    (∀ x d, mapGet dp.1 x = some d →
      ∃ d', mapGet (djRelax c U dp e).1 x = some d' ∧ d' ≤ d) ∧
    (∀ x, neighborRule c e = some x → x ∈ U →
      ∃ d, mapGet (djRelax c U dp e).1 x = some d ∧ d ≤ ((dc + e.weight : R) : WithTop R)) := by
  have hdc' : mapGet dp.1 c = some (dc : WithTop R) := by rw [(h.outside c hc).1]; exact hdc
  rcases djRelax_cases c U dp e hc dc hdc' h.defined with ⟨heq, hrel⟩ | ⟨x, dx, hx, hxU, hdx, hlt, heq⟩
  · rw [heq]
    exact ⟨h, fun x d hd => ⟨d, hd, le_refl _⟩, hrel⟩
  · rw [heq]
    refine ⟨⟨?_, ?_, ?_⟩, ?_, ?_⟩
    · intro y hy
      have hne : y ≠ x := fun e => hy (e ▸ hxU)
      simp only [mapGet_mapSet_of_ne _ _ _ _ hne]
      exact h.outside y hy
    · intro y hy
      by_cases hyx : y = x
      · subst hyx
        right
        exact ⟨e, he, hx, mapGet_mapSet_self _ _ _, mapGet_mapSet_self _ _ _⟩
      · simp only [mapGet_mapSet_of_ne _ _ _ _ hyx]
        exact h.inside y hy
    · intro y hy
      by_cases hyx : y = x
      · subst hyx
        exact ⟨_, mapGet_mapSet_self _ _ _⟩
      · simp only [mapGet_mapSet_of_ne _ _ _ _ hyx]
        exact h.defined y hy
    · intro y d hd
      by_cases hyx : y = x
      · subst hyx
        rw [hdx] at hd
        cases hd
        exact ⟨_, mapGet_mapSet_self _ _ _, le_of_lt hlt⟩
      · simp only [mapGet_mapSet_of_ne _ _ _ _ hyx]
        exact ⟨d, hd, le_refl _⟩
    · intro y hy _
      rw [hx] at hy
      cases hy
      exact ⟨_, mapGet_mapSet_self _ _ _, le_refl _⟩

/-- The relaxation loop of `dijkstraStep` over a part `es` of the edge list. -/
theorem djRelax_foldl (edges : List (Edge R)) (c : String) (dc : R) (U : List String)
    (D : List (String × WithTop R)) (P : List (String × Option String))
    (hc : c ∉ U) (hdc : mapGet D c = some (dc : WithTop R)) (es : List (Edge R)) :
    (∀ e ∈ es, e ∈ edges) →
    ∀ dp, RelaxInv edges c dc U D P dp →
      RelaxInv edges c dc U D P (es.foldl (djRelax c U) dp) ∧
      (∀ x d, mapGet dp.1 x = some d →
        ∃ d', mapGet (es.foldl (djRelax c U) dp).1 x = some d' ∧ d' ≤ d) ∧
      (∀ e ∈ es, ∀ x, neighborRule c e = some x → x ∈ U →
        ∃ d, mapGet (es.foldl (djRelax c U) dp).1 x = some d ∧
          d ≤ ((dc + e.weight : R) : WithTop R)) := by
  induction es with
  | nil =>
    intro _ dp h
    exact ⟨h, fun x d hd => ⟨d, hd, le_refl _⟩, by simp⟩
  | cons e es ih =>
    intro hes dp h
    obtain ⟨h1, h2, h3⟩ := djRelax_step edges c dc U D P dp e (hes e (by simp)) hc hdc h
    obtain ⟨i1, i2, i3⟩ := ih (fun e' he' => hes e' (by simp [he'])) _ h1
    rw [List.foldl_cons]
    refine ⟨i1, ?_, ?_⟩
    · intro x d hd
      obtain ⟨d', hd', hle⟩ := h2 x d hd
      obtain ⟨d'', hd'', hle'⟩ := i2 x d' hd'
      exact ⟨d'', hd'', le_trans hle' hle⟩
    · intro e' he' x hx hxU
      rcases List.mem_cons.1 he' with rfl | he'
      · obtain ⟨d, hd, hle⟩ := h3 x hx hxU
        obtain ⟨d', hd', hle'⟩ := i2 x d hd
        exact ⟨d', hd', le_trans hle' hle⟩
      · exact i3 e' he' x hx hxU

/-- The selection loop of `dijkstraStep` from any accumulator. -/
theorem djSelect_foldl (D : List (String × WithTop R)) (U : List String) :
    ∀ acc : Option String × WithTop R,
      (U.foldl (djSelectStep D) acc).2 ≤ acc.2 ∧
      (∀ u ∈ U, ∀ d, mapGet D u = some d → (U.foldl (djSelectStep D) acc).2 ≤ d) ∧
      (U.foldl (djSelectStep D) acc = acc ∨
        ∃ u ∈ U, (U.foldl (djSelectStep D) acc).1 = some u ∧
          mapGet D u = some (U.foldl (djSelectStep D) acc).2 ∧
          (U.foldl (djSelectStep D) acc).2 < acc.2) := by
  induction U with
  | nil => intro acc; simp
  | cons a U ih =>
    intro acc
    rw [List.foldl_cons]
    have hstep : djSelectStep D acc a = acc ∧ (∀ d, mapGet D a = some d → acc.2 ≤ d) ∨
        ∃ da, mapGet D a = some da ∧ da < acc.2 ∧ djSelectStep D acc a = (some a, da) := by
      unfold djSelectStep
      cases ha : mapGet D a with
      | none => left; simp
      | some da =>
        by_cases hlt : da < acc.2
        · right; exact ⟨da, rfl, hlt, by simp [hlt]⟩
        · left
          refine ⟨by simp [hlt], fun d hd => ?_⟩
          cases hd
          exact not_lt.1 hlt
    rcases hstep with ⟨heq, hle⟩ | ⟨da, ha, hlt, heq⟩
    · rw [heq]
      obtain ⟨h1, h2, h3⟩ := ih acc
      refine ⟨h1, ?_, ?_⟩
      · intro u hu d hd
        rcases List.mem_cons.1 hu with rfl | hu
        · exact le_trans h1 (hle d hd)
        · exact h2 u hu d hd
      · rcases h3 with h3 | ⟨u, hu, h3⟩
        · exact Or.inl h3
        · exact Or.inr ⟨u, by simp [hu], h3⟩
    · rw [heq]
      obtain ⟨h1, h2, h3⟩ := ih (some a, da)
      refine ⟨le_trans h1 (le_of_lt hlt), ?_, ?_⟩
      · intro u hu d hd
        rcases List.mem_cons.1 hu with rfl | hu
        · rw [ha] at hd; cases hd
          exact h1
        · exact h2 u hu d hd
      · right
        rcases h3 with h3 | ⟨u, hu, h3, h4, h5⟩
        · refine ⟨a, by simp, ?_, ?_, ?_⟩
          · rw [h3]
          · rw [h3]; exact ha
          · rw [h3]; exact hlt
        · exact ⟨u, by simp [hu], h3, h4, lt_trans h5 hlt⟩

/-- The selection loop of `dijkstraStep`: either nothing is selected and every unvisited
distance is infinite, or the selected vertex is unvisited, its distance is the returned
minimum, which is finite, and no unvisited vertex has a smaller distance. -/
theorem djSelect_spec (D : List (String × WithTop R)) (U : List String) :
    (djSelect D U = (none, ⊤) ∧ ∀ u ∈ U, ∀ d, mapGet D u = some d → d = ⊤) ∨
    (∃ c, ∃ m : R, djSelect D U = (some c, (m : WithTop R)) ∧ c ∈ U ∧
      mapGet D c = some (m : WithTop R) ∧
      ∀ u ∈ U, ∀ d, mapGet D u = some d → (m : WithTop R) ≤ d) := by
  obtain ⟨_, h2, h3⟩ := djSelect_foldl D U (none, ⊤)
  unfold djSelect
  generalize U.foldl (djSelectStep D) (none, ⊤) = r at h2 h3 ⊢
  rcases h3 with h3 | ⟨u, hu, h3, h4, h5⟩
  · left
    subst h3
    exact ⟨rfl, fun u hu d hd => top_le_iff.1 (h2 u hu d hd)⟩
  · right
    obtain ⟨r1, r2⟩ := r
    simp only at h3 h4 h5 h2
    subst h3
    obtain ⟨m, hm⟩ := WithTop.ne_top_iff_exists.1 (ne_of_lt h5)
    subst hm
    exact ⟨u, m, rfl, hu, h4, h2⟩

theorem mem_setDelete (U : List String) (c x : String) :
    x ∈ setDelete U c ↔ x ∈ U ∧ x ≠ c := by
  simp [setDelete, List.mem_filter]

theorem walk_end_mem {g : Graph R} {src : String} {p : List String} {v : String} {w : R}
    (h : Walk g src p v w) : v ∈ mapKeys g.vertices := by
  cases h with
  | nil h => exact h
  | snoc e x _ _ _ h => exact h

/-- Finalizing the selected vertex `c` and running the relaxation loop keeps the
invariant. -/
theorem djInv_step {g : Graph R} {src : String} {U : List String}
    {D : List (String × WithTop R)} {P : List (String × Option String)}
    (h : DjInv g src U D P) {c : String} {m : R} (hc : c ∈ U)
    (hm : mapGet D c = some (m : WithTop R)) :
    DjInv g src (setDelete U c)
      (g.edges.foldl (djRelax c (setDelete U c)) (D, P)).1
      (g.edges.foldl (djRelax c (setDelete U c)) (D, P)).2 := by
  have hcU' : c ∉ setDelete U c := fun hx => ((mem_setDelete U c c).1 hx).2 rfl
  have hsub : ∀ x, x ∈ setDelete U c → x ∈ U := fun x hx => ((mem_setDelete U c x).1 hx).1
  have hri0 : RelaxInv g.edges c m (setDelete U c) D P (D, P) :=
    ⟨fun _ _ => ⟨rfl, rfl⟩, fun _ _ => Or.inl ⟨rfl, rfl⟩,
      fun x hx => h.dist_def x (h.unv_sub x (hsub x hx))⟩
  obtain ⟨hri, hmono, hrel⟩ := djRelax_foldl g.edges c m (setDelete U c) D P hcU' hm g.edges
    (fun _ he => he) (D, P) hri0
  generalize g.edges.foldl (djRelax c (setDelete U c)) (D, P) = dp at hri hmono hrel ⊢
  have hD : ∀ x, x ∉ U → mapGet dp.1 x = mapGet D x :=
    fun x hx => (hri.outside x (fun hx' => hx (hsub x hx'))).1
  have hP : ∀ x, x ∉ U → mapGet dp.2 x = mapGet P x :=
    fun x hx => (hri.outside x (fun hx' => hx (hsub x hx'))).2
  have hsrcc : src ∈ U → c = src := by
    intro hs
    by_contra hne
    have := h.fresh hs c hc hne
    rw [hm] at this
    exact WithTop.coe_ne_top (Option.some.inj this)
  -- the chain of the vertex just finalized
  have hchainc : ∃ p, Chain g src (setDelete U c) dp.1 dp.2 p c m := by
    have hDc : mapGet dp.1 c = mapGet D c := (hri.outside c hcU').1
    have hPc : mapGet dp.2 c = mapGet P c := (hri.outside c hcU').2
    rcases h.tent c hc with ⟨h1, _⟩ | ⟨h1, h2, h3⟩ | ⟨p, u, du, e, h1, h2, h3, h4, h5⟩
    · rw [hm] at h1
      exact absurd (Option.some.inj h1) WithTop.coe_ne_top
    · subst h1
      have hm0 : m = 0 := by
        rw [hm] at h2
        exact WithTop.coe_injective (Option.some.inj h2)
      subst hm0
      exact ⟨[c], Chain.root h.src_mem hcU' (by rw [hDc]; exact h2) (by rw [hPc]; exact h3)⟩
    · have hmd : m = du + e.weight := by
        rw [hm] at h4
        exact WithTop.coe_injective (Option.some.inj h4)
      subst hmd
      exact ⟨p ++ [c], Chain.link e c (chain_mono hsub hD hP h1) h2 h3 (h.unv_sub c hc) hcU'
        (fun hcp => (chain_mem h1 c hcp).2 hc) (by rw [hDc]; exact h4) (by rw [hPc]; exact h5)⟩
  obtain ⟨pc, hpc⟩ := hchainc
  refine ⟨h.src_mem, h.unv_nodup.filter _, fun u hu => h.unv_sub u (hsub u hu), ?_, ?_, ?_, ?_,
    ?_, ?_, ?_⟩
  · intro v hv
    obtain ⟨d, hd⟩ := h.dist_def v hv
    obtain ⟨d', hd', _⟩ := hmono v d hd
    exact ⟨d', hd'⟩
  · intro v hv
    by_cases hvU : v ∈ setDelete U c
    · rcases hri.inside v hvU with ⟨_, h2⟩ | ⟨e, _, _, _, h2⟩
      · rw [h2]; exact h.prev_def v hv
      · exact ⟨_, h2⟩
    · rw [(hri.outside v hvU).2]; exact h.prev_def v hv
  · intro v hv hvU
    by_cases hvc : v = c
    · subst hvc
      exact ⟨pc, m, hpc⟩
    · have hvU0 : v ∉ U := fun hx => hvU ((mem_setDelete U c v).2 ⟨hx, hvc⟩)
      obtain ⟨p, d, hp⟩ := h.fin v hv hvU0
      exact ⟨p, d, chain_mono hsub hD hP hp⟩
  · intro x hx
    have hxU := hsub x hx
    rcases hri.inside x hx with ⟨h1, h2⟩ | ⟨e, he, hn, h1, h2⟩
    · rw [h1, h2]
      rcases h.tent x hxU with t | t | ⟨p, u, du, e, t1, t2⟩
      · exact Or.inl t
      · exact Or.inr (Or.inl t)
      · exact Or.inr (Or.inr ⟨p, u, du, e, chain_mono hsub hD hP t1, t2⟩)
    · exact Or.inr (Or.inr ⟨pc, c, m, e, hpc, he, hn, h1, h2⟩)
  · intro hs
    have := hsrcc (hsub src hs)
    exact absurd (this ▸ hs) hcU'
  · intro hs
    have := hsrcc (hsub src hs)
    exact absurd (this ▸ hs) hcU'
  · intro f hf hfU e he x hn hx
    by_cases hfc : f = c
    · subst hfc
      obtain ⟨d, hd, hle⟩ := hrel e he x hn hx
      obtain ⟨r, hr⟩ := WithTop.ne_top_iff_exists.1
        (ne_of_lt (lt_of_le_of_lt hle (WithTop.coe_lt_top _)))
      exact ⟨r, by rw [hd, hr]⟩
    · have hfU0 : f ∉ U := fun hx' => hfU ((mem_setDelete U c f).2 ⟨hx', hfc⟩)
      obtain ⟨d, hd⟩ := h.closed f hf hfU0 e he x hn (hsub x hx)
      obtain ⟨d', hd', hle⟩ := hmono x _ hd
      obtain ⟨r, hr⟩ := WithTop.ne_top_iff_exists.1
        (ne_of_lt (lt_of_le_of_lt hle (WithTop.coe_lt_top _)))
      exact ⟨r, by rw [hd', hr]⟩

/-- With non-negative weights no walk from the source to an unvisited vertex is lighter
than the smallest unvisited distance `m`. -/
theorem walk_lower_bound {g : Graph R} {src : String} {U : List String}
    {D : List (String × WithTop R)} {P : List (String × Option String)}
    (h : DjInv g src U D P) (ho : DjOpt g src U D) (hw : ∀ e ∈ g.edges, 0 ≤ e.weight)
    {m : R} (hmin : ∀ u ∈ U, ∀ d, mapGet D u = some d → (m : WithTop R) ≤ d)
    {p : List String} {v : String} {w : R} (hwalk : Walk g src p v w) :
    v ∈ U → m ≤ w := by
  induction hwalk with
  | nil _ =>
    intro hs
    exact WithTop.coe_le_coe.1 (hmin src hs _ (h.src_unv hs))
  | @snoc p v w e x hwalk he hn hx ih =>
    intro hxU
    by_cases hv : v ∈ U
    · exact le_trans (ih hv) (le_add_of_nonneg_right (hw e he))
    · have hvk := (walk_end_mem hwalk)
      obtain ⟨pv, dv, hch⟩ := h.fin v hvk hv
      have hdv := ho.opt v hvk hv dv (chain_dist hch) p w hwalk
      obtain ⟨dx, hdx⟩ := h.dist_def x hx
      have h1 := ho.relaxed v hvk hv e he x hn hxU _ dx (chain_dist hch) hdx
      have h2 := hmin x hxU dx hdx
      have h3 : (m : WithTop R) ≤ ((dv + e.weight : R) : WithTop R) := by
        rw [WithTop.coe_add]
        exact le_trans h2 h1
      exact le_trans (WithTop.coe_le_coe.1 h3) (add_le_add_right hdv _)

/-- Finalizing a vertex of smallest unvisited distance keeps the optimality part of the
invariant when the weights are non-negative. -/
theorem djOpt_step {g : Graph R} {src : String} {U : List String}
    {D : List (String × WithTop R)} {P : List (String × Option String)}
    (h : DjInv g src U D P) (ho : DjOpt g src U D) (hw : ∀ e ∈ g.edges, 0 ≤ e.weight)
    {c : String} {m : R} (hc : c ∈ U) (hm : mapGet D c = some (m : WithTop R))
    (hmin : ∀ u ∈ U, ∀ d, mapGet D u = some d → (m : WithTop R) ≤ d) :
    DjOpt g src (setDelete U c) (g.edges.foldl (djRelax c (setDelete U c)) (D, P)).1 := by
  have hcU' : c ∉ setDelete U c := fun hx => ((mem_setDelete U c c).1 hx).2 rfl
  have hsub : ∀ x, x ∈ setDelete U c → x ∈ U := fun x hx => ((mem_setDelete U c x).1 hx).1
  have hri0 : RelaxInv g.edges c m (setDelete U c) D P (D, P) :=
    ⟨fun _ _ => ⟨rfl, rfl⟩, fun _ _ => Or.inl ⟨rfl, rfl⟩,
      fun x hx => h.dist_def x (h.unv_sub x (hsub x hx))⟩
  obtain ⟨hri, hmono, hrel⟩ := djRelax_foldl g.edges c m (setDelete U c) D P hcU' hm g.edges
    (fun _ he => he) (D, P) hri0
  generalize g.edges.foldl (djRelax c (setDelete U c)) (D, P) = dp at hri hmono hrel ⊢
  have hDc : mapGet dp.1 c = some (m : WithTop R) := by rw [(hri.outside c hcU').1]; exact hm
  constructor
  · intro f hf hfU d hd p w hwalk
    by_cases hfc : f = c
    · subst hfc
      rw [hDc] at hd
      have : m = d := WithTop.coe_injective (Option.some.inj hd)
      subst this
      exact walk_lower_bound h ho hw hmin hwalk hc
    · have hfU0 : f ∉ U := fun hx' => hfU ((mem_setDelete U c f).2 ⟨hx', hfc⟩)
      rw [(hri.outside f hfU).1] at hd
      exact ho.opt f hf hfU0 d hd p w hwalk
  · intro f hf hfU e he x hn hx df dx hdf hdx
    by_cases hfc : f = c
    · subst hfc
      obtain ⟨d, hd, hle⟩ := hrel e he x hn hx
      rw [hdx] at hd
      cases hd
      rw [hDc] at hdf
      cases hdf
      rw [← WithTop.coe_add]
      exact hle
    · have hfU0 : f ∉ U := fun hx' => hfU ((mem_setDelete U c f).2 ⟨hx', hfc⟩)
      rw [(hri.outside f hfU).1] at hdf
      obtain ⟨dx0, hdx0⟩ := h.dist_def x (h.unv_sub x (hsub x hx))
      obtain ⟨d', hd', hle⟩ := hmono x dx0 hdx0
      rw [hdx] at hd'
      cases hd'
      exact le_trans hle (ho.relaxed f hf hfU0 e he x hn (hsub x hx) df dx0 hdf hdx0)

/-- When every unvisited distance is infinite, walks from the source never reach an
unvisited vertex. -/
theorem walk_stays_finalized {g : Graph R} {src : String} {U : List String}
    {D : List (String × WithTop R)} {P : List (String × Option String)}
    (h : DjInv g src U D P) (hall : ∀ u ∈ U, ∀ d, mapGet D u = some d → d = ⊤)
    {p : List String} {v : String} {w : R} (hwalk : Walk g src p v w) : v ∉ U := by
  induction hwalk with
  | nil _ =>
    intro hs
    exact WithTop.coe_ne_top (hall src hs _ (h.src_unv hs))
  | @snoc p v w e x hwalk he hn hx ih =>
    intro hxU
    obtain ⟨d, hd⟩ := h.closed v (walk_end_mem hwalk) ih e he x hn hxU
    exact WithTop.coe_ne_top (hall x hxU _ hd)

/-! ### The initial state -/

theorem djInit_foldl (start : String) (ks : List String) :
    ∀ acc : List (String × WithTop R) × List (String × Option String) × List String,
      acc.2.2.Nodup →
      (∀ x ∈ acc.2.2, mapGet acc.1 x = some (if x = start then ((0 : R) : WithTop R) else ⊤) ∧
        mapGet acc.2.1 x = some none) →
      (ks.foldl (djInit start) acc).2.2.Nodup ∧
      (∀ x ∈ (ks.foldl (djInit start) acc).2.2,
        mapGet (ks.foldl (djInit start) acc).1 x =
          some (if x = start then ((0 : R) : WithTop R) else ⊤) ∧
        mapGet (ks.foldl (djInit start) acc).2.1 x = some none) ∧
      (∀ x, x ∈ (ks.foldl (djInit start) acc).2.2 ↔ x ∈ acc.2.2 ∨ x ∈ ks) := by
  induction ks with
  | nil => intro acc h1 h2; exact ⟨h1, h2, by simp⟩
  | cons k ks ih =>
    intro acc h1 h2
    rw [List.foldl_cons]
    obtain ⟨i1, i2, i3⟩ := ih (djInit start acc k)
      (by
        simp only [djInit, setAdd]
        split
        · exact h1
        · rename_i hk
          exact List.Nodup.append h1 (List.nodup_singleton k) (by
            intro x hx hx'
            rw [List.mem_singleton] at hx'
            exact hk (hx' ▸ hx)))
      (by
        intro x hx
        simp only [djInit] at hx ⊢
        by_cases hxk : x = k
        · subst hxk
          exact ⟨mapGet_mapSet_self _ _ _, mapGet_mapSet_self _ _ _⟩
        · rw [mapGet_mapSet_of_ne _ _ _ _ hxk, mapGet_mapSet_of_ne _ _ _ _ hxk]
          rcases (mem_setAdd _ _ _).1 hx with hx | hx
          · exact h2 x hx
          · exact absurd hx hxk)
    refine ⟨i1, i2, fun x => ?_⟩
    rw [i3 x]
    simp only [djInit, mem_setAdd, List.mem_cons]
    tauto

theorem djInv_init (g : Graph R) (src : String) (hsrc : src ∈ mapKeys g.vertices) :
    DjInv g src ((mapKeys g.vertices).foldl (djInit (R := R) src) ([], [], [])).2.2
      ((mapKeys g.vertices).foldl (djInit (R := R) src) ([], [], [])).1
      ((mapKeys g.vertices).foldl (djInit (R := R) src) ([], [], [])).2.1 ∧
    DjOpt g src ((mapKeys g.vertices).foldl (djInit (R := R) src) ([], [], [])).2.2
      ((mapKeys g.vertices).foldl (djInit (R := R) src) ([], [], [])).1 ∧
    (∀ x, x ∈ ((mapKeys g.vertices).foldl (djInit (R := R) src) ([], [], [])).2.2 ↔
      x ∈ mapKeys g.vertices) ∧
    ((mapKeys g.vertices).foldl (djInit (R := R) src) ([], [], [])).2.2.length ≤ g.vertices.length := by
  obtain ⟨h1, h2, h3⟩ := djInit_foldl (R := R) src (mapKeys g.vertices) ([], [], [])
    (by simp) (by simp)
  generalize (mapKeys g.vertices).foldl (djInit (R := R) src) ([], [], []) = acc at h1 h2 h3 ⊢
  have hmem : ∀ x, x ∈ acc.2.2 ↔ x ∈ mapKeys g.vertices := by
    intro x; rw [h3 x]; simp
  refine ⟨⟨hsrc, h1, fun u hu => (hmem u).1 hu, fun v hv => ⟨_, (h2 v ((hmem v).2 hv)).1⟩,
    fun v hv => ⟨_, (h2 v ((hmem v).2 hv)).2⟩, fun v hv hvU => absurd ((hmem v).2 hv) hvU,
    ?_, ?_, ?_, fun f hf hfU => absurd ((hmem f).2 hf) hfU⟩,
    ⟨fun f hf hfU => absurd ((hmem f).2 hf) hfU, fun f hf hfU => absurd ((hmem f).2 hf) hfU⟩,
    hmem, ?_⟩
  · intro x hx
    by_cases hxs : x = src
    · right; left
      have := h2 x hx
      rw [if_pos hxs] at this
      exact ⟨hxs, this.1, this.2⟩
    · left
      have := h2 x hx
      rw [if_neg hxs] at this
      exact this
  · intro hs
    have := (h2 src hs).1
    rwa [if_pos rfl] at this
  · intro _ x hx hxs
    have := (h2 x hx).1
    rwa [if_neg hxs] at this
  · have := (List.Nodup.subperm h1 (fun x hx => (hmem x).1 hx)).length_le
    simpa [mapKeys] using this

/-! ### The end of the run -/

/-- The function `finishDijkstra` at the end of a run: either the target is unvisited and
every unvisited distance is infinite, or the target is finalized. -/
theorem finishDijkstra_spec {g : Graph R} {src tgt : String} {alerts0 : List (Report R)}
    (s : State R) (hg : s.graph = g) (hstart : s.dijkstraStart = some src)
    (hend : s.dijkstraEnd = some tgt) (halerts : s.alerts = alerts0)
    (htgt : tgt ∈ mapKeys g.vertices)
    (hinv : DjInv g src s.djUnvisited s.djDistances s.djPrevious)
    (hopt : (∀ e ∈ g.edges, 0 ≤ e.weight) → DjOpt g src s.djUnvisited s.djDistances)
    (hterm : tgt ∉ s.djUnvisited ∨
      ∀ u ∈ s.djUnvisited, ∀ d, mapGet s.djDistances u = some d → d = ⊤) :
    ∃ s', finishDijkstra s = .ok s' ∧ DjDone g src tgt alerts0 s' := by
  obtain ⟨c1, c2, c3, c4, c5, c6, c7⟩ := clearTimer_fields s
  have hkeysP : ∀ x ∈ mapKeys g.vertices, x ∈ mapKeys s.djPrevious := by
    intro x hx
    obtain ⟨q, hq⟩ := hinv.prev_def x hx
    exact (mapGet_isSome_iff _ _).1 (by rw [hq]; rfl)
  by_cases htU : tgt ∈ s.djUnvisited
  · -- no path
    have hall := hterm.resolve_left (fun h => h htU)
    have hPt : mapGet s.djPrevious tgt = some none := by
      rcases hinv.tent tgt htU with ⟨_, h2⟩ | ⟨_, h2, _⟩ | ⟨p, u, du, e, _, _, _, h4, _⟩
      · exact h2
      · exact absurd (hall tgt htU _ h2) WithTop.coe_ne_top
      · exact absurd (hall tgt htU _ h4) WithTop.coe_ne_top
    have hsrcU : src ∉ s.djUnvisited := fun hs =>
      WithTop.coe_ne_top (hall src hs _ (hinv.src_unv hs))
    have hne : tgt ≠ src := fun e => hsrcU (e ▸ htU)
    have hlen : ∃ n, s.djPrevious.length = n + 1 := by
      have := hkeysP tgt htgt
      cases hP : s.djPrevious with
      | nil => rw [hP] at this; simp [mapKeys] at this
      | cons a l => exact ⟨l.length, rfl⟩
    obtain ⟨n, hn⟩ := hlen
    have hpath : djPath s.djPrevious (s.djPrevious.length + 1) (some tgt) [] = .ok [tgt] := by
      rw [hn]
      simp [djPath, hPt]
    have hhead : ¬ ([tgt].head? = some src) := by simp [hne]
    have hfin : finishDijkstra s = .ok (stopVisualizationMode
        { ({ clearTimer s with alerts := (clearTimer s).alerts ++ [.noPath] } : State R) with
          algoCurrent := none, algoNext := none, algoMode := .off, algoStepMode := .off }) := by
      unfold finishDijkstra
      simp only [c1, c2, c3, hend, hpath, hstart, ne_eq, hhead, not_false_eq_true, if_true]
    refine ⟨_, hfin, ?_⟩
    · refine ⟨by simpa [stopVisualizationMode, clearTimer_graph] using hg, rfl, rfl, rfl, rfl,
        by simp [stopVisualizationMode, clearTimer_algoTimerId], Or.inl ⟨?_, ?_⟩⟩
      · simp [stopVisualizationMode, c6, halerts]
      · rintro ⟨p, w, hwalk⟩
        exact walk_stays_finalized hinv hall hwalk htU
  · -- a path is found
    obtain ⟨p, d, hch⟩ := hinv.fin tgt htgt htU
    have hlen : p.length ≤ s.djPrevious.length := by
      have := (List.Nodup.subperm (chain_nodup hch)
        (fun x hx => hkeysP x (chain_mem hch x hx).1)).length_le
      simpa [mapKeys] using this
    have hpath : djPath s.djPrevious (s.djPrevious.length + 1) (some tgt) [] = .ok p := by
      have := djPath_chain hch (s.djPrevious.length + 1) [] (by omega)
      simpa using this
    obtain ⟨labels, hl⟩ := labelsOf_ok g p (fun x hx => (chain_mem hch x hx).1)
    have hhead : ¬ (p.head? ≠ some src) := by simp [chain_head hch]
    have hfin : finishDijkstra s = .ok (stopVisualizationMode
        { ({ clearTimer s with alerts := (clearTimer s).alerts ++
              [.pathFound (mapGet (clearTimer s).djDistances tgt) p labels] } : State R) with
          algoCurrent := none, algoNext := none, algoMode := .off, algoStepMode := .off }) := by
      have hl' : labelsOf (clearTimer s).graph p = .ok labels := by
        rw [clearTimer_graph, hg]; exact hl
      unfold finishDijkstra
      simp only [c1, c2, c3, hend, hpath, hstart, hhead, if_false, hl']
    refine ⟨_, hfin, ?_⟩
    · refine ⟨by simpa [stopVisualizationMode, clearTimer_graph] using hg, rfl, rfl, rfl, rfl,
        by simp [stopVisualizationMode, clearTimer_algoTimerId],
        Or.inr ⟨p, d, labels, ?_, chain_walk hch, ?_, hl, ?_⟩⟩
      · simp [stopVisualizationMode, c6, c4, halerts, (chain_dist hch)]
      · simp [stopVisualizationMode, c4, (chain_dist hch)]
      · intro hw p' w' hwalk
        exact (hopt hw).opt tgt htgt htU d (chain_dist hch) p' w' hwalk

/-! ### The run -/

theorem length_setDelete_lt (U : List String) (c : String) (hc : c ∈ U) :
    (setDelete U c).length < U.length := by
  unfold setDelete
  exact List.length_filter_lt_length_iff_exists.2 ⟨c, hc, by simp⟩

/-- One call of `dijkstraStep` in a run in progress either ends the run or leaves a run in
progress with fewer unvisited vertices. -/
theorem dijkstraStep_spec {g : Graph R} {src tgt : String} {alerts0 : List (Report R)}
    (s : State R) (htgt : tgt ∈ mapKeys g.vertices) (h : DjRun g src tgt alerts0 s) :
    ∃ s', dijkstraStep s = .ok s' ∧
      (DjDone g src tgt alerts0 s' ∨
        (DjRun g src tgt alerts0 s' ∧ s'.djUnvisited.length < s.djUnvisited.length)) := by
  have hg := h.graph
  subst hg
  have hne : ¬ s.djUnvisited = [] := fun e => by
    have := h.tgt_unv
    rw [e] at this
    simp at this
  unfold dijkstraStep
  rw [if_neg hne]
  rcases djSelect_spec s.djDistances s.djUnvisited with ⟨hsel, hall⟩ | ⟨c, m, hsel, hc, hm, hmin⟩
  · simp only [hsel]
    obtain ⟨s', h1, h2⟩ := finishDijkstra_spec s h.graph h.hstart h.hend h.alerts htgt h.inv
      h.opt (Or.inr hall)
    exact ⟨s', h1, Or.inl h2⟩
  · simp only [hsel, WithTop.coe_ne_top, if_false]
    have hinv' := djInv_step h.inv hc hm
    have hopt' : (∀ e ∈ s.graph.edges, 0 ≤ e.weight) →
        DjOpt s.graph src (setDelete s.djUnvisited c)
          (s.graph.edges.foldl (djRelax c (setDelete s.djUnvisited c))
            (s.djDistances, s.djPrevious)).1 :=
      fun hw => djOpt_step h.inv (h.opt hw) hw hc hm hmin
    by_cases hct : c = tgt
    · subst hct
      rw [if_pos h.hend.symm]
      obtain ⟨s', h1, h2⟩ := @finishDijkstra_spec R _ s.graph src c alerts0
        { s with
          djUnvisited := setDelete s.djUnvisited c, djOrder := s.djOrder ++ [c],
          algoCurrent := some c,
          djDistances := (s.graph.edges.foldl (djRelax c (setDelete s.djUnvisited c))
            (s.djDistances, s.djPrevious)).1,
          djPrevious := (s.graph.edges.foldl (djRelax c (setDelete s.djUnvisited c))
            (s.djDistances, s.djPrevious)).2,
          algoNext := (djSelect (s.graph.edges.foldl (djRelax c (setDelete s.djUnvisited c))
            (s.djDistances, s.djPrevious)).1 (setDelete s.djUnvisited c)).1 }
        rfl h.hstart h.hend h.alerts htgt hinv' hopt'
        (Or.inl (fun hx => ((mem_setDelete _ _ _).1 hx).2 rfl))
      exact ⟨s', h1, Or.inl h2⟩
    · have hne' : ¬ (some c = s.dijkstraEnd) := by
        rw [h.hend]
        intro e
        exact hct (Option.some.inj e)
      rw [if_neg hne']
      exact ⟨_, rfl, Or.inr ⟨⟨rfl, h.mode, h.hstart, h.hend, h.alerts,
        (mem_setDelete _ _ _).2 ⟨h.tgt_unv, fun e => hct e.symm⟩, hinv', hopt'⟩,
        length_setDelete_lt _ _ hc⟩⟩

theorem runDijkstra_of_off (n : Nat) (s : State R) (h : s.algoMode ≠ .dijkstra) :
    runDijkstra n s = .ok s := by
  cases n with
  | zero => rfl
  | succ n => simp [runDijkstra, h]

/-- A run in progress with at most `k` unvisited vertices ends within `k` calls of
`dijkstraStep`. -/
theorem runDijkstra_spec {g : Graph R} {src tgt : String} {alerts0 : List (Report R)}
    (htgt : tgt ∈ mapKeys g.vertices) (k : Nat) :
    ∀ (s : State R) (j : Nat), DjRun g src tgt alerts0 s → s.djUnvisited.length ≤ k →
      ∃ s', runDijkstra (k + j) s = .ok s' ∧ DjDone g src tgt alerts0 s' := by
  induction k with
  | zero =>
    intro s j h hk
    have := h.tgt_unv
    have hnil : s.djUnvisited = [] := List.length_eq_zero.1 (by omega)
    rw [hnil] at this
    simp at this
  | succ k ih =>
    intro s j h hk
    have hfuel : k + 1 + j = (k + j) + 1 := by omega
    rw [hfuel]
    obtain ⟨s1, hs1, hcase⟩ := dijkstraStep_spec s htgt h
    simp only [runDijkstra]
    rw [if_pos h.mode, hs1]
    rcases hcase with hd | ⟨hr, hlt⟩
    · exact ⟨s1, runDijkstra_of_off _ _ (by rw [hd.mode]; decide), hd⟩
    · exact ih s1 j hr (by omega)

theorem walk_head {g : Graph R} {src : String} {p : List String} {v : String} {w : R}
    (h : Walk g src p v w) : p.head? = some src := by
  induction h with
  | nil _ => rfl
  | @snoc p v w e x _ _ _ _ ih =>
    cases p with
    | nil => simp at ih
    | cons a p => simpa using ih

theorem walk_getLast {g : Graph R} {src : String} {p : List String} {v : String} {w : R}
    (h : Walk g src p v w) : p.getLast? = some v := by
  cases h with
  | nil _ => rfl
  | snoc e x _ _ _ _ => simp

/-- On a graph whose edges reference existing vertices, the walks from a vertex are the
paths of the reachability relation. -/
theorem walk_iff_reach {g : Graph R} (hinv : EndpointsExist g) {src tgt : String}
    (hsrc : src ∈ mapKeys g.vertices) :
    (∃ p w, Walk g src p tgt w) ↔ Reach g.edges src tgt := by
  constructor
  · rintro ⟨p, w, h⟩
    induction h with
    | nil _ => exact Relation.ReflTransGen.refl
    | snoc e x _ he hn _ ih => exact Relation.ReflTransGen.tail ih ⟨e, he, hn⟩
  · intro h
    induction h with
    | refl => exact ⟨[src], 0, Walk.nil hsrc⟩
    | tail _ hab ih =>
      obtain ⟨p, w, hp⟩ := ih
      obtain ⟨e, he, hn⟩ := hab
      exact ⟨_, _, Walk.snoc e _ hp he hn (adj_mem_keys hinv ⟨e, he, hn⟩)⟩

theorem startDijkstraVisualization_run (s : State R) (start end_ : String) (mode : StepMode)
    (delayInput : Option R) (hs : start ∈ mapKeys s.graph.vertices)
    (ht : end_ ∈ mapKeys s.graph.vertices) :
    DjRun s.graph start end_ s.alerts (startDijkstraVisualization s start end_ mode delayInput) ∧
    (startDijkstraVisualization s start end_ mode delayInput).djUnvisited.length ≤
      s.graph.vertices.length := by
  obtain ⟨h1, h2, h3, h4⟩ := djInv_init s.graph start hs
  obtain ⟨-, -, -, -, -, c6, -⟩ := clearTimer_fields (startVisualizationMode s)
  have c6' : (clearTimer (startVisualizationMode s)).alerts = s.alerts := c6
  unfold startDijkstraVisualization
  simp only [clearTimer_graph, startVisualizationMode]
  by_cases hm : mode = .auto
  · simp only [hm, if_true, setTimer]
    exact ⟨⟨rfl, rfl, rfl, rfl, c6', (h3 end_).2 ht, h1, fun _ => h2⟩, h4⟩
  · simp only [hm, if_false]
    exact ⟨⟨rfl, rfl, rfl, rfl, c6', (h3 end_).2 ht, h1, fun _ => h2⟩, h4⟩

/-- C4: for every graph with non-negative edge weights and every source and target vertex
such that the target is reachable from the source by a walk under the neighbour rule,
repeated `dijkstraStep` from the state set up by `startDijkstraVisualization` ends in
`finishDijkstra` reporting a path that is a walk from the source to the target, whose
weight is the reported distance `djDistances[target]`, and no walk from the source to the
target is lighter; on A-B (1), B-C (2), A-C (5) from A to C the report is distance 3 and
path A,B,C. -/
theorem dijkstra_reports_shortest_path (s : State R) (start end_ : String) (mode : StepMode)
    (delayInput : Option R) (fuel : Nat)
    (hw : ∀ e ∈ s.graph.edges, 0 ≤ e.weight)
    (hs : start ∈ mapKeys s.graph.vertices) (ht : end_ ∈ mapKeys s.graph.vertices)
    (hreach : ∃ p w, Walk s.graph start p end_ w)
    (hfuel : s.graph.vertices.length ≤ fuel) :
    (∃ s' p d labels,
      runDijkstra fuel (startDijkstraVisualization s start end_ mode delayInput) = .ok s' ∧
      s'.algoMode = .off ∧
      s'.alerts = s.alerts ++ [.pathFound (some (d : WithTop R)) p labels] ∧
      Walk s.graph start p end_ d ∧ p.head? = some start ∧ p.getLast? = some end_ ∧
      mapGet s'.djDistances end_ = some (d : WithTop R) ∧
      ∀ p' w', Walk s.graph start p' end_ w' → d ≤ w') ∧
    (runDijkstra 3 (startDijkstraVisualization (State.init triangleGraph) "A" "C" .space
      none)).toOption.map (fun s => (s.algoMode, s.alerts)) =
      some (.off, [.pathFound (some 3) ["A", "B", "C"] ["A", "B", "C"]]) := by
  refine ⟨?_, by decide⟩
  obtain ⟨hrun, hlen⟩ := startDijkstraVisualization_run s start end_ mode delayInput hs ht
  obtain ⟨j, hj⟩ : ∃ j, fuel = s.graph.vertices.length + j := ⟨fuel - s.graph.vertices.length, by omega⟩
  obtain ⟨s', h1, h2⟩ := runDijkstra_spec ht s.graph.vertices.length _ j hrun hlen
  rcases h2.outcome with ⟨_, hno⟩ | ⟨p, d, labels, ha, hwalk, hd, _, hopt⟩
  · exact absurd hreach hno
  · exact ⟨s', p, d, labels, hj ▸ h1, h2.mode, ha, hwalk, walk_head hwalk, walk_getLast hwalk, hd,
      hopt hw⟩

/-- Witness for `dijkstra_reports_shortest_path` on the triangle A-B (1), B-C (2), A-C (5)
from A to C. -/
theorem dijkstra_reports_shortest_path_witness :
    (∀ e ∈ (State.init triangleGraph).graph.edges, 0 ≤ e.weight) ∧
    ∃ s' p d labels,
      runDijkstra 3 (startDijkstraVisualization (State.init triangleGraph) "A" "C" .space
        none) = .ok s' ∧
      s'.algoMode = .off ∧
      s'.alerts = (State.init triangleGraph).alerts ++
        [.pathFound (some (d : WithTop ℤ)) p labels] ∧
      Walk (State.init triangleGraph).graph "A" p "C" d ∧ p.head? = some "A" ∧
      p.getLast? = some "C" ∧
      mapGet s'.djDistances "C" = some (d : WithTop ℤ) ∧
      ∀ p' w', Walk (State.init triangleGraph).graph "A" p' "C" w' → d ≤ w' :=
  ⟨by decide,
    (dijkstra_reports_shortest_path (State.init triangleGraph) "A" "C" .space none 3
      (by decide) (by decide) (by decide)
      ⟨["A"] ++ ["C"], 0 + 5,
        Walk.snoc (undirectedEdge "A" "C" 5) "C" (Walk.nil (by decide)) (by decide)
          (by decide) (by decide)⟩
      (by decide)).1⟩

/-- C5: for every graph and every source and target vertex of the graph, repeated
`dijkstraStep` from the state set up by `startDijkstraVisualization` ends in
`finishDijkstra`; the report is `no path` if and only if no walk under the neighbour rule
leads from the source to the target, otherwise it is a found path that starts at the
source; in both outcomes `algoMode` and `algoStepMode` are `off` and `algoCurrent`,
`algoNext` and `algoTimerId` are `null`. -/
theorem dijkstra_no_path_iff_unreachable (s : State R) (start end_ : String)
    (mode : StepMode) (delayInput : Option R) (fuel : Nat)
    (hs : start ∈ mapKeys s.graph.vertices) (ht : end_ ∈ mapKeys s.graph.vertices)
    (hfuel : s.graph.vertices.length ≤ fuel) :
    ∃ s', runDijkstra fuel (startDijkstraVisualization s start end_ mode delayInput) = .ok s' ∧
      (s'.alerts = s.alerts ++ [.noPath] ↔ ¬ ∃ p w, Walk s.graph start p end_ w) ∧
      (s'.alerts = s.alerts ++ [.noPath] ∨
        ∃ d p labels, s'.alerts = s.alerts ++ [.pathFound d p labels] ∧
          p.head? = some start) ∧
      s'.algoMode = .off ∧ s'.algoStepMode = .off ∧ s'.algoCurrent = none ∧
      s'.algoNext = none ∧ s'.algoTimerId = none := by
  obtain ⟨hrun, hlen⟩ := startDijkstraVisualization_run s start end_ mode delayInput hs ht
  obtain ⟨j, hj⟩ : ∃ j, fuel = s.graph.vertices.length + j := ⟨fuel - s.graph.vertices.length, by omega⟩
  obtain ⟨s', h1, h2⟩ := runDijkstra_spec ht s.graph.vertices.length _ j hrun hlen
  refine ⟨s', hj ▸ h1, ?_, ?_, h2.mode, h2.stepMode, h2.current, h2.next, h2.timer⟩
  · rcases h2.outcome with ⟨ha, hno⟩ | ⟨p, d, labels, ha, hwalk, _, _, _⟩
    · exact ⟨fun _ => hno, fun _ => ha⟩
    · constructor
      · intro h
        rw [ha] at h
        have := List.append_cancel_left h
        simp at this
      · intro h
        exact absurd ⟨p, d, hwalk⟩ h
  · rcases h2.outcome with ⟨ha, _⟩ | ⟨p, d, labels, ha, hwalk, _, _, _⟩
    · exact Or.inl ha
    · exact Or.inr ⟨_, p, labels, ha, walk_head hwalk⟩

/-- Witness for `dijkstra_no_path_iff_unreachable` on the graph A-B, A-C, B-D with the
added isolated vertex E, from A to E. -/
theorem dijkstra_no_path_iff_unreachable_witness :
    "A" ∈ mapKeys (State.init isolatedGraph).graph.vertices ∧
    "E" ∈ mapKeys (State.init isolatedGraph).graph.vertices ∧
    ∃ s', runDijkstra 5 (startDijkstraVisualization (State.init isolatedGraph) "A" "E" .auto
        none) = .ok s' ∧
      (s'.alerts = (State.init isolatedGraph).alerts ++ [.noPath] ↔
        ¬ ∃ p w, Walk (State.init isolatedGraph).graph "A" p "E" w) ∧
      (s'.alerts = (State.init isolatedGraph).alerts ++ [.noPath] ∨
        ∃ d p labels, s'.alerts = (State.init isolatedGraph).alerts ++ [.pathFound d p labels] ∧
          p.head? = some "A") ∧
      s'.algoMode = .off ∧ s'.algoStepMode = .off ∧ s'.algoCurrent = none ∧
      s'.algoNext = none ∧ s'.algoTimerId = none :=
  ⟨by decide, by decide,
    dijkstra_no_path_iff_unreachable (State.init isolatedGraph) "A" "E" .auto none 5
      (by decide) (by decide) (by decide)⟩

end Dijkstra

/-! ## Connected components -/

theorem tarjanTo_eq_neighborRule (v : String) (e : Edge R) :
    tarjanTo v e = neighborRule v e := rfl

theorem neighborRule_undirected {e : Edge R} (he : e.isDirected = false) (x y : String) :
    neighborRule x e = some y ↔
      (e.from_ = x ∧ e.to_ = y) ∨ (e.to_ = x ∧ e.from_ = y) := by
  unfold neighborRule
  by_cases h1 : e.from_ = x
  · by_cases h2 : e.to_ = x
    · simp only [h1, if_true, Option.some.injEq, true_and, h2]
      constructor
      · intro h; exact Or.inl h
      · rintro (h | h)
        · exact h
        · exact h
    · simp [h1, h2]
  · by_cases h2 : e.to_ = x
    · simp [h1, h2, he]
    · simp [h1, h2]

theorem adj_symm {edges : List (Edge R)} (hu : ∀ e ∈ edges, e.isDirected = false)
    {x y : String} (h : Adj edges x y) : Adj edges y x := by
  obtain ⟨e, he, hn⟩ := h
  refine ⟨e, he, ?_⟩
  rw [neighborRule_undirected (hu e he)] at hn ⊢
  tauto

/-- The classes of a quotient of a finite type under a map that respects the relations:
the source has more classes than the target exactly when the induced map is not
injective, provided the induced map is then surjective. -/
theorem quot_card_lt_iff {α β : Type} [Finite α] [Finite β] (r : α → α → Prop)
    (r' : β → β → Prop) (f : α → β) (hf : ∀ a b, r a b → r' (f a) (f b))
    (hsurj : ¬ Function.Injective (Quot.map f hf) → Function.Surjective (Quot.map f hf)) :
    Nat.card (Quot r') < Nat.card (Quot r) ↔ ¬ Function.Injective (Quot.map f hf) := by
  haveI : Finite (Quot r) := Finite.of_surjective _ (Quot.mk_surjective)
  haveI : Finite (Quot r') := Finite.of_surjective _ (Quot.mk_surjective)
  constructor
  · intro hlt hinj
    exact absurd (Nat.card_le_card_of_injective _ hinj) (not_le.2 hlt)
  · intro hni
    haveI := Fintype.ofFinite (Quot r)
    haveI := Fintype.ofFinite (Quot r')
    rw [Nat.card_eq_fintype_card, Nat.card_eq_fintype_card]
    exact Fintype.card_lt_of_surjective_not_injective _ (hsurj hni) hni

theorem quot_map_not_injective_iff {α β : Type} (r : α → α → Prop) (r' : β → β → Prop)
    (f : α → β) (hf : ∀ a b, r a b → r' (f a) (f b)) :
    ¬ Function.Injective (Quot.map f hf) ↔
      ∃ a b, Relation.EqvGen r' (f a) (f b) ∧ ¬ Relation.EqvGen r a b := by
  constructor
  · intro h
    by_contra hne
    apply h
    intro x y
    induction x using Quot.ind with | _ a => ?_
    induction y using Quot.ind with | _ b => ?_
    intro hxy
    have : Quot.mk r' (f a) = Quot.mk r' (f b) := hxy
    rw [Quot.eq] at this ⊢
    by_contra hab
    exact hne ⟨a, b, this, hab⟩
  · rintro ⟨a, b, h1, h2⟩ hinj
    apply h2
    have : Quot.map f hf (Quot.mk r a) = Quot.map f hf (Quot.mk r b) := Quot.eq.2 h1
    exact Quot.eq.1 (hinj this)

/-- On a vertex set that a symmetric relation does not leave, the equivalence generated
on the subtype is reachability. -/
theorem eqvGen_subtype_iff (V : List String) (ρ : String → String → Prop)
    (hsymm : ∀ x y, ρ x y → ρ y x) (hclosed : ∀ x ∈ V, ∀ y, ρ x y → y ∈ V)
    (a b : {x : String // x ∈ V}) :
    Relation.EqvGen (fun a b : {x : String // x ∈ V} => ρ a.1 b.1) a b ↔
      Relation.ReflTransGen ρ a.1 b.1 := by
  constructor
  · intro h
    induction h with
    | rel x y h => exact Relation.ReflTransGen.single h
    | refl x => exact Relation.ReflTransGen.refl
    | symm x y _ ih =>
      exact Relation.ReflTransGen.symmetric (fun x y h => hsymm x y h) ih
    | trans x y z _ _ ih1 ih2 => exact ih1.trans ih2
  · intro h
    obtain ⟨b, hb⟩ := b
    simp only at h
    induction h with
    | refl => exact Relation.EqvGen.refl _
    | @tail y z hay hyz ih =>
      have hy : y ∈ V := by
        clear ih hyz hb
        induction hay with
        | refl => exact a.2
        | tail _ h2 ih => exact hclosed _ ih _ h2
      exact Relation.EqvGen.trans _ ⟨y, hy⟩ _ (ih hy) (Relation.EqvGen.rel _ _ hyz)

theorem adj_removeVertex {g : Graph R} (hu : AllUndirected g) (v x y : String) :
    Adj (g.removeVertex v).edges x y ↔ Adj g.edges x y ∧ x ≠ v ∧ y ≠ v := by
  constructor
  · rintro ⟨e, he, hn⟩
    obtain ⟨he1, he2⟩ := List.mem_filter.1 he
    have hne : e.from_ ≠ v ∧ e.to_ ≠ v := by simpa using he2
    refine ⟨⟨e, he1, hn⟩, ?_⟩
    rcases (neighborRule_undirected (hu e he1) x y).1 hn with ⟨h1, h2⟩ | ⟨h1, h2⟩
    · exact ⟨h1 ▸ hne.1, h2 ▸ hne.2⟩
    · exact ⟨h1 ▸ hne.2, h2 ▸ hne.1⟩
  · rintro ⟨⟨e, he, hn⟩, hx, hy⟩
    refine ⟨e, List.mem_filter.2 ⟨he, ?_⟩, hn⟩
    rcases (neighborRule_undirected (hu e he) x y).1 hn with ⟨h1, h2⟩ | ⟨h1, h2⟩
    · simp [h1, h2, hx, hy]
    · simp [h1, h2, hx, hy]

theorem connAvoidV_ne {edges : List (Edge R)} {v a b : String}
    (h : ConnAvoidV edges v a b) (ha : a ≠ v) : b ≠ v := by
  induction h with
  | refl => exact ha
  | tail _ h2 _ => exact h2.2.2

/-- When all neighbours of `v` are connected to each other without `v`, every two
vertices other than `v` that are connected are connected without `v`. -/
theorem reroute_vertex {edges : List (Edge R)} (hu : ∀ e ∈ edges, e.isDirected = false)
    {v : String}
    (hn : ∀ a b, Adj edges v a → Adj edges v b → a ≠ v → b ≠ v → ConnAvoidV edges v a b)
    {a b : String} (ha : a ≠ v) (hb : b ≠ v) (h : Reach edges a b) : ConnAvoidV edges v a b := by
  have key : ∀ x, Reach edges a x →
      (x ≠ v → ConnAvoidV edges v a x) ∧
      (x = v → ∃ n, Adj edges v n ∧ n ≠ v ∧ ConnAvoidV edges v a n) := by
    intro x hx
    induction hx with
    | refl => exact ⟨fun _ => Relation.ReflTransGen.refl, fun e => absurd e ha⟩
    | @tail x y _ hxy ih =>
      by_cases hxv : x = v
      · obtain ⟨n, h1, h2, h3⟩ := ih.2 hxv
        refine ⟨fun hy => ?_, fun _ => ⟨n, h1, h2, h3⟩⟩
        exact h3.trans (hn n y h1 (hxv ▸ hxy) h2 hy)
      · refine ⟨fun hy => (ih.1 hxv).tail ⟨hxy, hxv, hy⟩, fun hy => ?_⟩
        exact ⟨x, adj_symm hu (hy ▸ hxy), hxv, ih.1 hxv⟩
  exact (key b h).1 hb

theorem exists_neighbor_of_not_connAvoidV {edges : List (Edge R)}
    (hu : ∀ e ∈ edges, e.isDirected = false) {v a b : String} (ha : a ≠ v)
    (h : Reach edges a b) (hn : ¬ ConnAvoidV edges v a b) : ∃ n, Adj edges v n ∧ n ≠ v := by
  by_contra hno
  apply hn
  have key : ∀ x, Reach edges a x → ConnAvoidV edges v a x := by
    intro x hx
    induction hx with
    | refl => exact Relation.ReflTransGen.refl
    | @tail x y _ hxy ih =>
      have hxv := connAvoidV_ne ih ha
      by_cases hyv : y = v
      · exact absurd ⟨x, adj_symm hu (hyv ▸ hxy), hxv⟩ hno
      · exact ih.tail ⟨hxy, hxv, hyv⟩
  exact key b h

theorem connAvoidV_reach {edges : List (Edge R)} {v a b : String}
    (h : ConnAvoidV edges v a b) : Reach edges a b :=
  Relation.ReflTransGen.mono (fun _ _ h => h.1) h

/-- Deleting the vertex `v` with its incident edges increases the number of connected
components exactly when `v` separates two of its neighbours. -/
theorem components_removeVertex_iff {g : Graph R} (hu : AllUndirected g)
    (hinv : EndpointsExist g) (v : String) :
    Nat.card (Components g) < Nat.card (Components (g.removeVertex v)) ↔
      IsCutN g.edges v := by
  have hmem : ∀ x, x ∈ mapKeys (g.removeVertex v).vertices → x ∈ mapKeys g.vertices :=
    fun x hx => ((mem_mapKeys_mapDelete _ _ _).1 hx).1
  have hsymm : ∀ x y, Adj g.edges x y → Adj g.edges y x := fun _ _ h => adj_symm hu h
  have hclosed : ∀ x ∈ mapKeys g.vertices, ∀ y, Adj g.edges x y → y ∈ mapKeys g.vertices :=
    fun _ _ _ h => adj_mem_keys hinv h
  have hsymm' : ∀ x y, Adj (g.removeVertex v).edges x y → Adj (g.removeVertex v).edges y x := by
    intro x y h
    rw [adj_removeVertex hu] at h ⊢
    exact ⟨hsymm _ _ h.1, h.2.2, h.2.1⟩
  have hclosed' : ∀ x ∈ mapKeys (g.removeVertex v).vertices, ∀ y,
      Adj (g.removeVertex v).edges x y → y ∈ mapKeys (g.removeVertex v).vertices := by
    intro x _ y h
    rw [adj_removeVertex hu] at h
    exact (mem_mapKeys_mapDelete _ _ _).2 ⟨adj_mem_keys hinv h.1, h.2.2⟩
  have hconn : ∀ a b, Relation.ReflTransGen (Adj (g.removeVertex v).edges) a b ↔
      ConnAvoidV g.edges v a b := by
    intro a b
    constructor
    · exact Relation.ReflTransGen.mono (fun x y h => (adj_removeVertex hu v x y).1 h)
    · exact Relation.ReflTransGen.mono (fun x y h => (adj_removeVertex hu v x y).2 h)
  have hf : ∀ a b : {x : String // x ∈ mapKeys (g.removeVertex v).vertices},
      Adj (g.removeVertex v).edges a.1 b.1 →
      Adj g.edges (⟨a.1, hmem a.1 a.2⟩ : {x : String // x ∈ mapKeys g.vertices}).1
        (⟨b.1, hmem b.1 b.2⟩ : {x : String // x ∈ mapKeys g.vertices}).1 :=
    fun a b h => ((adj_removeVertex hu v a.1 b.1).1 h).1
  have hpair : (∃ a b : {x : String // x ∈ mapKeys (g.removeVertex v).vertices},
      Relation.EqvGen (fun a b : {x : String // x ∈ mapKeys g.vertices} => Adj g.edges a.1 b.1)
        ⟨a.1, hmem a.1 a.2⟩ ⟨b.1, hmem b.1 b.2⟩ ∧
      ¬ Relation.EqvGen (fun a b : {x : String // x ∈ mapKeys (g.removeVertex v).vertices} =>
        Adj (g.removeVertex v).edges a.1 b.1) a b) ↔ IsCutN g.edges v := by
    constructor
    · rintro ⟨a, b, h1, h2⟩
      rw [eqvGen_subtype_iff _ _ hsymm hclosed] at h1
      rw [eqvGen_subtype_iff _ _ hsymm' hclosed', hconn] at h2
      have hav : a.1 ≠ v := ((mem_mapKeys_mapDelete _ _ _).1 a.2).2
      have hbv : b.1 ≠ v := ((mem_mapKeys_mapDelete _ _ _).1 b.2).2
      by_contra hcut
      apply h2
      refine reroute_vertex hu (fun x y hx hy hxv hyv => ?_) hav hbv h1
      by_contra hxy
      exact hcut ⟨x, y, hx, hy, hxv, hyv, hxy⟩
    · rintro ⟨a, b, ha, hb, hav, hbv, hab⟩
      have hak : a ∈ mapKeys (g.removeVertex v).vertices :=
        (mem_mapKeys_mapDelete _ _ _).2 ⟨adj_mem_keys hinv ha, hav⟩
      have hbk : b ∈ mapKeys (g.removeVertex v).vertices :=
        (mem_mapKeys_mapDelete _ _ _).2 ⟨adj_mem_keys hinv hb, hbv⟩
      refine ⟨⟨a, hak⟩, ⟨b, hbk⟩, ?_, ?_⟩
      · rw [eqvGen_subtype_iff _ _ hsymm hclosed]
        exact (Relation.ReflTransGen.single (hsymm _ _ ha)).tail hb
      · rw [eqvGen_subtype_iff _ _ hsymm' hclosed', hconn]
        exact hab
  have hcard := quot_card_lt_iff
    (fun a b : {x : String // x ∈ mapKeys (g.removeVertex v).vertices} =>
      Adj (g.removeVertex v).edges a.1 b.1)
    (fun a b : {x : String // x ∈ mapKeys g.vertices} => Adj g.edges a.1 b.1)
    (fun a => ⟨a.1, hmem a.1 a.2⟩) hf (by
      intro hni
      rw [quot_map_not_injective_iff
        (fun a b : {x : String // x ∈ mapKeys (g.removeVertex v).vertices} =>
          Adj (g.removeVertex v).edges a.1 b.1)
        (fun a b : {x : String // x ∈ mapKeys g.vertices} => Adj g.edges a.1 b.1)
        (fun a => ⟨a.1, hmem a.1 a.2⟩) hf] at hni
      obtain ⟨a, b, ha, hb, hav, hbv, hab⟩ := hpair.1 hni
      obtain ⟨n, hn, hnv⟩ : ∃ n, Adj g.edges v n ∧ n ≠ v := ⟨a, ha, hav⟩
      intro y
      induction y using Quot.ind with | _ y => ?_
      by_cases hyv : y.1 = v
      · refine ⟨Quot.mk _ ⟨n, (mem_mapKeys_mapDelete _ _ _).2 ⟨adj_mem_keys hinv hn, hnv⟩⟩, ?_⟩
        apply Quot.eq.2
        apply Relation.EqvGen.symm
        apply Relation.EqvGen.rel
        show Adj g.edges y.1 n
        rw [hyv]
        exact hn
      · exact ⟨Quot.mk _ ⟨y.1, (mem_mapKeys_mapDelete _ _ _).2 ⟨y.2, hyv⟩⟩, rfl⟩)
  exact hcard.trans ((quot_map_not_injective_iff
    (fun a b : {x : String // x ∈ mapKeys (g.removeVertex v).vertices} =>
      Adj (g.removeVertex v).edges a.1 b.1)
    (fun a b : {x : String // x ∈ mapKeys g.vertices} => Adj g.edges a.1 b.1)
    (fun a => ⟨a.1, hmem a.1 a.2⟩) hf).trans hpair)

theorem noParallel_nodup {g : Graph R} (hp : NoParallel g) : g.edges.Nodup :=
  List.Pairwise.imp (fun {e f} h heq => h (by subst heq; exact Or.inl ⟨rfl, rfl⟩)) hp

theorem mem_eraseIdx_of_nodup {α : Type} {l : List α} (hl : l.Nodup) (i : Nat)
    (hi : i < l.length) (x : α) : x ∈ l.eraseIdx i ↔ x ∈ l ∧ x ≠ l[i] := by
  rw [List.mem_eraseIdx_iff_getElem]
  constructor
  · rintro ⟨j, hj, hne, rfl⟩
    refine ⟨List.getElem_mem _, fun h => hne ?_⟩
    exact (List.Nodup.getElem_inj_iff hl).1 h
  · rintro ⟨hx, hne⟩
    obtain ⟨j, hj, rfl⟩ := List.getElem_of_mem hx
    exact ⟨j, hj, fun h => hne (by subst h; rfl), rfl⟩

theorem adj_removeEdge {g : Graph R} (hp : NoParallel g) (i : Nat) (hi : i < g.edges.length)
    (x y : String) :
    Adj (g.removeEdge i).edges x y ↔ AdjAvoidE g.edges g.edges[i] x y := by
  unfold Adj AdjAvoidE Graph.removeEdge
  simp only [mem_eraseIdx_of_nodup (noParallel_nodup hp) i hi]
  constructor
  · rintro ⟨e, ⟨h1, h2⟩, h3⟩
    exact ⟨e, h1, h2, h3⟩
  · rintro ⟨e, h1, h2, h3⟩
    exact ⟨e, ⟨h1, h2⟩, h3⟩

theorem adjAvoidE_symm {edges : List (Edge R)} (hu : ∀ e ∈ edges, e.isDirected = false)
    {e : Edge R} {x y : String} (h : AdjAvoidE edges e x y) : AdjAvoidE edges e y x := by
  obtain ⟨f, hf, hne, hn⟩ := h
  refine ⟨f, hf, hne, ?_⟩
  rw [neighborRule_undirected (hu f hf)] at hn ⊢
  tauto

theorem connAvoidE_symm {edges : List (Edge R)} (hu : ∀ e ∈ edges, e.isDirected = false)
    {e : Edge R} {x y : String} (h : ConnAvoidE edges e x y) : ConnAvoidE edges e y x :=
  Relation.ReflTransGen.symmetric (fun _ _ h => adjAvoidE_symm hu h) h

/-- When the ends of `e` are connected without `e`, every two connected vertices are
connected without `e`. -/
theorem reroute_edge {edges : List (Edge R)} (hu : ∀ e ∈ edges, e.isDirected = false)
    {e : Edge R} (he : e ∈ edges) (hc : ConnAvoidE edges e e.from_ e.to_) {a b : String}
    (h : Reach edges a b) : ConnAvoidE edges e a b := by
  induction h with
  | refl => exact Relation.ReflTransGen.refl
  | @tail x y _ hxy ih =>
    obtain ⟨f, hf, hn⟩ := hxy
    by_cases hfe : f = e
    · subst hfe
      rcases (neighborRule_undirected (hu f he) x y).1 hn with ⟨h1, h2⟩ | ⟨h1, h2⟩
      · exact ih.trans (h1 ▸ h2 ▸ hc)
      · exact ih.trans (h1 ▸ h2 ▸ connAvoidE_symm hu hc)
    · exact ih.tail ⟨f, hf, hfe, hn⟩

/-- Deleting the edge at place `i` increases the number of connected components exactly
when its ends are not connected without it. -/
theorem components_removeEdge_iff {g : Graph R} (hu : AllUndirected g)
    (hinv : EndpointsExist g) (hp : NoParallel g) (i : Nat) (hi : i < g.edges.length) :
    Nat.card (Components g) < Nat.card (Components (g.removeEdge i)) ↔
      IsBridge g.edges g.edges[i] := by
  have hei : g.edges[i] ∈ g.edges := List.getElem_mem _
  have hsymm : ∀ x y, Adj g.edges x y → Adj g.edges y x := fun _ _ h => adj_symm hu h
  have hclosed : ∀ x ∈ mapKeys g.vertices, ∀ y, Adj g.edges x y → y ∈ mapKeys g.vertices :=
    fun _ _ _ h => adj_mem_keys hinv h
  have hsub : ∀ x y, Adj (g.removeEdge i).edges x y → Adj g.edges x y := by
    intro x y h
    obtain ⟨f, hf, _, hn⟩ := (adj_removeEdge hp i hi x y).1 h
    exact ⟨f, hf, hn⟩
  have hsymm' : ∀ x y, Adj (g.removeEdge i).edges x y → Adj (g.removeEdge i).edges y x := by
    intro x y h
    rw [adj_removeEdge hp i hi] at h ⊢
    exact adjAvoidE_symm hu h
  have hclosed' : ∀ x ∈ mapKeys (g.removeEdge i).vertices, ∀ y,
      Adj (g.removeEdge i).edges x y → y ∈ mapKeys (g.removeEdge i).vertices :=
    fun _ _ _ h => adj_mem_keys hinv (hsub _ _ h)
  have hconn : ∀ a b, Relation.ReflTransGen (Adj (g.removeEdge i).edges) a b ↔
      ConnAvoidE g.edges g.edges[i] a b := by
    intro a b
    constructor
    · exact Relation.ReflTransGen.mono (fun x y h => (adj_removeEdge hp i hi x y).1 h)
    · exact Relation.ReflTransGen.mono (fun x y h => (adj_removeEdge hp i hi x y).2 h)
  have hf : ∀ a b : {x : String // x ∈ mapKeys (g.removeEdge i).vertices},
      Adj (g.removeEdge i).edges a.1 b.1 →
      Adj g.edges (⟨a.1, a.2⟩ : {x : String // x ∈ mapKeys g.vertices}).1
        (⟨b.1, b.2⟩ : {x : String // x ∈ mapKeys g.vertices}).1 :=
    fun a b h => hsub _ _ h
  have hpair : (∃ a b : {x : String // x ∈ mapKeys (g.removeEdge i).vertices},
      Relation.EqvGen (fun a b : {x : String // x ∈ mapKeys g.vertices} => Adj g.edges a.1 b.1)
        ⟨a.1, a.2⟩ ⟨b.1, b.2⟩ ∧
      ¬ Relation.EqvGen (fun a b : {x : String // x ∈ mapKeys (g.removeEdge i).vertices} =>
        Adj (g.removeEdge i).edges a.1 b.1) a b) ↔ IsBridge g.edges g.edges[i] := by
    constructor
    · rintro ⟨a, b, h1, h2⟩
      rw [eqvGen_subtype_iff _ _ hsymm hclosed] at h1
      rw [eqvGen_subtype_iff _ _ hsymm' hclosed', hconn] at h2
      intro hc
      exact h2 (reroute_edge hu hei hc h1)
    · intro hb
      refine ⟨⟨g.edges[i].from_, (hinv _ hei).1⟩, ⟨g.edges[i].to_, (hinv _ hei).2⟩, ?_, ?_⟩
      · rw [eqvGen_subtype_iff _ _ hsymm hclosed]
        exact Relation.ReflTransGen.single ⟨g.edges[i], hei, by simp [neighborRule]⟩
      · rw [eqvGen_subtype_iff _ _ hsymm' hclosed', hconn]
        exact hb
  have hcard := quot_card_lt_iff
    (fun a b : {x : String // x ∈ mapKeys (g.removeEdge i).vertices} =>
      Adj (g.removeEdge i).edges a.1 b.1)
    (fun a b : {x : String // x ∈ mapKeys g.vertices} => Adj g.edges a.1 b.1)
    (fun a => ⟨a.1, a.2⟩) hf (by
      intro _ y
      induction y using Quot.ind with | _ y => ?_
      exact ⟨Quot.mk _ ⟨y.1, y.2⟩, rfl⟩)
  exact hcard.trans ((quot_map_not_injective_iff
    (fun a b : {x : String // x ∈ mapKeys (g.removeEdge i).vertices} =>
      Adj (g.removeEdge i).edges a.1 b.1)
    (fun a b : {x : String // x ∈ mapKeys g.vertices} => Adj g.edges a.1 b.1)
    (fun a => ⟨a.1, a.2⟩) hf).trans hpair)

/-! ## Low-link search: the steps of `dfs` -/

theorem frame_refl (at_ : String) (st : TarjanState) : Frame at_ st st :=
  ⟨fun _ h => h, fun _ _ => rfl, fun _ _ _ => rfl, fun _ h => h, fun _ h => h, le_refl _,
    fun _ h h' => absurd h h'⟩

theorem frame_trans {at_ : String} {st1 st2 st3 : TarjanState}
    (h12 : Frame at_ st1 st2) (h23 : Frame at_ st2 st3) : Frame at_ st1 st3 := by
  refine ⟨fun x h => h23.vis x (h12.vis x h), fun x h => ?_, fun x h hne => ?_,
    fun x h => h23.cut x (h12.cut x h), fun x h => h23.br x (h12.br x h),
    le_trans h12.time h23.time, fun x h h' => ?_⟩
  · rw [h23.ids x (h12.vis x h), h12.ids x h]
  · rw [h23.low x (h12.vis x h) hne, h12.low x h hne]
  · by_cases h2 : x ∈ st2.visited
    · have := h12.new_ids x h2 h'
      unfold idOf at this ⊢
      rw [h23.ids x h2]
      exact this
    · exact le_trans h12.time (h23.new_ids x h h2)

theorem idsGet_tarjanEnter (st : TarjanState) (c x : String) :
    idsGet (tarjanEnter st c) x = if x = c then some st.time else idsGet st x := by
  unfold idsGet tarjanEnter
  by_cases h : x = c
  · subst h
    simp [mapGet_mapSet_self]
  · simp [h, mapGet_mapSet_of_ne _ _ _ _ h]

theorem lowGet_tarjanEnter (st : TarjanState) (c x : String) :
    lowGet (tarjanEnter st c) x = if x = c then some st.time else lowGet st x := by
  unfold lowGet tarjanEnter
  by_cases h : x = c
  · subst h
    simp [mapGet_mapSet_self]
  · simp [h, mapGet_mapSet_of_ne _ _ _ _ h]

theorem mem_visited_tarjanEnter (st : TarjanState) (c x : String) :
    x ∈ (tarjanEnter st c).visited ↔ x ∈ st.visited ∨ x = c := by
  simp [tarjanEnter, mem_setAdd]

theorem tarjanBack_fields (at_ to_ : String) (st : TarjanState) :
    (tarjanBack at_ to_ st).visited = st.visited ∧
    (tarjanBack at_ to_ st).ids = st.ids ∧
    (tarjanBack at_ to_ st).time = st.time ∧
    (tarjanBack at_ to_ st).cutVertices = st.cutVertices ∧
    (tarjanBack at_ to_ st).bridges = st.bridges :=
  ⟨rfl, rfl, rfl, rfl, rfl⟩

theorem lowGet_tarjanBack (at_ to_ : String) (st : TarjanState) (x : String) :
    lowGet (tarjanBack at_ to_ st) x =
      if x = at_ then jsMin (lowGet st at_) (idsGet st to_) else lowGet st x := by
  unfold lowGet tarjanBack
  by_cases h : x = at_
  · subst h
    simp [mapGet_mapSet_self, lowGet]
  · simp [h, mapGet_mapSet_of_ne _ _ _ _ h]

theorem tarjanAfterChild_fields (at_ : String) (parent : Option String) (to_ : String)
    (st : TarjanState) :
    (tarjanAfterChild at_ parent to_ st).visited = st.visited ∧
    (tarjanAfterChild at_ parent to_ st).ids = st.ids ∧
    (tarjanAfterChild at_ parent to_ st).time = st.time := by
  unfold tarjanAfterChild
  simp only
  split <;> split <;> exact ⟨rfl, rfl, rfl⟩

theorem lowGet_tarjanAfterChild (at_ : String) (parent : Option String) (to_ : String)
    (st : TarjanState) (x : String) :
    lowGet (tarjanAfterChild at_ parent to_ st) x =
      if x = at_ then jsMin (lowGet st at_) (lowGet st to_) else lowGet st x := by
  have h : (tarjanAfterChild at_ parent to_ st).low =
      mapSet st.low at_ (jsMin (lowGet st at_) (lowGet st to_)) := by
    unfold tarjanAfterChild
    simp only
    split <;> split <;> rfl
  unfold lowGet
  rw [h]
  by_cases hx : x = at_
  · subst hx
    simp [mapGet_mapSet_self, lowGet]
  · simp [hx, mapGet_mapSet_of_ne _ _ _ _ hx]

/-- The state after the statements that follow the recursive call, when the values read
are defined: the low-link of `at_` becomes the minimum, the pair is pushed to the bridges
when `lc > ia`, and `at_` is added to the cut vertices when it has a parent and
`lc ≥ ia`. -/
theorem tarjanAfterChild_sets (at_ : String) (parent : Option String) (to_ : String)
    (st : TarjanState) (lc ia : Nat) (hne : to_ ≠ at_)
    (hlc : lowGet st to_ = some lc)
    (hia : idsGet st at_ = some ia) :
    (tarjanAfterChild at_ parent to_ st).bridges =
      (if lc > ia then st.bridges ++ [(at_, to_)] else st.bridges) ∧
    (tarjanAfterChild at_ parent to_ st).cutVertices =
      (if parent ≠ none ∧ lc ≥ ia then setAdd st.cutVertices at_ else st.cutVertices) := by
  unfold lowGet at hlc
  unfold idsGet at hia
  unfold tarjanAfterChild lowGet idsGet
  simp only [mapGet_mapSet_of_ne _ _ _ _ hne, hlc, hia, jsGt, jsGe, decide_eq_true_eq]
  by_cases hgt : lc > ia
  · simp only [hgt, if_true, mapGet_mapSet_of_ne _ _ _ _ hne, hlc, hia, decide_eq_true_eq]
    by_cases hp : parent ≠ none ∧ lc ≥ ia
    · simp [hp]
    · simp [hp]
  · simp only [hgt, if_false, mapGet_mapSet_of_ne _ _ _ _ hne, hlc, hia, decide_eq_true_eq]
    by_cases hp : parent ≠ none ∧ lc ≥ ia
    · simp [hp]
    · simp [hp]

/-! ### Paths inside vertex sets -/

theorem connIn_mono {edges : List (Edge R)} {S T : String → Prop} (h : ∀ x, S x → T x)
    {a b : String} (hab : ConnIn edges S a b) : ConnIn edges T a b :=
  Relation.ReflTransGen.mono (fun _ _ hxy => ⟨hxy.1, h _ hxy.2.1, h _ hxy.2.2⟩) hab

theorem connIn_symm {edges : List (Edge R)} (hu : ∀ e ∈ edges, e.isDirected = false)
    {S : String → Prop} {a b : String} (hab : ConnIn edges S a b) : ConnIn edges S b a :=
  Relation.ReflTransGen.symmetric (fun _ _ hxy => ⟨adj_symm hu hxy.1, hxy.2.2, hxy.2.1⟩) hab

theorem connIn_avoidV {edges : List (Edge R)} {S : String → Prop} {v a b : String}
    (hv : ¬ S v) (hab : ConnIn edges S a b) : ConnAvoidV edges v a b :=
  Relation.ReflTransGen.mono
    (fun _ _ hxy => ⟨hxy.1, fun e => hv (e ▸ hxy.2.1), fun e => hv (e ▸ hxy.2.2)⟩) hab

theorem connIn_avoidE {edges : List (Edge R)} (hu : ∀ e ∈ edges, e.isDirected = false)
    {S : String → Prop} {e : Edge R} {a b : String}
    (he : ¬ (S e.from_ ∧ S e.to_)) (hab : ConnIn edges S a b) : ConnAvoidE edges e a b := by
  refine Relation.ReflTransGen.mono (fun x y hxy => ?_) hab
  obtain ⟨⟨f, hf, hn⟩, hx, hy⟩ := hxy
  refine ⟨f, hf, fun hfe => he ?_, hn⟩
  subst hfe
  rcases (neighborRule_undirected (hu f hf) x y).1 hn with ⟨h1, h2⟩ | ⟨h1, h2⟩
  · exact ⟨h1 ▸ hx, h2 ▸ hy⟩
  · exact ⟨h2 ▸ hy, h1 ▸ hx⟩

theorem connAvoidV_closed {edges : List (Edge R)} {v : String} (T : String → Prop)
    (hT : ∀ x, T x → ∀ y, Adj edges x y → y ≠ v → T y) {a b : String} (ha : T a)
    (hab : ConnAvoidV edges v a b) : T b := by
  induction hab with
  | refl => exact ha
  | tail _ hxy ih => exact hT _ ih _ hxy.1 hxy.2.2

theorem connAvoidE_closed {edges : List (Edge R)} {e : Edge R} (T : String → Prop)
    (hT : ∀ x, T x → ∀ y, AdjAvoidE edges e x y → T y) {a b : String} (ha : T a)
    (hab : ConnAvoidE edges e a b) : T b := by
  induction hab with
  | refl => exact ha
  | tail _ hxy ih => exact hT _ ih _ hxy

theorem connAvoidV_symm {edges : List (Edge R)} (hu : ∀ e ∈ edges, e.isDirected = false)
    {v a b : String} (hab : ConnAvoidV edges v a b) : ConnAvoidV edges v b a :=
  Relation.ReflTransGen.symmetric (fun _ _ hxy => ⟨adj_symm hu hxy.1, hxy.2.2, hxy.2.1⟩) hab

/-- The entries of a list in which each entry is adjacent to the next are connected
inside the list. -/
theorem chain_connIn {edges : List (Edge R)} (l : List String) :
    ∀ x, (x :: l).Chain' (fun a b => Adj edges a b) →
      ∀ b ∈ x :: l, ConnIn edges (fun y => y ∈ x :: l) x b := by
  induction l with
  | nil =>
    intro x _ b hb
    rw [List.mem_singleton] at hb
    subst hb
    exact Relation.ReflTransGen.refl
  | cons y l ih =>
    intro x hc b hb
    rw [List.chain'_cons] at hc
    rcases List.mem_cons.1 hb with rfl | hb
    · exact Relation.ReflTransGen.refl
    · have h1 : ConnIn edges (fun z => z ∈ x :: y :: l) y b :=
        connIn_mono (fun z hz => List.mem_cons_of_mem _ hz) (ih y hc.2 b hb)
      exact Relation.ReflTransGen.head ⟨hc.1, by simp, by simp⟩ h1

theorem chain_connIn_all {edges : List (Edge R)} (hu : ∀ e ∈ edges, e.isDirected = false)
    (l : List String) (hc : l.Chain' (fun a b => Adj edges a b)) :
    ∀ a ∈ l, ∀ b ∈ l, ConnIn edges (fun y => y ∈ l) a b := by
  cases l with
  | nil => intro a ha; simp at ha
  | cons x l =>
    intro a ha b hb
    exact (connIn_symm hu (chain_connIn l x hc a ha)).trans (chain_connIn l x hc b hb)

/-- A vertex visited before the call that is adjacent to a vertex visited during the call
is on the stack. -/
theorem old_neighbor_on_stack {g : Graph R} (hu : AllUndirected g) {at_ : String}
    {parent : Option String} {σ old : List String} {done rest : List (Edge R)}
    {st : TarjanState} (h : LocA g at_ parent σ old done rest st) {x w : String}
    (hx : x ∉ old) (hw : w ∈ old) (hxw : Adj g.edges x w) : w ∈ σ := by
  by_contra hσ
  exact hx (h.entry_closed w hw hσ x (adj_symm hu hxw))

theorem idOf_congr {st st' : TarjanState} (h : st'.ids = st.ids) (x : String) :
    idOf st' x = idOf st x := by
  unfold idOf idsGet
  rw [h]

theorem invA_congr {g : Graph R} {stk : List String} {st st' : TarjanState}
    (hv : st'.visited = st.visited) (hi : st'.ids = st.ids) (ht : st'.time = st.time)
    (hl : ∀ x ∈ st.visited, ∃ l, lowGet st' x = some l) (h : InvA g stk st) :
    InvA g stk st' := by
  have hid : ∀ x, idOf st' x = idOf st x := idOf_congr hi
  refine ⟨?_, ?_, ?_, ?_, ?_, h.stk_chain, ?_⟩
  · rw [hv]; exact h.vis_sub
  · rw [hv, ht]
    intro x hx
    unfold idsGet
    rw [hi]
    exact h.ids_def x hx
  · rw [hv]; exact hl
  · rw [hv]; exact h.stk_sub
  · exact h.stk_sorted.imp (fun {a b} hab => by rw [hid, hid]; exact hab)
  · rw [hv]; exact h.closed

theorem locA_congr {g : Graph R} {at_ : String} {parent : Option String}
    {σ old : List String} {done rest : List (Edge R)} {st st' : TarjanState}
    (hv : st'.visited = st.visited) (hi : st'.ids = st.ids)
    (h : LocA g at_ parent σ old done rest st) : LocA g at_ parent σ old done rest st' := by
  have hid : ∀ x, idOf st' x = idOf st x := idOf_congr hi
  refine ⟨h.hpar, h.split, ?_, h.at_new, ?_, h.stk_old, h.entry_closed, ?_, ?_, ?_⟩
  · rw [hv]; exact h.at_vis
  · rw [hv]; exact h.old_sub
  · rw [hv]; intro x hx hxo; rw [hid, hid]; exact h.ids_ge x hx hxo
  · rw [hv]; exact h.done_vis
  · rw [hv]; exact h.te

/-- The loop passes an edge whose neighbour, if any, is visited. -/
theorem locA_advance {g : Graph R} {at_ : String} {parent : Option String}
    {σ old : List String} {done : List (Edge R)} {e : Edge R} {es : List (Edge R)}
    {st : TarjanState} (h : LocA g at_ parent σ old done (e :: es) st)
    (he : ∀ w, neighborRule at_ e = some w → w ∈ st.visited) :
    LocA g at_ parent σ old (done ++ [e]) es st := by
  refine ⟨h.hpar, by rw [h.split]; simp, h.at_vis, h.at_new, h.old_sub, h.stk_old,
    h.entry_closed, h.ids_ge, ?_, ?_⟩
  · intro f hf w hw
    rcases List.mem_append.1 hf with hf | hf
    · exact h.done_vis f hf w hw
    · rw [List.mem_singleton] at hf
      subst hf
      exact he w hw
  · intro x hx hxo hxa
    obtain ⟨f, hf, c, hc⟩ := h.te x hx hxo hxa
    exact ⟨f, List.mem_append_left _ hf, c, hc⟩

theorem frame_tarjanEnter (at_ : String) (st : TarjanState) (c : String)
    (hc : c ∉ st.visited) : Frame at_ st (tarjanEnter st c) := by
  refine ⟨fun x h => (mem_visited_tarjanEnter st c x).2 (Or.inl h), fun x h => ?_,
    fun x h _ => ?_, fun _ h => h, fun _ h => h, Nat.le_succ _, fun x h h' => ?_⟩
  · have : x ≠ c := fun e => hc (e ▸ h)
    rw [idsGet_tarjanEnter, if_neg this]
  · have : x ≠ c := fun e => hc (e ▸ h)
    rw [lowGet_tarjanEnter, if_neg this]
  · have : x = c := by
      rcases (mem_visited_tarjanEnter st c x).1 h with h | h
      · exact absurd h h'
      · exact h
    subst this
    unfold idOf
    rw [idsGet_tarjanEnter, if_pos rfl]
    exact le_refl _

theorem idOf_tarjanEnter_self (st : TarjanState) (c : String) :
    idOf (tarjanEnter st c) c = st.time := by
  unfold idOf
  rw [idsGet_tarjanEnter, if_pos rfl]
  rfl

theorem idOf_tarjanEnter_of_ne (st : TarjanState) (c x : String) (h : x ≠ c) :
    idOf (tarjanEnter st c) x = idOf st x := by
  unfold idOf
  rw [idsGet_tarjanEnter, if_neg h]

theorem idOf_lt_time {g : Graph R} {stk : List String} {st : TarjanState}
    (h : InvA g stk st) {x : String} (hx : x ∈ st.visited) : idOf st x < st.time := by
  obtain ⟨t, ht, hlt⟩ := h.ids_def x hx
  unfold idOf
  rw [ht]
  exact hlt

/-- Entering a call: the invariant for the longer stack and the facts of the new call. -/
theorem child_pre_A {g : Graph R} {stk : List String} {st : TarjanState} {w : String}
    (h : InvA g stk st) (hw : w ∉ st.visited) (hk : w ∈ mapKeys g.vertices)
    (hadj : ∀ p, stk.head? = some p → Adj g.edges w p) :
    InvA g (w :: stk) (tarjanEnter st w) ∧
    LocA g w stk.head? stk st.visited [] g.edges (tarjanEnter st w) := by
  have hne : ∀ x ∈ st.visited, x ≠ w := fun x hx e => hw (e ▸ hx)
  constructor
  · refine ⟨?_, ?_, ?_, ?_, ?_, ?_, ?_⟩
    · intro x hx
      rcases (mem_visited_tarjanEnter st w x).1 hx with hx | hx
      · exact h.vis_sub x hx
      · exact hx ▸ hk
    · intro x hx
      rw [idsGet_tarjanEnter]
      by_cases hxw : x = w
      · rw [if_pos hxw]
        exact ⟨st.time, rfl, Nat.lt_succ_self _⟩
      · rw [if_neg hxw]
        rcases (mem_visited_tarjanEnter st w x).1 hx with hx | hx
        · obtain ⟨t, ht, hlt⟩ := h.ids_def x hx
          exact ⟨t, ht, Nat.lt_succ_of_lt hlt⟩
        · exact absurd hx hxw
    · intro x hx
      rw [lowGet_tarjanEnter]
      by_cases hxw : x = w
      · rw [if_pos hxw]
        exact ⟨_, rfl⟩
      · rw [if_neg hxw]
        rcases (mem_visited_tarjanEnter st w x).1 hx with hx | hx
        · exact h.low_def x hx
        · exact absurd hx hxw
    · intro x hx
      rcases List.mem_cons.1 hx with hx | hx
      · exact (mem_visited_tarjanEnter st w x).2 (Or.inr hx)
      · exact (mem_visited_tarjanEnter st w x).2 (Or.inl (h.stk_sub x hx))
    · rw [List.pairwise_cons]
      constructor
      · intro x hx
        have hxv := h.stk_sub x hx
        rw [idOf_tarjanEnter_self, idOf_tarjanEnter_of_ne _ _ _ (hne x hxv)]
        exact idOf_lt_time h hxv
      · refine List.Pairwise.imp_of_mem (fun {a b} ha hb hab => ?_) h.stk_sorted
        rw [idOf_tarjanEnter_of_ne _ _ _ (hne a (h.stk_sub a ha)),
          idOf_tarjanEnter_of_ne _ _ _ (hne b (h.stk_sub b hb))]
        exact hab
    · cases stk with
      | nil => exact List.chain'_singleton _
      | cons p stk =>
        rw [List.chain'_cons]
        exact ⟨hadj p rfl, h.stk_chain⟩
    · intro x hx hxs y hy
      have hxw : x ≠ w := fun e => hxs (by simp [e])
      have hxv : x ∈ st.visited := by
        rcases (mem_visited_tarjanEnter st w x).1 hx with hx | hx
        · exact hx
        · exact absurd hx hxw
      exact (mem_visited_tarjanEnter st w y).2
        (Or.inl (h.closed x hxv (fun hs => hxs (List.mem_cons_of_mem _ hs)) y hy))
  · refine ⟨rfl, rfl, (mem_visited_tarjanEnter st w w).2 (Or.inr rfl), hw,
      fun x hx => (mem_visited_tarjanEnter st w x).2 (Or.inl hx), h.stk_sub, h.closed, ?_,
      fun e he => by simp at he, ?_⟩
    · intro x hx hxo
      rcases (mem_visited_tarjanEnter st w x).1 hx with hx | hx
      · exact absurd hx hxo
      · rw [hx]
    · intro x hx hxo hxw
      rcases (mem_visited_tarjanEnter st w x).1 hx with hx | hx
      · exact absurd hx hxo
      · exact absurd hx hxw

/-- After a child call has returned: the facts of the parent call, in any state that has
the visited set, the discovery times and the clock of the returned state. -/
theorem child_post_A {g : Graph R} {at_ : String} {parent : Option String}
    {σ old : List String} {done : List (Edge R)} {e : Edge R} {es : List (Edge R)}
    {st st1 st4 : TarjanState} {w : String}
    (hA : InvA g (at_ :: σ) st) (hL : LocA g at_ parent σ old done (e :: es) st)
    (hw : w ∉ st.visited) (hn : neighborRule at_ e = some w)
    (hP : PostA g w (at_ :: σ) st.visited st1) (hF : Frame w (tarjanEnter st w) st1)
    (hv : st4.visited = st1.visited) (hi : st4.ids = st1.ids) (ht : st4.time = st1.time)
    (hl : ∀ x ∈ st1.visited, ∃ l, lowGet st4 x = some l) :
    InvA g (at_ :: σ) st4 ∧ LocA g at_ parent σ old (done ++ [e]) es st4 := by
  have hF0 : Frame w st st1 := frame_trans (frame_tarjanEnter w st w hw) hF
  refine ⟨invA_congr hv hi ht hl hP.inv, locA_congr hv hi ?_⟩
  have hid : ∀ x ∈ st.visited, idOf st1 x = idOf st x := by
    intro x hx
    unfold idOf
    rw [hF0.ids x hx]
  refine ⟨hL.hpar, by rw [hL.split]; simp, hF0.vis _ hL.at_vis, hL.at_new,
    fun x hx => hF0.vis x (hL.old_sub x hx), hL.stk_old, hL.entry_closed, ?_, ?_, ?_⟩
  · intro x hx hxo
    rw [hid at_ hL.at_vis]
    by_cases hxv : x ∈ st.visited
    · rw [hid x hxv]
      exact hL.ids_ge x hxv hxo
    · exact le_trans (le_of_lt (idOf_lt_time hA hL.at_vis)) (hF0.new_ids x hx hxv)
  · intro f hf y hy
    rcases List.mem_append.1 hf with hf | hf
    · exact hF0.vis y (hL.done_vis f hf y hy)
    · rw [List.mem_singleton] at hf
      subst hf
      rw [hn] at hy
      cases hy
      exact hP.at_vis
  · intro x hx hxo hxa
    have hmono : ∀ y, (y ∈ st.visited ∧ y ∉ old ∧ y ≠ at_) →
        (y ∈ st1.visited ∧ y ∉ old ∧ y ≠ at_) := fun y hy => ⟨hF0.vis y hy.1, hy.2⟩
    by_cases hxv : x ∈ st.visited
    · obtain ⟨f, hf, c, h1, h2, h3, h4, h5⟩ := hL.te x hxv hxo hxa
      exact ⟨f, List.mem_append_left _ hf, c, h1, hF0.vis c h2, h3, h4, connIn_mono hmono h5⟩
    · refine ⟨e, by simp, w, hn, hP.at_vis, fun ho => hw (hL.old_sub w ho),
        fun ea => hw (ea ▸ hL.at_vis), ?_⟩
      refine connIn_mono (fun y hy => ⟨hy.1, fun ho => hy.2 (hL.old_sub y ho), fun ea => ?_⟩)
        (hP.conn x hx hxv)
      exact hy.2 (ea ▸ hL.at_vis)

/-- When the loop of `dfs(at_, parent)` has passed every edge, the structural facts of
the return hold. -/
theorem exit_A {g : Graph R} {at_ : String} {parent : Option String}
    {σ old : List String} {st st' : TarjanState}
    (hA : InvA g (at_ :: σ) st) (hL : LocA g at_ parent σ old g.edges [] st)
    (hv : st'.visited = st.visited) (hi : st'.ids = st.ids) (ht : st'.time = st.time)
    (hl : ∀ x ∈ st.visited, ∃ l, lowGet st' x = some l) :
    PostA g at_ σ old st' := by
  have hid : ∀ x, idOf st' x = idOf st x := idOf_congr hi
  have hA' : InvA g σ st := by
    refine ⟨hA.vis_sub, hA.ids_def, hA.low_def, fun x hx => hA.stk_sub x (List.mem_cons_of_mem _ hx),
      (List.pairwise_cons.1 hA.stk_sorted).2, hA.stk_chain.tail, ?_⟩
    intro x hx hxs y hy
    by_cases hxa : x = at_
    · subst hxa
      obtain ⟨e, he, hn⟩ := hy
      exact hL.done_vis e he y hn
    · exact hA.closed x hx (fun hs => by
        rcases List.mem_cons.1 hs with hs | hs
        · exact hxa hs
        · exact hxs hs) y hy
  refine ⟨invA_congr hv hi ht hl hA', by rw [hv]; exact hL.at_vis, hL.at_new,
    by rw [hv]; exact hL.old_sub, ?_, ?_⟩
  · rw [hv]
    intro x hx hxo
    rw [hid, hid]
    exact hL.ids_ge x hx hxo
  · rw [hv]
    intro x hx hxo
    by_cases hxa : x = at_
    · subst hxa
      exact Relation.ReflTransGen.refl
    · obtain ⟨f, hf, c, h1, h2, h3, h4, h5⟩ := hL.te x hx hxo hxa
      have hstep : ConnIn g.edges (fun y => y ∈ st.visited ∧ y ∉ old) at_ c :=
        Relation.ReflTransGen.single ⟨⟨f, hf, h1⟩, ⟨hL.at_vis, hL.at_new⟩, ⟨h2, h3⟩⟩
      exact hstep.trans (connIn_mono (fun y hy => ⟨hy.1, hy.2.1⟩) h5)

/-! ### The low-link value -/

theorem lowOf_congr {st st' : TarjanState} {x : String} (h : lowGet st' x = lowGet st x) :
    lowOf st' x = lowOf st x := by
  unfold lowOf
  rw [h]

theorem locLow_congr {g : Graph R} {at_ : String} {parent : Option String}
    {old : List String} {done : List (Edge R)} {st st' : TarjanState}
    (hv : st'.visited = st.visited) (hi : st'.ids = st.ids)
    (hl : lowGet st' at_ = lowGet st at_)
    (h : LocLow g at_ parent old done st) : LocLow g at_ parent old done st' := by
  have hid : ∀ x, idOf st' x = idOf st x := idOf_congr hi
  have hlo : lowOf st' at_ = lowOf st at_ := lowOf_congr hl
  refine ⟨?_, ?_, ?_, ?_⟩
  · rw [hlo, hid]; exact h.low_le
  · rw [hv, hlo]
    intro x hx hxo hxa w hw hxw
    rw [hid]
    exact h.low_lb x hx hxo hxa w hw hxw
  · rw [hlo]
    intro e he w hn hw hp
    rw [hid]
    exact h.low_lb_at e he w hn hw hp
  · rw [hv, hlo, hid]
    rcases h.low_ach with h1 | ⟨x, w, h1, h2, h3, h4, h5, h6⟩
    · exact Or.inl h1
    · exact Or.inr ⟨x, w, h1, h2, h3, h4, h5, by rw [hid]; exact h6⟩

/-- The loop passes an edge without changing the state. -/
theorem locLow_advance {g : Graph R} {at_ : String} {parent : Option String}
    {old : List String} {done : List (Edge R)} {e : Edge R} {st : TarjanState}
    (h : LocLow g at_ parent old done st)
    (he : ∀ w, neighborRule at_ e = some w → w ∈ old → some w ≠ parent →
      lowOf st at_ ≤ idOf st w) :
    LocLow g at_ parent old (done ++ [e]) st := by
  refine ⟨h.low_le, h.low_lb, ?_, h.low_ach⟩
  intro f hf w hn hw hp
  rcases List.mem_append.1 hf with hf | hf
  · exact h.low_lb_at f hf w hn hw hp
  · rw [List.mem_singleton] at hf
    subst hf
    exact he w hn hw hp

/-- The low-link of a vertex that has just been entered. -/
theorem locLow_enter {g : Graph R} (st : TarjanState) (w : String)
    (parent : Option String) :
    LocLow g w parent st.visited [] (tarjanEnter st w) := by
  have h1 : lowOf (tarjanEnter st w) w = st.time := by
    unfold lowOf
    rw [lowGet_tarjanEnter, if_pos rfl]
    rfl
  refine ⟨by rw [h1, idOf_tarjanEnter_self], ?_, fun e he => by simp at he,
    Or.inl (by rw [h1, idOf_tarjanEnter_self])⟩
  intro x hx hxo hxw
  rcases (mem_visited_tarjanEnter st w x).1 hx with hx | hx
  · exact absurd hx hxo
  · exact absurd hx hxw

/-- The back-edge branch: the low-link of `at_` becomes the minimum with the discovery
time of the visited neighbour. -/
theorem locLow_back {g : Graph R} {at_ : String} {parent : Option String}
    {σ old : List String} {done : List (Edge R)} {e : Edge R} {es : List (Edge R)}
    {st : TarjanState} {w : String}
    (hA : InvA g (at_ :: σ) st) (hL : LocA g at_ parent σ old done (e :: es) st)
    (hLow : LocLow g at_ parent old done st)
    (hn : neighborRule at_ e = some w) (hwv : w ∈ st.visited) (hwp : some w ≠ parent)
    (he : e ∈ g.edges) :
    LocLow g at_ parent old (done ++ [e]) (tarjanBack at_ w st) ∧
    lowOf (tarjanBack at_ w st) at_ = min (lowOf st at_) (idOf st w) ∧
    ∀ x ∈ st.visited, ∃ l, lowGet (tarjanBack at_ w st) x = some l := by
  obtain ⟨la, hla⟩ := hA.low_def at_ hL.at_vis
  obtain ⟨tw, htw, _⟩ := hA.ids_def w hwv
  have hlow : lowOf (tarjanBack at_ w st) at_ = min (lowOf st at_) (idOf st w) := by
    unfold lowOf idOf
    rw [lowGet_tarjanBack, if_pos rfl, hla, htw]
    rfl
  have hid : ∀ x, idOf (tarjanBack at_ w st) x = idOf st x := fun x => rfl
  have hdef : ∀ x ∈ st.visited, ∃ l, lowGet (tarjanBack at_ w st) x = some l := by
    intro x hx
    rw [lowGet_tarjanBack]
    by_cases hxa : x = at_
    · rw [if_pos hxa, hla, htw]
      exact ⟨_, rfl⟩
    · rw [if_neg hxa]
      exact hA.low_def x hx
  refine ⟨⟨?_, ?_, ?_, ?_⟩, hlow, hdef⟩
  · rw [hlow, hid]
    exact le_trans (min_le_left _ _) hLow.low_le
  · intro x hx hxo hxa y hy hxy
    rw [hlow, hid]
    exact le_trans (min_le_left _ _) (hLow.low_lb x hx hxo hxa y hy hxy)
  · intro f hf y hny hy hp
    rw [hlow, hid]
    rcases List.mem_append.1 hf with hf | hf
    · exact le_trans (min_le_left _ _) (hLow.low_lb_at f hf y hny hy hp)
    · rw [List.mem_singleton] at hf
      subst hf
      rw [hn] at hny
      cases hny
      exact min_le_right _ _
  · rw [hlow, hid]
    by_cases hle : lowOf st at_ ≤ idOf st w
    · rw [min_eq_left hle]
      exact hLow.low_ach
    · rw [min_eq_right (le_of_lt (not_le.1 hle))]
      right
      have hwo : w ∈ old := by
        by_contra hwo
        have h1 := hL.ids_ge w hwv hwo
        have h2 := hLow.low_le
        omega
      exact ⟨at_, w, hL.at_vis, hL.at_new, hwo, ⟨e, he, hn⟩, fun h => hwp h.2, rfl⟩

/-- After a child call: the low-link of `at_` becomes the minimum with the low-link of the
child. -/
theorem locLow_child_post {g : Graph R} {at_ : String} {parent : Option String}
    {σ old : List String} {done : List (Edge R)} {e : Edge R} {es : List (Edge R)}
    {st st1 : TarjanState} {w : String}
    (hA : InvA g (at_ :: σ) st) (hL : LocA g at_ parent σ old done (e :: es) st)
    (hLow : LocLow g at_ parent old done st)
    (hw : w ∉ st.visited) (hn : neighborRule at_ e = some w)
    (hP : PostA g w (at_ :: σ) st.visited st1)
    (hPL : PostLow g w (some at_) st.visited st1)
    (hF : Frame w (tarjanEnter st w) st1) :
    LocLow g at_ parent old (done ++ [e]) (tarjanAfterChild at_ parent w st1) ∧
    lowOf (tarjanAfterChild at_ parent w st1) at_ = min (lowOf st at_) (lowOf st1 w) ∧
    (∀ x ∈ st1.visited, ∃ l, lowGet (tarjanAfterChild at_ parent w st1) x = some l) ∧
    lowOf st1 at_ = lowOf st at_ ∧ idOf st1 at_ = idOf st at_ ∧ idOf st at_ < idOf st1 w := by
  have hF0 : Frame w st st1 := frame_trans (frame_tarjanEnter w st w hw) hF
  have hwa : at_ ≠ w := fun e => hw (e ▸ hL.at_vis)
  have hid : ∀ x ∈ st.visited, idOf st1 x = idOf st x := by
    intro x hx
    unfold idOf
    rw [hF0.ids x hx]
  have hlat : lowGet st1 at_ = lowGet st at_ := hF0.low at_ hL.at_vis hwa
  have hlo1 : lowOf st1 at_ = lowOf st at_ := lowOf_congr hlat
  obtain ⟨la, hla⟩ := hA.low_def at_ hL.at_vis
  obtain ⟨lw, hlw⟩ := hP.inv.low_def w hP.at_vis
  have hidw : idOf st1 w = st.time := by
    have : idsGet st1 w = idsGet (tarjanEnter st w) w :=
      hF.ids w ((mem_visited_tarjanEnter st w w).2 (Or.inr rfl))
    unfold idOf
    rw [this, idsGet_tarjanEnter, if_pos rfl]
    rfl
  have hidlt : idOf st at_ < idOf st1 w := by
    rw [hidw]
    exact idOf_lt_time hA hL.at_vis
  have hlow : lowOf (tarjanAfterChild at_ parent w st1) at_ =
      min (lowOf st at_) (lowOf st1 w) := by
    unfold lowOf
    rw [lowGet_tarjanAfterChild, if_pos rfl, hlat, hla, hlw]
    rfl
  obtain ⟨hv4, hi4, _⟩ := tarjanAfterChild_fields at_ parent w st1
  have hid4 : ∀ x, idOf (tarjanAfterChild at_ parent w st1) x = idOf st1 x := idOf_congr hi4
  have hdef : ∀ x ∈ st1.visited, ∃ l, lowGet (tarjanAfterChild at_ parent w st1) x = some l := by
    intro x hx
    rw [lowGet_tarjanAfterChild]
    by_cases hxa : x = at_
    · rw [if_pos hxa, hlat, hla, hlw]
      exact ⟨_, rfl⟩
    · rw [if_neg hxa]
      exact hP.inv.low_def x hx
  refine ⟨⟨?_, ?_, ?_, ?_⟩, hlow, hdef, hlo1, hid at_ hL.at_vis, hidlt⟩
  · rw [hlow, hid4, hid at_ hL.at_vis]
    exact le_trans (min_le_left _ _) hLow.low_le
  · rw [hv4]
    intro x hx hxo hxa y hy hxy
    rw [hlow, hid4, hid y (hL.old_sub y hy)]
    by_cases hxv : x ∈ st.visited
    · exact le_trans (min_le_left _ _) (hLow.low_lb x hxv hxo hxa y hy hxy)
    · refine le_trans (min_le_right _ _) ?_
      have := hPL.low_lb x hx hxv y (hL.old_sub y hy) hxy (fun h => by
        have hya : y = at_ := Option.some.inj h.2
        exact hL.at_new (hya ▸ hy))
      rw [hid y (hL.old_sub y hy)] at this
      exact this
  · intro f hf y hny hy hp
    rw [hlow, hid4, hid y (hL.old_sub y hy)]
    rcases List.mem_append.1 hf with hf | hf
    · exact le_trans (min_le_left _ _) (hLow.low_lb_at f hf y hny hy hp)
    · rw [List.mem_singleton] at hf
      subst hf
      rw [hn] at hny
      cases hny
      exact absurd (hL.old_sub _ hy) hw
  · rw [hv4, hlow, hid4, hid at_ hL.at_vis]
    by_cases hle : lowOf st at_ ≤ lowOf st1 w
    · rw [min_eq_left hle]
      rcases hLow.low_ach with h1 | ⟨x, y, h1, h2, h3, h4, h5, h6⟩
      · exact Or.inl h1
      · exact Or.inr ⟨x, y, hF0.vis x h1, h2, h3, h4, h5, by
          rw [hid4, hid y (hL.old_sub y h3)]; exact h6⟩
    · rw [min_eq_right (le_of_lt (not_le.1 hle))]
      right
      have hlt : lowOf st1 w < idOf st at_ := lt_of_lt_of_le (not_le.1 hle) hLow.low_le
      rcases hPL.low_ach with h1 | ⟨x, y, h1, h2, h3, h4, h5, h6⟩
      · omega
      · have hyo : y ∈ old := by
          by_contra hyo
          have := hL.ids_ge y h3 hyo
          rw [← hid y h3] at this
          omega
        exact ⟨x, y, h1, fun ho => h2 (hL.old_sub x ho), hyo, h4,
          fun h => h2 (h.1 ▸ hL.at_vis), by rw [hid4]; exact h6⟩

/-- When the loop has passed every edge, the low-link facts of the return hold. -/
theorem exit_low {g : Graph R} {at_ : String} {parent : Option String}
    {old : List String} {st : TarjanState}
    (hLow : LocLow g at_ parent old g.edges st) :
    PostLow g at_ parent old st := by
  refine ⟨hLow.low_le, ?_, hLow.low_ach⟩
  intro x hx hxo y hy hxy hne
  by_cases hxa : x = at_
  · subst hxa
    obtain ⟨e, he, hn⟩ := hxy
    exact hLow.low_lb_at e he y hn hy (fun h => hne ⟨rfl, h⟩)
  · exact hLow.low_lb x hx hxo hxa y hy hxy

/-! ### Cut vertices -/

theorem invCut_congr {g : Graph R} {stk : List String} {st st' : TarjanState}
    (hv : st'.visited = st.visited) (hc : st'.cutVertices = st.cutVertices)
    (h : InvCut g stk st) : InvCut g stk st' :=
  ⟨by rw [hc]; exact h.sound, by rw [hv, hc]; exact h.complete⟩

theorem locCut_congr {g : Graph R} {at_ : String} {parent : Option String}
    {old : List String} {children : Nat} {st st' : TarjanState}
    (hv : st'.visited = st.visited) (hc : st'.cutVertices = st.cutVertices)
    (h : LocCut g at_ parent old children st) : LocCut g at_ parent old children st' := by
  unfold LocCut at h ⊢
  rw [hv, hc]
  exact h

theorem invCut_enter {g : Graph R} {stk : List String} {st : TarjanState} (w : String)
    (h : InvCut g stk st) : InvCut g (w :: stk) (tarjanEnter st w) := by
  refine ⟨h.sound, ?_⟩
  intro x hx hxs hcut
  have hxw : x ≠ w := fun e => hxs (by simp [e])
  rcases (mem_visited_tarjanEnter st w x).1 hx with hx | hx
  · exact h.complete x hx (fun hs => hxs (List.mem_cons_of_mem _ hs)) hcut
  · exact absurd hx hxw

theorem locCut_enter {g : Graph R} (st : TarjanState) (w : String) (parent : Option String) :
    LocCut g w parent st.visited 0 (tarjanEnter st w) := by
  have key : ∀ x ∈ (tarjanEnter st w).visited, x ∉ st.visited → x = w := by
    intro x hx hxo
    rcases (mem_visited_tarjanEnter st w x).1 hx with hx | hx
    · exact absurd hx hxo
    · exact hx
  unfold LocCut
  cases parent with
  | some pp =>
    right
    intro x hx hxo hxw
    exact absurd (key x hx hxo) hxw
  | none =>
    refine ⟨fun _ => key, fun h => absurd h (by omega), ?_, fun h => absurd h (by omega)⟩
    intro _ x hx hxo hxw
    exact absurd (key x hx hxo) hxw

/-- A visited vertex that is adjacent to an unvisited one is on the stack. -/
theorem visited_neighbor_on_stack {g : Graph R} (hu : AllUndirected g) {stk : List String}
    {st : TarjanState} (hA : InvA g stk st) {x y : String} (hx : x ∉ st.visited)
    (hy : y ∈ st.visited) (hxy : Adj g.edges x y) : y ∈ stk := by
  by_contra hs
  exact hx (hA.closed y hy hs x (adj_symm hu hxy))

theorem stack_below_lt {g : Graph R} {at_ : String} {σ : List String} {st : TarjanState}
    (hA : InvA g (at_ :: σ) st) {y : String} (hy : y ∈ σ) : idOf st y < idOf st at_ :=
  (List.pairwise_cons.1 hA.stk_sorted).1 y hy

theorem at_not_mem_stack {g : Graph R} {at_ : String} {σ : List String} {st : TarjanState}
    (hA : InvA g (at_ :: σ) st) : at_ ∉ σ := fun h =>
  absurd (stack_below_lt hA h) (lt_irrefl _)

/-- The old neighbours of the vertices visited during a child call: each is on the stack,
and unless it is `at_` its discovery time is below that of `at_` and bounds the low-link
of the child. -/
theorem child_old_neighbor {g : Graph R} (hu : AllUndirected g) {at_ : String}
    {σ : List String} {st st1 : TarjanState} {w : String}
    (hA : InvA g (at_ :: σ) st) (hw : w ∉ st.visited)
    (hPL : PostLow g w (some at_) st.visited st1)
    (hF : Frame w (tarjanEnter st w) st1)
    {x y : String} (hx1 : x ∈ st1.visited) (hx : x ∉ st.visited) (hy : y ∈ st.visited)
    (hxy : Adj g.edges x y) (hya : y ≠ at_) :
    y ∈ σ ∧ lowOf st1 w ≤ idOf st y ∧ idOf st y < idOf st at_ := by
  have hF0 : Frame w st st1 := frame_trans (frame_tarjanEnter w st w hw) hF
  have hys : y ∈ σ := by
    rcases List.mem_cons.1 (visited_neighbor_on_stack hu hA hx hy hxy) with h | h
    · exact absurd h hya
    · exact h
  have h1 := hPL.low_lb x hx1 hx y hy hxy (fun h => hya (Option.some.inj h.2))
  have h2 : idOf st1 y = idOf st y := by
    unfold idOf
    rw [hF0.ids y hy]
  rw [h2] at h1
  exact ⟨hys, h1, stack_below_lt hA hys⟩

/-- The vertices visited during a child call whose low-link is not below the discovery
time of `at_` are closed under adjacency without `at_`. -/
theorem child_closed_avoidV {g : Graph R} (hu : AllUndirected g) {at_ : String}
    {σ : List String} {st st1 : TarjanState} {w : String}
    (hA : InvA g (at_ :: σ) st) (hw : w ∉ st.visited)
    (hP : PostA g w (at_ :: σ) st.visited st1)
    (hPL : PostLow g w (some at_) st.visited st1)
    (hF : Frame w (tarjanEnter st w) st1)
    (hlow : idOf st at_ ≤ lowOf st1 w) :
    ∀ x, (x ∈ st1.visited ∧ x ∉ st.visited) → ∀ y, Adj g.edges x y → y ≠ at_ →
      (y ∈ st1.visited ∧ y ∉ st.visited) := by
  intro x hx y hxy hya
  have hxs : x ∉ at_ :: σ := fun hs => hx.2 (hA.stk_sub x hs)
  refine ⟨hP.inv.closed x hx.1 hxs y hxy, fun hyv => ?_⟩
  obtain ⟨_, h1, h2⟩ := child_old_neighbor hu hA hw hPL hF hx.1 hx.2 hyv hxy hya
  omega

/-- A child whose low-link is below the discovery time of `at_` is connected to the
parent `pp` of `at_` without `at_`. -/
theorem child_conn_parent {g : Graph R} (hu : AllUndirected g) {at_ pp : String}
    {σ : List String} {st st1 : TarjanState} {w : String}
    (hA : InvA g (at_ :: σ) st) (hpp : σ.head? = some pp) (hat : at_ ∈ st.visited)
    (hw : w ∉ st.visited)
    (hP : PostA g w (at_ :: σ) st.visited st1)
    (hPL : PostLow g w (some at_) st.visited st1)
    (hF : Frame w (tarjanEnter st w) st1)
    (hlow : lowOf st1 w < idOf st at_) :
    ConnAvoidV g.edges at_ w pp := by
  have hF0 : Frame w st st1 := frame_trans (frame_tarjanEnter w st w hw) hF
  have hidw : idOf st1 w = st.time := by
    have : idsGet st1 w = idsGet (tarjanEnter st w) w :=
      hF.ids w ((mem_visited_tarjanEnter st w w).2 (Or.inr rfl))
    unfold idOf
    rw [this, idsGet_tarjanEnter, if_pos rfl]
    rfl
  have hppσ : pp ∈ σ := List.mem_of_mem_head? hpp
  rcases hPL.low_ach with h1 | ⟨x, y, h1, h2, h3, h4, h5, h6⟩
  · have := idOf_lt_time hA hat
    omega
  · have hy1 : idOf st1 y = idOf st y := by
      unfold idOf
      rw [hF0.ids y h3]
    have hya : y ≠ at_ := by
      intro e
      subst e
      omega
    obtain ⟨hys, _, _⟩ := child_old_neighbor hu hA hw hPL hF h1 h2 h3 h4 hya
    have hxa : x ≠ at_ := fun e => h2 (e ▸ hat)
    have hatS : ¬ (fun z => z ∈ st1.visited ∧ z ∉ st.visited) at_ := fun h => h.2 hat
    have p1 : ConnAvoidV g.edges at_ w x := connIn_avoidV hatS (hP.conn x h1 h2)
    have p2 : ConnAvoidV g.edges at_ x y := Relation.ReflTransGen.single ⟨h4, hxa, hya⟩
    have p3 : ConnAvoidV g.edges at_ y pp :=
      connIn_avoidV (S := fun z => z ∈ σ) (at_not_mem_stack hA)
        (chain_connIn_all hu σ hA.stk_chain.tail y hys pp hppσ)
    exact (p1.trans p2).trans p3

/-- After a child call has returned and the statements after it have run: the cut-vertex
invariant and the cut-vertex facts of the parent call with one more child. -/
theorem cut_child_post {g : Graph R} (hu : AllUndirected g) {at_ : String}
    {parent : Option String} {σ old : List String} {done : List (Edge R)} {e : Edge R}
    {es : List (Edge R)} {st st1 : TarjanState} {w : String} {children : Nat}
    (hA : InvA g (at_ :: σ) st) (hL : LocA g at_ parent σ old done (e :: es) st)
    (hLC : LocCut g at_ parent old children st)
    (hw : w ∉ st.visited) (hn : neighborRule at_ e = some w) (he : e ∈ g.edges)
    (hP : PostA g w (at_ :: σ) st.visited st1)
    (hPL : PostLow g w (some at_) st.visited st1)
    (hF : Frame w (tarjanEnter st w) st1)
    (hPC : InvCut g (at_ :: σ) st1) :
    InvCut g (at_ :: σ) (tarjanAfterChild at_ parent w st1) ∧
    LocCut g at_ parent old (children + 1) (tarjanAfterChild at_ parent w st1) := by
  have hF0 : Frame w st st1 := frame_trans (frame_tarjanEnter w st w hw) hF
  have hwa : w ≠ at_ := fun e => hw (e ▸ hL.at_vis)
  obtain ⟨lc, hlc⟩ := hP.inv.low_def w hP.at_vis
  obtain ⟨ia, hia, _⟩ := hP.inv.ids_def at_ (hF0.vis _ hL.at_vis)
  have hlow : lowOf st1 w = lc := by unfold lowOf; rw [hlc]; rfl
  have hid1 : idOf st1 at_ = ia := by unfold idOf; rw [hia]; rfl
  have hid : idOf st at_ = ia := by
    rw [← hid1]
    unfold idOf
    rw [hF0.ids at_ hL.at_vis]
  have hcut := (tarjanAfterChild_sets at_ parent w st1 lc ia hwa hlc hia).2
  obtain ⟨hv4, _, _⟩ := tarjanAfterChild_fields at_ parent w st1
  have hadjw : Adj g.edges at_ w := ⟨e, he, hn⟩
  have hS : ∀ z, (z ∈ st1.visited ∧ z ∉ st.visited) →
      (z ∈ st1.visited ∧ z ∉ old ∧ z ≠ at_) :=
    fun z hz => ⟨hz.1, fun ho => hz.2 (hL.old_sub z ho), fun ea => hz.2 (ea ▸ hL.at_vis)⟩
  cases hpar : parent with
  | some pp =>
    subst hpar
    have hpp : σ.head? = some pp := hL.hpar.symm
    have hppσ : pp ∈ σ := List.mem_of_mem_head? hpp
    unfold LocCut at hLC ⊢
    simp only at hLC ⊢
    by_cases hge : lc ≥ ia
    · have hcut' : (tarjanAfterChild at_ (some pp) w st1).cutVertices =
          setAdd st1.cutVertices at_ := by
        rw [hcut, if_pos ⟨by simp, hge⟩]
      have hiscut : IsCutN g.edges at_ := by
        have hadjp : Adj g.edges at_ pp := by
          have hc := hA.stk_chain
          cases σ with
          | nil => simp at hpp
          | cons p σ' =>
            simp only [List.head?_cons, Option.some.injEq] at hpp
            subst hpp
            exact (List.chain'_cons.1 hc).1
        have hppa : pp ≠ at_ := fun e => at_not_mem_stack hA (e ▸ hppσ)
        refine ⟨w, pp, hadjw, hadjp, hwa, hppa, fun hconn => ?_⟩
        have hT := connAvoidV_closed (fun z => z ∈ st1.visited ∧ z ∉ st.visited)
          (child_closed_avoidV hu hA hw hP hPL hF (by rw [hid, hlow]; exact hge))
          ⟨hP.at_vis, hw⟩ hconn
        exact hT.2 (hA.stk_sub pp (List.mem_cons_of_mem _ hppσ))
      refine ⟨⟨?_, ?_⟩, Or.inl ?_⟩
      · intro x hx
        rw [hcut'] at hx
        rcases (mem_setAdd _ _ _).1 hx with hx | hx
        · exact hPC.sound x hx
        · exact hx ▸ hiscut
      · intro x hx hxs hc
        rw [hcut']
        rw [hv4] at hx
        exact (mem_setAdd _ _ _).2 (Or.inl (hPC.complete x hx hxs hc))
      · rw [hcut']
        exact (mem_setAdd _ _ _).2 (Or.inr rfl)
    · have hcut' : (tarjanAfterChild at_ (some pp) w st1).cutVertices = st1.cutVertices := by
        rw [hcut, if_neg (fun h => hge h.2)]
      refine ⟨invCut_congr hv4 hcut' hPC, ?_⟩
      rw [hcut', hv4]
      rcases hLC with hin | hconn
      · exact Or.inl (hF0.cut _ hin)
      · right
        intro x hx hxo hxa
        by_cases hxv : x ∈ st.visited
        · exact hconn x hxv hxo hxa
        · have hatS : ¬ (fun z => z ∈ st1.visited ∧ z ∉ st.visited) at_ :=
            fun h => h.2 hL.at_vis
          have p1 : ConnAvoidV g.edges at_ x w :=
            connAvoidV_symm hu (connIn_avoidV hatS (hP.conn x hx hxv))
          exact p1.trans (child_conn_parent hu hA hpp hL.at_vis hw hP hPL hF
            (by rw [hid, hlow]; omega))
  | none =>
    subst hpar
    have hσ : σ = [] := by
      have := hL.hpar
      cases σ with
      | nil => rfl
      | cons p σ' => simp at this
    have hcut' : (tarjanAfterChild at_ none w st1).cutVertices = st1.cutVertices := by
      rw [hcut, if_neg (fun h => h.1 rfl)]
    refine ⟨invCut_congr hv4 hcut' hPC, ?_⟩
    unfold LocCut at hLC ⊢
    simp only at hLC ⊢
    rw [hv4]
    obtain ⟨h0, h1, h2, h3⟩ := hLC
    refine ⟨fun h => absurd h (by omega), fun _ => ⟨w, hadjw, hP.at_vis,
      fun ho => hw (hL.old_sub w ho), hwa⟩, ?_, ?_⟩
    · intro hc x hx hxo hxa y hy hyo hya
      have hc0 : children = 0 := by omega
      have hxv : x ∉ st.visited := fun h => hxa (h0 hc0 x h hxo)
      have hyv : y ∉ st.visited := fun h => hya (h0 hc0 y h hyo)
      have p1 := connIn_symm hu (connIn_mono hS (hP.conn x hx hxv))
      have p2 := connIn_mono hS (hP.conn y hy hyv)
      exact p1.trans p2
    · intro hc
      by_cases hc2 : 2 ≤ children
      · exact h3 hc2
      · obtain ⟨c1, hc1a, hc1v, hc1o, hc1n⟩ := h1 (by omega)
        refine ⟨c1, w, hc1a, hadjw, hc1n, hwa, fun hconn => ?_⟩
        have hT := connAvoidV_closed (fun z => z ∈ st.visited ∧ z ∉ old ∧ z ≠ at_)
          (by
            intro x hx y hxy hya
            have hxs : x ∉ at_ :: σ := by
              rw [hσ]
              simpa using hx.2.2
            refine ⟨hA.closed x hx.1 hxs y hxy, fun hyo => ?_, hya⟩
            have := old_neighbor_on_stack hu hL hx.2.1 hyo hxy
            rw [hσ] at this
            simp at this)
          ⟨hc1v, hc1o, hc1n⟩ hconn
        exact hw hT.1

theorem tarjanExit_fields (at_ : String) (parent : Option String) (children : Nat)
    (st : TarjanState) :
    (tarjanExit at_ parent children st).visited = st.visited ∧
    (tarjanExit at_ parent children st).ids = st.ids ∧
    (tarjanExit at_ parent children st).low = st.low ∧
    (tarjanExit at_ parent children st).time = st.time ∧
    (tarjanExit at_ parent children st).bridges = st.bridges := by
  unfold tarjanExit
  split <;> exact ⟨rfl, rfl, rfl, rfl, rfl⟩

/-- When the loop has passed every edge and the statement after the loop has run, the
cut-vertex invariant holds for the stack without `at_`. -/
theorem cut_exit {g : Graph R} (hu : AllUndirected g) {at_ : String}
    {parent : Option String} {σ old : List String} {st : TarjanState} {children : Nat}
    (hA : InvA g (at_ :: σ) st) (hL : LocA g at_ parent σ old g.edges [] st)
    (hC : InvCut g (at_ :: σ) st) (hLC : LocCut g at_ parent old children st) :
    InvCut g σ (tarjanExit at_ parent children st) := by
  obtain ⟨hv, _, _, _, _⟩ := tarjanExit_fields at_ parent children st
  have hmono : ∀ x ∈ st.cutVertices, x ∈ (tarjanExit at_ parent children st).cutVertices := by
    intro x hx
    unfold tarjanExit
    split
    · exact (mem_setAdd _ _ _).2 (Or.inl hx)
    · exact hx
  have hnbr : ∀ a, Adj g.edges at_ a → a ∈ st.visited := by
    rintro a ⟨e, he, hn⟩
    exact hL.done_vis e he a hn
  have hother : ∀ x ∈ st.visited, x ∉ σ → x ≠ at_ → IsCutN g.edges x →
      x ∈ (tarjanExit at_ parent children st).cutVertices := by
    intro x hx hxs hxa hc
    exact hmono x (hC.complete x hx (fun hs => by
      rcases List.mem_cons.1 hs with hs | hs
      · exact hxa hs
      · exact hxs hs) hc)
  cases hpar : parent with
  | some pp =>
    subst hpar
    have hpp : σ.head? = some pp := hL.hpar.symm
    have hppσ : pp ∈ σ := List.mem_of_mem_head? hpp
    have hsame : tarjanExit at_ (some pp) children st = st := by
      unfold tarjanExit
      simp
    rw [hsame]
    refine ⟨hC.sound, ?_⟩
    intro x hx hxs hc
    by_cases hxa : x = at_
    · subst hxa
      unfold LocCut at hLC
      simp only at hLC
      rcases hLC with hin | hconn
      · exact hin
      · exfalso
        obtain ⟨a, b, ha, hb, hax, hbx, hab⟩ := hc
        have key : ∀ a, Adj g.edges x a → a ≠ x → ConnAvoidV g.edges x a pp := by
          intro a ha hax
          by_cases hao : a ∈ old
          · have has := old_neighbor_on_stack hu hL hL.at_new hao ha
            exact connIn_avoidV (S := fun z => z ∈ σ) (at_not_mem_stack hA)
              (chain_connIn_all hu σ hA.stk_chain.tail a has pp hppσ)
          · exact hconn a (hnbr a ha) hao hax
        exact hab ((key a ha hax).trans (connAvoidV_symm hu (key b hb hbx)))
    · have := hother x hx hxs hxa hc
      rw [hsame] at this
      exact this
  | none =>
    subst hpar
    have hσ : σ = [] := by
      have := hL.hpar
      cases σ with
      | nil => rfl
      | cons p σ' => simp at this
    unfold LocCut at hLC
    simp only at hLC
    obtain ⟨h0, h1, h2, h3⟩ := hLC
    have hexit : (tarjanExit at_ none children st).cutVertices =
        if children > 1 then setAdd st.cutVertices at_ else st.cutVertices := by
      unfold tarjanExit
      by_cases hc : children > 1
      · simp [hc]
      · simp [hc]
    refine ⟨?_, ?_⟩
    · intro x hx
      rw [hexit] at hx
      by_cases hc : children > 1
      · rw [if_pos hc] at hx
        rcases (mem_setAdd _ _ _).1 hx with hx | hx
        · exact hC.sound x hx
        · exact hx ▸ h3 hc
      · rw [if_neg hc] at hx
        exact hC.sound x hx
    · rw [hv]
      intro x hx hxs hc
      by_cases hxa : x = at_
      · subst hxa
        rw [hexit]
        by_cases hch : children > 1
        · rw [if_pos hch]
          exact (mem_setAdd _ _ _).2 (Or.inr rfl)
        · exfalso
          obtain ⟨a, b, ha, hb, hax, hbx, hab⟩ := hc
          have key : ∀ a, Adj g.edges x a → a ∉ old := by
            intro a ha hao
            have := old_neighbor_on_stack hu hL hL.at_new hao ha
            rw [hσ] at this
            simp at this
          have hc0 : children ≠ 0 := fun hc0 =>
            hax (h0 hc0 a (hnbr a ha) (key a ha))
          have := h2 (by omega) a (hnbr a ha) (key a ha) hax b (hnbr b hb) (key b hb) hbx
          exact hab (connIn_avoidV (fun h => h.2.2 rfl) this)
      · exact hother x hx hxs hxa hc

/-! ### Bridges -/

theorem noParallel_eq {g : Graph R} (hp : NoParallel g) {e f : Edge R} (he : e ∈ g.edges)
    (hf : f ∈ g.edges) (h : SamePair e f) : e = f := by
  by_contra hne
  have hsymm : Symmetric (fun e f : Edge R => ¬ SamePair e f) := by
    intro a b hab hba
    apply hab
    rcases hba with ⟨h1, h2⟩ | ⟨h1, h2⟩
    · exact Or.inl ⟨h1.symm, h2.symm⟩
    · exact Or.inr ⟨h2.symm, h1.symm⟩
  exact List.Pairwise.forall hsymm hp he hf hne h

theorem samePair_of_neighborRule {e f : Edge R} (he : e.isDirected = false)
    (hf : f.isDirected = false) {x y : String} (h1 : neighborRule x e = some y)
    (h2 : neighborRule y f = some x) : SamePair e f := by
  rw [neighborRule_undirected he] at h1
  rw [neighborRule_undirected hf] at h2
  unfold SamePair
  rcases h1 with ⟨a, b⟩ | ⟨a, b⟩ <;> rcases h2 with ⟨c, d⟩ | ⟨c, d⟩
  · exact Or.inr ⟨a.trans d.symm, b.trans c.symm⟩
  · exact Or.inl ⟨a.trans d.symm, b.trans c.symm⟩
  · exact Or.inl ⟨b.trans c.symm, a.trans d.symm⟩
  · exact Or.inr ⟨b.trans c.symm, a.trans d.symm⟩

/-- For an edge `e` that makes `w` a neighbour of `at_`: its ends are connected without
it exactly when `at_` and `w` are. -/
theorem isBridge_iff_of_neighborRule {edges : List (Edge R)}
    (hu : ∀ e ∈ edges, e.isDirected = false) {e : Edge R} (he : e ∈ edges)
    {at_ w : String} (hn : neighborRule at_ e = some w) :
    IsBridge edges e ↔ ¬ ConnAvoidE edges e at_ w := by
  unfold IsBridge
  rcases (neighborRule_undirected (hu e he) at_ w).1 hn with ⟨h1, h2⟩ | ⟨h1, h2⟩
  · rw [h1, h2]
  · rw [h1, h2]
    constructor
    · intro h hc; exact h (connAvoidE_symm hu hc)
    · intro h hc; exact h (connAvoidE_symm hu hc)

theorem reported_of_mem {e : Edge R} (he : e.isDirected = false) {at_ w : String}
    (hn : neighborRule at_ e = some w) {st : TarjanState} (h : (at_, w) ∈ st.bridges) :
    Reported e st := by
  unfold Reported
  rcases (neighborRule_undirected he at_ w).1 hn with ⟨h1, h2⟩ | ⟨h1, h2⟩
  · left; rw [h1, h2]; exact h
  · right; rw [h1, h2]; exact h

theorem invBr_congr {g : Graph R} {stk : List String} {st st' : TarjanState}
    (hv : st'.visited = st.visited) (hi : st'.ids = st.ids) (hb : st'.bridges = st.bridges)
    (h : InvBr g stk st) : InvBr g stk st' := by
  have hid : ∀ x, idOf st' x = idOf st x := idOf_congr hi
  refine ⟨?_, by rw [hb]; exact h.nodup, ?_⟩
  · rw [hb, hv]
    intro ab hab
    rw [hid, hid]
    exact h.sound ab hab
  · rw [hv]
    intro e he x hx hxs hinc hbr
    have := h.complete e he x hx hxs hinc hbr
    unfold Reported at this ⊢
    rw [hb]
    exact this

theorem locBr_congr {g : Graph R} {at_ : String} {parent : Option String}
    {done : List (Edge R)} {st st' : TarjanState} (hb : st'.bridges = st.bridges)
    (h : LocBr g at_ parent done st) : LocBr g at_ parent done st' := by
  intro e he w hn hp hbr
  have := h e he w hn hp hbr
  unfold Reported at this ⊢
  rw [hb]
  exact this

theorem locBr_advance {g : Graph R} {at_ : String} {parent : Option String}
    {done : List (Edge R)} {e : Edge R} {st : TarjanState}
    (h : LocBr g at_ parent done st)
    (he : ∀ w, neighborRule at_ e = some w → some w ≠ parent → IsBridge g.edges e →
      Reported e st) :
    LocBr g at_ parent (done ++ [e]) st := by
  intro f hf w hn hp hbr
  rcases List.mem_append.1 hf with hf | hf
  · exact h f hf w hn hp hbr
  · rw [List.mem_singleton] at hf
    subst hf
    exact he w hn hp hbr

theorem invBr_enter {g : Graph R} {stk : List String} {st : TarjanState} (w : String)
    (hw : w ∉ st.visited) (h : InvBr g stk st) : InvBr g (w :: stk) (tarjanEnter st w) := by
  have hne : ∀ x ∈ st.visited, x ≠ w := fun x hx e => hw (e ▸ hx)
  refine ⟨?_, h.nodup, ?_⟩
  · intro ab hab
    obtain ⟨h1, h2, h3, h4, h5⟩ := h.sound ab hab
    refine ⟨h1, (mem_visited_tarjanEnter st w _).2 (Or.inl h2),
      (mem_visited_tarjanEnter st w _).2 (Or.inl h3), ?_, ?_⟩
    · intro hs
      rcases List.mem_cons.1 hs with hs | hs
      · exact hne _ h3 hs
      · exact h4 hs
    · rw [idOf_tarjanEnter_of_ne _ _ _ (hne _ h2), idOf_tarjanEnter_of_ne _ _ _ (hne _ h3)]
      exact h5
  · intro e he x hx hxs hinc hbr
    have hxw : x ≠ w := fun e => hxs (by simp [e])
    rcases (mem_visited_tarjanEnter st w x).1 hx with hx | hx
    · exact h.complete e he x hx (fun hs => hxs (List.mem_cons_of_mem _ hs)) hinc hbr
    · exact absurd hx hxw

/-- The back-edge branch: an edge from `at_` to a visited vertex other than the parent
has its ends connected without it. -/
theorem back_not_bridge {g : Graph R} (hu : AllUndirected g) (hp : NoParallel g)
    {at_ : String} {parent : Option String} {σ old : List String} {done : List (Edge R)}
    {e : Edge R} {es : List (Edge R)} {st : TarjanState} {w : String}
    (hA : InvA g (at_ :: σ) st) (hL : LocA g at_ parent σ old done (e :: es) st)
    (hn : neighborRule at_ e = some w) (hwv : w ∈ st.visited) (hwp : some w ≠ parent) :
    ¬ IsBridge g.edges e := by
  have he : e ∈ g.edges := by rw [hL.split]; simp
  rw [isBridge_iff_of_neighborRule hu he hn, not_not]
  have hnd : (done ++ e :: es).Nodup := hL.split ▸ noParallel_nodup hp
  have heat : ∀ S : String → Prop, ¬ S at_ → ¬ (S e.from_ ∧ S e.to_) := by
    intro S hS h
    rcases (neighborRule_undirected (hu e he) at_ w).1 hn with ⟨h1, _⟩ | ⟨h1, _⟩
    · exact hS (h1 ▸ h.1)
    · exact hS (h1 ▸ h.2)
  by_cases hwa : w = at_
  · rw [hwa]
    exact Relation.ReflTransGen.refl
  by_cases hwo : w ∈ old
  · have hws := old_neighbor_on_stack hu hL hL.at_new hwo ⟨e, he, hn⟩
    cases hσ : σ with
    | nil => rw [hσ] at hws; simp at hws
    | cons pp σ' =>
      have hpar : parent = some pp := by rw [hL.hpar, hσ]; rfl
      have hadj : Adj g.edges at_ pp := by
        have := hA.stk_chain
        rw [hσ] at this
        exact (List.chain'_cons.1 this).1
      obtain ⟨h, hh, hnh⟩ := hadj
      have hhe : h ≠ e := by
        intro heq
        subst heq
        rw [hn] at hnh
        exact hwp (hnh.trans hpar.symm)
      have p1 : ConnAvoidE g.edges e at_ pp := Relation.ReflTransGen.single ⟨h, hh, hhe, hnh⟩
      have p2 : ConnAvoidE g.edges e pp w :=
        connIn_avoidE hu (heat (fun z => z ∈ σ) (at_not_mem_stack hA))
          (chain_connIn_all hu σ hA.stk_chain.tail pp (by rw [hσ]; simp) w hws)
      exact p1.trans p2
  · obtain ⟨f, hf, c, h1, _, _, _, h5⟩ := hL.te w hwv hwo hwa
    have hfe : f ≠ e := by
      intro heq
      subst heq
      exact (List.nodup_append.1 hnd).2.2 hf (by simp)
    have hfE : f ∈ g.edges := by rw [hL.split]; exact List.mem_append_left _ hf
    have p1 : ConnAvoidE g.edges e at_ c := Relation.ReflTransGen.single ⟨f, hfE, hfe, h1⟩
    have p2 : ConnAvoidE g.edges e c w :=
      connIn_avoidE hu (heat (fun z => z ∈ st.visited ∧ z ∉ old ∧ z ≠ at_)
        (fun h => h.2.2 rfl)) h5
    exact p1.trans p2

/-- The edge to a child is an edge whose ends are not connected without it exactly when
the low-link of the child is above the discovery time of `at_`. -/
theorem child_bridge_iff {g : Graph R} (hu : AllUndirected g) (hp : NoParallel g)
    {at_ : String} {parent : Option String} {σ old : List String} {done : List (Edge R)}
    {e : Edge R} {es : List (Edge R)} {st st1 : TarjanState} {w : String}
    (hA : InvA g (at_ :: σ) st) (hL : LocA g at_ parent σ old done (e :: es) st)
    (hw : w ∉ st.visited) (hn : neighborRule at_ e = some w)
    (hP : PostA g w (at_ :: σ) st.visited st1)
    (hPL : PostLow g w (some at_) st.visited st1)
    (hF : Frame w (tarjanEnter st w) st1) :
    IsBridge g.edges e ↔ idOf st at_ < lowOf st1 w := by
  have he : e ∈ g.edges := by rw [hL.split]; simp
  have hF0 : Frame w st st1 := frame_trans (frame_tarjanEnter w st w hw) hF
  have hwa : w ≠ at_ := fun e => hw (e ▸ hL.at_vis)
  have hid : ∀ x ∈ st.visited, idOf st1 x = idOf st x := by
    intro x hx
    unfold idOf
    rw [hF0.ids x hx]
  have hidw : idOf st1 w = st.time := by
    have : idsGet st1 w = idsGet (tarjanEnter st w) w :=
      hF.ids w ((mem_visited_tarjanEnter st w w).2 (Or.inr rfl))
    unfold idOf
    rw [this, idsGet_tarjanEnter, if_pos rfl]
    rfl
  have hends : ∀ S : String → Prop, ¬ S at_ ∨ ¬ S w → ¬ (S e.from_ ∧ S e.to_) := by
    intro S hS h
    rcases (neighborRule_undirected (hu e he) at_ w).1 hn with ⟨h1, h2⟩ | ⟨h1, h2⟩
    · rcases hS with hS | hS
      · exact hS (h1 ▸ h.1)
      · exact hS (h2 ▸ h.2)
    · rcases hS with hS | hS
      · exact hS (h1 ▸ h.2)
      · exact hS (h2 ▸ h.1)
  rw [isBridge_iff_of_neighborRule hu he hn]
  constructor
  · intro hnc
    by_contra hle
    apply hnc
    apply connAvoidE_symm hu
    have hlt : lowOf st1 w ≤ idOf st at_ := not_lt.1 hle
    rcases hPL.low_ach with h1 | ⟨x, y, h1, h2, h3, h4, h5, h6⟩
    · have := idOf_lt_time hA hL.at_vis
      omega
    · have hys : y ∈ at_ :: σ := visited_neighbor_on_stack hu hA h2 h3 h4
      have hxa : x ≠ at_ := fun e => h2 (e ▸ hL.at_vis)
      obtain ⟨f, hf, hnf⟩ := h4
      have hfe : f ≠ e := by
        intro heq
        subst heq
        rcases (neighborRule_undirected (hu f he) at_ w).1 hn with ⟨a1, a2⟩ | ⟨a1, a2⟩ <;>
          rcases (neighborRule_undirected (hu f he) x y).1 hnf with ⟨b1, b2⟩ | ⟨b1, b2⟩
        · exact hxa (b1.symm.trans a1)
        · exact h5 ⟨b1.symm.trans a2, by rw [← b2, a1]⟩
        · exact h5 ⟨b1.symm.trans a2, by rw [← b2, a1]⟩
        · exact hxa (b1.symm.trans a1)
      have p1 : ConnAvoidE g.edges e w x :=
        connIn_avoidE hu (hends (fun z => z ∈ st1.visited ∧ z ∉ st.visited)
          (Or.inl (fun h => h.2 hL.at_vis))) (hP.conn x h1 h2)
      have p2 : ConnAvoidE g.edges e x y := Relation.ReflTransGen.single ⟨f, hf, hfe, hnf⟩
      have p3 : ConnAvoidE g.edges e y at_ :=
        connIn_avoidE hu (hends (fun z => z ∈ at_ :: σ)
          (Or.inr (fun h => hw (hA.stk_sub w h))))
          (chain_connIn_all hu (at_ :: σ) hA.stk_chain y hys at_ (by simp))
      exact (p1.trans p2).trans p3
  · intro hlt hconn
    have hT := connAvoidE_closed (fun z => z ∈ st1.visited ∧ z ∉ st.visited)
      (by
        intro x hx y hxy
        obtain ⟨f, hf, hfe, hnf⟩ := hxy
        have hxs : x ∉ at_ :: σ := fun hs => hx.2 (hA.stk_sub x hs)
        have hadj : Adj g.edges x y := ⟨f, hf, hnf⟩
        refine ⟨hP.inv.closed x hx.1 hxs y hadj, fun hyv => ?_⟩
        by_cases hya : y = at_
        · subst hya
          by_cases hxw : x = w
          · subst hxw
            exact hfe (noParallel_eq hp hf he
              (samePair_of_neighborRule (hu f hf) (hu e he) hnf hn))
          · have := hPL.low_lb x hx.1 hx.2 y hyv hadj (fun h => hxw h.1)
            rw [hid y hyv] at this
            omega
        · obtain ⟨_, h1, h2⟩ := child_old_neighbor hu hA hw hPL hF hx.1 hx.2 hyv hadj hya
          omega)
      ⟨hP.at_vis, hw⟩ (connAvoidE_symm hu hconn)
    exact hT.2 hL.at_vis

/-- After a child call has returned and the statements after it have run: the bridge
invariant and the bridge facts of the parent call. -/
theorem br_child_post {g : Graph R} (hu : AllUndirected g) (hp : NoParallel g)
    {at_ : String} {parent : Option String} {σ old : List String} {done : List (Edge R)}
    {e : Edge R} {es : List (Edge R)} {st st1 : TarjanState} {w : String}
    (hA : InvA g (at_ :: σ) st) (hL : LocA g at_ parent σ old done (e :: es) st)
    (hLB : LocBr g at_ parent done st)
    (hw : w ∉ st.visited) (hn : neighborRule at_ e = some w)
    (hP : PostA g w (at_ :: σ) st.visited st1)
    (hPL : PostLow g w (some at_) st.visited st1)
    (hF : Frame w (tarjanEnter st w) st1)
    (hPB : PostBr g w (some at_) (at_ :: σ) st1) :
    InvBr g (at_ :: σ) (tarjanAfterChild at_ parent w st1) ∧
    LocBr g at_ parent (done ++ [e]) (tarjanAfterChild at_ parent w st1) := by
  have he : e ∈ g.edges := by rw [hL.split]; simp
  have hF0 : Frame w st st1 := frame_trans (frame_tarjanEnter w st w hw) hF
  have hwa : w ≠ at_ := fun e => hw (e ▸ hL.at_vis)
  obtain ⟨lc, hlc⟩ := hP.inv.low_def w hP.at_vis
  obtain ⟨ia, hia, _⟩ := hP.inv.ids_def at_ (hF0.vis _ hL.at_vis)
  have hlow : lowOf st1 w = lc := by unfold lowOf; rw [hlc]; rfl
  have hid1 : idOf st1 at_ = ia := by unfold idOf; rw [hia]; rfl
  have hid : idOf st at_ = ia := by
    rw [← hid1]
    unfold idOf
    rw [hF0.ids at_ hL.at_vis]
  have hbr := (tarjanAfterChild_sets at_ parent w st1 lc ia hwa hlc hia).1
  obtain ⟨hv4, hi4, _⟩ := tarjanAfterChild_fields at_ parent w st1
  have hid4 : ∀ x, idOf (tarjanAfterChild at_ parent w st1) x = idOf st1 x := idOf_congr hi4
  have hK := child_bridge_iff hu hp hA hL hw hn hP hPL hF
  rw [hid, hlow] at hK
  have hmono : ∀ ab ∈ st1.bridges, ab ∈ (tarjanAfterChild at_ parent w st1).bridges := by
    intro ab hab
    rw [hbr]
    split
    · exact List.mem_append_left _ hab
    · exact hab
  have hrep : ∀ f : Edge R, Reported f st1 → Reported f (tarjanAfterChild at_ parent w st1) := by
    intro f hf
    unfold Reported at hf ⊢
    rcases hf with hf | hf
    · exact Or.inl (hmono _ hf)
    · exact Or.inr (hmono _ hf)
  have hrep0 : ∀ f : Edge R, Reported f st → Reported f st1 := by
    intro f hf
    unfold Reported at hf ⊢
    rcases hf with hf | hf
    · exact Or.inl (hF0.br _ hf)
    · exact Or.inr (hF0.br _ hf)
  have hnew : IsBridge g.edges e → Reported e (tarjanAfterChild at_ parent w st1) := by
    intro hb
    apply reported_of_mem (hu e he) hn
    rw [hbr, if_pos (hK.1 hb)]
    simp
  have hidw : idOf st1 w = st.time := by
    have : idsGet st1 w = idsGet (tarjanEnter st w) w :=
      hF.ids w ((mem_visited_tarjanEnter st w w).2 (Or.inr rfl))
    unfold idOf
    rw [this, idsGet_tarjanEnter, if_pos rfl]
    rfl
  refine ⟨⟨?_, ?_, ?_⟩, ?_⟩
  · intro ab hab
    rw [hv4, hid4, hid4]
    have hold : ab ∈ st1.bridges →
        (∃ e ∈ g.edges, neighborRule ab.1 e = some ab.2 ∧ IsBridge g.edges e) ∧
        ab.1 ∈ st1.visited ∧ ab.2 ∈ st1.visited ∧ ab.2 ∉ at_ :: σ ∧
        idOf st1 ab.1 < idOf st1 ab.2 := by
      intro h
      obtain ⟨h1, h2, h3, h4, h5⟩ := hPB.sound ab h
      exact ⟨h1, h2, h3, fun hs => h4 (List.mem_cons_of_mem _ hs), h5⟩
    rw [hbr] at hab
    by_cases hgt : lc > ia
    · rw [if_pos hgt] at hab
      rcases List.mem_append.1 hab with hab | hab
      · exact hold hab
      · rw [List.mem_singleton] at hab
        subst hab
        refine ⟨⟨e, he, hn, hK.2 hgt⟩, hF0.vis _ hL.at_vis, hP.at_vis,
          fun hs => hw (hA.stk_sub w hs), ?_⟩
        simp only
        rw [hid1, hidw]
        have := idOf_lt_time hA hL.at_vis
        omega
    · rw [if_neg hgt] at hab
      exact hold hab
  · rw [hbr]
    split
    · refine List.Nodup.append hPB.nodup (List.nodup_singleton _) ?_
      intro ab hab hab'
      rw [List.mem_singleton] at hab'
      subst hab'
      exact (hPB.sound _ hab).2.2.2.1 (by simp)
    · exact hPB.nodup
  · rw [hv4]
    intro f hf x hx hxs hinc hb
    rcases hPB.complete f hf x hx hxs hinc hb with h | ⟨p, hp1, hp2⟩
    · exact hrep f h
    · have hpa : p = at_ := (Option.some.inj hp1).symm
      subst hpa
      have hfe : f = e := noParallel_eq hp hf he
        (samePair_of_neighborRule (hu f hf) (hu e he) hp2 hn)
      subst hfe
      exact hnew hb
  · intro f hf y hny hyp hb
    rcases List.mem_append.1 hf with hf | hf
    · exact hrep f (hrep0 f (hLB f hf y hny hyp hb))
    · rw [List.mem_singleton] at hf
      subst hf
      exact hnew hb

/-- When the loop has passed every edge, the bridge facts of the return hold. -/
theorem br_exit {g : Graph R} (hu : AllUndirected g) {at_ : String}
    {parent : Option String} {σ : List String} {st st' : TarjanState}
    (hv : st'.visited = st.visited) (hi : st'.ids = st.ids) (hb : st'.bridges = st.bridges)
    (hB : InvBr g (at_ :: σ) st) (hLB : LocBr g at_ parent g.edges st) :
    PostBr g at_ parent σ st' := by
  have hB' := invBr_congr hv hi hb hB
  have hLB' : LocBr g at_ parent g.edges st' := locBr_congr hb hLB
  refine ⟨hB'.sound, hB'.nodup, ?_⟩
  intro e he x hx hxs hinc hbr
  by_cases hxa : x = at_
  · subst hxa
    have hex : ∃ y, neighborRule x e = some y := by
      rcases hinc with h | h
      · exact ⟨e.to_, (neighborRule_undirected (hu e he) x e.to_).2 (Or.inl ⟨h, rfl⟩)⟩
      · exact ⟨e.from_, (neighborRule_undirected (hu e he) x e.from_).2 (Or.inr ⟨h, rfl⟩)⟩
    obtain ⟨y, hy⟩ := hex
    by_cases hyp : some y = parent
    · exact Or.inr ⟨y, hyp.symm, hy⟩
    · exact Or.inl (hLB' e he y hy hyp hbr)
  · left
    exact hB'.complete e he x hx (fun hs => by
      rcases List.mem_cons.1 hs with hs | hs
      · exact hxa hs
      · exact hxs hs) hinc hbr

/-! ### The run of the search -/

theorem countP_lt_of_mem {α : Type} (p q : α → Bool) (l : List α)
    (h : ∀ x ∈ l, p x = true → q x = true) {a : α} (ha : a ∈ l) (hpa : p a = false)
    (hqa : q a = true) : l.countP p < l.countP q := by
  induction l with
  | nil => cases ha
  | cons b l ih =>
    have hmono : l.countP p ≤ l.countP q :=
      List.countP_mono_left (fun x hx => h x (List.mem_cons_of_mem _ hx))
    simp only [List.countP_cons]
    rcases List.mem_cons.1 ha with rfl | ha'
    · simp only [hpa, hqa]
      simp
      omega
    · have := ih (fun x hx => h x (List.mem_cons_of_mem _ hx)) ha'
      by_cases hb : p b = true
      · simp only [hb, h b (List.mem_cons_self _ _) hb]
        omega
      · simp only [hb]
        simp
        omega

theorem unvisited_mono (g : Graph R) {st st' : TarjanState}
    (h : ∀ x ∈ st.visited, x ∈ st'.visited) : unvisited g st' ≤ unvisited g st := by
  unfold unvisited
  apply List.countP_mono_left
  intro x _ hx
  simp only [decide_eq_true_eq] at hx ⊢
  exact fun hx' => hx (h x hx')

theorem unvisited_enter (g : Graph R) {st : TarjanState} {w : String}
    (hw : w ∉ st.visited) (hk : w ∈ mapKeys g.vertices) :
    unvisited g (tarjanEnter st w) < unvisited g st := by
  unfold unvisited
  apply countP_lt_of_mem _ _ _ _ hk
  · simp only [decide_eq_false_iff_not, not_not]
    exact (mem_visited_tarjanEnter st w w).2 (Or.inr rfl)
  · simpa using hw
  · intro x _ hx
    simp only [decide_eq_true_eq] at hx ⊢
    exact fun hx' => hx ((mem_visited_tarjanEnter st w x).2 (Or.inl hx'))

theorem unvisited_le (g : Graph R) (st : TarjanState) :
    unvisited g st ≤ g.vertices.length := by
  unfold unvisited
  refine le_trans (List.countP_le_length _) ?_
  simp [mapKeys]

theorem frame_change {a w : String} {st st' : TarjanState} (h : Frame w st st')
    (hw : w ∉ st.visited) : Frame a st st' :=
  ⟨h.vis, h.ids, fun x hx _ => h.low x hx (fun e => hw (e ▸ hx)), h.cut, h.br, h.time,
    h.new_ids⟩

theorem frame_tarjanExit (at_ : String) (parent : Option String) (children : Nat)
    (st : TarjanState) : Frame at_ st (tarjanExit at_ parent children st) := by
  obtain ⟨hv, hi, hl, ht, hb⟩ := tarjanExit_fields at_ parent children st
  refine ⟨fun x hx => by rw [hv]; exact hx, fun x _ => by unfold idsGet; rw [hi],
    fun x _ _ => by unfold lowGet; rw [hl], ?_, fun ab h => by rw [hb]; exact h,
    by rw [ht], fun x hx hx' => absurd (hv ▸ hx) hx'⟩
  intro x hx
  unfold tarjanExit
  split
  · exact (mem_setAdd _ _ _).2 (Or.inl hx)
  · exact hx

theorem frame_tarjanBack (at_ to_ : String) (st : TarjanState) :
    Frame at_ st (tarjanBack at_ to_ st) :=
  ⟨fun _ hx => hx, fun _ _ => rfl,
    fun x _ hx => by rw [lowGet_tarjanBack, if_neg hx], fun _ hx => hx, fun _ h => h,
    le_refl _, fun _ hx hx' => absurd hx hx'⟩

theorem frame_tarjanAfterChild (at_ : String) (parent : Option String) (to_ : String)
    (st : TarjanState) : Frame at_ st (tarjanAfterChild at_ parent to_ st) := by
  obtain ⟨hv, hi, ht⟩ := tarjanAfterChild_fields at_ parent to_ st
  refine ⟨fun x hx => by rw [hv]; exact hx, fun x _ => by unfold idsGet; rw [hi],
    fun x _ hx => by rw [lowGet_tarjanAfterChild, if_neg hx], ?_, ?_, by rw [ht],
    fun x hx hx' => absurd (hv ▸ hx) hx'⟩
  · intro x hx
    unfold tarjanAfterChild
    simp only []
    split_ifs <;> first | exact hx | exact (mem_setAdd _ _ _).2 (Or.inl hx)
  · intro ab hab
    unfold tarjanAfterChild
    simp only []
    split_ifs <;> first | exact hab | exact List.mem_append_left _ hab

theorem locBr_nil (g : Graph R) (at_ : String) (parent : Option String)
    (st : TarjanState) : LocBr g at_ parent [] st :=
  fun _ he => absurd he (List.not_mem_nil _)

/-- The loop of `dfs(at_, parent)` from any point of its run: with fuel for the edges still
to go and one whole loop for every vertex that is not visited yet, it returns, and the
facts of the return hold. -/
theorem tarjanLoop_spec {g : Graph R} (hu : AllUndirected g) (hinv : EndpointsExist g)
    (hp : NoParallel g) :
    ∀ (fuel : Nat) (at_ : String) (parent : Option String) (σ old : List String)
      (done rest : List (Edge R)) (children : Nat) (st : TarjanState),
      TjPre g at_ parent σ old done rest children st →
      rest.length + 1 + unvisited g st * (g.edges.length + 1) ≤ fuel →
      ∃ st', tarjanLoop g.edges fuel at_ parent rest children st = some st' ∧
        TjPost g at_ parent σ old st' ∧ Frame at_ st st' := by
  intro fuel
  induction fuel with
  | zero =>
    intro at_ parent σ old done rest children st _ hf
    omega
  | succ fuel ih =>
    intro at_ parent σ old done rest children st hpre hf
    obtain ⟨hA, hL, hLow, hC, hLC, hB, hLB⟩ := hpre
    cases rest with
    | nil =>
      have hd : done = g.edges := by simpa using hL.split.symm
      subst hd
      obtain ⟨hv, hi, hl, ht, hb⟩ := tarjanExit_fields at_ parent children st
      have hlg : ∀ x, lowGet (tarjanExit at_ parent children st) x = lowGet st x := by
        intro x
        unfold lowGet
        rw [hl]
      refine ⟨tarjanExit at_ parent children st, ?_, ⟨?_, ?_, ?_, ?_⟩, ?_⟩
      · simp only [tarjanLoop]
      · exact exit_A hA hL hv hi ht (fun x hx => by rw [hlg]; exact hA.low_def x hx)
      · exact exit_low (locLow_congr hv hi (hlg at_) hLow)
      · exact cut_exit hu hA hL hC hLC
      · exact br_exit hu hv hi hb hB hLB
      · exact frame_tarjanExit at_ parent children st
    | cons e es =>
      have he : e ∈ g.edges := by rw [hL.split]; simp
      have hlen : (e :: es).length = es.length + 1 := rfl
      rw [hlen] at hf
      cases hto : neighborRule at_ e with
      | none =>
        have hstep : tarjanLoop g.edges (fuel + 1) at_ parent (e :: es) children st =
            tarjanLoop g.edges fuel at_ parent es children st := by
          simp only [tarjanLoop, tarjanTo_eq_neighborRule, hto]
        rw [hstep]
        exact ih at_ parent σ old (done ++ [e]) es children st
          ⟨hA, locA_advance hL (fun w h => by rw [hto] at h; cases h),
            locLow_advance hLow (fun w h => by rw [hto] at h; cases h), hC, hLC, hB,
            locBr_advance hLB (fun w h => by rw [hto] at h; cases h)⟩ (by omega)
      | some to_ =>
        by_cases hpar : some to_ = parent
        · have hstep : tarjanLoop g.edges (fuel + 1) at_ parent (e :: es) children st =
              tarjanLoop g.edges fuel at_ parent es children st := by
            simp only [tarjanLoop, tarjanTo_eq_neighborRule, hto, if_pos hpar]
          rw [hstep]
          have hmem : to_ ∈ st.visited := by
            apply hA.stk_sub
            apply List.mem_cons_of_mem
            have h1 := hL.hpar
            rw [← hpar] at h1
            cases σ with
            | nil => cases h1
            | cons q σ' =>
              have : q = to_ := (Option.some.inj h1).symm
              rw [this]
              exact List.mem_cons_self _ _
          exact ih at_ parent σ old (done ++ [e]) es children st
            ⟨hA, locA_advance hL (fun w h => by rw [hto] at h; cases h; exact hmem),
              locLow_advance hLow (fun w h _ hwp => by
                rw [hto] at h; cases h; exact absurd hpar hwp), hC, hLC, hB,
              locBr_advance hLB (fun w h hwp _ => by
                rw [hto] at h; cases h; exact absurd hpar hwp)⟩ (by omega)
        · by_cases hvis : to_ ∈ st.visited
          · have hstep : tarjanLoop g.edges (fuel + 1) at_ parent (e :: es) children st =
                tarjanLoop g.edges fuel at_ parent es children (tarjanBack at_ to_ st) := by
              simp only [tarjanLoop, tarjanTo_eq_neighborRule, hto, if_neg hpar,
                if_neg (not_not.2 hvis)]
            rw [hstep]
            obtain ⟨hvB, hiB, htB, hcB, hbB⟩ := tarjanBack_fields at_ to_ st
            obtain ⟨hLowB, _, hlB⟩ := locLow_back hA hL hLow hto hvis hpar he
            have hAB : InvA g (at_ :: σ) (tarjanBack at_ to_ st) :=
              invA_congr hvB hiB htB hlB hA
            have hLB1 : LocA g at_ parent σ old done (e :: es) (tarjanBack at_ to_ st) :=
              locA_congr hvB hiB hL
            have hBr1 : LocBr g at_ parent done (tarjanBack at_ to_ st) :=
              locBr_congr hbB hLB
            obtain ⟨st', hrun, hpost, hF⟩ :=
              ih at_ parent σ old (done ++ [e]) es children (tarjanBack at_ to_ st)
                ⟨hAB, locA_advance hLB1 (fun w h => by
                    rw [hto] at h; cases h; rw [hvB]; exact hvis),
                  hLowB, invCut_congr hvB hcB hC, locCut_congr hvB hcB hLC,
                  invBr_congr hvB hiB hbB hB,
                  locBr_advance hBr1 (fun w h _ hb =>
                    absurd hb (back_not_bridge hu hp hA hL hto hvis hpar))⟩
                (by
                  have : unvisited g (tarjanBack at_ to_ st) = unvisited g st := rfl
                  rw [this]
                  omega)
            exact ⟨st', hrun, hpost, frame_trans (frame_tarjanBack at_ to_ st) hF⟩
          · have hadj : Adj g.edges at_ to_ := ⟨e, he, hto⟩
            have hk : to_ ∈ mapKeys g.vertices := adj_mem_keys hinv hadj
            obtain ⟨hA1, hL1⟩ := child_pre_A hA hvis hk (fun q hq => by
              have : at_ = q := Option.some.inj hq
              rw [← this]
              exact adj_symm hu hadj)
            have hun := unvisited_enter g hvis hk
            have hmul : (unvisited g (tarjanEnter st to_) + 1) * (g.edges.length + 1) ≤
                unvisited g st * (g.edges.length + 1) := Nat.mul_le_mul_right _ hun
            rw [Nat.add_mul, Nat.one_mul] at hmul
            obtain ⟨st1, hrun1, ⟨hP, hPL, hPC, hPB⟩, hF⟩ :=
              ih to_ (some at_) (at_ :: σ) st.visited [] g.edges 0 (tarjanEnter st to_)
                ⟨hA1, hL1, locLow_enter st to_ (some at_), invCut_enter to_ hC,
                  locCut_enter st to_ (some at_), invBr_enter to_ hvis hB,
                  locBr_nil g to_ (some at_) _⟩ (by omega)
            obtain ⟨hv4, hi4, ht4⟩ := tarjanAfterChild_fields at_ parent to_ st1
            obtain ⟨hLow4, _, hl4, _, _, _⟩ :=
              locLow_child_post hA hL hLow hvis hto hP hPL hF
            obtain ⟨hA4, hL4⟩ := child_post_A hA hL hvis hto hP hF hv4 hi4 ht4 hl4
            obtain ⟨hC4, hLC4⟩ := cut_child_post hu hA hL hLC hvis hto he hP hPL hF hPC
            obtain ⟨hB4, hLB4⟩ := br_child_post hu hp hA hL hLB hvis hto hP hPL hF hPB
            have hF01 : Frame at_ st st1 :=
              frame_change (frame_trans (frame_tarjanEnter to_ st to_ hvis) hF) hvis
            have hun4 : unvisited g (tarjanAfterChild at_ parent to_ st1) ≤
                unvisited g (tarjanEnter st to_) :=
              unvisited_mono g (fun x hx => by rw [hv4]; exact hF.vis x hx)
            have hmul4 : unvisited g (tarjanAfterChild at_ parent to_ st1) *
                (g.edges.length + 1) ≤
                unvisited g (tarjanEnter st to_) * (g.edges.length + 1) :=
              Nat.mul_le_mul_right _ hun4
            obtain ⟨st', hrun, hpost, hF4⟩ :=
              ih at_ parent σ old (done ++ [e]) es (children + 1)
                (tarjanAfterChild at_ parent to_ st1)
                ⟨hA4, hL4, hLow4, hC4, hLC4, hB4, hLB4⟩ (by omega)
            refine ⟨st', ?_, hpost,
              frame_trans hF01 (frame_trans (frame_tarjanAfterChild at_ parent to_ st1) hF4)⟩
            simp only [tarjanLoop, tarjanTo_eq_neighborRule, hto, if_neg hpar, if_pos hvis,
              hrun1]
            exact hrun

theorem topInv_init (g : Graph R) : TopInv g ⟨[], [], [], 0, [], []⟩ :=
  ⟨⟨fun _ hx => absurd hx (List.not_mem_nil _), fun _ hx => absurd hx (List.not_mem_nil _),
      fun _ hx => absurd hx (List.not_mem_nil _), fun _ hx => absurd hx (List.not_mem_nil _),
      List.Pairwise.nil, List.chain'_nil, fun _ hx => absurd hx (List.not_mem_nil _)⟩,
    ⟨fun _ hx => absurd hx (List.not_mem_nil _), fun _ hx => absurd hx (List.not_mem_nil _)⟩,
    ⟨fun _ hx => absurd hx (List.not_mem_nil _), List.nodup_nil,
      fun _ _ _ hx => absurd hx (List.not_mem_nil _)⟩⟩

/-- One pass of the final loop over the vertices: the top-level call returns and keeps
the invariants, and afterwards the vertex is visited. -/
theorem tarjanRoot_spec {g : Graph R} (hu : AllUndirected g) (hinv : EndpointsExist g)
    (hp : NoParallel g) {fuel : Nat}
    (hfuel : g.edges.length + 1 + g.vertices.length * (g.edges.length + 1) ≤ fuel)
    {st : TarjanState} (h : TopInv g st) {id : String} (hk : id ∈ mapKeys g.vertices) :
    ∃ st', tarjanRoot g.edges fuel (some st) id = some st' ∧ TopInv g st' ∧
      (∀ x ∈ st.visited, x ∈ st'.visited) ∧ id ∈ st'.visited := by
  by_cases hvis : id ∈ st.visited
  · exact ⟨st, by simp only [tarjanRoot, if_neg (not_not.2 hvis)], h, fun _ hx => hx, hvis⟩
  · obtain ⟨hA1, hL1⟩ := child_pre_A h.a hvis hk (fun q hq => by cases hq)
    have hun := unvisited_enter g hvis hk
    have hle := unvisited_le g st
    have hmul : (unvisited g (tarjanEnter st id) + 1) * (g.edges.length + 1) ≤
        g.vertices.length * (g.edges.length + 1) :=
      Nat.mul_le_mul_right _ (le_trans hun hle)
    rw [Nat.add_mul, Nat.one_mul] at hmul
    obtain ⟨st', hrun, hpost, hF⟩ :=
      tarjanLoop_spec hu hinv hp fuel id none [] st.visited [] g.edges 0 (tarjanEnter st id)
        ⟨hA1, hL1, locLow_enter st id none, invCut_enter id h.cut, locCut_enter st id none,
          invBr_enter id hvis h.br, locBr_nil g id none _⟩ (by omega)
    refine ⟨st', ?_, ⟨hpost.a.inv, hpost.cut, ⟨?_, hpost.br.nodup, ?_⟩⟩, ?_, hpost.a.at_vis⟩
    · simp only [tarjanRoot, if_pos hvis, tarjanDfs]
      exact hrun
    · intro ab hab
      obtain ⟨h1, h2, h3, _, h5⟩ := hpost.br.sound ab hab
      exact ⟨h1, h2, h3, List.not_mem_nil _, h5⟩
    · intro e he x hx hxs hinc hb
      rcases hpost.br.complete e he x hx hxs hinc hb with h1 | ⟨q, hq, _⟩
      · exact h1
      · cases hq
    · intro x hx
      exact hF.vis x ((mem_visited_tarjanEnter st id x).2 (Or.inl hx))

theorem tarjanFold_spec {g : Graph R} (hu : AllUndirected g) (hinv : EndpointsExist g)
    (hp : NoParallel g) {fuel : Nat}
    (hfuel : g.edges.length + 1 + g.vertices.length * (g.edges.length + 1) ≤ fuel) :
    ∀ (l : List String) (st : TarjanState), (∀ x ∈ l, x ∈ mapKeys g.vertices) →
      TopInv g st →
      ∃ st', l.foldl (tarjanRoot g.edges fuel) (some st) = some st' ∧ TopInv g st' ∧
        (∀ x ∈ st.visited, x ∈ st'.visited) ∧ ∀ x ∈ l, x ∈ st'.visited := by
  intro l
  induction l with
  | nil =>
    intro st _ h
    exact ⟨st, rfl, h, fun _ hx => hx, fun _ hx => absurd hx (List.not_mem_nil _)⟩
  | cons a l ih =>
    intro st hl h
    obtain ⟨st1, hrun1, h1, hmono1, ha1⟩ :=
      tarjanRoot_spec hu hinv hp hfuel h (hl a (List.mem_cons_self _ _))
    obtain ⟨st', hrun, h', hmono, hall⟩ :=
      ih st1 (fun x hx => hl x (List.mem_cons_of_mem _ hx)) h1
    refine ⟨st', ?_, h', fun x hx => hmono x (hmono1 x hx), ?_⟩
    · rw [List.foldl_cons, hrun1]
      exact hrun
    · intro x hx
      rcases List.mem_cons.1 hx with rfl | hx
      · exact hmono x ha1
      · exact hall x hx

/-- The whole function returns, with a final state in which every vertex is visited and no
call is running. -/
theorem tarjan_run {g : Graph R} (hu : AllUndirected g) (hinv : EndpointsExist g)
    (hp : NoParallel g) :
    ∃ st, tarjanArticulationAndBridges g = some (st.cutVertices, st.bridges) ∧
      TopInv g st ∧ ∀ x ∈ mapKeys g.vertices, x ∈ st.visited := by
  have hfuel : g.edges.length + 1 + g.vertices.length * (g.edges.length + 1) ≤
      (g.edges.length + 2) * (g.vertices.length + g.edges.length * 2 + 2) := by
    nlinarith [Nat.zero_le (g.edges.length * g.edges.length),
      Nat.zero_le (g.vertices.length * g.edges.length)]
  obtain ⟨st, hrun, h, _, hall⟩ :=
    tarjanFold_spec hu hinv hp hfuel (mapKeys g.vertices) ⟨[], [], [], 0, [], []⟩
      (fun _ hx => hx) (topInv_init g)
  refine ⟨st, ?_, h, hall⟩
  unfold tarjanArticulationAndBridges tarjanWithFuel
  rw [hrun]

theorem tarjan_cut_iff {g : Graph R} (hu : AllUndirected g) (hinv : EndpointsExist g)
    {st : TarjanState} (h : TopInv g st) (hall : ∀ x ∈ mapKeys g.vertices, x ∈ st.visited)
    (v : String) : v ∈ st.cutVertices ↔ IsCutN g.edges v := by
  constructor
  · exact h.cut.sound v
  · intro hc
    obtain ⟨a, _, ha, _⟩ := id hc
    exact h.cut.complete v (hall v (adj_mem_keys hinv (adj_symm hu ha)))
      (List.not_mem_nil _) hc

theorem tarjan_bridge_iff {g : Graph R} (hu : AllUndirected g) (hinv : EndpointsExist g)
    {st : TarjanState} (h : TopInv g st) (hall : ∀ x ∈ mapKeys g.vertices, x ∈ st.visited)
    (u v : String) :
    ((u, v) ∈ st.bridges ∨ (v, u) ∈ st.bridges) ↔
      ∃ e ∈ g.edges, ((e.from_ = u ∧ e.to_ = v) ∨ (e.from_ = v ∧ e.to_ = u)) ∧
        IsBridge g.edges e := by
  constructor
  · rintro (hm | hm)
    · obtain ⟨⟨e, he, hn, hb⟩, _⟩ := h.br.sound _ hm
      refine ⟨e, he, ?_, hb⟩
      rcases (neighborRule_undirected (hu e he) u v).1 hn with h1 | h1
      · exact Or.inl h1
      · exact Or.inr ⟨h1.2, h1.1⟩
    · obtain ⟨⟨e, he, hn, hb⟩, _⟩ := h.br.sound _ hm
      refine ⟨e, he, ?_, hb⟩
      rcases (neighborRule_undirected (hu e he) v u).1 hn with h1 | h1
      · exact Or.inr h1
      · exact Or.inl ⟨h1.2, h1.1⟩
  · rintro ⟨e, he, hends, hb⟩
    have hr := h.br.complete e he e.from_ (hall _ (hinv e he).1) (List.not_mem_nil _)
      (Or.inl rfl) hb
    unfold Reported at hr
    rcases hends with ⟨h1, h2⟩ | ⟨h1, h2⟩
    · rw [h1, h2] at hr
      exact hr
    · rw [h1, h2] at hr
      exact hr.symm

theorem count_eq_one_of_nodup {α : Type} [BEq α] [LawfulBEq α] {l : List α}
    (hn : l.Nodup) {a : α} (ha : a ∈ l) : l.count a = 1 := by
  induction l with
  | nil => cases ha
  | cons b l ih =>
    rw [List.nodup_cons] at hn
    rw [List.count_cons]
    rcases List.mem_cons.1 ha with rfl | ha'
    · rw [List.count_eq_zero_of_not_mem hn.1]
      simp
    · have hne : (b == a) = false := by
        apply beq_false_of_ne
        rintro rfl
        exact hn.1 ha'
      rw [ih hn.2 ha', hne]
      simp

theorem tarjan_bridge_once {g : Graph R} {st : TarjanState} (h : TopInv g st)
    (u v : String) (hm : (u, v) ∈ st.bridges ∨ (v, u) ∈ st.bridges) :
    st.bridges.count (u, v) + st.bridges.count (v, u) = 1 := by
  have key : ∀ a b : String, (a, b) ∈ st.bridges →
      st.bridges.count (a, b) + st.bridges.count (b, a) = 1 := by
    intro a b hab
    have h1 := (h.br.sound _ hab).2.2.2.2
    have hnot : (b, a) ∉ st.bridges := by
      intro hba
      have h2 := (h.br.sound _ hba).2.2.2.2
      simp only at h1 h2
      omega
    rw [List.count_eq_zero_of_not_mem hnot, count_eq_one_of_nodup h.br.nodup hab]
  rcases hm with hm | hm
  · exact key u v hm
  · rw [Nat.add_comm]
    exact key v u hm


/-! ### Cut vertices and bridges against component counts -/

/-- C8: for every graph whose edges are all undirected, reference existing vertices and
join no pair of vertices twice, `tarjanArticulationAndBridges` returns, and a vertex is in
the returned `cutVertices` set exactly when deleting it together with its incident edges
increases the number of connected components; on the path A-B-C-D the set holds C and B
and on the 4-cycle A-B-C-D-A it is empty. -/
theorem tarjan_cutVertices_iff_components_increase (g : Graph R) (hu : AllUndirected g)
    (hinv : EndpointsExist g) (hp : NoParallel g) :
    (∃ cut bridges, tarjanArticulationAndBridges g = some (cut, bridges) ∧
      ∀ v, v ∈ cut ↔
        Nat.card (Components g) < Nat.card (Components (g.removeVertex v))) ∧
    (tarjanArticulationAndBridges pathGraph).map Prod.fst = some ["C", "B"] ∧
    (tarjanArticulationAndBridges cycleGraph).map Prod.fst = some [] := by
  refine ⟨?_, by decide, by decide⟩
  obtain ⟨st, hrun, h, hall⟩ := tarjan_run hu hinv hp
  refine ⟨st.cutVertices, st.bridges, hrun, fun v => ?_⟩
  rw [components_removeVertex_iff hu hinv v]
  exact tarjan_cut_iff hu hinv h hall v

/-- Witness for `tarjan_cutVertices_iff_components_increase` on the path A-B-C-D. -/
theorem tarjan_cutVertices_iff_components_increase_witness :
    AllUndirected pathGraph ∧ EndpointsExist pathGraph ∧ NoParallel pathGraph ∧
    ∃ cut bridges, tarjanArticulationAndBridges pathGraph = some (cut, bridges) ∧
      ∀ v, v ∈ cut ↔
        Nat.card (Components pathGraph) <
          Nat.card (Components (pathGraph.removeVertex v)) :=
  ⟨by decide, by decide, by decide,
    (tarjan_cutVertices_iff_components_increase pathGraph (by decide) (by decide)
      (by decide)).1⟩

/-- C9: for every graph whose edges are all undirected, reference existing vertices and
join no pair of vertices twice, `tarjanArticulationAndBridges` returns, and the returned
`bridges` list holds the pair of `u` and `v` in one of the two orientations exactly when an
edge joins `u` and `v` whose deletion increases the number of connected components, and a
pair it holds is there exactly once over both orientations; on the path A-B-C-D all three
edges are listed and on the 4-cycle A-B-C-D-A none is. -/
theorem tarjan_bridges_iff_components_increase (g : Graph R) (hu : AllUndirected g)
    (hinv : EndpointsExist g) (hp : NoParallel g) :
    (∃ cut bridges, tarjanArticulationAndBridges g = some (cut, bridges) ∧
      ∀ u v,
        (((u, v) ∈ bridges ∨ (v, u) ∈ bridges) ↔
          ∃ (i : Nat) (hi : i < g.edges.length),
            ((g.edges[i].from_ = u ∧ g.edges[i].to_ = v) ∨
              (g.edges[i].from_ = v ∧ g.edges[i].to_ = u)) ∧
            Nat.card (Components g) < Nat.card (Components (g.removeEdge i))) ∧
        ((u, v) ∈ bridges ∨ (v, u) ∈ bridges →
          bridges.count (u, v) + bridges.count (v, u) = 1)) ∧
    (tarjanArticulationAndBridges pathGraph).map Prod.snd =
      some [("C", "D"), ("B", "C"), ("A", "B")] ∧
    (tarjanArticulationAndBridges cycleGraph).map Prod.snd = some [] := by
  refine ⟨?_, by decide, by decide⟩
  obtain ⟨st, hrun, h, hall⟩ := tarjan_run hu hinv hp
  refine ⟨st.cutVertices, st.bridges, hrun, fun u v => ⟨?_, tarjan_bridge_once h u v⟩⟩
  rw [tarjan_bridge_iff hu hinv h hall u v]
  constructor
  · rintro ⟨e, he, hends, hb⟩
    obtain ⟨i, hi, rfl⟩ := List.getElem_of_mem he
    exact ⟨i, hi, hends, (components_removeEdge_iff hu hinv hp i hi).2 hb⟩
  · rintro ⟨i, hi, hends, hc⟩
    exact ⟨g.edges[i], List.getElem_mem _, hends,
      (components_removeEdge_iff hu hinv hp i hi).1 hc⟩

/-- Witness for `tarjan_bridges_iff_components_increase` on the path A-B-C-D. -/
theorem tarjan_bridges_iff_components_increase_witness :
    AllUndirected pathGraph ∧ EndpointsExist pathGraph ∧ NoParallel pathGraph ∧
    ∃ cut bridges, tarjanArticulationAndBridges pathGraph = some (cut, bridges) ∧
      ∀ u v,
        (((u, v) ∈ bridges ∨ (v, u) ∈ bridges) ↔
          ∃ (i : Nat) (hi : i < pathGraph.edges.length),
            ((pathGraph.edges[i].from_ = u ∧ pathGraph.edges[i].to_ = v) ∨
              (pathGraph.edges[i].from_ = v ∧ pathGraph.edges[i].to_ = u)) ∧
            Nat.card (Components pathGraph) <
              Nat.card (Components (pathGraph.removeEdge i))) ∧
        ((u, v) ∈ bridges ∨ (v, u) ∈ bridges →
          bridges.count (u, v) + bridges.count (v, u) = 1) :=
  ⟨by decide, by decide, by decide,
    (tarjan_bridges_iff_components_increase pathGraph (by decide) (by decide)
      (by decide)).1⟩

/-! ## Structural analysis on graphs with directed edges -/

/-- C11: the graphs `orientedPathGraph` and `plainPathGraph` have the same vertices and the
same edge list and differ only in the `isDirected` flag of the edge between B and A, and
`tarjanArticulationAndBridges` returns no cut vertex and the one bridge B-C on the first,
the cut vertex B and the bridges B-C and A-B on the second. -/
theorem tarjan_depends_on_isDirected :
    orientedPathGraph.vertices = plainPathGraph.vertices ∧
    orientedPathGraph.edges.map (fun e => { e with isDirected := false }) =
      plainPathGraph.edges ∧
    tarjanArticulationAndBridges orientedPathGraph = some ([], [("B", "C")]) ∧
    tarjanArticulationAndBridges plainPathGraph =
      some (["B"], [("B", "C"), ("A", "B")]) := by
  decide

/-- C13: on the graph with the vertices A, B and the directed edge B→A the component list
of `findConnectedComponents` is `[[A], [B]]`: the two ends of the edge are in different
components. -/
theorem connectedComponents_splits_directed_edge :
    EndpointsExist oneArcGraph ∧
    connectedComponents oneArcGraph = some [["A"], ["B"]] ∧
    (findConnectedComponents (State.init oneArcGraph)).toOption.map (fun s => s.alerts) =
      some [.components [["A"], ["B"]]] := by
  decide

/-! ## The endpoint invariant -/

theorem endpointsExist_of_sublist (g g' : Graph R) (hv : g'.vertices = g.vertices)
    (he : ∀ e ∈ g'.edges, e ∈ g.edges) (h : EndpointsExist g) : EndpointsExist g' := by
  intro e hmem
  rw [hv]
  exact h e (he e hmem)

/-- C15: the endpoint invariant is preserved by `removeVertex`, by `removeEdge` at every
index (a natural number, or any integer with `splice` counting a negative one from the
end) and by `clear`. -/
theorem endpointsExist_preserved (g : Graph R) (h : EndpointsExist g) :
    (∀ id, EndpointsExist (g.removeVertex id)) ∧
    (∀ index : Nat, EndpointsExist (g.removeEdge index)) ∧
    (∀ index : ℤ, EndpointsExist (g.removeEdgeAt index)) ∧
    EndpointsExist g.clear := by
  have hedge : ∀ index : Nat, EndpointsExist (g.removeEdge index) := fun index =>
    endpointsExist_of_sublist g (g.removeEdge index) rfl
      (fun e he => (List.eraseIdx_sublist g.edges index).subset he) h
  refine ⟨?_, hedge, ?_, ?_⟩
  · intro id e he
    simp only [Graph.removeVertex, List.mem_filter, decide_eq_true_eq] at he
    obtain ⟨hmem, h1, h2⟩ := he
    simp only [Graph.removeVertex, mem_mapKeys_mapDelete]
    exact ⟨⟨(h e hmem).1, h1⟩, ⟨(h e hmem).2, h2⟩⟩
  · intro index
    unfold Graph.removeEdgeAt
    split
    · exact hedge _
    · exact hedge _
  · intro e he
    simp [Graph.clear] at he

/-- Witness for `endpointsExist_preserved` on the graph A-B, A-C, B-D. -/
theorem endpointsExist_preserved_witness :
    EndpointsExist treeGraph ∧
    (∀ id, EndpointsExist (treeGraph.removeVertex id)) ∧
    (∀ index : Nat, EndpointsExist (treeGraph.removeEdge index)) ∧
    (∀ index : ℤ, EndpointsExist (treeGraph.removeEdgeAt index)) ∧
    EndpointsExist treeGraph.clear :=
  ⟨by decide, endpointsExist_preserved treeGraph (by decide)⟩

/-! ## Grid layout -/

/-- C18: after `gridLayout` the single vertex of a one-vertex graph is at `(-75, -75)`, and
the four vertices of a four-vertex graph are at `(-150, -150)`, `(0, -150)`, `(-150, 0)`
and `(0, 0)`: the midpoint of the bounding box is `(-75, -75)` both times, not the
origin. -/
theorem gridLayout_not_centered :
    (gridLayout (State.init (pointsGraph ℚ ["A"]))).graph.vertices =
      [("A", ⟨"A", "A", -75, -75, "#208141", 25⟩)] ∧
    (gridLayout (State.init (pointsGraph ℚ ["A", "B", "C", "D"]))).graph.vertices =
      [("A", ⟨"A", "A", -150, -150, "#208141", 25⟩), ("B", ⟨"B", "B", 0, -150, "#208141", 25⟩),
       ("C", ⟨"C", "C", -150, 0, "#208141", 25⟩), ("D", ⟨"D", "D", 0, 0, "#208141", 25⟩)] := by
  have h1 : ceilSqrt 1 = 1 := by decide
  have h4 : ceilSqrt 4 = 2 := by decide
  constructor
  · simp only [gridLayout, gridPlace, State.init, pointsGraph, List.map, List.length, h1]
    norm_num
  · simp only [gridLayout, gridPlace, State.init, pointsGraph, List.map, List.length, h4]
    norm_num

/-! ## Loading a snapshot -/

theorem mapGet_foldl_mapSet {α β : Type} (key : α → String) (val : α → β) (l : List α) :
    ∀ (m : List (String × β)) (k : String),
      mapGet (l.foldl (fun m a => mapSet m (key a) (val a)) m) k =
        match l.reverse.find? (fun a => key a = k) with
        | some a => some (val a)
        | none => mapGet m k := by
  induction l with
  | nil => intro m k; rfl
  | cons a l ih =>
    intro m k
    rw [List.foldl_cons, ih, List.reverse_cons, List.find?_append]
    cases hfind : l.reverse.find? (fun a => key a = k) with
    | some b => rfl
    | none =>
      by_cases hk : key a = k
      · simp only [Option.none_or, List.find?_cons, hk, decide_True]
        rw [← hk, mapGet_mapSet_self]
      · simp only [Option.none_or, List.find?_cons, hk, decide_False, List.find?_nil]
        rw [mapGet_mapSet_of_ne _ _ _ _ (fun e => hk e.symm)]

theorem foldl_loadVertex [Ring R] [DecidableEq R] (vs : List (VertexRec R)) :
    ∀ g : Graph R,
      (vs.foldl Graph.loadVertex g).edges = g.edges ∧
      (vs.foldl Graph.loadVertex g).vertices =
        vs.foldl (fun m v => mapSet m v.id
          (⟨v.id, v.label.getD v.id, v.x.getD 0, v.y.getD 0, orStr v.color "#208141",
            orNum v.radius 25⟩ : Vertex R)) g.vertices := by
  induction vs with
  | nil => intro g; exact ⟨rfl, rfl⟩
  | cons v vs ih =>
    intro g
    rw [List.foldl_cons, List.foldl_cons]
    exact ih (g.loadVertex v)

theorem foldl_loadEdge [Ring R] [DecidableEq R] (es : List (EdgeRec R)) :
    ∀ g : Graph R,
      (es.foldl Graph.loadEdge g).vertices = g.vertices ∧
      (es.foldl Graph.loadEdge g).edges =
        g.edges ++ es.map (fun e =>
          (⟨e.from_, e.to_, orNum e.weight 1, orStr e.label "", orStr e.color "#626c7c",
            orNum e.width 2, orBool e.isDirected⟩ : Edge R)) := by
  induction es with
  | nil => intro g; simp
  | cons e es ih =>
    intro g
    rw [List.foldl_cons]
    obtain ⟨h1, h2⟩ := ih (g.loadEdge e)
    refine ⟨h1, ?_⟩
    rw [h2]
    simp [Graph.loadEdge, Graph.addEdge]

/-- C16: for every snapshot, `fromJSON` gives the same graph whatever the graph held
before; the edge list is the list of the edge records with `weight || 1`, `label || ''`,
`color || '#626c7c'`, `width || 2` and `isDirected || false`, the vertex stored under an id
is the last vertex record with that id with `color || '#208141'` and `radius || 25`, and
`||` on an omitted field gives the default. -/
theorem fromJSON_defaults_and_replaces [Ring R] [DecidableEq R] (g g' : Graph R)
    (d : Snapshot R) :
    g.fromJSON d = g'.fromJSON d ∧
    (g.fromJSON d).edges = d.edges.map (fun e =>
      (⟨e.from_, e.to_, orNum e.weight 1, orStr e.label "", orStr e.color "#626c7c",
        orNum e.width 2, orBool e.isDirected⟩ : Edge R)) ∧
    (∀ id, mapGet (g.fromJSON d).vertices id =
      (d.vertices.reverse.find? (fun v => v.id = id)).map (fun v =>
        (⟨v.id, v.label.getD v.id, v.x.getD 0, v.y.getD 0, orStr v.color "#208141",
          orNum v.radius 25⟩ : Vertex R))) ∧
    (∀ x : R, orNum none x = x) ∧ (∀ x : String, orStr none x = x) ∧ orBool none = false := by
  refine ⟨rfl, ?_, ?_, fun _ => rfl, fun _ => rfl, rfl⟩
  · unfold Graph.fromJSON
    rw [(foldl_loadEdge d.edges _).2, (foldl_loadVertex d.vertices _).1]
    simp [Graph.clear]
  · intro id
    unfold Graph.fromJSON
    rw [(foldl_loadEdge d.edges _).1, (foldl_loadVertex d.vertices _).2,
      mapGet_foldl_mapSet (fun v : VertexRec R => v.id)]
    cases d.vertices.reverse.find? (fun v => v.id = id) with
    | some v => rfl
    | none => rfl

/-! ## The graph store under the traversals -/

theorem clearTimer_djOrder (s : State R) : (clearTimer s).djOrder = s.djOrder := by
  unfold clearTimer
  split <;> rfl

theorem bfsStep_graph (s s' : State R) (h : bfsStep s = .ok s') : s'.graph = s.graph := by
  unfold bfsStep at h
  split at h
  · simp only [stopVisualizationMode] at h
    split at h
    · cases h
    · cases h
      exact clearTimer_graph s
  · cases h
    rfl

theorem dfsStep_graph (s s' : State R) (h : dfsStep s = .ok s') : s'.graph = s.graph := by
  unfold dfsStep at h
  split at h
  · simp only [stopVisualizationMode] at h
    split at h
    · cases h
    · cases h
      exact clearTimer_graph s
  · simp only at h
    split at h
    · cases h
      rfl
    · cases h
      rfl

theorem finishDijkstra_frame (s s' : State R) (h : finishDijkstra s = .ok s') :
    s'.graph = s.graph ∧ s'.djOrder = s.djOrder ∧ s'.djUnvisited = s.djUnvisited ∧
    s'.djDistances = s.djDistances := by
  obtain ⟨-, -, -, c4, c5, -, -⟩ := clearTimer_fields s
  have c1 := clearTimer_graph s
  have c2 := clearTimer_djOrder s
  unfold finishDijkstra at h
  simp only [stopVisualizationMode] at h
  split at h
  · cases h
  · split at h
    · cases h
    · split at h
      · cases h
        exact ⟨c1, c2, c5, c4⟩
      · split at h
        · cases h
        · cases h
          exact ⟨c1, c2, c5, c4⟩

section DijkstraOrder
variable [LinearOrderedRing R]

theorem dijkstraStep_cases (s s' : State R) (h : dijkstraStep s = .ok s') :
    (s'.graph = s.graph ∧ s'.djOrder = s.djOrder ∧ s'.djUnvisited = s.djUnvisited) ∨
    ∃ c, ∃ m : R, djSelect s.djDistances s.djUnvisited = (some c, (m : WithTop R)) ∧
      s'.graph = s.graph ∧ s'.djOrder = s.djOrder ++ [c] ∧
      s'.djUnvisited = setDelete s.djUnvisited c := by
  unfold dijkstraStep at h
  split at h
  · exact Or.inl ((finishDijkstra_frame s s' h).imp_right (fun x => ⟨x.1, x.2.1⟩))
  · split at h
    · exact Or.inl ((finishDijkstra_frame s s' h).imp_right (fun x => ⟨x.1, x.2.1⟩))
    · rename_i current minDist hsel
      split at h
      · exact Or.inl ((finishDijkstra_frame s s' h).imp_right (fun x => ⟨x.1, x.2.1⟩))
      · rename_i hne
        right
        obtain ⟨m, hm⟩ := WithTop.ne_top_iff_exists.1 hne
        refine ⟨current, m, by rw [hsel, hm], ?_⟩
        simp only at h
        split at h
        · obtain ⟨h1, h2, h3, _⟩ := finishDijkstra_frame _ s' h
          exact ⟨h1, h2, h3⟩
        · cases h
          exact ⟨rfl, rfl, rfl⟩

theorem dijkstraStep_graph (s s' : State R) (h : dijkstraStep s = .ok s') :
    s'.graph = s.graph := by
  rcases dijkstraStep_cases s s' h with h1 | ⟨_, _, _, h1, _⟩
  · exact h1.1
  · exact h1

/-! ### The vertex that a step finalizes -/

theorem djSelect_first (D : List (String × WithTop R)) (U : List String) :
    ∀ acc : Option String × WithTop R,
      (U.foldl (djSelectStep D) acc).2 < acc.2 →
      ∃ c, (U.foldl (djSelectStep D) acc).1 = some c ∧
        U.find? (fun u => decide (mapGet D u = some (U.foldl (djSelectStep D) acc).2)) =
          some c := by
  induction U with
  | nil =>
    intro acc h
    exact absurd h (lt_irrefl _)
  | cons u U ih =>
    intro acc h
    rw [List.foldl_cons] at h ⊢
    obtain ⟨hle, _, hthird⟩ := djSelect_foldl D U (djSelectStep D acc u)
    by_cases hupd : ∃ d, mapGet D u = some d ∧ d < acc.2
    · obtain ⟨d, hd, hlt⟩ := hupd
      have hstep : djSelectStep D acc u = (some u, d) := by
        unfold djSelectStep
        rw [hd]
        simp only [hlt, if_true]
      rw [hstep] at hle hthird h ⊢
      rcases hthird with heq | ⟨_, _, _, _, hlt2⟩
      · rw [heq]
        refine ⟨u, rfl, ?_⟩
        simp only [List.find?_cons, hd, decide_True]
      · obtain ⟨c, hc1, hc2⟩ := ih (some u, d) hlt2
        refine ⟨c, hc1, ?_⟩
        rw [List.find?_cons]
        have hne : ¬ mapGet D u = some (U.foldl (djSelectStep D) (some u, d)).2 := by
          rw [hd]
          intro heq
          have := Option.some.inj heq
          rw [← this] at hlt2
          exact lt_irrefl _ hlt2
        simp only [hne, decide_False]
        exact hc2
    · have hstep : djSelectStep D acc u = acc := by
        unfold djSelectStep
        cases hd : mapGet D u with
        | none => rfl
        | some d =>
          have : ¬ d < acc.2 := fun hlt => hupd ⟨d, hd, hlt⟩
          simp only [this, if_false]
      rw [hstep] at h ⊢
      obtain ⟨c, hc1, hc2⟩ := ih acc h
      refine ⟨c, hc1, ?_⟩
      rw [List.find?_cons]
      have hne : ¬ mapGet D u = some (U.foldl (djSelectStep D) acc).2 := by
        intro heq
        exact hupd ⟨_, heq, h⟩
      simp only [hne, decide_False]
      exact hc2

theorem find?_congr_of_mem {α : Type} (p q : α → Bool) (l : List α)
    (h : ∀ x ∈ l, p x = q x) : l.find? p = l.find? q := by
  induction l with
  | nil => rfl
  | cons a l ih =>
    rw [List.find?_cons, List.find?_cons, h a (List.mem_cons_self _ _),
      ih (fun x hx => h x (List.mem_cons_of_mem _ hx))]

theorem find?_foldl_setAdd (q : String → Bool) (ks : List String) :
    ∀ acc : List String, (ks.foldl setAdd acc).find? q = (acc ++ ks).find? q := by
  induction ks with
  | nil => intro acc; simp
  | cons k ks ih =>
    intro acc
    rw [List.foldl_cons, ih]
    unfold setAdd
    split
    · rename_i hk
      rw [List.find?_append, List.find?_append]
      cases hacc : acc.find? q with
      | some a => rfl
      | none =>
        have hqk : q k = false := by
          have := List.find?_eq_none.1 hacc k hk
          simpa using this
        simp only [Option.none_or, List.find?_cons, hqk]
    · simp

theorem mem_foldl_setAdd (ks : List String) :
    ∀ (acc : List String) (x : String), x ∈ ks.foldl setAdd acc ↔ x ∈ acc ∨ x ∈ ks := by
  induction ks with
  | nil => intro acc x; simp
  | cons k ks ih =>
    intro acc x
    rw [List.foldl_cons, ih, mem_setAdd, List.mem_cons]
    tauto

theorem djInit_unvisited (start : String) (ks : List String) :
    ∀ acc : List (String × WithTop R) × List (String × Option String) × List String,
      (ks.foldl (djInit start) acc).2.2 = ks.foldl setAdd acc.2.2 := by
  induction ks with
  | nil => intro acc; rfl
  | cons k ks ih =>
    intro acc
    rw [List.foldl_cons, List.foldl_cons, ih]
    rfl

theorem startDijkstraVisualization_store (s : State R) (start end_ : String)
    (mode : StepMode) (delayInput : Option R) :
    (startDijkstraVisualization s start end_ mode delayInput).graph = s.graph ∧
    (startDijkstraVisualization s start end_ mode delayInput).djUnvisited =
      (mapKeys s.graph.vertices).foldl setAdd [] := by
  have hu := djInit_unvisited (R := R) start (mapKeys s.graph.vertices) ([], [], [])
  unfold startDijkstraVisualization
  simp only [clearTimer_graph, startVisualizationMode]
  by_cases hm : mode = .auto
  · simp only [hm, if_true, setTimer]
    exact ⟨trivial, hu⟩
  · simp only [hm, if_false]
    exact ⟨trivial, hu⟩

/-- In every state of a Dijkstra run the graph is the one the run started on, and the
iteration order of the unvisited set is the enumeration order of the vertex map: the first
unvisited vertex with a property is the same in both orders. -/
theorem djReachable_order (s0 : State R) (start end_ : String) (mode : StepMode)
    (delayInput : Option R) (s : State R)
    (h : DjReachable s0 start end_ mode delayInput s) :
    s.graph = s0.graph ∧
    ∀ q : String → Bool,
      (mapKeys s0.graph.vertices).find? (fun u => decide (u ∈ s.djUnvisited) && q u) =
        s.djUnvisited.find? q := by
  induction h with
  | init =>
    obtain ⟨hg, hu⟩ := startDijkstraVisualization_store s0 start end_ mode delayInput
    refine ⟨hg, fun q => ?_⟩
    rw [hu, find?_foldl_setAdd, List.nil_append]
    apply find?_congr_of_mem
    intro x hx
    have : x ∈ (mapKeys s0.graph.vertices).foldl setAdd [] :=
      (mem_foldl_setAdd _ _ _).2 (Or.inr hx)
    simp only [this, decide_True, Bool.true_and]
  | @step s s' _ hstep ih =>
    obtain ⟨hg, hq⟩ := ih
    rcases dijkstraStep_cases s s' hstep with ⟨h1, _, h3⟩ | ⟨c, m, _, h1, _, h3⟩
    · refine ⟨h1.trans hg, fun q => ?_⟩
      rw [h3]
      exact hq q
    · refine ⟨h1.trans hg, fun q => ?_⟩
      rw [h3]
      have := hq (fun u => decide (u ≠ c) && q u)
      unfold setDelete
      have e1 : (List.filter (fun x => decide (x ≠ c)) s.djUnvisited).find? q =
          s.djUnvisited.find? (fun u => decide (u ≠ c) && q u) := by
        rw [List.find?_filter]
        apply find?_congr_of_mem
        intro x _
        by_cases h2 : x = c <;> cases q x <;> simp [h2]
      rw [e1, ← this]
      apply find?_congr_of_mem
      intro x _
      have hiff : x ∈ List.filter (fun x => decide (x ≠ c)) s.djUnvisited ↔
          x ∈ s.djUnvisited ∧ x ≠ c := by
        simp only [List.mem_filter, decide_eq_true_eq]
      by_cases h1 : x ∈ s.djUnvisited <;> by_cases h2 : x = c <;> simp [hiff, h1, h2]

/-- C14: in every state of a Dijkstra run, a `dijkstraStep` that finalizes a vertex `c`
(appends it to `djOrder`) takes `c` from the unvisited set, the distance of `c` is finite
and at most the distance of every unvisited vertex, and `c` is the first vertex in the
enumeration order of the vertex map that is unvisited and has this distance. -/
theorem dijkstraStep_finalizes_first_minimum (s0 : State R) (start end_ : String)
    (mode : StepMode) (delayInput : Option R) (s s' : State R) (c : String)
    (hreach : DjReachable s0 start end_ mode delayInput s)
    (hstep : dijkstraStep s = .ok s') (hfin : s'.djOrder = s.djOrder ++ [c]) :
    c ∈ s.djUnvisited ∧ c ∉ s'.djUnvisited ∧
    ∃ m : R, mapGet s.djDistances c = some (m : WithTop R) ∧
      (∀ u ∈ s.djUnvisited, ∀ d, mapGet s.djDistances u = some d → (m : WithTop R) ≤ d) ∧
      (mapKeys s.graph.vertices).find? (fun u =>
        decide (u ∈ s.djUnvisited) && decide (mapGet s.djDistances u = some (m : WithTop R))) =
          some c := by
  obtain ⟨hg, hq⟩ := djReachable_order s0 start end_ mode delayInput s hreach
  rcases dijkstraStep_cases s s' hstep with ⟨_, h2, _⟩ | ⟨c', m, hsel, _, h2, h3⟩
  · rw [h2] at hfin
    have := congrArg List.length hfin
    simp at this
  · have hc : c' = c := by
      rw [h2] at hfin
      simpa using List.append_cancel_left hfin
    subst hc
    have hlt : (djSelect s.djDistances s.djUnvisited).2 < (⊤ : WithTop R) := by
      rw [hsel]
      exact WithTop.coe_lt_top m
    obtain ⟨c2, hc2, hfind⟩ := djSelect_first s.djDistances s.djUnvisited (none, ⊤) hlt
    have hsel' : s.djUnvisited.foldl (djSelectStep s.djDistances) (none, ⊤) =
        (some c', (m : WithTop R)) := hsel
    rw [hsel'] at hc2 hfind
    have hcc : c2 = c' := (Option.some.inj hc2).symm
    subst hcc
    have hmem := List.mem_of_find?_eq_some hfind
    have hdist : mapGet s.djDistances c2 = some (m : WithTop R) := by
      simpa using List.find?_some hfind
    obtain ⟨_, hmin, _⟩ := djSelect_foldl s.djDistances s.djUnvisited (none, ⊤)
    rw [hsel'] at hmin
    refine ⟨hmem, ?_, m, hdist, hmin, ?_⟩
    · rw [h3, mem_setDelete]
      exact fun h => h.2 rfl
    · rw [hg, hq]
      exact hfind

/-- Witness for `dijkstraStep_finalizes_first_minimum`: the first step on the triangle
A-B, B-C, A-C from A finalizes A. -/
theorem dijkstraStep_finalizes_first_minimum_witness :
    ∃ s' : State ℤ,
      dijkstraStep (startDijkstraVisualization (State.init triangleGraph) "A" "C" .space none) =
        .ok s' ∧
      s'.djOrder =
        (startDijkstraVisualization (State.init triangleGraph) "A" "C" .space none).djOrder ++
          ["A"] ∧
      "A" ∈ (startDijkstraVisualization (State.init triangleGraph) "A" "C" .space
        none).djUnvisited ∧
      "A" ∉ s'.djUnvisited :=
  ⟨_, rfl, rfl,
    (dijkstraStep_finalizes_first_minimum (State.init triangleGraph) "A" "C" .space none _ _
      "A" DjReachable.init rfl rfl).1,
    (dijkstraStep_finalizes_first_minimum (State.init triangleGraph) "A" "C" .space none _ _
      "A" DjReachable.init rfl rfl).2.1⟩

end DijkstraOrder

/-! ### `findConnectedComponents` and the colours -/

theorem eraseColors_mapSet (vs : List (String × Vertex R)) (id : String) (v : Vertex R)
    (color : String) (h : mapGet vs id = some v) :
    eraseColors (mapSet vs id { v with color := color }) = eraseColors vs := by
  induction vs with
  | nil => simp [mapGet] at h
  | cons p vs ih =>
    obtain ⟨k, w⟩ := p
    by_cases hk : k = id
    · subst hk
      simp only [mapGet, if_true] at h
      cases h
      simp [mapSet, eraseColors]
    · simp only [mapGet, hk, if_false] at h
      have := ih h
      simp only [eraseColors] at this ⊢
      simp [mapSet, hk, this]

theorem eraseColors_paintVertex (color : String) (vs : List (String × Vertex R))
    (id : String) : eraseColors (paintVertex color vs id) = eraseColors vs := by
  unfold paintVertex
  split
  · rename_i v hv
    exact eraseColors_mapSet vs id v color hv
  · rfl

theorem eraseColors_foldl_paintVertex (color : String) (comp : List String) :
    ∀ vs : List (String × Vertex R),
      eraseColors (comp.foldl (paintVertex color) vs) = eraseColors vs := by
  induction comp with
  | nil => intro vs; rfl
  | cons id comp ih =>
    intro vs
    rw [List.foldl_cons, ih, eraseColors_paintVertex]

theorem eraseColors_paintFrom (components : List (List String)) :
    ∀ (index : Nat) (vs : List (String × Vertex R)),
      eraseColors (paintFrom index components vs) = eraseColors vs := by
  induction components with
  | nil => intro index vs; rfl
  | cons comp rest ih =>
    intro index vs
    rw [paintFrom, ih, eraseColors_foldl_paintVertex]

theorem findConnectedComponents_cases (s s' : State R)
    (h : findConnectedComponents s = .ok s') :
    (s.graph.vertices = [] ∧ s' = { s with alerts := s.alerts ++ [.graphEmpty] }) ∨
    (s.graph.vertices ≠ [] ∧ ∃ components, connectedComponents s.graph = some components ∧
      s'.graph = { s.graph with vertices := paintFrom 0 components s.graph.vertices } ∧
      s'.componentsOriginalColors =
        some (s.graph.vertices.foldl (fun m p => mapSet m p.1 p.2.color) []) ∧
      s'.alerts =
        s.alerts ++ [.components (components.map (fun c => c.map (labelOrId s'.graph)))]) := by
  unfold findConnectedComponents at h
  split at h
  · rename_i hlen
    left
    cases h
    refine ⟨?_, rfl⟩
    simpa [mapKeys] using hlen
  · rename_i hlen
    right
    refine ⟨fun he => hlen (by simp [mapKeys, he]), ?_⟩
    simp only at h
    split at h
    · cases h
    · rename_i components hc
      cases h
      exact ⟨components, hc, rfl, rfl, rfl⟩

/-- The call of `findConnectedComponents` on a graph with the one vertex A of colour
`#208141` leaves A with the colour `#e6194b`. -/
theorem findConnectedComponents_recolors :
    (State.init oneVertexGraph).graph.vertices =
      [("A", ⟨"A", "old", 1, 2, "#208141", 25⟩)] ∧
    (findConnectedComponents (State.init oneVertexGraph)).toOption.map
      (fun s => s.graph.vertices) = some [("A", ⟨"A", "old", 1, 2, "#e6194b", 25⟩)] := by
  decide

/-! ## Connected components -/

theorem edgeNeighbor_eq_neighborRule (v : String) (e : Edge R) :
    edgeNeighbor v e = neighborRule v e := rfl

theorem componentPush_inv {g : Graph R} (hinv : EndpointsExist g) {V0 : List String}
    {start : String} (v : String) (pre : List String) {e : Edge R} (he : e ∈ g.edges)
    {vis q : List String} (h : CompInv (mapKeys g.vertices) V0 start (pre ++ q) vis) :
    CompInv (mapKeys g.vertices) V0 start (pre ++ (componentPush v (vis, q) e).2)
      (componentPush v (vis, q) e).1 := by
  unfold componentPush
  cases hn : edgeNeighbor v e with
  | none => exact h
  | some n =>
    simp only
    by_cases hv : n ∈ vis
    · simp only [hv, not_true_eq_false, if_false]
      exact h
    · simp only [hv, not_false_eq_true, if_true]
      have hnl : n ∉ pre ++ q := fun hm => hv ((h.vis n).2 (Or.inr hm))
      have hn0 : n ∉ V0 := fun hm => hv ((h.vis n).2 (Or.inl hm))
      have hne : pre ++ q ≠ [] := by
        intro he
        have := h.head
        rw [he] at this
        cases this
      rw [← List.append_assoc]
      refine ⟨?_, ?_, ?_, ?_, ?_⟩
      · rw [List.nodup_append]
        refine ⟨h.nodup, List.nodup_singleton _, ?_⟩
        intro x hx hx'
        rw [List.mem_singleton] at hx'
        exact hnl (hx' ▸ hx)
      · intro x
        rw [mem_setAdd, h.vis x]
        simp only [List.mem_append, List.mem_singleton]
        tauto
      · intro x hx
        rcases List.mem_append.1 hx with hx | hx
        · exact h.disj x hx
        · rw [List.mem_singleton] at hx
          exact hx ▸ hn0
      · rw [List.head?_append_of_ne_nil _ hne]
        exact h.head
      · intro x hx
        rcases List.mem_append.1 hx with hx | hx
        · exact h.sub x hx
        · rw [List.mem_singleton] at hx
          rw [hx]
          exact adj_mem_keys hinv ⟨e, he, hn⟩

theorem componentPush_foldl {g : Graph R} (hinv : EndpointsExist g) {V0 : List String}
    {start : String} (v : String) (pre : List String) :
    ∀ (es : List (Edge R)), (∀ e ∈ es, e ∈ g.edges) → ∀ (vis q : List String),
      CompInv (mapKeys g.vertices) V0 start (pre ++ q) vis →
      CompInv (mapKeys g.vertices) V0 start (pre ++ (es.foldl (componentPush v) (vis, q)).2)
        (es.foldl (componentPush v) (vis, q)).1 := by
  intro es
  induction es with
  | nil => intro _ vis q h; exact h
  | cons e es ih =>
    intro hes vis q h
    rw [List.foldl_cons]
    exact ih (fun x hx => hes x (List.mem_cons_of_mem _ hx)) _ _
      (componentPush_inv hinv v pre (hes e (List.mem_cons_self _ _)) h)

theorem componentLoop_spec {g : Graph R} (hinv : EndpointsExist g) {V0 : List String}
    {start : String} :
    ∀ (fuel : Nat) (comp queue vis : List String),
      CompInv (mapKeys g.vertices) V0 start (comp ++ queue) vis →
      g.vertices.length + 1 ≤ fuel + comp.length →
      ∃ vis' comp', componentLoop g.edges fuel queue vis comp = some (vis', comp') ∧
        CompInv (mapKeys g.vertices) V0 start comp' vis' := by
  intro fuel
  induction fuel with
  | zero =>
    intro comp queue vis h hf
    have h1 := (List.Nodup.subperm h.nodup (fun x hx => h.sub x hx)).length_le
    simp only [List.length_append, mapKeys, List.length_map] at h1
    omega
  | succ fuel ih =>
    intro comp queue vis h hf
    cases queue with
    | nil =>
      rw [List.append_nil] at h
      exact ⟨vis, comp, rfl, h⟩
    | cons v q =>
      have h' : CompInv (mapKeys g.vertices) V0 start ((comp ++ [v]) ++ q) vis := by
        rw [List.append_assoc]
        exact h
      have h2 := componentPush_foldl hinv v (comp ++ [v]) g.edges (fun _ he => he) vis q h'
      obtain ⟨vis', comp', hrun, hres⟩ := ih (comp ++ [v]) _ _ h2 (by
        rw [List.length_append, List.length_singleton]
        omega)
      exact ⟨vis', comp', by rw [componentLoop]; exact hrun, hres⟩

theorem compOuter_step {g : Graph R} (hinv : EndpointsExist g) {fuel : Nat}
    (hfuel : g.vertices.length + 1 ≤ fuel) {pre post : List String} {k : String}
    (hK : mapKeys g.vertices = pre ++ k :: post) {visited : List String}
    {comps : List (List String)} (h : CompOuter (mapKeys g.vertices) pre visited comps) :
    ∃ visited' comps',
      componentStart g.edges fuel (some (visited, comps)) k = some (visited', comps') ∧
      CompOuter (mapKeys g.vertices) (pre ++ [k]) visited' comps' := by
  by_cases hk : k ∈ visited
  · refine ⟨visited, comps, by simp only [componentStart, hk, if_true], ?_⟩
    refine ⟨h.nodup, h.vis, ?_, h.sub, ?_, h.sorted⟩
    · intro x hx
      rcases List.mem_append.1 hx with hx | hx
      · exact h.pre_vis x hx
      · rw [List.mem_singleton] at hx
        exact hx ▸ hk
    · intro c hc
      obtain ⟨a, t, h1, h2, h3⟩ := h.heads c hc
      refine ⟨a, t, h1, ?_, h3⟩
      rw [List.length_append, List.length_singleton]
      omega
  · have hkK : k ∈ mapKeys g.vertices := by rw [hK]; simp
    have hkpre : k ∉ pre := fun hm => hk (h.pre_vis k hm)
    have hidx : (mapKeys g.vertices).indexOf k = pre.length := by
      rw [hK, List.indexOf_append_of_not_mem hkpre, List.indexOf_cons_self]
      rfl
    have hstart : CompInv (mapKeys g.vertices) visited k ([] ++ [k]) (setAdd visited k) := by
      refine ⟨List.nodup_singleton _, ?_, ?_, rfl, ?_⟩
      · intro x
        rw [mem_setAdd]
        simp
      · intro x hx
        simp only [List.nil_append, List.mem_singleton] at hx
        exact hx ▸ hk
      · intro x hx
        simp only [List.nil_append, List.mem_singleton] at hx
        exact hx ▸ hkK
    obtain ⟨vis', comp', hrun, hres⟩ :=
      componentLoop_spec hinv fuel [] [k] (setAdd visited k) hstart (by simpa using hfuel)
    refine ⟨vis', comps ++ [comp'], ?_, ?_⟩
    · simp only [componentStart, hk, if_false, hrun]
    · have hflat : (comps ++ [comp']).flatten = comps.flatten ++ comp' := by simp
      obtain ⟨t, ht⟩ : ∃ t, comp' = k :: t := by
        have := hres.head
        cases comp' with
        | nil => cases this
        | cons a t => exact ⟨t, by rw [Option.some.inj this]⟩
      have hge : ∀ x ∈ comp', pre.length ≤ (mapKeys g.vertices).indexOf x := by
        intro x hx
        have hxpre : x ∉ pre := fun hm => hres.disj x hx (h.pre_vis x hm)
        rw [hK, List.indexOf_append_of_not_mem hxpre]
        omega
      refine ⟨?_, ?_, ?_, ?_, ?_, ?_⟩
      · rw [hflat, List.nodup_append]
        refine ⟨h.nodup, hres.nodup, ?_⟩
        intro x hx hx'
        exact hres.disj x hx' ((h.vis x).2 hx)
      · intro x
        rw [hflat, hres.vis x, h.vis x, List.mem_append]
      · intro x hx
        rw [hres.vis x]
        rcases List.mem_append.1 hx with hx | hx
        · exact Or.inl (h.pre_vis x hx)
        · rw [List.mem_singleton] at hx
          right
          rw [hx, ht]
          exact List.mem_cons_self _ _
      · intro x hx
        rcases (hres.vis x).1 hx with hx | hx
        · exact h.sub x hx
        · exact hres.sub x hx
      · intro c hc
        rcases List.mem_append.1 hc with hc | hc
        · obtain ⟨a, t', h1, h2, h3⟩ := h.heads c hc
          refine ⟨a, t', h1, ?_, h3⟩
          rw [List.length_append, List.length_singleton]
          omega
        · rw [List.mem_singleton] at hc
          subst hc
          refine ⟨k, t, ht, ?_, ?_⟩
          · rw [hidx, List.length_append, List.length_singleton]
            omega
          · intro x hx
            rw [hidx]
            exact hge x hx
      · rw [List.pairwise_append]
        refine ⟨h.sorted, List.pairwise_singleton _ _, ?_⟩
        intro c hc d hd a b ha hb
        rw [List.mem_singleton] at hd
        subst hd
        obtain ⟨a', t', h1, h2, _⟩ := h.heads c hc
        rw [h1] at ha
        rw [ht] at hb
        have ha' : a' = a := Option.some.inj ha
        have hb' : k = b := Option.some.inj hb
        rw [← ha', ← hb', hidx]
        exact h2

theorem compOuter_fold {g : Graph R} (hinv : EndpointsExist g) {fuel : Nat}
    (hfuel : g.vertices.length + 1 ≤ fuel) :
    ∀ (post pre : List String) (visited : List String) (comps : List (List String)),
      mapKeys g.vertices = pre ++ post →
      CompOuter (mapKeys g.vertices) pre visited comps →
      ∃ visited' comps',
        post.foldl (componentStart g.edges fuel) (some (visited, comps)) =
          some (visited', comps') ∧
        CompOuter (mapKeys g.vertices) (mapKeys g.vertices) visited' comps' := by
  intro post
  induction post with
  | nil =>
    intro pre visited comps hK h
    rw [List.append_nil] at hK
    rw [hK]
    exact ⟨visited, comps, rfl, hK ▸ h⟩
  | cons k post ih =>
    intro pre visited comps hK h
    obtain ⟨v1, c1, hrun1, h1⟩ := compOuter_step hinv hfuel hK h
    obtain ⟨v2, c2, hrun2, h2⟩ := ih (pre ++ [k]) v1 c1 (by rw [hK]; simp) h1
    exact ⟨v2, c2, by rw [List.foldl_cons, hrun1]; exact hrun2, h2⟩

theorem connectedComponents_spec {g : Graph R} (hinv : EndpointsExist g) :
    ∃ visited comps, connectedComponents g = some comps ∧
      CompOuter (mapKeys g.vertices) (mapKeys g.vertices) visited comps := by
  have h0 : CompOuter (mapKeys g.vertices) [] [] [] :=
    ⟨by simp, fun x => by simp, fun _ hx => absurd hx (List.not_mem_nil _),
      fun _ hx => absurd hx (List.not_mem_nil _), fun _ hc => absurd hc (List.not_mem_nil _),
      List.Pairwise.nil⟩
  have hf : g.vertices.length + 1 ≤ g.vertices.length + 2 * g.edges.length + 2 := by omega
  obtain ⟨visited, comps, hrun, h⟩ :=
    compOuter_fold hinv hf (mapKeys g.vertices) [] [] [] rfl h0
  refine ⟨visited, comps, ?_, h⟩
  unfold connectedComponents
  rw [hrun]

/-- C12: for every state whose graph is not empty and whose edges reference existing
vertices, `findConnectedComponents` returns and reports the component list it built; the
components hold exactly the vertices, no vertex twice and no vertex in two components, no
component is empty, the first entry of a component is the one of its vertices that comes
first in the enumeration order of the vertex map, and the components are listed in the
order of these first vertices; on A, B, C, D with the edges A-B and C-D the list is
`[[A, B], [C, D]]`. -/
theorem findConnectedComponents_partition (s : State R) (hne : s.graph.vertices ≠ [])
    (hinv : EndpointsExist s.graph) :
    (∃ comps s', connectedComponents s.graph = some comps ∧
      findConnectedComponents s = .ok s' ∧
      s'.alerts =
        s.alerts ++ [.components (comps.map (fun c => c.map (labelOrId s'.graph)))] ∧
      (∀ v, v ∈ comps.flatten ↔ v ∈ mapKeys s.graph.vertices) ∧
      (∀ c ∈ comps, c.Nodup) ∧
      comps.Pairwise List.Disjoint ∧
      (∀ c ∈ comps, c ≠ []) ∧
      (∀ c ∈ comps, ∀ a, c.head? = some a → ∀ x ∈ c,
        (mapKeys s.graph.vertices).indexOf a ≤ (mapKeys s.graph.vertices).indexOf x) ∧
      comps.Pairwise (fun c d => ∀ a b, c.head? = some a → d.head? = some b →
        (mapKeys s.graph.vertices).indexOf a < (mapKeys s.graph.vertices).indexOf b)) ∧
    connectedComponents twoEdgesGraph = some [["A", "B"], ["C", "D"]] := by
  refine ⟨?_, by decide⟩
  obtain ⟨visited, comps, hrun, h⟩ := connectedComponents_spec hinv
  have hlen : ¬ (mapKeys s.graph.vertices).length = 0 := by
    simpa [mapKeys] using hne
  have hcall : ∃ s', findConnectedComponents s = .ok s' := by
    unfold findConnectedComponents
    rw [if_neg hlen]
    simp only [hrun]
    exact ⟨_, rfl⟩
  obtain ⟨s', hs'⟩ := hcall
  have halert : s'.alerts =
      s.alerts ++ [.components (comps.map (fun c => c.map (labelOrId s'.graph)))] := by
    rcases findConnectedComponents_cases s s' hs' with ⟨h1, _⟩ | ⟨_, comps', hc, _, _, h4⟩
    · exact absurd h1 hne
    · rw [hrun] at hc
      cases hc
      exact h4
  obtain ⟨hnd, hdisj⟩ := List.nodup_flatten.1 h.nodup
  refine ⟨comps, s', hrun, hs', halert, ?_, hnd, hdisj, ?_, ?_, h.sorted⟩
  · intro v
    rw [← h.vis v]
    exact ⟨h.sub v, h.pre_vis v⟩
  · intro c hc
    obtain ⟨a, t, h1, _, _⟩ := h.heads c hc
    rw [h1]
    exact List.cons_ne_nil _ _
  · intro c hc a ha x hx
    obtain ⟨a', t, h1, _, h3⟩ := h.heads c hc
    rw [h1] at ha
    have : a' = a := Option.some.inj ha
    rw [← this]
    exact h3 x hx

/-- Witness for `findConnectedComponents_partition` on A, B, C, D with the edges A-B and
C-D. -/
theorem findConnectedComponents_partition_witness :
    (State.init twoEdgesGraph).graph.vertices ≠ [] ∧
    EndpointsExist (State.init twoEdgesGraph).graph ∧
    ∃ comps s', connectedComponents (State.init twoEdgesGraph).graph = some comps ∧
      findConnectedComponents (State.init twoEdgesGraph) = .ok s' ∧
      s'.alerts = (State.init twoEdgesGraph).alerts ++
        [.components (comps.map (fun c => c.map (labelOrId s'.graph)))] ∧
      (∀ v, v ∈ comps.flatten ↔ v ∈ mapKeys (State.init twoEdgesGraph).graph.vertices) ∧
      (∀ c ∈ comps, c.Nodup) ∧
      comps.Pairwise List.Disjoint ∧
      (∀ c ∈ comps, c ≠ []) ∧
      (∀ c ∈ comps, ∀ a, c.head? = some a → ∀ x ∈ c,
        (mapKeys (State.init twoEdgesGraph).graph.vertices).indexOf a ≤
          (mapKeys (State.init twoEdgesGraph).graph.vertices).indexOf x) ∧
      comps.Pairwise (fun c d => ∀ a b, c.head? = some a → d.head? = some b →
        (mapKeys (State.init twoEdgesGraph).graph.vertices).indexOf a <
          (mapKeys (State.init twoEdgesGraph).graph.vertices).indexOf b) :=
  ⟨by decide, by decide,
    (findConnectedComponents_partition (State.init twoEdgesGraph) (by decide)
      (by decide)).1⟩

/-! ### The colours that `findConnectedComponents` writes -/

theorem mapGet_paintVertex_of_ne (color : String) (vs : List (String × Vertex R))
    (x id : String) (h : id ≠ x) : mapGet (paintVertex color vs x) id = mapGet vs id := by
  unfold paintVertex
  split
  · exact mapGet_mapSet_of_ne _ _ _ _ h
  · rfl

theorem mapGet_paintVertex_self (color : String) (vs : List (String × Vertex R))
    (id : String) :
    mapGet (paintVertex color vs id) id =
      (mapGet vs id).map (fun v => { v with color := color }) := by
  unfold paintVertex
  cases hg : mapGet vs id with
  | none => simp only [hg, Option.map_none']
  | some v => simp only [mapGet_mapSet_self, Option.map_some']

theorem mapGet_foldl_paintVertex (color : String) (comp : List String) (id : String) :
    ∀ vs : List (String × Vertex R),
      mapGet (comp.foldl (paintVertex color) vs) id =
        if id ∈ comp then (mapGet vs id).map (fun v => { v with color := color })
        else mapGet vs id := by
  induction comp with
  | nil => intro vs; simp
  | cons x rest ih =>
    intro vs
    rw [List.foldl_cons, ih]
    by_cases hx : id = x
    · subst hx
      rw [mapGet_paintVertex_self]
      by_cases hr : id ∈ rest
      · simp only [hr, if_true, List.mem_cons, true_or]
        cases mapGet vs id <;> rfl
      · simp only [hr, if_false, List.mem_cons, true_or, if_true]
    · rw [mapGet_paintVertex_of_ne _ _ _ _ hx]
      simp only [List.mem_cons, hx, false_or]

/-- The colour loop of `findConnectedComponents` on components that are pairwise disjoint:
an id outside the components keeps its record, an id of the `j`-th component gets the
palette colour of the index of that component. -/
theorem mapGet_paintFrom (comps : List (List String)) (id : String) :
    ∀ (index : Nat) (vs : List (String × Vertex R)),
      (id ∉ comps.flatten → mapGet (paintFrom index comps vs) id = mapGet vs id) ∧
      (comps.Pairwise List.Disjoint → ∀ (j : Nat) (comp : List String),
        comps[j]? = some comp → id ∈ comp →
        mapGet (paintFrom index comps vs) id =
          (mapGet vs id).map (fun v =>
            { v with color := palette.getD ((index + j) % palette.length) "" })) := by
  induction comps with
  | nil =>
    intro index vs
    refine ⟨fun _ => rfl, fun _ j comp hj _ => ?_⟩
    simp at hj
  | cons c rest ih =>
    intro index vs
    obtain ⟨i1, i2⟩ := ih (index + 1)
      (c.foldl (paintVertex (palette.getD (index % palette.length) "")) vs)
    constructor
    · intro hid
      have h1 : id ∉ c := fun h => hid (by simp [h])
      have h2 : id ∉ rest.flatten := fun h => hid (by
        rw [List.flatten_cons]
        exact List.mem_append_right _ h)
      rw [paintFrom, i1 h2, mapGet_foldl_paintVertex, if_neg h1]
    · intro hd j comp hj hmem
      rw [List.pairwise_cons] at hd
      cases j with
      | zero =>
        simp only [List.getElem?_cons_zero, Option.some.injEq] at hj
        subst hj
        have h2 : id ∉ rest.flatten := by
          intro h
          obtain ⟨d, hd1, hd2⟩ := List.mem_flatten.1 h
          exact hd.1 d hd1 hmem hd2
        rw [paintFrom, i1 h2, mapGet_foldl_paintVertex, if_pos hmem]
        rfl
      | succ j =>
        simp only [List.getElem?_cons_succ] at hj
        have h1 : id ∉ c := fun h => hd.1 comp (List.getElem?_mem hj) h hmem
        rw [paintFrom, i2 hd.2 j comp hj hmem, mapGet_foldl_paintVertex, if_neg h1]
        have : index + 1 + j = index + (j + 1) := by omega
        rw [this]

theorem componentPush_weak (v : String) (V0 pre : List String) (e : Edge R)
    (vis q : List String)
    (h : (pre ++ q).Nodup ∧ (∀ x, x ∈ vis ↔ x ∈ V0 ∨ x ∈ pre ++ q) ∧
      ∀ x ∈ pre ++ q, x ∉ V0) :
    (pre ++ (componentPush v (vis, q) e).2).Nodup ∧
    (∀ x, x ∈ (componentPush v (vis, q) e).1 ↔
      x ∈ V0 ∨ x ∈ pre ++ (componentPush v (vis, q) e).2) ∧
    ∀ x ∈ pre ++ (componentPush v (vis, q) e).2, x ∉ V0 := by
  obtain ⟨h1, h2, h3⟩ := h
  unfold componentPush
  cases hn : edgeNeighbor v e with
  | none => exact ⟨h1, h2, h3⟩
  | some n =>
    simp only
    by_cases hv : n ∈ vis
    · simp only [hv, not_true_eq_false, if_false]
      exact ⟨h1, h2, h3⟩
    · simp only [hv, not_false_eq_true, if_true]
      have hnl : n ∉ pre ++ q := fun hm => hv ((h2 n).2 (Or.inr hm))
      have hn0 : n ∉ V0 := fun hm => hv ((h2 n).2 (Or.inl hm))
      rw [← List.append_assoc]
      refine ⟨?_, ?_, ?_⟩
      · rw [List.nodup_append]
        refine ⟨h1, List.nodup_singleton _, ?_⟩
        intro x hx hx'
        rw [List.mem_singleton] at hx'
        exact hnl (hx' ▸ hx)
      · intro x
        rw [mem_setAdd, h2 x]
        simp only [List.mem_append, List.mem_singleton]
        tauto
      · intro x hx
        rcases List.mem_append.1 hx with hx | hx
        · exact h3 x hx
        · rw [List.mem_singleton] at hx
          exact hx ▸ hn0

theorem componentPush_foldl_weak (v : String) (V0 pre : List String) (es : List (Edge R)) :
    ∀ (vis q : List String),
      ((pre ++ q).Nodup ∧ (∀ x, x ∈ vis ↔ x ∈ V0 ∨ x ∈ pre ++ q) ∧
        ∀ x ∈ pre ++ q, x ∉ V0) →
      (pre ++ (es.foldl (componentPush v) (vis, q)).2).Nodup ∧
      (∀ x, x ∈ (es.foldl (componentPush v) (vis, q)).1 ↔
        x ∈ V0 ∨ x ∈ pre ++ (es.foldl (componentPush v) (vis, q)).2) ∧
      ∀ x ∈ pre ++ (es.foldl (componentPush v) (vis, q)).2, x ∉ V0 := by
  induction es with
  | nil => intro vis q h; exact h
  | cons e es ih =>
    intro vis q h
    rw [List.foldl_cons]
    exact ih _ _ (componentPush_weak v V0 pre e vis q h)

/-- Whenever a `while` loop of `findConnectedComponents` ends, its component repeats no id,
holds no id that was visited before, and `visited` has grown by the component. -/
theorem componentLoop_weak (edges : List (Edge R)) (V0 : List String) :
    ∀ (fuel : Nat) (comp queue vis vis' comp' : List String),
      ((comp ++ queue).Nodup ∧ (∀ x, x ∈ vis ↔ x ∈ V0 ∨ x ∈ comp ++ queue) ∧
        ∀ x ∈ comp ++ queue, x ∉ V0) →
      componentLoop edges fuel queue vis comp = some (vis', comp') →
      comp'.Nodup ∧ (∀ x, x ∈ vis' ↔ x ∈ V0 ∨ x ∈ comp') ∧ (∀ x ∈ comp', x ∉ V0) ∧
        ∀ x ∈ comp ++ queue, x ∈ comp' := by
  intro fuel
  induction fuel with
  | zero =>
    intro comp queue vis vis' comp' _ hrun
    simp only [componentLoop] at hrun
    cases hrun
  | succ fuel ih =>
    intro comp queue vis vis' comp' h hrun
    cases queue with
    | nil =>
      simp only [componentLoop, Option.some.injEq, Prod.mk.injEq] at hrun
      obtain ⟨r1, r2⟩ := hrun
      subst r1 r2
      rw [List.append_nil] at h
      exact ⟨h.1, h.2.1, h.2.2, fun x hx => by simpa using hx⟩
    | cons v q =>
      simp only [componentLoop] at hrun
      have h' : ((comp ++ [v]) ++ q).Nodup ∧
          (∀ x, x ∈ vis ↔ x ∈ V0 ∨ x ∈ (comp ++ [v]) ++ q) ∧
          ∀ x ∈ (comp ++ [v]) ++ q, x ∉ V0 := by
        rw [List.append_assoc]
        exact h
      have h2 := componentPush_foldl_weak v V0 (comp ++ [v]) edges vis q h'
      obtain ⟨r1, r2, r3, r4⟩ := ih _ _ _ vis' comp' h2 hrun
      refine ⟨r1, r2, r3, fun x hx => ?_⟩
      apply r4
      simp only [List.mem_append, List.mem_cons] at hx
      simp only [List.mem_append, List.mem_singleton]
      rcases hx with hx | hx | hx
      · exact Or.inl (Or.inl hx)
      · exact Or.inl (Or.inr hx)
      · have hsub : ∀ es : List (Edge R), ∀ vq : List String × List String,
            x ∈ vq.2 → x ∈ (es.foldl (componentPush v) vq).2 := by
          intro es
          induction es with
          | nil => intro vq h; exact h
          | cons e es ihe =>
            intro vq hq
            rw [List.foldl_cons]
            apply ihe
            unfold componentPush
            split
            · split
              · exact List.mem_append_left _ hq
              · exact hq
            · exact hq
        exact Or.inr (hsub edges (vis, q) hx)

theorem componentStart_weak (edges : List (Edge R)) (fuel : Nat) (visited : List String)
    (comps : List (List String)) (k : String) (visited' : List String)
    (comps' : List (List String))
    (h : comps.flatten.Nodup ∧ ∀ x, x ∈ visited ↔ x ∈ comps.flatten)
    (hrun : componentStart edges fuel (some (visited, comps)) k = some (visited', comps')) :
    (comps'.flatten.Nodup ∧ ∀ x, x ∈ visited' ↔ x ∈ comps'.flatten) ∧
    k ∈ visited' ∧ ∀ x ∈ visited, x ∈ visited' := by
  obtain ⟨h1, h2⟩ := h
  unfold componentStart at hrun
  simp only at hrun
  by_cases hk : k ∈ visited
  · rw [if_pos hk] at hrun
    simp only [Option.some.injEq, Prod.mk.injEq] at hrun
    obtain ⟨r1, r2⟩ := hrun
    subst r1 r2
    exact ⟨⟨h1, h2⟩, hk, fun x hx => hx⟩
  · rw [if_neg hk] at hrun
    cases hl : componentLoop edges fuel [k] (setAdd visited k) [] with
    | none =>
      rw [hl] at hrun
      cases hrun
    | some r =>
      obtain ⟨v1, comp⟩ := r
      rw [hl] at hrun
      simp only [Option.some.injEq, Prod.mk.injEq] at hrun
      obtain ⟨r1, r2⟩ := hrun
      subst r1 r2
      obtain ⟨c1, c2, c3, c4⟩ := componentLoop_weak edges visited fuel [] [k]
        (setAdd visited k) v1 comp
        ⟨by simp, fun x => by rw [mem_setAdd]; simp, fun x hx => by
          simp only [List.nil_append, List.mem_singleton] at hx
          exact hx ▸ hk⟩ hl
      refine ⟨⟨?_, ?_⟩, ?_, ?_⟩
      · rw [List.flatten_append, List.nodup_append]
        refine ⟨h1, by simpa using c1, ?_⟩
        intro x hx hx'
        have hx2 : x ∈ comp := by simpa using hx'
        exact c3 x hx2 ((h2 x).2 hx)
      · intro x
        rw [c2 x, h2 x, List.flatten_append]
        simp
      · exact (c2 k).2 (Or.inr (c4 k (by simp)))
      · intro x hx
        exact (c2 x).2 (Or.inl hx)

theorem componentStart_foldl_none (edges : List (Edge R)) (fuel : Nat) (ks : List String) :
    ks.foldl (componentStart edges fuel) none = none := by
  induction ks with
  | nil => rfl
  | cons k ks ih => rw [List.foldl_cons]; exact ih

theorem componentStart_foldl_weak (edges : List (Edge R)) (fuel : Nat) (ks : List String) :
    ∀ (visited : List String) (comps : List (List String)) (visited' : List String)
      (comps' : List (List String)),
      (comps.flatten.Nodup ∧ ∀ x, x ∈ visited ↔ x ∈ comps.flatten) →
      ks.foldl (componentStart edges fuel) (some (visited, comps)) =
        some (visited', comps') →
      (comps'.flatten.Nodup ∧ ∀ x, x ∈ visited' ↔ x ∈ comps'.flatten) ∧
      (∀ x ∈ ks, x ∈ visited') ∧ ∀ x ∈ visited, x ∈ visited' := by
  induction ks with
  | nil =>
    intro visited comps visited' comps' h hrun
    simp only [List.foldl_nil, Option.some.injEq, Prod.mk.injEq] at hrun
    obtain ⟨r1, r2⟩ := hrun
    subst r1 r2
    exact ⟨h, fun x hx => absurd hx (List.not_mem_nil _), fun x hx => hx⟩
  | cons k ks ih =>
    intro visited comps visited' comps' h hrun
    rw [List.foldl_cons] at hrun
    cases hs : componentStart edges fuel (some (visited, comps)) k with
    | none =>
      rw [hs, componentStart_foldl_none] at hrun
      cases hrun
    | some r =>
      obtain ⟨v1, c1⟩ := r
      rw [hs] at hrun
      obtain ⟨s1, s2, s3⟩ := componentStart_weak edges fuel visited comps k v1 c1 h hs
      obtain ⟨t1, t2, t3⟩ := ih v1 c1 visited' comps' s1 hrun
      refine ⟨t1, ?_, fun x hx => t3 x (s3 x hx)⟩
      intro x hx
      rcases List.mem_cons.1 hx with hx | hx
      · rw [hx]
        exact t3 k s2
      · exact t2 x hx

/-- Whenever the component list is built, every vertex id is in it and no id is in it
twice, for every graph. -/
theorem connectedComponents_cover (g : Graph R) (comps : List (List String))
    (h : connectedComponents g = some comps) :
    comps.flatten.Nodup ∧ ∀ k ∈ mapKeys g.vertices, k ∈ comps.flatten := by
  unfold connectedComponents at h
  cases hf : (mapKeys g.vertices).foldl
      (componentStart g.edges (g.vertices.length + 2 * g.edges.length + 2))
      (some ([], [])) with
  | none =>
    rw [hf] at h
    cases h
  | some r =>
    obtain ⟨visited, c⟩ := r
    rw [hf] at h
    simp only [Option.some.injEq] at h
    subst h
    obtain ⟨⟨t1, t2⟩, t3, _⟩ := componentStart_foldl_weak g.edges _ (mapKeys g.vertices)
      [] [] visited c ⟨by simp, fun x => by simp⟩ hf
    exact ⟨t1, fun k hk => (t2 k).1 (t3 k hk)⟩

theorem mapGet_savedColors (vs : List (String × Vertex R)) (h : (mapKeys vs).Nodup)
    (id : String) :
    mapGet (vs.foldl (fun m p => mapSet m p.1 p.2.color) []) id =
      (mapGet vs id).map (fun v => v.color) := by
  have key : ∀ (l : List (String × Vertex R)), (mapKeys l).Nodup →
      ∀ m : List (String × String), (∀ k ∈ mapKeys l, mapGet m k = none) →
      mapGet (l.foldl (fun m p => mapSet m p.1 p.2.color) m) id =
        match mapGet l id with
        | some v => some v.color
        | none => mapGet m id := by
    intro l
    induction l with
    | nil => intro _ m _; rfl
    | cons p l ih =>
      intro hnd m hm
      obtain ⟨k, v⟩ := p
      simp only [mapKeys, List.map_cons, List.nodup_cons] at hnd
      rw [List.foldl_cons, ih (by simpa [mapKeys] using hnd.2)]
      · simp only [mapGet]
        by_cases hk : k = id
        · subst hk
          have hnone : mapGet l k = none :=
            (mapGet_eq_none_iff _ _).2 (by simpa [mapKeys] using hnd.1)
          simp only [hnone, if_true, mapGet_mapSet_self]
        · simp only [hk, if_false]
          cases mapGet l id with
          | some w => rfl
          | none =>
            simp only
            exact mapGet_mapSet_of_ne _ _ _ _ (fun e => hk e.symm)
      · intro k' hk'
        have hne : k' ≠ k := by
          intro e
          subst e
          exact hnd.1 (by simpa [mapKeys] using hk')
        rw [mapGet_mapSet_of_ne _ _ _ _ hne]
        exact hm k' (by simp [mapKeys] at hk' ⊢; exact Or.inr hk')
  rw [key vs h [] (fun _ _ => rfl)]
  cases mapGet vs id <;> rfl

theorem palette_getD (i : Nat) :
    ∃ color, palette[i % palette.length]? = some color ∧
      palette.getD (i % palette.length) "" = color := by
  have hlt : i % palette.length < palette.length := Nat.mod_lt _ (by decide)
  refine ⟨palette[i % palette.length], List.getElem?_eq_getElem hlt, ?_⟩
  rw [List.getD_eq_getElem?_getD, List.getElem?_eq_getElem hlt]
  rfl

/-- C17: `bfsStep`, `dfsStep` and `dijkstraStep` leave the graph (vertex map and edge
list) unchanged; `findConnectedComponents` leaves the edge list unchanged and the vertex
map up to the colours: the keys, their order and every field other than `color` stay.
On an empty graph it changes neither the graph nor `state.componentsOriginalColors`.  On
a graph that is not empty it builds the component list, in which every vertex id is in
exactly one component; the record of every vertex becomes its old record with the colour
`palette[i % palette.length]`, `i` the index of its component; and
`state.componentsOriginalColors` becomes the map built from the vertex map before the
call, which gives every vertex id the colour it had.  The call returns when the graph is
empty or its edges reference existing vertices.  (`tarjanArticulationAndBridges` is a
function of the graph that returns its result and assigns nothing.) -/
theorem graph_store_frame [LinearOrderedRing R] (s s' : State R) :
    (bfsStep s = .ok s' → s'.graph = s.graph) ∧
    (dfsStep s = .ok s' → s'.graph = s.graph) ∧
    (dijkstraStep s = .ok s' → s'.graph = s.graph) ∧
    (findConnectedComponents s = .ok s' →
      s'.graph.edges = s.graph.edges ∧
      eraseColors s'.graph.vertices = eraseColors s.graph.vertices ∧
      mapKeys s'.graph.vertices = mapKeys s.graph.vertices) ∧
    (findConnectedComponents s = .ok s' → s.graph.vertices = [] →
      s'.graph = s.graph ∧ s'.componentsOriginalColors = s.componentsOriginalColors) ∧
    (findConnectedComponents s = .ok s' → s.graph.vertices ≠ [] →
      ∃ comps : List (List String), connectedComponents s.graph = some comps ∧
        comps.flatten.Nodup ∧ comps.Pairwise List.Disjoint ∧
        (∀ id v, mapGet s.graph.vertices id = some v →
          ∃ (i : Nat) (comp : List String) (color : String),
            comps[i]? = some comp ∧ id ∈ comp ∧
            palette[i % palette.length]? = some color ∧
            mapGet s'.graph.vertices id = some { v with color := color }) ∧
        s'.componentsOriginalColors =
          some (s.graph.vertices.foldl (fun m p => mapSet m p.1 p.2.color) []) ∧
        ((mapKeys s.graph.vertices).Nodup → ∀ id,
          mapGet (s.graph.vertices.foldl (fun m p => mapSet m p.1 p.2.color) []) id =
            (mapGet s.graph.vertices id).map (fun v => v.color))) ∧
    (s.graph.vertices = [] ∨ EndpointsExist s.graph →
      ∃ s1, findConnectedComponents s = .ok s1) := by
  refine ⟨bfsStep_graph s s', dfsStep_graph s s', dijkstraStep_graph s s', fun h => ?_,
    fun h he => ?_, fun h hne => ?_, fun h => ?_⟩
  · have key : s'.graph.edges = s.graph.edges ∧
        eraseColors s'.graph.vertices = eraseColors s.graph.vertices := by
      rcases findConnectedComponents_cases s s' h with ⟨_, h1⟩ | ⟨_, comps, _, h1, _⟩
      · rw [h1]
        exact ⟨rfl, rfl⟩
      · rw [h1]
        exact ⟨rfl, eraseColors_paintFrom comps 0 s.graph.vertices⟩
    refine ⟨key.1, key.2, ?_⟩
    have := congrArg (List.map Prod.fst) key.2
    simpa [eraseColors, mapKeys] using this
  · rcases findConnectedComponents_cases s s' h with ⟨_, h1⟩ | ⟨hne, _⟩
    · rw [h1]
      exact ⟨rfl, rfl⟩
    · exact absurd he hne
  · rcases findConnectedComponents_cases s s' h with ⟨he, _⟩ | ⟨_, comps, hc, h1, h2, _⟩
    · exact absurd he hne
    · obtain ⟨c1, c2⟩ := connectedComponents_cover s.graph comps hc
      have hd : comps.Pairwise List.Disjoint := (List.nodup_flatten.1 c1).2
      refine ⟨comps, hc, c1, hd, ?_, h2, fun hnd id => mapGet_savedColors _ hnd id⟩
      intro id v hv
      have hk : id ∈ mapKeys s.graph.vertices := by
        rw [← mapGet_isSome_iff, hv]
        rfl
      obtain ⟨comp, hcomp, hmem⟩ := List.mem_flatten.1 (c2 id hk)
      obtain ⟨i, hi⟩ := List.mem_iff_getElem?.1 hcomp
      obtain ⟨color, p1, p2⟩ := palette_getD i
      refine ⟨i, comp, color, hi, hmem, p1, ?_⟩
      rw [h1]
      simp only
      rw [(mapGet_paintFrom comps id 0 s.graph.vertices).2 hd i comp hi hmem, hv,
        Nat.zero_add, p2]
      rfl
  · rcases h with he | hinv
    · refine ⟨{ s with alerts := s.alerts ++ [.graphEmpty] }, ?_⟩
      unfold findConnectedComponents
      rw [if_pos (by simp [mapKeys, he])]
    · by_cases hlen : (mapKeys s.graph.vertices).length = 0
      · refine ⟨{ s with alerts := s.alerts ++ [.graphEmpty] }, ?_⟩
        unfold findConnectedComponents
        rw [if_pos hlen]
      · obtain ⟨visited, comps, hrun, _⟩ := connectedComponents_spec hinv
        unfold findConnectedComponents
        rw [if_neg hlen]
        simp only [hrun]
        exact ⟨_, rfl⟩

/-- Witness for `graph_store_frame`: `findConnectedComponents` on a graph with one vertex,
and on A, B, C, D with the edges A-B and C-D, where A and B get the first palette colour
and C and D the second. -/
theorem graph_store_frame_witness :
    (∃ s' : State ℤ, findConnectedComponents (State.init oneVertexGraph) = .ok s' ∧
      s'.graph.edges = (State.init oneVertexGraph).graph.edges ∧
      eraseColors s'.graph.vertices = eraseColors (State.init oneVertexGraph).graph.vertices ∧
      mapKeys s'.graph.vertices = mapKeys (State.init oneVertexGraph).graph.vertices) ∧
    (∃ s' : State ℤ, findConnectedComponents (State.init twoEdgesGraph) = .ok s' ∧
      (State.init twoEdgesGraph).graph.vertices ≠ [] ∧
      ∃ comps : List (List String),
        connectedComponents (State.init twoEdgesGraph).graph = some comps ∧
        comps.flatten.Nodup ∧ comps.Pairwise List.Disjoint ∧
        (∀ id v, mapGet (State.init twoEdgesGraph).graph.vertices id = some v →
          ∃ (i : Nat) (comp : List String) (color : String),
            comps[i]? = some comp ∧ id ∈ comp ∧
            palette[i % palette.length]? = some color ∧
            mapGet s'.graph.vertices id = some { v with color := color }) ∧
        s'.componentsOriginalColors =
          some ((State.init twoEdgesGraph).graph.vertices.foldl
            (fun m p => mapSet m p.1 p.2.color) []) ∧
        ((mapKeys (State.init twoEdgesGraph).graph.vertices).Nodup → ∀ id,
          mapGet ((State.init twoEdgesGraph).graph.vertices.foldl
            (fun m p => mapSet m p.1 p.2.color) []) id =
            (mapGet (State.init twoEdgesGraph).graph.vertices id).map (fun v => v.color))) ∧
    (findConnectedComponents (State.init twoEdgesGraph)).toOption.map
        (fun s => s.graph.vertices.map (fun p => (p.1, p.2.color))) =
      some [("A", "#e6194b"), ("B", "#e6194b"), ("C", "#3cb44b"), ("D", "#3cb44b")] :=
  ⟨⟨_, rfl, (graph_store_frame (State.init oneVertexGraph) _).2.2.2.1 rfl⟩,
    ⟨_, rfl, by decide,
      (graph_store_frame (State.init twoEdgesGraph) _).2.2.2.2.2.1 rfl (by decide)⟩,
    by decide⟩

/-! ## Circle layout -/

theorem circlePlace_getElem? [DivisionRing R] (M : JsMath R) (n : Nat) (radius : R) :
    ∀ (vs : List (String × Vertex R)) (i0 j : Nat),
      (circlePlace M n radius i0 vs)[j]? = vs[j]?.map (fun p =>
        (p.1, { p.2 with
          x := 0 + M.cos ((((i0 + j : Nat) : R) / (n : R)) * M.pi * 2) * radius
          y := 0 + M.sin ((((i0 + j : Nat) : R) / (n : R)) * M.pi * 2) * radius })) := by
  intro vs
  induction vs with
  | nil => intro i0 j; simp [circlePlace]
  | cons p vs ih =>
    intro i0 j
    obtain ⟨id, v⟩ := p
    cases j with
    | zero => simp [circlePlace]
    | succ j =>
      simp only [circlePlace, List.getElem?_cons_succ]
      rw [ih (i0 + 1) j]
      have : i0 + 1 + j = i0 + (j + 1) := by omega
      rw [this]

/-- C20: with exact numbers and the functions `Math.cos`, `Math.sin` and the constant
`Math.PI` taken as given, after `circleLayout` the `i`-th vertex in enumeration order is at
`(r * cos(2 * pi * i / n), r * sin(2 * pi * i / n))` with `n` the number of vertices and
`r = max(200, 30 * n)`, its other fields and the edges are unchanged; when
`cos² + sin² = 1` every vertex is at distance `r` from the origin (`x² + y² = r²` with
`r ≥ 200`), and the angles of consecutive vertices differ by `2 * pi / n`. -/
theorem circleLayout_positions [LinearOrderedField R] (M : JsMath R) (s : State R) :
    (∀ i : Nat, (circleLayout M s).graph.vertices[i]? = s.graph.vertices[i]?.map (fun p =>
      (p.1, { p.2 with
        x := max 200 (30 * (s.graph.vertices.length : R)) *
          M.cos (2 * M.pi * (i : R) / (s.graph.vertices.length : R))
        y := max 200 (30 * (s.graph.vertices.length : R)) *
          M.sin (2 * M.pi * (i : R) / (s.graph.vertices.length : R)) }))) ∧
    ((∀ t, M.cos t ^ 2 + M.sin t ^ 2 = 1) → ∀ p ∈ (circleLayout M s).graph.vertices,
      p.2.x ^ 2 + p.2.y ^ 2 = (max 200 (30 * (s.graph.vertices.length : R))) ^ 2) ∧
    (200 : R) ≤ max 200 (30 * (s.graph.vertices.length : R)) ∧
    (∀ i : Nat, 2 * M.pi * ((i + 1 : Nat) : R) / (s.graph.vertices.length : R) -
      2 * M.pi * (i : R) / (s.graph.vertices.length : R) =
        2 * M.pi / (s.graph.vertices.length : R)) ∧
    (circleLayout M s).graph.edges = s.graph.edges := by
  have hpos : ∀ i : Nat, (circleLayout M s).graph.vertices[i]? =
      s.graph.vertices[i]?.map (fun p =>
        (p.1, { p.2 with
          x := max 200 (30 * (s.graph.vertices.length : R)) *
            M.cos (2 * M.pi * (i : R) / (s.graph.vertices.length : R))
          y := max 200 (30 * (s.graph.vertices.length : R)) *
            M.sin (2 * M.pi * (i : R) / (s.graph.vertices.length : R)) })) := by
    intro i
    unfold circleLayout
    simp only
    rw [circlePlace_getElem?]
    have harg : (((0 + i : Nat) : R) / (s.graph.vertices.length : R)) * M.pi * 2 =
        2 * M.pi * (i : R) / (s.graph.vertices.length : R) := by
      rw [Nat.zero_add]
      ring
    have hr : (s.graph.vertices.length : R) * 30 = 30 * (s.graph.vertices.length : R) :=
      mul_comm _ _
    rw [harg, hr]
    cases s.graph.vertices[i]? with
    | none => rfl
    | some p =>
      simp only [Option.map_some']
      congr 3
      · ring
      · ring
  refine ⟨hpos, ?_, le_max_left _ _, ?_, rfl⟩
  · intro hM p hp
    obtain ⟨i, hi, hget⟩ := List.getElem_of_mem hp
    have h1 := hpos i
    rw [List.getElem?_eq_getElem hi, hget] at h1
    cases hs : s.graph.vertices[i]? with
    | none => rw [hs] at h1; cases h1
    | some q =>
      rw [hs] at h1
      simp only [Option.map_some'] at h1
      have h2 := Option.some.inj h1
      rw [h2]
      simp only
      have := hM (2 * M.pi * (i : R) / (s.graph.vertices.length : R))
      linear_combination (max 200 (30 * (s.graph.vertices.length : R))) ^ 2 * this
  · intro i
    push_cast
    ring

/-- Witness for `circleLayout_positions`: with the real cosine and sine, the three
vertices of a three-vertex graph are at distance 200 from the origin. -/
theorem circleLayout_positions_witness :
    ∀ p ∈ (circleLayout ⟨Real.cos, Real.sin, Real.pi⟩
        (State.init (pointsGraph ℝ ["A", "B", "C"]))).graph.vertices,
      p.2.x ^ 2 + p.2.y ^ 2 =
        (max 200 (30 * ((State.init (pointsGraph ℝ ["A", "B", "C"])).graph.vertices.length :
          ℝ))) ^ 2 :=
  (circleLayout_positions ⟨Real.cos, Real.sin, Real.pi⟩
    (State.init (pointsGraph ℝ ["A", "B", "C"]))).2.1 Real.cos_sq_add_sin_sq

/-! ## Tree layout: the levels -/

theorem levelsPush_flatten_perm (c : String) :
    ∀ (levels : List (List String)) (d : Nat),
      (levelsPush levels d c).flatten.Perm (levels.flatten ++ [c]) := by
  intro levels
  induction levels with
  | nil =>
    intro d
    induction d with
    | zero => simp [levelsPush]
    | succ d ih => simpa [levelsPush] using ih
  | cons l ls ih =>
    intro d
    cases d with
    | zero =>
      simp only [levelsPush, List.flatten_cons, List.append_assoc]
      exact List.Perm.append_left l List.perm_append_comm
    | succ d =>
      simp only [levelsPush, List.flatten_cons, List.append_assoc]
      exact List.Perm.append_left l (ih d)

theorem levelsPush_length (c : String) :
    ∀ (levels : List (List String)) (d : Nat),
      (levelsPush levels d c).length = max levels.length (d + 1) := by
  intro levels
  induction levels with
  | nil =>
    intro d
    induction d with
    | zero => simp [levelsPush]
    | succ d ih =>
      simp only [levelsPush, List.length_cons, ih, List.length_nil]
      omega
  | cons l ls ih =>
    intro d
    cases d with
    | zero =>
      simp only [levelsPush, List.length_cons]
      omega
    | succ d =>
      simp only [levelsPush, List.length_cons, ih]
      omega

theorem levelsPush_getElem? (c : String) :
    ∀ (levels : List (List String)) (d i : Nat) (l : List String),
      (levelsPush levels d c)[i]? = some l →
      (i = d ∧ ∀ x ∈ l, x = c ∨ ∃ l0, levels[d]? = some l0 ∧ x ∈ l0) ∨
      (i ≠ d ∧ (levels[i]? = some l ∨ l = [])) := by
  intro levels
  induction levels with
  | nil =>
    intro d
    induction d with
    | zero =>
      intro i l h
      cases i with
      | zero =>
        left
        simp only [levelsPush, List.getElem?_cons_zero, Option.some.injEq] at h
        subst h
        exact ⟨rfl, fun x hx => Or.inl (by simpa using hx)⟩
      | succ i => simp [levelsPush] at h
    | succ d ih =>
      intro i l h
      cases i with
      | zero =>
        right
        simp only [levelsPush, List.getElem?_cons_zero, Option.some.injEq] at h
        exact ⟨by omega, Or.inr h.symm⟩
      | succ i =>
        simp only [levelsPush, List.getElem?_cons_succ] at h
        rcases ih i l h with ⟨h1, h2⟩ | ⟨h1, h2⟩
        · left
          refine ⟨by omega, fun x hx => ?_⟩
          rcases h2 x hx with h3 | ⟨l0, h3, _⟩
          · exact Or.inl h3
          · simp at h3
        · right
          refine ⟨by omega, ?_⟩
          rcases h2 with h3 | h3
          · simp at h3
          · exact Or.inr h3
  | cons l0 ls ih =>
    intro d i l h
    cases d with
    | zero =>
      cases i with
      | zero =>
        left
        simp only [levelsPush, List.getElem?_cons_zero, Option.some.injEq] at h
        subst h
        refine ⟨rfl, fun x hx => ?_⟩
        rcases List.mem_append.1 hx with hx | hx
        · exact Or.inr ⟨l0, by simp, hx⟩
        · exact Or.inl (by simpa using hx)
      | succ i =>
        right
        simp only [levelsPush, List.getElem?_cons_succ] at h
        exact ⟨by omega, Or.inl (by simpa using h)⟩
    | succ d =>
      cases i with
      | zero =>
        right
        simp only [levelsPush, List.getElem?_cons_zero] at h
        exact ⟨by omega, Or.inl (by simpa using h)⟩
      | succ i =>
        simp only [levelsPush, List.getElem?_cons_succ] at h
        rcases ih d i l h with ⟨h1, h2⟩ | ⟨h1, h2⟩
        · left
          refine ⟨by omega, fun x hx => ?_⟩
          rcases h2 x hx with h3 | ⟨l1, h3, h4⟩
          · exact Or.inl h3
          · exact Or.inr ⟨l1, by simpa using h3, h4⟩
        · right
          refine ⟨by omega, ?_⟩
          rcases h2 with h3 | h3
          · exact Or.inl (by simpa using h3)
          · exact Or.inr h3

theorem levelOf_mapSet_of_ne (lm : List (String × Nat)) (n x : String) (k : Nat)
    (h : x ≠ n) : levelOf (mapSet lm n k) x = levelOf lm x := by
  unfold levelOf
  rw [mapGet_mapSet_of_ne _ _ _ _ h]

theorem levelOf_mapSet_self (lm : List (String × Nat)) (n : String) (k : Nat) :
    levelOf (mapSet lm n k) n = k := by
  unfold levelOf
  rw [mapGet_mapSet_self]
  rfl

theorem treeInv_levelOf_eq {edges : List (Edge R)} {K : List String} {root cur : String}
    {d : Nat} {rest : List (Edge R)} {queue visited : List String}
    {lm : List (String × Nat)} {levels : List (List String)}
    (h : TreeInv edges K root cur d rest queue visited lm levels) {x : String}
    (hx : x ∈ visited) : mapGet lm x = some (levelOf lm x) ∧
      DistIs edges root x (levelOf lm x) := by
  obtain ⟨k, h1, h2⟩ := h.lvl x hx
  have : levelOf lm x = k := by unfold levelOf; rw [h1]; rfl
  rw [this]
  exact ⟨h1, h2⟩

/-- Under the invariant, whatever is reached from the root in at most `d` steps is
visited. -/
theorem treeInv_reach_visited {edges : List (Edge R)} {K : List String} {root cur : String}
    {d : Nat} {rest : List (Edge R)} {queue visited : List String}
    {lm : List (String × Nat)} {levels : List (List String)}
    (h : TreeInv edges K root cur d rest queue visited lm levels) :
    ∀ (k : Nat) (y : String), ReachIn edges k root y → k ≤ d → y ∈ visited := by
  intro k
  induction k with
  | zero =>
    intro y hy _
    have : root = y := hy
    exact this ▸ h.root_vis
  | succ k ih =>
    intro y hy hk
    obtain ⟨w, hw, hadj⟩ := hy
    have hwv := ih w hw (by omega)
    obtain ⟨_, hdist⟩ := treeInv_levelOf_eq h hwv
    have hlw : levelOf lm w ≤ k := hdist.2 k hw
    have hwf : w ∈ levels.flatten := by
      rcases List.mem_append.1 ((h.vis w).1 hwv) with h1 | h1
      · exact h1
      · have := h.qlo w h1
        omega
    obtain ⟨e, he, hn⟩ := hadj
    rcases h.closed w hwf e he y hn with h1 | ⟨h1, _⟩
    · exact h1
    · have := h.cur_lvl
      rw [← h1] at this
      omega

theorem treePush_inv {edges : List (Edge R)} {K : List String} (hK : ∀ e ∈ edges,
    e.from_ ∈ K ∧ e.to_ ∈ K) {root cur : String} {d : Nat} {e : Edge R}
    {rest : List (Edge R)} {queue visited : List String} {lm : List (String × Nat)}
    {levels : List (List String)}
    (h : TreeInv edges K root cur d (e :: rest) queue visited lm levels) :
    TreeInv edges K root cur d rest (treePush cur d (visited, lm, queue) e).2.2
      (treePush cur d (visited, lm, queue) e).1 (treePush cur d (visited, lm, queue) e).2.1
      levels := by
  have he : e ∈ edges := h.rest_sub e (List.mem_cons_self _ _)
  have hrest : ∀ e' ∈ rest, e' ∈ edges := fun e' he' => h.rest_sub e' (List.mem_cons_of_mem _ he')
  have hcurv : cur ∈ visited := (h.vis cur).2 (List.mem_append_left _ h.cur_mem)
  unfold treePush
  cases hn : edgeNeighbor cur e with
  | none =>
    refine { h with rest_sub := hrest, closed := ?_ }
    intro p hp e' he' y hy
    rcases h.closed p hp e' he' y hy with h1 | ⟨h1, h2⟩
    · exact Or.inl h1
    · rcases List.mem_cons.1 h2 with h3 | h3
      · subst h3
        subst h1
        rw [← edgeNeighbor_eq_neighborRule, hn] at hy
        cases hy
      · exact Or.inr ⟨h1, h3⟩
  | some n =>
    simp only
    by_cases hv : n ∈ visited
    · simp only [hv, not_true_eq_false, if_false]
      refine { h with rest_sub := hrest, closed := ?_ }
      intro p hp e' he' y hy
      rcases h.closed p hp e' he' y hy with h1 | ⟨h1, h2⟩
      · exact Or.inl h1
      · rcases List.mem_cons.1 h2 with h3 | h3
        · subst h3
          subst h1
          rw [← edgeNeighbor_eq_neighborRule, hn] at hy
          cases hy
          exact Or.inl hv
        · exact Or.inr ⟨h1, h3⟩
    · simp only [hv, not_false_eq_true, if_true]
      have hnl : n ∉ levels.flatten ++ queue := fun hm => hv ((h.vis n).2 hm)
      have hne : ∀ x ∈ visited, x ≠ n := fun x hx hxn => hv (hxn ▸ hx)
      have hlev : ∀ x ∈ visited, levelOf (mapSet lm n (d + 1)) x = levelOf lm x :=
        fun x hx => levelOf_mapSet_of_ne lm n x (d + 1) (hne x hx)
      have hflat : ∀ x ∈ levels.flatten, x ∈ visited :=
        fun x hx => (h.vis x).2 (List.mem_append_left _ hx)
      have hq : ∀ x ∈ queue, x ∈ visited :=
        fun x hx => (h.vis x).2 (List.mem_append_right _ hx)
      have hadj : Adj edges cur n := ⟨e, he, hn⟩
      obtain ⟨_, hdcur⟩ := treeInv_levelOf_eq h hcurv
      rw [h.cur_lvl] at hdcur
      refine ⟨hrest, (mem_setAdd _ _ _).2 (Or.inl h.root_vis), h.cur_mem, ?_, ?_, ?_, ?_, ?_,
        ?_, ?_, ?_, ?_, ?_, h.len, ?_⟩
      · rw [hlev cur hcurv]
        exact h.cur_lvl
      · rw [← List.append_assoc, List.nodup_append]
        refine ⟨h.nodup, List.nodup_singleton _, ?_⟩
        intro x hx hx'
        rw [List.mem_singleton] at hx'
        exact hnl (hx' ▸ hx)
      · intro x
        rw [mem_setAdd, h.vis x]
        simp only [List.mem_append, List.mem_singleton]
        tauto
      · intro x hx
        rcases (mem_setAdd _ _ _).1 hx with hx | hx
        · exact h.sub x hx
        · rw [hx]
          rw [edgeNeighbor_eq_neighborRule] at hn
          unfold neighborRule at hn
          split at hn
          · cases hn
            exact (hK e he).2
          · split at hn
            · cases hn
              exact (hK e he).1
            · cases hn
      · intro x hx
        rcases (mem_setAdd _ _ _).1 hx with hx | hx
        · obtain ⟨k, h1, h2⟩ := h.lvl x hx
          exact ⟨k, by rw [mapGet_mapSet_of_ne _ _ _ _ (hne x hx)]; exact h1, h2⟩
        · subst hx
          refine ⟨d + 1, mapGet_mapSet_self _ _ _, ⟨cur, hdcur.1, hadj⟩, ?_⟩
          intro k hk
          by_contra hlt
          exact hv (treeInv_reach_visited h k x hk (by omega))
      · rw [List.pairwise_append]
        refine ⟨?_, List.pairwise_singleton _ _, ?_⟩
        · exact h.sorted.imp_of_mem (fun {a b} ha hb hab => by
            rw [hlev a (hq a ha), hlev b (hq b hb)]
            exact hab)
        · intro a ha b hb
          rw [List.mem_singleton] at hb
          subst hb
          rw [hlev a (hq a ha), levelOf_mapSet_self]
          exact h.qhi a ha
      · intro q hq'
        rcases List.mem_append.1 hq' with h1 | h1
        · rw [hlev q (hq q h1)]
          exact h.qlo q h1
        · rw [List.mem_singleton] at h1
          subst h1
          rw [levelOf_mapSet_self]
          omega
      · intro q hq'
        rcases List.mem_append.1 hq' with h1 | h1
        · rw [hlev q (hq q h1)]
          exact h.qhi q h1
        · rw [List.mem_singleton] at h1
          subst h1
          rw [levelOf_mapSet_self]
      · intro p hp
        rw [hlev p (hflat p hp)]
        exact h.before p hp
      · intro p hp e' he' y hy
        rcases h.closed p hp e' he' y hy with h1 | ⟨h1, h2⟩
        · exact Or.inl ((mem_setAdd _ _ _).2 (Or.inl h1))
        · rcases List.mem_cons.1 h2 with h3 | h3
          · subst h3
            subst h1
            rw [← edgeNeighbor_eq_neighborRule, hn] at hy
            cases hy
            exact Or.inl ((mem_setAdd _ _ _).2 (Or.inr rfl))
          · exact Or.inr ⟨h1, h3⟩
      · intro i l hl x hx
        have hxf : x ∈ levels.flatten :=
          List.mem_flatten.2 ⟨l, List.getElem?_mem hl, hx⟩
        rw [hlev x (hflat x hxf)]
        exact h.lev i l hl x hx

theorem treePush_foldl {edges : List (Edge R)} {K : List String} (hK : ∀ e ∈ edges,
    e.from_ ∈ K ∧ e.to_ ∈ K) {root cur : String} {d : Nat} {levels : List (List String)} :
    ∀ (rest : List (Edge R)) (queue visited : List String) (lm : List (String × Nat)),
      TreeInv edges K root cur d rest queue visited lm levels →
      TreeInv edges K root cur d [] (rest.foldl (treePush cur d) (visited, lm, queue)).2.2
        (rest.foldl (treePush cur d) (visited, lm, queue)).1
        (rest.foldl (treePush cur d) (visited, lm, queue)).2.1 levels := by
  intro rest
  induction rest with
  | nil => intro queue visited lm h; exact h
  | cons e rest ih =>
    intro queue visited lm h
    rw [List.foldl_cons]
    exact ih _ _ _ (treePush_inv hK h)

theorem tree_dequeue {edges : List (Edge R)} {K : List String} {root cur c : String}
    {d : Nat} {q visited : List String} {lm : List (String × Nat)}
    {levels : List (List String)}
    (h : TreeInv edges K root cur d [] (c :: q) visited lm levels) :
    TreeInv edges K root c (levelOf lm c) edges q visited lm
      (levelsPush levels (levelOf lm c) c) := by
  have hperm := levelsPush_flatten_perm c levels (levelOf lm c)
  have hmem : ∀ x, x ∈ (levelsPush levels (levelOf lm c) c).flatten ↔
      x ∈ levels.flatten ∨ x = c := by
    intro x
    rw [hperm.mem_iff]
    simp
  have hlo := h.qlo c (List.mem_cons_self _ _)
  have hhi := h.qhi c (List.mem_cons_self _ _)
  obtain ⟨hhead, htail⟩ := List.pairwise_cons.1 h.sorted
  refine ⟨fun _ he => he, h.root_vis, (hmem c).2 (Or.inr rfl), rfl, ?_, ?_, h.sub, h.lvl,
    htail, hhead, ?_, ?_, ?_, ?_, ?_⟩
  · have h1 : ((levelsPush levels (levelOf lm c) c).flatten ++ q).Perm
        (levels.flatten ++ c :: q) := by
      have := hperm.append_right q
      simpa using this
    exact h1.nodup_iff.2 h.nodup
  · intro x
    rw [h.vis x, List.mem_append, List.mem_append, hmem x, List.mem_cons]
    tauto
  · intro x hx
    have := h.qhi x (List.mem_cons_of_mem _ hx)
    omega
  · intro p hp
    rcases (hmem p).1 hp with h1 | h1
    · have := h.before p h1
      omega
    · rw [h1]
  · intro p hp e he y hy
    rcases (hmem p).1 hp with h1 | h1
    · rcases h.closed p h1 e he y hy with h2 | ⟨_, h2⟩
      · exact Or.inl h2
      · cases h2
    · exact Or.inr ⟨h1, he⟩
  · rw [levelsPush_length, h.len]
    omega
  · intro i l hl x hx
    rcases levelsPush_getElem? c levels (levelOf lm c) i l hl with ⟨h1, h2⟩ | ⟨_, h2⟩
    · rcases h2 x hx with h3 | ⟨l0, h3, h4⟩
      · rw [h3, h1]
      · rw [h1]
        exact h.lev _ l0 h3 x h4
    · rcases h2 with h3 | h3
      · exact h.lev i l h3 x hx
      · rw [h3] at hx
        cases hx

theorem treeLoop_spec {edges : List (Edge R)} {K : List String} (hK : ∀ e ∈ edges,
    e.from_ ∈ K ∧ e.to_ ∈ K) {root : String} :
    ∀ (fuel : Nat) (queue visited : List String) (lm : List (String × Nat))
      (levels : List (List String)) (cur : String) (d : Nat),
      TreeInv edges K root cur d [] queue visited lm levels →
      K.length + 1 ≤ fuel + levels.flatten.length →
      ∃ visited' levels' lm' cur' d',
        treeLoop edges fuel queue visited lm levels = some (visited', levels') ∧
        TreeInv edges K root cur' d' [] [] visited' lm' levels' := by
  intro fuel
  induction fuel with
  | zero =>
    intro queue visited lm levels cur d h hf
    have h1 := (List.Nodup.subperm h.nodup
      (fun x hx => h.sub x ((h.vis x).2 hx))).length_le
    rw [List.length_append] at h1
    omega
  | succ fuel ih =>
    intro queue visited lm levels cur d h hf
    cases queue with
    | nil => exact ⟨visited, levels, lm, cur, d, rfl, h⟩
    | cons c q =>
      have hcv : c ∈ visited := (h.vis c).2 (List.mem_append_right _ (List.mem_cons_self _ _))
      obtain ⟨hget, _⟩ := treeInv_levelOf_eq h hcv
      have h2 := treePush_foldl hK edges q visited lm (tree_dequeue h)
      have hlen : (levelsPush levels (levelOf lm c) c).flatten.length =
          levels.flatten.length + 1 := by
        rw [(levelsPush_flatten_perm c levels (levelOf lm c)).length_eq]
        simp
      obtain ⟨v', l', lm', cur', d', hrun, hres⟩ := ih _ _ _ _ c (levelOf lm c) h2 (by omega)
      refine ⟨v', l', lm', cur', d', ?_, hres⟩
      rw [treeLoop]
      simp only [hget]
      exact hrun

theorem tree_init (edges : List (Edge R)) (K : List String) (root : String)
    (hroot : root ∈ K) :
    TreeInv edges K root root 0 edges [] [root] [(root, 0)] [[root]] := by
  have hlev : levelOf [(root, 0)] root = 0 := by simp [levelOf, mapGet]
  refine ⟨fun _ he => he, List.mem_singleton_self _, by simp, hlev, by simp, fun x => by simp,
    ?_, ?_, List.Pairwise.nil, fun _ hq => absurd hq (List.not_mem_nil _),
    fun _ hq => absurd hq (List.not_mem_nil _), ?_, ?_, rfl, ?_⟩
  · intro x hx
    rw [List.mem_singleton] at hx
    exact hx ▸ hroot
  · intro x hx
    rw [List.mem_singleton] at hx
    subst hx
    exact ⟨0, by simp [mapGet], rfl, fun _ _ => Nat.zero_le _⟩
  · intro p hp
    have : p = root := by simpa using hp
    rw [this, hlev]
  · intro p hp e he y _
    have : p = root := by simpa using hp
    exact Or.inr ⟨this, he⟩
  · intro i l hl x hx
    cases i with
    | zero =>
      simp only [List.getElem?_cons_zero, Option.some.injEq] at hl
      subst hl
      rw [List.mem_singleton] at hx
      rw [hx, hlev]
    | succ i => simp at hl

theorem treeLoop_run {edges : List (Edge R)} {K : List String} (hK : ∀ e ∈ edges,
    e.from_ ∈ K ∧ e.to_ ∈ K) {root : String} (hroot : root ∈ K) (fuel : Nat)
    (hf : K.length + 1 ≤ fuel) :
    ∃ visited levels lm cur d,
      treeLoop edges fuel [root] (setAdd [] root) (mapSet [] root 0) [] =
        some (visited, levels) ∧
      TreeInv edges K root cur d [] [] visited lm levels := by
  cases fuel with
  | zero => omega
  | succ fuel =>
    have h0 := treePush_foldl hK edges [] [root] [(root, 0)] (tree_init edges K root hroot)
    obtain ⟨v', l', lm', cur', d', hrun, hres⟩ :=
      treeLoop_spec hK fuel _ _ _ _ root 0 h0 (by simp; omega)
    refine ⟨v', l', lm', cur', d', ?_, hres⟩
    have hget : mapGet (mapSet ([] : List (String × Nat)) root 0) root = some 0 :=
      mapGet_mapSet_self _ _ _
    rw [treeLoop]
    simp only [hget]
    exact hrun

theorem reachIn_reach {edges : List (Edge R)} {u : String} :
    ∀ (k : Nat) (v : String), ReachIn edges k u v → Reach edges u v := by
  intro k
  induction k with
  | zero =>
    intro v h
    have : u = v := h
    exact this ▸ Relation.ReflTransGen.refl
  | succ k ih =>
    intro v h
    obtain ⟨w, hw, hadj⟩ := h
    exact Relation.ReflTransGen.tail (ih w hw) hadj

theorem reach_reachIn {edges : List (Edge R)} {u v : String} (h : Reach edges u v) :
    ∃ k, ReachIn edges k u v := by
  induction h with
  | refl => exact ⟨0, rfl⟩
  | tail _ hadj ih =>
    obtain ⟨k, hk⟩ := ih
    exact ⟨k + 1, _, hk, hadj⟩

theorem distIs_unique {edges : List (Edge R)} {root v : String} {d1 d2 : Nat}
    (h1 : DistIs edges root v d1) (h2 : DistIs edges root v d2) : d1 = d2 :=
  Nat.le_antisymm (h1.2 d2 h2.1) (h2.2 d1 h1.1)

/-- What the breadth-first loop of `applyTreeLayout` leaves: the visited ids are the ids
reached from the root, `levels` holds each of them once, in the list of its least number
of edges from the root, and the number of lists is one more than the largest such
number. -/
theorem tree_final {edges : List (Edge R)} {K : List String} {root cur : String} {d : Nat}
    {visited : List String} {lm : List (String × Nat)} {levels : List (List String)}
    (h : TreeInv edges K root cur d [] [] visited lm levels) :
    levels.flatten.Nodup ∧
    (∀ x, x ∈ visited ↔ x ∈ levels.flatten) ∧
    (∀ x, x ∈ visited ↔ Reach edges root x) ∧
    (∀ i l, levels[i]? = some l → ∀ x ∈ l, DistIs edges root x i) ∧
    levels.length = d + 1 ∧
    (∃ u, DistIs edges root u d) ∧
    (∀ u k, DistIs edges root u k → k ≤ d) := by
  have hvis : ∀ x, x ∈ visited ↔ x ∈ levels.flatten := by
    intro x
    rw [h.vis x, List.append_nil]
  have hreach : ∀ x, Reach edges root x → x ∈ visited := by
    intro x hx
    induction hx with
    | refl => exact h.root_vis
    | tail _ hadj ih =>
      obtain ⟨e, he, hn⟩ := hadj
      rcases h.closed _ ((hvis _).1 ih) e he _ hn with h1 | ⟨_, h1⟩
      · exact h1
      · cases h1
  refine ⟨by simpa using h.nodup, hvis, ?_, ?_, h.len, ?_, ?_⟩
  · intro x
    refine ⟨fun hx => ?_, hreach x⟩
    obtain ⟨_, h1⟩ := treeInv_levelOf_eq h hx
    exact reachIn_reach _ _ h1.1
  · intro i l hl x hx
    have hxv : x ∈ visited := (hvis x).2 (List.mem_flatten.2 ⟨l, List.getElem?_mem hl, hx⟩)
    obtain ⟨_, h1⟩ := treeInv_levelOf_eq h hxv
    rw [h.lev i l hl x hx] at h1
    exact h1
  · refine ⟨cur, ?_⟩
    obtain ⟨_, h1⟩ := treeInv_levelOf_eq h ((hvis cur).2 h.cur_mem)
    rw [h.cur_lvl] at h1
    exact h1
  · intro u k hk
    have huv := hreach u (reachIn_reach _ _ hk.1)
    obtain ⟨_, h1⟩ := treeInv_levelOf_eq h huv
    rw [distIs_unique hk h1]
    exact h.before u ((hvis u).1 huv)

/-! ## Tree layout: the positions -/

theorem mapGet_placeVertex (x y : R) (vs : List (String × Vertex R)) (id id' : String) :
    mapGet (placeVertex x y vs id) id' =
      if id' = id then (mapGet vs id).map (fun v => { v with x := x, y := y })
      else mapGet vs id' := by
  unfold placeVertex
  cases h : mapGet vs id with
  | none =>
    by_cases hid : id' = id
    · simp only [hid, if_true, h, Option.map_none']
    · simp only [hid, if_false]
  | some v =>
    by_cases hid : id' = id
    · simp only [hid, if_true, mapGet_mapSet_self, Option.map_some']
    · simp only [hid, if_false]
      exact mapGet_mapSet_of_ne _ _ _ _ hid

theorem mapKeys_placeVertex (x y : R) (vs : List (String × Vertex R)) (id : String) :
    mapKeys (placeVertex x y vs id) = mapKeys vs := by
  unfold placeVertex
  cases h : mapGet vs id with
  | none => rfl
  | some v =>
    apply mapKeys_mapSet_of_mem
    rw [← mapGet_isSome_iff, h]
    rfl

theorem mapKeys_placeRow [Ring R] (y : R) (ids : List String) :
    ∀ (x0 : R) (vs : List (String × Vertex R)),
      mapKeys (placeRow y x0 ids vs) = mapKeys vs := by
  induction ids with
  | nil => intro x0 vs; rfl
  | cons a ids ih =>
    intro x0 vs
    rw [placeRow, ih, mapKeys_placeVertex]

theorem mapGet_placeRow_of_not_mem [Ring R] (y : R) (id' : String) (ids : List String) :
    ∀ (x0 : R) (vs : List (String × Vertex R)), id' ∉ ids →
      mapGet (placeRow y x0 ids vs) id' = mapGet vs id' := by
  induction ids with
  | nil => intro x0 vs _; rfl
  | cons a ids ih =>
    intro x0 vs h
    rw [placeRow, ih _ _ (fun hm => h (List.mem_cons_of_mem _ hm)), mapGet_placeVertex,
      if_neg (fun e : id' = a => h (e ▸ List.mem_cons_self _ _))]

theorem mapGet_placeRow_of_mem [Ring R] (y : R) (id' : String) (ids : List String) :
    ∀ (x0 : R) (vs : List (String × Vertex R)), id' ∈ ids →
      ∃ x', mapGet (placeRow y x0 ids vs) id' =
        (mapGet vs id').map (fun v => { v with x := x', y := y }) := by
  induction ids with
  | nil => intro x0 vs h; cases h
  | cons a ids ih =>
    intro x0 vs h
    rw [placeRow]
    by_cases hm : id' ∈ ids
    · obtain ⟨x', hx'⟩ := ih (x0 + 120) (placeVertex x0 y vs a) hm
      refine ⟨x', ?_⟩
      rw [hx', mapGet_placeVertex]
      by_cases ha : id' = a
      · subst ha
        simp only [if_true]
        cases mapGet vs id' with
        | none => rfl
        | some v => rfl
      · simp only [ha, if_false]
    · have ha : id' = a := by
        rcases List.mem_cons.1 h with h1 | h1
        · exact h1
        · exact absurd h1 hm
      refine ⟨x0, ?_⟩
      rw [mapGet_placeRow_of_not_mem y id' ids _ _ hm, mapGet_placeVertex, if_pos ha, ha]

theorem mapGet_placeRow_nodup [Ring R] (y : R) (id' : String) (ids : List String) :
    ∀ (x0 : R) (vs : List (String × Vertex R)) (k : Nat), ids.Nodup → ids[k]? = some id' →
      mapGet (placeRow y x0 ids vs) id' =
        (mapGet vs id').map (fun v => { v with x := x0 + 120 * (k : R), y := y }) := by
  induction ids with
  | nil => intro x0 vs k _ h; simp at h
  | cons a ids ih =>
    intro x0 vs k hnd h
    rw [List.nodup_cons] at hnd
    rw [placeRow]
    cases k with
    | zero =>
      simp only [List.getElem?_cons_zero, Option.some.injEq] at h
      subst h
      rw [mapGet_placeRow_of_not_mem y a ids _ _ hnd.1, mapGet_placeVertex, if_pos rfl]
      simp
    | succ k =>
      simp only [List.getElem?_cons_succ] at h
      have hm : id' ∈ ids := List.getElem?_mem h
      have hne : id' ≠ a := fun e => hnd.1 (e ▸ hm)
      rw [ih (x0 + 120) (placeVertex x0 y vs a) k hnd.2 h, mapGet_placeVertex, if_neg hne]
      have : x0 + 120 + 120 * (k : R) = x0 + 120 * ((k + 1 : Nat) : R) := by
        push_cast
        rw [mul_add, mul_one]
        abel
      rw [this]

theorem mapKeys_placeLevels [DivisionRing R] (levels : List (List String)) :
    ∀ (depth : Nat) (vs : List (String × Vertex R)),
      mapKeys (placeLevels depth levels vs) = mapKeys vs := by
  induction levels with
  | nil => intro depth vs; rfl
  | cons l ls ih =>
    intro depth vs
    rw [placeLevels, ih, mapKeys_placeRow]

theorem mapGet_placeLevels_of_not_mem [DivisionRing R] (id' : String)
    (levels : List (List String)) :
    ∀ (depth : Nat) (vs : List (String × Vertex R)), id' ∉ levels.flatten →
      mapGet (placeLevels depth levels vs) id' = mapGet vs id' := by
  induction levels with
  | nil => intro depth vs _; rfl
  | cons l ls ih =>
    intro depth vs h
    rw [List.flatten_cons, List.mem_append, not_or] at h
    rw [placeLevels, ih _ _ h.2, mapGet_placeRow_of_not_mem _ _ _ _ _ h.1]

theorem mapGet_placeLevels_of_mem [DivisionRing R] (id' : String)
    (levels : List (List String)) :
    ∀ (depth : Nat) (vs : List (String × Vertex R)) (i : Nat) (l : List String),
      levels.flatten.Nodup → levels[i]? = some l → id' ∈ l →
      ∃ x', mapGet (placeLevels depth levels vs) id' =
        (mapGet vs id').map (fun v => { v with x := x', y := ((depth + i : Nat) : R) * 150 }) := by
  induction levels with
  | nil => intro depth vs i l _ h; simp at h
  | cons l0 ls ih =>
    intro depth vs i l hnd h hm
    rw [List.flatten_cons, List.nodup_append] at hnd
    obtain ⟨_, hnd2, hdisj⟩ := hnd
    rw [placeLevels]
    cases i with
    | zero =>
      simp only [List.getElem?_cons_zero, Option.some.injEq] at h
      subst h
      have hnot : id' ∉ ls.flatten := fun h2 => hdisj hm h2
      rw [mapGet_placeLevels_of_not_mem id' ls _ _ hnot]
      exact mapGet_placeRow_of_mem _ id' l0 _ vs hm
    | succ i =>
      simp only [List.getElem?_cons_succ] at h
      have hin : id' ∈ ls.flatten := List.mem_flatten.2 ⟨l, List.getElem?_mem h, hm⟩
      have hnot : id' ∉ l0 := fun h2 => hdisj h2 hin
      obtain ⟨x', hx'⟩ := ih (depth + 1) (placeRow ((depth : R) * 150)
        (-(((l0.length : R) - 1) * 120) / 2) l0 vs) i l hnd2 h hm
      refine ⟨x', ?_⟩
      rw [hx', mapGet_placeRow_of_not_mem _ _ _ _ _ hnot]
      have : depth + 1 + i = depth + (i + 1) := by omega
      rw [this]

theorem applyTreeLayout_eq [DivisionRing R] (s : State R) (rootId : String)
    (hroot : rootId ∈ mapKeys s.graph.vertices) {visited : List String}
    {levels : List (List String)}
    (hrun : treeLoop s.graph.edges (s.graph.vertices.length + 2 * s.graph.edges.length + 2)
      [rootId] (setAdd [] rootId) (mapSet [] rootId 0) [] = some (visited, levels))
    (vs1 : List (String × Vertex R)) (hvs1 : vs1 = placeLevels 0 levels s.graph.vertices)
    (row : List String) (hrow : row = (mapKeys vs1).filter (fun id => decide (id ∉ visited)))
    (vs2 : List (String × Vertex R))
    (hvs2 : vs2 = if row.length > 0 then
        placeRow ((levels.length : R) * 150) (-(((row.length : R) - 1) * 120) / 2) row vs1
      else vs1) :
    applyTreeLayout s rootId = some { s with graph := { s.graph with vertices := vs2 } } := by
  have hhas : ¬ mapHas s.graph.vertices rootId = false := by
    rw [(mapHas_iff _ _).2 hroot]
    exact Bool.noConfusion
  unfold applyTreeLayout
  rw [if_neg hhas]
  simp only [hrun]
  rw [hvs2, hrow, hvs1]

/-- C19: after `applyTreeLayout` with a root that is a vertex of a graph whose edges
reference existing vertices, with `D` the largest least number of edges from the root to
a vertex: a vertex whose least number of edges from the root under the neighbour rule is
`d` has `y = 150 * d` (every vertex reached from the root has such a `d`), a vertex not
reached from the root has `y = 150 * (D + 1)`, and, the keys of the vertex map being
distinct, the vertices not reached from the root, in their enumeration order `row`, have
`x = -((row.length - 1) * 120) / 2 + 120 * k` for `k = 0, 1, ...`, so they go from left to
right; the keys of the vertex map and the edges are unchanged. -/
theorem applyTreeLayout_levels [LinearOrderedField R] (s : State R) (rootId : String)
    (hroot : rootId ∈ mapKeys s.graph.vertices) (hinv : EndpointsExist s.graph) :
    ∃ (s' : State R) (D : Nat) (row : List String),
      applyTreeLayout s rootId = some s' ∧
      s'.graph.edges = s.graph.edges ∧
      mapKeys s'.graph.vertices = mapKeys s.graph.vertices ∧
      (∃ u, DistIs s.graph.edges rootId u D) ∧
      (∀ u d, DistIs s.graph.edges rootId u d → d ≤ D) ∧
      (∀ v, Reach s.graph.edges rootId v → ∃ d, DistIs s.graph.edges rootId v d) ∧
      (∀ v ∈ mapKeys s.graph.vertices, ∀ d, DistIs s.graph.edges rootId v d →
        ∃ w, mapGet s'.graph.vertices v = some w ∧ w.y = 150 * (d : R)) ∧
      (∀ v ∈ mapKeys s.graph.vertices, ¬ Reach s.graph.edges rootId v →
        ∃ w, mapGet s'.graph.vertices v = some w ∧ w.y = 150 * ((D : R) + 1)) ∧
      row.Sublist (mapKeys s.graph.vertices) ∧
      (∀ v, v ∈ row ↔ v ∈ mapKeys s.graph.vertices ∧ ¬ Reach s.graph.edges rootId v) ∧
      ((mapKeys s.graph.vertices).Nodup → ∀ (k : Nat) id, row[k]? = some id →
        ∃ w, mapGet s'.graph.vertices id = some w ∧
          w.x = -(((row.length : R) - 1) * 120) / 2 + 120 * (k : R)) ∧
      ((mapKeys s.graph.vertices).Nodup → ∀ (k1 k2 : Nat) id1 id2 w1 w2, k1 < k2 →
        row[k1]? = some id1 → row[k2]? = some id2 →
        mapGet s'.graph.vertices id1 = some w1 → mapGet s'.graph.vertices id2 = some w2 →
        w1.x < w2.x) := by
  have hf : (mapKeys s.graph.vertices).length + 1 ≤
      s.graph.vertices.length + 2 * s.graph.edges.length + 2 := by
    simp only [mapKeys, List.length_map]
    omega
  obtain ⟨visited, levels, lm, cur, D, hrun, hT⟩ := treeLoop_run hinv hroot _ hf
  obtain ⟨hnd, hvis, hreach, hlev, hlen, hD, hmax⟩ := tree_final hT
  obtain ⟨vs1, hvs1⟩ : ∃ vs1, vs1 = placeLevels 0 levels s.graph.vertices := ⟨_, rfl⟩
  obtain ⟨row, hrow⟩ : ∃ row, row = (mapKeys vs1).filter (fun id => decide (id ∉ visited)) :=
    ⟨_, rfl⟩
  obtain ⟨vs2, hvs2⟩ : ∃ vs2, vs2 = if row.length > 0 then
      placeRow ((levels.length : R) * 150) (-(((row.length : R) - 1) * 120) / 2) row vs1
    else vs1 := ⟨_, rfl⟩
  have hcall := applyTreeLayout_eq s rootId hroot hrun vs1 hvs1 row hrow vs2 hvs2
  have hk1 : mapKeys vs1 = mapKeys s.graph.vertices := by
    rw [hvs1, mapKeys_placeLevels]
  have hk2 : mapKeys vs2 = mapKeys s.graph.vertices := by
    rw [hvs2]
    split
    · rw [mapKeys_placeRow, hk1]
    · exact hk1
  have hrow' : row = (mapKeys s.graph.vertices).filter (fun id => decide (id ∉ visited)) := by
    rw [hrow, hk1]
  have hrowmem : ∀ v, v ∈ row ↔ v ∈ mapKeys s.graph.vertices ∧ ¬ Reach s.graph.edges rootId v := by
    intro v
    rw [hrow', List.mem_filter, decide_eq_true_eq, hreach v]
  have hget0 : ∀ v ∈ mapKeys s.graph.vertices, ∃ w0, mapGet s.graph.vertices v = some w0 := by
    intro v hv
    have := (mapGet_isSome_iff s.graph.vertices v).2 hv
    exact Option.isSome_iff_exists.1 this
  have hout : ∀ id, id ∉ row → mapGet vs2 id = mapGet vs1 id := by
    intro id hid
    rw [hvs2]
    split
    · exact mapGet_placeRow_of_not_mem _ _ _ _ _ hid
    · rfl
  have hpos : ∀ id ∈ row, 0 < row.length := fun id hid => List.length_pos_of_mem hid
  have hreachD : ∀ v, Reach s.graph.edges rootId v → ∃ d, DistIs s.graph.edges rootId v d := by
    intro v hv
    have h1 := (hvis v).1 ((hreach v).2 hv)
    obtain ⟨l, hl, hvl⟩ := List.mem_flatten.1 h1
    obtain ⟨i, hi⟩ := List.mem_iff_getElem?.1 hl
    exact ⟨i, hlev i l hi v hvl⟩
  have hxrow : (mapKeys s.graph.vertices).Nodup → ∀ (k : Nat) id, row[k]? = some id →
      ∃ w, mapGet vs2 id = some w ∧
        w.x = -(((row.length : R) - 1) * 120) / 2 + 120 * (k : R) := by
    intro hkn k id hk
    have hid : id ∈ row := List.getElem?_mem hk
    have hrn : row.Nodup := by
      rw [hrow']
      exact hkn.filter _
    obtain ⟨w0, hw0⟩ := hget0 id ((hrowmem id).1 hid).1
    have hnot : id ∉ levels.flatten := fun hm =>
      ((hrowmem id).1 hid).2 ((hreach id).1 ((hvis id).2 hm))
    have h1 : mapGet vs1 id = some w0 := by
      rw [hvs1, mapGet_placeLevels_of_not_mem id levels _ _ hnot, hw0]
    rw [hvs2, if_pos (hpos id hid), mapGet_placeRow_nodup _ id row _ _ k hrn hk, h1]
    exact ⟨_, rfl, rfl⟩
  refine ⟨{ s with graph := { s.graph with vertices := vs2 } }, D, row, hcall, rfl, hk2, hD,
    hmax, hreachD, ?_, ?_, ?_, hrowmem, hxrow, ?_⟩
  · intro v hv d hd
    have hr : Reach s.graph.edges rootId v := reachIn_reach _ _ hd.1
    have h1 := (hvis v).1 ((hreach v).2 hr)
    obtain ⟨l, hl, hvl⟩ := List.mem_flatten.1 h1
    obtain ⟨i, hi⟩ := List.mem_iff_getElem?.1 hl
    have hid : i = d := distIs_unique (hlev i l hi v hvl) hd
    obtain ⟨w0, hw0⟩ := hget0 v hv
    obtain ⟨x', hx'⟩ := mapGet_placeLevels_of_mem v levels 0 s.graph.vertices i l hnd hi hvl
    have hnr : v ∉ row := fun hm => ((hrowmem v).1 hm).2 hr
    have hw : mapGet vs2 v =
        some { w0 with x := x', y := ((0 + i : Nat) : R) * 150 } := by
      rw [hout v hnr, hvs1, hx', hw0]
      rfl
    refine ⟨_, hw, ?_⟩
    simp only [Nat.zero_add, hid]
    exact mul_comm _ _
  · intro v hv hnr
    have hid : v ∈ row := (hrowmem v).2 ⟨hv, hnr⟩
    obtain ⟨w0, hw0⟩ := hget0 v hv
    have hnot : v ∉ levels.flatten := fun hm => hnr ((hreach v).1 ((hvis v).2 hm))
    have h1 : mapGet vs1 v = some w0 := by
      rw [hvs1, mapGet_placeLevels_of_not_mem v levels _ _ hnot, hw0]
    obtain ⟨x', hx'⟩ := mapGet_placeRow_of_mem ((levels.length : R) * 150) v row
      (-(((row.length : R) - 1) * 120) / 2) vs1 hid
    have hw : mapGet vs2 v =
        some { w0 with x := x', y := (levels.length : R) * 150 } := by
      rw [hvs2, if_pos (hpos v hid), hx', h1]
      rfl
    refine ⟨_, hw, ?_⟩
    simp only [hlen]
    push_cast
    exact mul_comm _ _
  · rw [hrow']
    exact List.filter_sublist _
  · intro hkn k1 k2 id1 id2 w1 w2 hlt h1 h2 hw1 hw2
    obtain ⟨u1, hu1, hx1⟩ := hxrow hkn k1 id1 h1
    obtain ⟨u2, hu2, hx2⟩ := hxrow hkn k2 id2 h2
    have e1 : w1 = u1 := Option.some.inj (hw1.symm.trans hu1)
    have e2 : w2 = u2 := Option.some.inj (hw2.symm.trans hu2)
    rw [e1, e2, hx1, hx2]
    have : (k1 : R) < (k2 : R) := Nat.cast_lt.2 hlt
    linarith


/-- Witness for `applyTreeLayout_levels` on the graph A-B, A-C, D-E with the root A. -/
theorem applyTreeLayout_levels_witness :
    "A" ∈ mapKeys (State.init forestGraph).graph.vertices ∧
    EndpointsExist (State.init forestGraph).graph ∧
    ∃ (s' : State ℚ) (D : Nat), applyTreeLayout (State.init forestGraph) "A" = some s' ∧
      (∀ v ∈ mapKeys (State.init forestGraph).graph.vertices, ∀ d,
        DistIs (State.init forestGraph).graph.edges "A" v d →
        ∃ w, mapGet s'.graph.vertices v = some w ∧ w.y = 150 * (d : ℚ)) ∧
      (∀ v ∈ mapKeys (State.init forestGraph).graph.vertices,
        ¬ Reach (State.init forestGraph).graph.edges "A" v →
        ∃ w, mapGet s'.graph.vertices v = some w ∧ w.y = 150 * ((D : ℚ) + 1)) := by
  refine ⟨by decide, by decide, ?_⟩
  obtain ⟨s', D, _, h1, _, _, _, _, _, h2, h3, _⟩ :=
    applyTreeLayout_levels (State.init forestGraph) "A" (by decide) (by decide)
  exact ⟨s', D, h1, h2, h3⟩

/-! ## Timers -/

/-- C22: `startBfsVisualization` with the mode `auto` and the delay input 2 sets
`state.algoDelay` to 2000 and registers `bfsStep` with an interval that is `undefined`
(`state.bfsDelay`), where `startDfsVisualization` and `startDijkstraVisualization`
register their steps with the interval 2000. -/
theorem startBfsVisualization_interval_undefined :
    (startBfsVisualization (State.init treeGraph) "A" .auto (some 2)).algoDelay = 2000 ∧
    (startBfsVisualization (State.init treeGraph) "A" .auto (some 2)).timers =
      [⟨1, .bfs, none⟩] ∧
    (startDfsVisualization (State.init treeGraph) "A" .auto (some 2)).timers =
      [⟨1, .dfs, some 2000⟩] ∧
    (startDijkstraVisualization (State.init treeGraph) "A" "D" .auto (some 2)).timers =
      [⟨1, .dijkstra, some 2000⟩] := by
  decide

/-- C27: on a graph with the one vertex A of colour `#208141`, two calls of
`findConnectedComponents` leave `state.componentsOriginalColors` with the palette colour
`#e6194b` for A, and the Shift handler then gives A the colour `#e6194b`, not
`#208141`. -/
theorem findConnectedComponents_twice_forgets_colors :
    (State.init oneVertexGraph).graph.vertices =
      [("A", ⟨"A", "old", 1, 2, "#208141", 25⟩)] ∧
    ((findConnectedComponents (State.init oneVertexGraph)).bind
        findConnectedComponents).toOption.map
      (fun s => (s.componentsOriginalColors, (shiftKey s).graph.vertices)) =
      some (some [("A", "#e6194b")], [("A", ⟨"A", "old", 1, 2, "#e6194b", 25⟩)]) ∧
    (findConnectedComponents (State.init oneVertexGraph)).toOption.map
      (fun s => (s.componentsOriginalColors, (shiftKey s).graph.vertices)) =
      some (some [("A", "#208141")], [("A", ⟨"A", "old", 1, 2, "#208141", 25⟩)]) := by
  decide

theorem clearTimer_timers (s : State R) (h : TimerInv s) :
    (clearTimer s).timers = [] ∧ (clearTimer s).algoTimerId = none ∧
    (clearTimer s).timerSeq = s.timerSeq := by
  unfold clearTimer
  rcases h with ⟨h1, h2⟩ | ⟨t, h1, h2, _⟩
  · rw [h1]
    exact ⟨h2, h1, rfl⟩
  · rw [h1]
    simp [h2]

theorem start_timers (s : State R) (h : TimerInv s) (callback : AlgoMode)
    (interval : Option R) (mode : StepMode) (s1 s' : State R)
    (h1 : s1.timers = (clearTimer s).timers ∧ s1.algoTimerId = (clearTimer s).algoTimerId ∧
      s1.timerSeq = (clearTimer s).timerSeq)
    (h' : s' = if mode = .auto then setTimer s1 callback interval else s1) :
    TimerInv s' ∧ StartsFresh s s' mode callback := by
  obtain ⟨c1, c2, c3⟩ := clearTimer_timers s h
  obtain ⟨e1, e2, e3⟩ := h1
  rw [c1] at e1
  rw [c2] at e2
  rw [c3] at e3
  by_cases hm : mode = .auto
  · rw [if_pos hm] at h'
    subst h'
    have ht : (setTimer s1 callback interval).timers = [⟨s.timerSeq + 1, callback, interval⟩] := by
      simp [setTimer, e1, e3]
    have hi : (setTimer s1 callback interval).algoTimerId = some (s.timerSeq + 1) := by
      simp [setTimer, e3]
    have hs : (setTimer s1 callback interval).timerSeq = s.timerSeq + 1 := by
      simp [setTimer, e3]
    refine ⟨Or.inr ⟨⟨s.timerSeq + 1, callback, interval⟩, hi, ht, by rw [hs]⟩, ?_, ?_⟩
    · intro _
      refine ⟨⟨s.timerSeq + 1, callback, interval⟩, ht, hi, rfl, ?_⟩
      intro hmem
      rcases h with ⟨_, h2⟩ | ⟨t, _, h2, h3⟩
      · rw [h2] at hmem
        cases hmem
      · rw [h2, List.mem_singleton] at hmem
        rw [← hmem] at h3
        simp at h3
    · intro hne
      exact absurd hm hne
  · rw [if_neg hm] at h'
    subst h'
    refine ⟨Or.inl ⟨e2, e1⟩, fun ha => absurd ha hm, fun _ => ⟨e1, e2⟩⟩

theorem startBfsVisualization_timers [Ring R] [DecidableEq R] (s : State R)
    (h : TimerInv s) (start : String) (mode : StepMode) (delayInput : Option R) :
    TimerInv (startBfsVisualization s start mode delayInput) ∧
    StartsFresh s (startBfsVisualization s start mode delayInput) mode .bfs := by
  have hv : TimerInv (startVisualizationMode s) := h
  have key := start_timers (startVisualizationMode s) hv .bfs none mode
    { clearTimer (startVisualizationMode s) with
      algoMode := .bfs, algoStepMode := mode, algoDelay := delayOr1 delayInput * 1000,
      bfsVisited := [], bfsOrder := [], bfsQueue := [start],
      algoCurrent := none, algoNext := some start }
    (startBfsVisualization s start mode delayInput) ⟨rfl, rfl, rfl⟩ rfl
  exact key

theorem startDfsVisualization_timers [Ring R] [DecidableEq R] (s : State R)
    (h : TimerInv s) (start : String) (mode : StepMode) (delayInput : Option R) :
    TimerInv (startDfsVisualization s start mode delayInput) ∧
    StartsFresh s (startDfsVisualization s start mode delayInput) mode .dfs := by
  have hv : TimerInv (startVisualizationMode s) := h
  have key := start_timers (startVisualizationMode s) hv .dfs
    (some (delayOr1 delayInput * 1000)) mode
    { clearTimer (startVisualizationMode s) with
      algoMode := .dfs, algoStepMode := mode, algoDelay := delayOr1 delayInput * 1000,
      dfsVisited := [], dfsOrder := [], dfsStack := [start],
      algoCurrent := none, algoNext := some start }
    (startDfsVisualization s start mode delayInput) ⟨rfl, rfl, rfl⟩ rfl
  exact key

theorem startDijkstraVisualization_timers [Ring R] [DecidableEq R] (s : State R)
    (h : TimerInv s) (start end_ : String) (mode : StepMode) (delayInput : Option R) :
    TimerInv (startDijkstraVisualization s start end_ mode delayInput) ∧
    StartsFresh s (startDijkstraVisualization s start end_ mode delayInput) mode
      .dijkstra := by
  have hv : TimerInv (startVisualizationMode s) := h
  have key := start_timers (startVisualizationMode s) hv .dijkstra
    (some (delayOr1 delayInput * 1000)) mode
    { clearTimer (startVisualizationMode s) with
      algoMode := .dijkstra, algoStepMode := mode, algoDelay := delayOr1 delayInput * 1000,
      djDistances := ((mapKeys (clearTimer (startVisualizationMode s)).graph.vertices).foldl
        (djInit start) ([], [], [])).1,
      djPrevious := ((mapKeys (clearTimer (startVisualizationMode s)).graph.vertices).foldl
        (djInit start) ([], [], [])).2.1,
      djUnvisited := ((mapKeys (clearTimer (startVisualizationMode s)).graph.vertices).foldl
        (djInit start) ([], [], [])).2.2,
      djOrder := [], dijkstraStart := some start, dijkstraEnd := some end_,
      algoCurrent := none, algoNext := some start }
    (startDijkstraVisualization s start end_ mode delayInput) ⟨rfl, rfl, rfl⟩ rfl
  exact key

theorem bfsStep_timers (s s' : State R) (h : TimerInv s) (hs : bfsStep s = .ok s') :
    TimerInv s' ∧ (s.bfsQueue = [] → s'.timers = [] ∧ s'.algoTimerId = none) := by
  obtain ⟨c1, c2, c3⟩ := clearTimer_timers s h
  unfold bfsStep at hs
  split at hs
  · simp only [stopVisualizationMode] at hs
    split at hs
    · cases hs
    · cases hs
      exact ⟨Or.inl ⟨c2, c1⟩, fun _ => ⟨c1, c2⟩⟩
  · rename_i c rest hq
    cases hs
    refine ⟨h, fun he => ?_⟩
    rw [he] at hq
    cases hq

theorem dfsStep_timers (s s' : State R) (h : TimerInv s) (hs : dfsStep s = .ok s') :
    TimerInv s' ∧ (s.dfsStack = [] → s'.timers = [] ∧ s'.algoTimerId = none) := by
  obtain ⟨c1, c2, c3⟩ := clearTimer_timers s h
  unfold dfsStep at hs
  split at hs
  · simp only [stopVisualizationMode] at hs
    split at hs
    · cases hs
    · cases hs
      exact ⟨Or.inl ⟨c2, c1⟩, fun _ => ⟨c1, c2⟩⟩
  · rename_i c hq
    have hne : s.dfsStack ≠ [] := by
      intro he
      rw [he] at hq
      cases hq
    simp only at hs
    split at hs
    · cases hs
      exact ⟨h, fun he => absurd he hne⟩
    · cases hs
      exact ⟨h, fun he => absurd he hne⟩

theorem finishDijkstra_timers (s s' : State R) (h : TimerInv s)
    (hs : finishDijkstra s = .ok s') :
    s'.timers = [] ∧ s'.algoTimerId = none ∧ s'.algoMode = .off := by
  obtain ⟨c1, c2, c3⟩ := clearTimer_timers s h
  unfold finishDijkstra at hs
  simp only [stopVisualizationMode] at hs
  split at hs
  · cases hs
  · split at hs
    · cases hs
    · split at hs
      · cases hs
        exact ⟨c1, c2, rfl⟩
      · split at hs
        · cases hs
        · cases hs
          exact ⟨c1, c2, rfl⟩

theorem stepThrown_timers (s : State R) (h : TimerInv s) :
    (stepThrown s).timers = [] ∧ (stepThrown s).algoTimerId = none := by
  obtain ⟨c1, c2, _⟩ := clearTimer_timers s h
  exact ⟨c1, c2⟩

section Timers
variable [LinearOrderedRing R]

theorem dijkstraStep_timers (s s' : State R) (h : TimerInv s)
    (hs : dijkstraStep s = .ok s') :
    TimerInv s' ∧ (s.algoMode = .dijkstra → s'.algoMode = .off →
      s'.timers = [] ∧ s'.algoTimerId = none) := by
  have hfin : ∀ s1 : State R, finishDijkstra s1 = .ok s' → TimerInv s1 →
      TimerInv s' ∧ (s.algoMode = .dijkstra → s'.algoMode = .off →
        s'.timers = [] ∧ s'.algoTimerId = none) := by
    intro s1 hf h1
    obtain ⟨f1, f2, _⟩ := finishDijkstra_timers s1 s' h1 hf
    exact ⟨Or.inl ⟨f2, f1⟩, fun _ _ => ⟨f1, f2⟩⟩
  unfold dijkstraStep at hs
  split at hs
  · exact hfin s hs h
  · split at hs
    · exact hfin s hs h
    · split at hs
      · exact hfin s hs h
      · simp only at hs
        split at hs
        · exact hfin _ hs h
        · cases hs
          refine ⟨h, fun h1 h2 => ?_⟩
          have h3 : s.algoMode = .off := h2
          rw [h1] at h3
          cases h3

theorem dijkstraAtFinish_timers (s : State R) :
    (dijkstraAtFinish s).timers = s.timers ∧
    (dijkstraAtFinish s).algoTimerId = s.algoTimerId ∧
    (dijkstraAtFinish s).timerSeq = s.timerSeq := by
  unfold dijkstraAtFinish
  split
  · exact ⟨rfl, rfl, rfl⟩
  · split
    · exact ⟨rfl, rfl, rfl⟩
    · split
      · exact ⟨rfl, rfl, rfl⟩
      · exact ⟨rfl, rfl, rfl⟩

theorem dijkstraThrown_timers (s : State R) (h : TimerInv s) :
    (dijkstraThrown s).timers = [] ∧ (dijkstraThrown s).algoTimerId = none := by
  obtain ⟨d1, d2, d3⟩ := dijkstraAtFinish_timers s
  have h' : TimerInv (dijkstraAtFinish s) := by
    unfold TimerInv
    rw [d1, d2, d3]
    exact h
  obtain ⟨c1, c2, _⟩ := clearTimer_timers _ h'
  exact ⟨c1, c2⟩

theorem runReachable_timerInv (s0 s : State R) (h0 : TimerInv s0)
    (h : RunReachable s0 s) : TimerInv s := by
  induction h with
  | init => exact h0
  | afterStartBfs start mode d _ ih => exact (startBfsVisualization_timers _ ih start mode d).1
  | afterStartDfs start mode d _ ih => exact (startDfsVisualization_timers _ ih start mode d).1
  | afterStartDijkstra start end_ mode d _ ih =>
    exact (startDijkstraVisualization_timers _ ih start end_ mode d).1
  | afterBfsStep _ hs ih => exact (bfsStep_timers _ _ ih hs).1
  | afterDfsStep _ hs ih => exact (dfsStep_timers _ _ ih hs).1
  | afterDijkstraStep _ hs ih => exact (dijkstraStep_timers _ _ ih hs).1
  | afterBfsThrow _ _ ih =>
    exact Or.inl ⟨(stepThrown_timers _ ih).2, (stepThrown_timers _ ih).1⟩
  | afterDfsThrow _ _ ih =>
    exact Or.inl ⟨(stepThrown_timers _ ih).2, (stepThrown_timers _ ih).1⟩
  | afterDijkstraThrow _ _ ih =>
    exact Or.inl ⟨(dijkstraThrown_timers _ ih).2, (dijkstraThrown_timers _ ih).1⟩

/-- C23: from a state without timers, in every state reached by calls of the three start
functions (any dialog values, any mode) and of the three step functions (calls that return
and calls that throw), at most one timer is live and a timer is live exactly when it is
the one recorded in `state.algoTimerId`; every start function leaves, with the mode
`auto`, exactly one live timer, a new one that is recorded, and no live timer with another
mode; a step that takes its termination branch leaves no live timer, also when it throws
there. -/
theorem at_most_one_live_timer (s0 s : State R)
    (h0 : s0.algoTimerId = none ∧ s0.timers = []) (h : RunReachable s0 s) :
    (s.timers.length ≤ 1 ∧ (∀ t ∈ s.timers, s.algoTimerId = some t.id) ∧
      (s.timers = [] → s.algoTimerId = none)) ∧
    (∀ start mode delayInput,
      StartsFresh s (startBfsVisualization s start mode delayInput) mode .bfs) ∧
    (∀ start mode delayInput,
      StartsFresh s (startDfsVisualization s start mode delayInput) mode .dfs) ∧
    (∀ start end_ mode delayInput,
      StartsFresh s (startDijkstraVisualization s start end_ mode delayInput) mode
        .dijkstra) ∧
    (∀ s', bfsStep s = .ok s' → s.bfsQueue = [] → s'.timers = [] ∧ s'.algoTimerId = none) ∧
    (∀ s', dfsStep s = .ok s' → s.dfsStack = [] → s'.timers = [] ∧ s'.algoTimerId = none) ∧
    (∀ s', dijkstraStep s = .ok s' → s.algoMode = .dijkstra → s'.algoMode = .off →
      s'.timers = [] ∧ s'.algoTimerId = none) ∧
    ((stepThrown s).timers = [] ∧ (stepThrown s).algoTimerId = none) ∧
    ((dijkstraThrown s).timers = [] ∧ (dijkstraThrown s).algoTimerId = none) := by
  have hinv := runReachable_timerInv s0 s (Or.inl h0) h
  refine ⟨?_, fun start mode d => (startBfsVisualization_timers s hinv start mode d).2,
    fun start mode d => (startDfsVisualization_timers s hinv start mode d).2,
    fun start end_ mode d => (startDijkstraVisualization_timers s hinv start end_ mode d).2,
    fun s' hs => (bfsStep_timers s s' hinv hs).2,
    fun s' hs => (dfsStep_timers s s' hinv hs).2,
    fun s' hs => (dijkstraStep_timers s s' hinv hs).2,
    stepThrown_timers s hinv, dijkstraThrown_timers s hinv⟩
  rcases hinv with ⟨h1, h2⟩ | ⟨t, h1, h2, _⟩
  · rw [h2]
    exact ⟨by simp, fun _ ht => absurd ht (List.not_mem_nil _), fun _ => h1⟩
  · rw [h2]
    refine ⟨by simp, fun t' ht' => ?_, fun he => by cases he⟩
    rw [List.mem_singleton] at ht'
    rw [ht', h1]

/-- Witness for `at_most_one_live_timer`: the state after a breadth-first start in the
mode `auto` and a depth-first start in the mode `auto`. -/
theorem at_most_one_live_timer_witness :
    (startDfsVisualization (startBfsVisualization (State.init treeGraph) "A" .auto none)
      "A" .auto none).timers.length ≤ 1 ∧
    ∀ t ∈ (startDfsVisualization (startBfsVisualization (State.init treeGraph) "A" .auto none)
        "A" .auto none).timers,
      (startDfsVisualization (startBfsVisualization (State.init treeGraph) "A" .auto none)
        "A" .auto none).algoTimerId = some t.id :=
  ⟨(at_most_one_live_timer (State.init treeGraph) _ ⟨rfl, rfl⟩
      (RunReachable.afterStartDfs "A" .auto none
        (RunReachable.afterStartBfs "A" .auto none RunReachable.init))).1.1,
    (at_most_one_live_timer (State.init treeGraph) _ ⟨rfl, rfl⟩
      (RunReachable.afterStartDfs "A" .auto none
        (RunReachable.afterStartBfs "A" .auto none RunReachable.init))).1.2.1⟩

end Timers

/-! ## Loading an adjacency matrix -/

section Matrix
variable [LinearOrderedRing R]

theorem checkCell_ne_loaded (i j : Nat) (c : Cell R) (r : Report R)
    (h : checkCell i j c = some r) : r ≠ .matrixLoaded := by
  unfold checkCell at h
  split at h
  · split at h
    · cases h
    · split at h
      · cases h
        exact Report.noConfusion
      · cases h
  · cases h
    exact Report.noConfusion

theorem checkRow_ne_loaded (i : Nat) (line : List (Cell R)) :
    ∀ (j : Nat) (r : Report R), checkRow i j line = some r → r ≠ .matrixLoaded := by
  induction line with
  | nil => intro j r h; cases h
  | cons c rest ih =>
    intro j r h
    unfold checkRow at h
    cases hcell : checkCell i j c with
    | some r2 =>
      rw [hcell] at h
      cases h
      exact checkCell_ne_loaded i j c r hcell
    | none =>
      rw [hcell] at h
      exact ih (j + 1) r h

theorem checkRows_ne_loaded (lines : List (List (Cell R))) :
    ∀ (i : Nat) (r : Report R), checkRows i lines = some r → r ≠ .matrixLoaded := by
  induction lines with
  | nil => intro i r h; cases h
  | cons line rest ih =>
    intro i r h
    unfold checkRows at h
    cases hrow : checkRow i 0 line with
    | some r2 =>
      rw [hrow] at h
      cases h
      exact checkRow_ne_loaded i line 0 r hrow
    | none =>
      rw [hrow] at h
      exact ih (i + 1) r h

theorem checkCell_of_bad (i j : Nat) (c : Cell R)
    (h : c = .notFinite ∨ ∃ value, c = .finite value ∧ value ≠ 0 ∧ (value < 0 ∨ 100 < value)) :
    checkCell i j c ≠ none := by
  unfold checkCell
  rcases h with h | ⟨v, h, h3, h4⟩
  · subst h
    exact Option.noConfusion
  · subst h
    have : v < 0 ∨ v > 100 := h4
    simp only [h3, if_false, this, if_true]
    exact Option.noConfusion

theorem checkRow_of_bad (i : Nat) (line : List (Cell R)) :
    ∀ (j : Nat), (∃ cell ∈ line, cell = .notFinite ∨
      ∃ value, cell = .finite value ∧ value ≠ 0 ∧ (value < 0 ∨ 100 < value)) →
    checkRow i j line ≠ none := by
  induction line with
  | nil =>
    intro j h
    obtain ⟨_, hc, _⟩ := h
    cases hc
  | cons c rest ih =>
    intro j h
    unfold checkRow
    cases hcell : checkCell i j c with
    | some report => exact Option.noConfusion
    | none =>
      simp only
      apply ih
      obtain ⟨cell, hmem, hbad⟩ := h
      rcases List.mem_cons.1 hmem with h1 | h1
      · exact absurd hcell (checkCell_of_bad i j c (h1 ▸ hbad))
      · exact ⟨cell, h1, hbad⟩

theorem checkRows_of_bad (lines : List (List (Cell R))) :
    ∀ (i : Nat), (∃ line ∈ lines, ∃ cell ∈ line, cell = .notFinite ∨
      ∃ value, cell = .finite value ∧ value ≠ 0 ∧ (value < 0 ∨ 100 < value)) →
    checkRows i lines ≠ none := by
  induction lines with
  | nil =>
    intro i h
    obtain ⟨_, hl, _⟩ := h
    cases hl
  | cons line rest ih =>
    intro i h
    unfold checkRows
    cases hrow : checkRow i 0 line with
    | some report => exact Option.noConfusion
    | none =>
      simp only
      apply ih
      obtain ⟨l, hl, hc⟩ := h
      rcases List.mem_cons.1 hl with h1 | h1
      · exact absurd hrow (checkRow_of_bad i line 0 (h1 ▸ hc))
      · exact ⟨l, h1, hc⟩

/-- C24: for every matrix input that has a row whose length is not the number of rows, or a
cell that is not finite or is not zero and lies outside `[0, 100]`, or a label list whose
length is not the number of rows, `confirmLoadMatrix` returns after one alert other than
the success message with the graph (vertices and edges) and all other state as it was; the
same holds when the matrix text is empty. -/
theorem confirmLoadMatrix_malformed_keeps_graph (numToString : R → String) (s : State R)
    (lines : List (List (Cell R))) (labelsInput : Option (List String)) (isDirected : Bool)
    (h : Malformed lines labelsInput) :
    (∃ report, report ≠ .matrixLoaded ∧
      confirmLoadMatrix numToString s (some lines) labelsInput isDirected =
        showAlert s report) ∧
    (confirmLoadMatrix numToString s (some lines) labelsInput isDirected).graph = s.graph ∧
    (confirmLoadMatrix numToString s none labelsInput isDirected).graph = s.graph := by
  have key : ∃ report, report ≠ .matrixLoaded ∧
      confirmLoadMatrix numToString s (some lines) labelsInput isDirected =
        showAlert s report := by
    unfold confirmLoadMatrix
    simp only
    cases hcheck : checkRows 0 lines with
    | some report => exact ⟨report, checkRows_ne_loaded lines 0 report hcheck, rfl⟩
    | none =>
      simp only
      by_cases hsq : lines.any (fun line => decide (line.length ≠ lines.length)) = true
      · rw [if_pos hsq]
        exact ⟨.matrixNotSquare, Report.noConfusion, rfl⟩
      · rw [if_neg hsq]
        rcases h with h1 | h1 | ⟨l, h1, h2⟩
        · exfalso
          apply hsq
          obtain ⟨line, hl, hne⟩ := h1
          exact List.any_eq_true.2 ⟨line, hl, by simpa using hne⟩
        · exact absurd hcheck (checkRows_of_bad lines 0 h1)
        · subst h1
          simp only
          rw [if_pos h2]
          exact ⟨_, Report.noConfusion, rfl⟩
  refine ⟨key, ?_, rfl⟩
  obtain ⟨report, _, hr⟩ := key
  rw [hr]
  rfl

/-- Witness for `confirmLoadMatrix_malformed_keeps_graph`: a matrix with the rows `0 1`
and `1`. -/
theorem confirmLoadMatrix_malformed_keeps_graph_witness :
    Malformed [[Cell.finite (0 : ℤ), Cell.finite 1], [Cell.finite 1]] none ∧
    (confirmLoadMatrix (fun n : ℤ => toString n) (State.init treeGraph)
      (some [[Cell.finite 0, Cell.finite 1], [Cell.finite 1]]) none false).graph =
        (State.init treeGraph).graph :=
  ⟨Or.inl ⟨[Cell.finite 1], by simp, by simp⟩,
    (confirmLoadMatrix_malformed_keeps_graph (fun n : ℤ => toString n) (State.init treeGraph)
      [[Cell.finite 0, Cell.finite 1], [Cell.finite 1]] none false
      (Or.inl ⟨[Cell.finite 1], by simp, by simp⟩)).2.1⟩

end Matrix

/-! ## The predecessor chain of a Dijkstra run -/

theorem djNeighbor_mem (c : String) (U : List String) (e : Edge R) (x : String)
    (h : djNeighbor c U e = some x) : x ∈ U := by
  unfold djNeighbor at h
  split at h
  · rename_i h1
    cases h
    exact h1.2
  · split at h
    · rename_i h1
      cases h
      exact h1.2.2
    · cases h

theorem finishDijkstra_prev (s s' : State R) (h : finishDijkstra s = .ok s') :
    s'.djPrevious = s.djPrevious := by
  obtain ⟨-, -, c3, -, -, -, -⟩ := clearTimer_fields s
  unfold finishDijkstra at h
  simp only [stopVisualizationMode] at h
  split at h
  · cases h
  · split at h
    · cases h
    · split at h
      · cases h
        exact c3
      · split at h
        · cases h
        · cases h
          exact c3

section PrevChain
variable [LinearOrderedRing R]

theorem djRelax_prev (c : String) (U : List String)
    (dp : List (String × WithTop R) × List (String × Option String)) (e : Edge R)
    (x : String) :
    mapGet (djRelax c U dp e).2 x = mapGet dp.2 x ∨
      (x ∈ U ∧ mapGet (djRelax c U dp e).2 x = some (some c)) := by
  unfold djRelax
  cases hn : djNeighbor c U e with
  | none => exact Or.inl rfl
  | some y =>
    simp only
    split
    · split
      · by_cases hxy : x = y
        · subst hxy
          exact Or.inr ⟨djNeighbor_mem c U e x hn, mapGet_mapSet_self _ _ _⟩
        · exact Or.inl (mapGet_mapSet_of_ne _ _ _ _ hxy)
      · exact Or.inl rfl
    · exact Or.inl rfl

theorem djRelax_foldl_prev (c : String) (U : List String) (es : List (Edge R)) (x : String) :
    ∀ dp : List (String × WithTop R) × List (String × Option String),
      mapGet (es.foldl (djRelax c U) dp).2 x = mapGet dp.2 x ∨
        (x ∈ U ∧ mapGet (es.foldl (djRelax c U) dp).2 x = some (some c)) := by
  induction es with
  | nil => intro dp; exact Or.inl rfl
  | cons e es ih =>
    intro dp
    rw [List.foldl_cons]
    rcases ih (djRelax c U dp e) with h | h
    · rcases djRelax_prev c U dp e x with h1 | h1
      · exact Or.inl (h.trans h1)
      · exact Or.inr ⟨h1.1, h.trans h1.2⟩
    · exact Or.inr h

theorem dijkstraStep_prev_cases (s s' : State R) (h : dijkstraStep s = .ok s') :
    (s'.djOrder = s.djOrder ∧ s'.djUnvisited = s.djUnvisited ∧
      s'.djPrevious = s.djPrevious) ∨
    ∃ c, c ∈ s.djUnvisited ∧ s'.djOrder = s.djOrder ++ [c] ∧
      s'.djUnvisited = setDelete s.djUnvisited c ∧
      s'.djPrevious = (s.graph.edges.foldl (djRelax c (setDelete s.djUnvisited c))
        (s.djDistances, s.djPrevious)).2 := by
  have fin : ∀ s1 : State R, finishDijkstra s1 = .ok s' →
      s'.djOrder = s1.djOrder ∧ s'.djUnvisited = s1.djUnvisited ∧
        s'.djPrevious = s1.djPrevious := fun s1 h1 =>
    ⟨(finishDijkstra_frame s1 s' h1).2.1, (finishDijkstra_frame s1 s' h1).2.2.1,
      finishDijkstra_prev s1 s' h1⟩
  unfold dijkstraStep at h
  split at h
  · exact Or.inl (fin s h)
  · split at h
    · exact Or.inl (fin s h)
    · rename_i current minDist hsel
      split at h
      · exact Or.inl (fin s h)
      · right
        have hc : current ∈ s.djUnvisited := by
          rcases djSelect_spec s.djDistances s.djUnvisited with ⟨h1, _⟩ | ⟨c, m, h1, h2, _⟩
          · rw [hsel] at h1
            cases h1
          · rw [hsel] at h1
            cases h1
            exact h2
        refine ⟨current, hc, ?_⟩
        simp only at h
        split at h
        · exact fin _ h
        · cases h
          exact ⟨rfl, rfl, rfl⟩

theorem djInit_prev_none (start : String) (ks : List String) (v : String) :
    ∀ acc : List (String × WithTop R) × List (String × Option String) × List String,
      (∀ q, mapGet acc.2.1 v = some q → q = none) →
      ∀ q, mapGet (ks.foldl (djInit start) acc).2.1 v = some q → q = none := by
  induction ks with
  | nil => intro acc h; exact h
  | cons k ks ih =>
    intro acc h
    rw [List.foldl_cons]
    apply ih
    intro q hq
    simp only [djInit] at hq
    by_cases hvk : v = k
    · subst hvk
      rw [mapGet_mapSet_self] at hq
      cases hq
      rfl
    · rw [mapGet_mapSet_of_ne _ _ _ _ hvk] at hq
      exact h q hq

theorem prevInv_init (start : String) (ks : List String) :
    PrevInv ks (ks.foldl (djInit (R := R) start) ([], [], [])).2.2 []
      (ks.foldl (djInit (R := R) start) ([], [], [])).2.1 := by
  obtain ⟨_, h2, h3⟩ := djInit_foldl (R := R) start ks ([], [], []) List.nodup_nil
    (by intro x hx; cases hx)
  refine ⟨(by intro x hx; cases hx), ?_, ?_, ?_⟩
  · intro x hx
    rcases (h3 x).1 hx with h | h
    · cases h
    · exact h
  · intro v hv
    exact ⟨none, (h2 v ((h3 v).2 (Or.inr hv))).2⟩
  · intro v u hvu
    have := djInit_prev_none (R := R) start ks v ([], [], [])
      (by intro q hq; cases hq) _ hvu
    cases this

theorem indexOf_append_lt (order : List String) (c u v : String)
    (h : order.indexOf u < order.indexOf v) (hu : u ∈ order) :
    (order ++ [c]).indexOf u < (order ++ [c]).indexOf v := by
  rw [List.indexOf_append_of_mem hu]
  by_cases hv : v ∈ order
  · rw [List.indexOf_append_of_mem hv]
    exact h
  · rw [List.indexOf_append_of_not_mem hv]
    have := List.indexOf_lt_length.2 hu
    omega

theorem prevInv_step (keys U order : List String) (P : List (String × Option String))
    (D : List (String × WithTop R)) (edges : List (Edge R)) (c : String)
    (h : PrevInv keys U order P) (hc : c ∈ U) :
    PrevInv keys (setDelete U c) (order ++ [c])
      (edges.foldl (djRelax c (setDelete U c)) (D, P)).2 := by
  have hco : c ∉ order := fun hco => (h.order_sub c hco).2 hc
  refine ⟨?_, ?_, ?_, ?_⟩
  · intro x hx
    rw [mem_setDelete]
    rcases List.mem_append.1 hx with hx | hx
    · exact ⟨(h.order_sub x hx).1, fun h1 => (h.order_sub x hx).2 h1.1⟩
    · rw [List.mem_singleton] at hx
      subst hx
      exact ⟨h.unv_sub x hc, fun h1 => h1.2 rfl⟩
  · intro x hx
    exact h.unv_sub x ((mem_setDelete U c x).1 hx).1
  · intro v hv
    rcases djRelax_foldl_prev c (setDelete U c) edges v (D, P) with h1 | h1
    · rw [h1]
      exact h.prev_def v hv
    · exact ⟨_, h1.2⟩
  · intro v u hvu
    rcases djRelax_foldl_prev c (setDelete U c) edges v (D, P) with h1 | h1
    · rw [h1] at hvu
      obtain ⟨hu, hv⟩ := h.prev_lt v u hvu
      refine ⟨List.mem_append_left _ hu, ?_⟩
      rcases hv with hv | ⟨hv, hlt⟩
      · by_cases hvc : v = c
        · right
          subst hvc
          refine ⟨by simp, ?_⟩
          rw [List.indexOf_append_of_mem hu, List.indexOf_append_of_not_mem hco]
          have := List.indexOf_lt_length.2 hu
          omega
        · left
          exact (mem_setDelete U c v).2 ⟨hv, hvc⟩
      · right
        exact ⟨List.mem_append_left _ hv, indexOf_append_lt order c u v hlt hu⟩
    · rw [h1.2] at hvu
      cases hvu
      exact ⟨by simp, Or.inl h1.1⟩

/-- In every state of a Dijkstra run the predecessor map satisfies `PrevInv`. -/
theorem djReachable_prevInv (s0 : State R) (start end_ : String) (mode : StepMode)
    (delayInput : Option R) (s : State R)
    (h : DjReachable s0 start end_ mode delayInput s) :
    s.graph = s0.graph ∧
    PrevInv (mapKeys s0.graph.vertices) s.djUnvisited s.djOrder s.djPrevious := by
  induction h with
  | init =>
    have := prevInv_init (R := R) start (mapKeys s0.graph.vertices)
    unfold startDijkstraVisualization
    simp only [clearTimer_graph, startVisualizationMode]
    by_cases hm : mode = .auto
    · simp only [hm, if_true, setTimer]
      exact ⟨trivial, this⟩
    · simp only [hm, if_false]
      exact ⟨trivial, this⟩
  | @step s s' _ hstep ih =>
    obtain ⟨hg, hinv⟩ := ih
    refine ⟨(dijkstraStep_graph s s' hstep).trans hg, ?_⟩
    rcases dijkstraStep_prev_cases s s' hstep with ⟨h1, h2, h3⟩ | ⟨c, hc, h1, h2, h3⟩
    · rw [h1, h2, h3]
      exact hinv
    · rw [h1, h2, h3]
      exact prevInv_step _ _ _ _ _ _ c hinv hc

end PrevChain

theorem djPath_null (P : List (String × Option String)) (v : String)
    (h : mapGet P v = some none) (fuel : Nat) (acc : List String) (hf : 2 ≤ fuel) :
    djPath P fuel (some v) acc = .ok ([v] ++ acc) := by
  obtain ⟨f, rfl⟩ : ∃ f, fuel = f + 1 + 1 := ⟨fuel - 2, by omega⟩
  simp [djPath, h]

theorem djPath_link (P : List (String × Option String)) (v u : String)
    (h : mapGet P v = some (some u)) (path : List String)
    (hp : ∀ fuel acc, path.length + 1 ≤ fuel →
      djPath P fuel (some u) acc = .ok (path ++ acc))
    (fuel : Nat) (acc : List String) (hf : (path ++ [v]).length + 1 ≤ fuel) :
    djPath P fuel (some v) acc = .ok ((path ++ [v]) ++ acc) := by
  obtain ⟨f, rfl⟩ : ∃ f, fuel = f + 1 := ⟨fuel - 1, by omega⟩
  simp only [djPath, h]
  rw [hp f (v :: acc) (by simp at hf; omega)]
  simp

/-- The chain of predecessors of a finalized vertex. -/
theorem prevInv_chain_order (keys U order : List String) (P : List (String × Option String))
    (h : PrevInv keys U order P) :
    ∀ n v, v ∈ order → order.indexOf v < n →
      ∃ path : List String, path.Nodup ∧ path.getLast? = some v ∧
        (∀ x ∈ path, x ∈ order ∧ order.indexOf x ≤ order.indexOf v) ∧
        ∀ fuel acc, path.length + 1 ≤ fuel →
          djPath P fuel (some v) acc = .ok (path ++ acc) := by
  intro n
  induction n with
  | zero => intro v _ hlt; omega
  | succ n ih =>
    intro v hv hlt
    obtain ⟨q, hq⟩ := h.prev_def v (h.order_sub v hv).1
    cases q with
    | none =>
      exact ⟨[v], List.nodup_singleton v, rfl,
        fun x hx => by rw [List.mem_singleton.1 hx]; exact ⟨hv, le_refl _⟩,
        fun fuel acc hf => djPath_null P v hq fuel acc (by simpa using hf)⟩
    | some u =>
      obtain ⟨hu, hvu⟩ := h.prev_lt v u hq
      rcases hvu with hvU | ⟨_, hidx⟩
      · exact absurd hvU (h.order_sub v hv).2
      · obtain ⟨path, h1, _, h3, h4⟩ := ih u hu (by omega)
        refine ⟨path ++ [v], ?_, by simp, ?_, djPath_link P v u hq path h4⟩
        · refine List.Nodup.append h1 (List.nodup_singleton v) ?_
          intro x hx hx'
          rw [List.mem_singleton] at hx'
          subst hx'
          have := (h3 x hx).2
          omega
        · intro x hx
          rcases List.mem_append.1 hx with hx | hx
          · exact ⟨(h3 x hx).1, by have := (h3 x hx).2; omega⟩
          · rw [List.mem_singleton.1 hx]
            exact ⟨hv, le_refl _⟩

/-- The chain of predecessors of any vertex: the path loop of `finishDijkstra` from `v`
returns a list without repetition of vertex ids that ends in `v`. -/
theorem prevInv_chain (keys U order : List String) (P : List (String × Option String))
    (h : PrevInv keys U order P) (v : String) (hv : v ∈ keys) :
    ∃ path : List String, path.Nodup ∧ path.getLast? = some v ∧
      (∀ x ∈ path, x ∈ keys) ∧
      ∀ fuel acc, path.length + 1 ≤ fuel →
        djPath P fuel (some v) acc = .ok (path ++ acc) := by
  obtain ⟨q, hq⟩ := h.prev_def v hv
  cases q with
  | none =>
    exact ⟨[v], List.nodup_singleton v, rfl,
      fun x hx => by rw [List.mem_singleton.1 hx]; exact hv,
      fun fuel acc hf => djPath_null P v hq fuel acc (by simpa using hf)⟩
  | some u =>
    obtain ⟨hu, hvu⟩ := h.prev_lt v u hq
    obtain ⟨path, h1, _, h3, h4⟩ :=
      prevInv_chain_order keys U order P h (order.indexOf u + 1) u hu (by omega)
    refine ⟨path ++ [v], ?_, by simp, ?_, djPath_link P v u hq path h4⟩
    · refine List.Nodup.append h1 (List.nodup_singleton v) ?_
      intro x hx hx'
      rw [List.mem_singleton] at hx'
      subst hx'
      rcases hvu with hvU | ⟨_, hidx⟩
      · exact (h.order_sub x (h3 x hx).1).2 hvU
      · have := (h3 x hx).2
        omega
    · intro x hx
      rcases List.mem_append.1 hx with hx | hx
      · exact (h.order_sub x (h3 x hx).1).1
      · rw [List.mem_singleton.1 hx]
        exact hv

theorem nodup_length_le_of_subset (l1 l2 : List String) (h : l1.Nodup)
    (hs : ∀ x ∈ l1, x ∈ l2) : l1.length ≤ l2.length :=
  (List.Nodup.subperm h hs).length_le

theorem finishDijkstra_end (s s' : State R) (h : finishDijkstra s = .ok s') :
    s'.dijkstraEnd = s.dijkstraEnd := by
  obtain ⟨-, c2, -, -, -, -, -⟩ := clearTimer_fields s
  unfold finishDijkstra at h
  simp only [stopVisualizationMode] at h
  split at h
  · cases h
  · split at h
    · cases h
    · split at h
      · cases h
        exact c2
      · split at h
        · cases h
        · cases h
          exact c2

theorem djPath_error (P : List (String × Option String)) :
    ∀ (fuel : Nat) (cur : Option String) (acc : List String) (e : JsError),
      djPath P fuel cur acc = .error e → e = .diverges := by
  intro fuel
  induction fuel with
  | zero =>
    intro cur acc e h
    simp only [djPath] at h
    cases h
    rfl
  | succ n ih =>
    intro cur acc e h
    cases cur with
    | none =>
      simp only [djPath] at h
      cases h
    | some c =>
      simp only [djPath] at h
      cases hg : mapGet P c with
      | none =>
        rw [hg] at h
        cases h
        rfl
      | some p =>
        rw [hg] at h
        exact ih p _ e h

/-- The path loop of `finishDijkstra` from an id that is not a key of `djPrevious` reads
`undefined` and never ends. -/
theorem djPath_not_key (P : List (String × Option String)) (v : String)
    (h : mapGet P v = none) (fuel : Nat) (acc : List String) :
    djPath P fuel (some v) acc = .error .diverges := by
  cases fuel with
  | zero => rfl
  | succ n => simp only [djPath, h]

/-- When the predecessor map satisfies `PrevInv` and has no keys other than vertex ids,
`finishDijkstra` does not throw a `TypeError`, and it returns when the target is a
vertex. -/
theorem finishDijkstra_returns (s : State R)
    (hinv : PrevInv (mapKeys s.graph.vertices) s.djUnvisited s.djOrder s.djPrevious)
    (hk : ∀ v q, mapGet s.djPrevious v = some q → v ∈ mapKeys s.graph.vertices) :
    finishDijkstra s ≠ .error .typeError ∧
    ∀ end_, s.dijkstraEnd = some end_ → end_ ∈ mapKeys s.graph.vertices →
      ∃ s', finishDijkstra s = .ok s' := by
  obtain ⟨-, c2, c3, -, -, -, -⟩ := clearTimer_fields s
  have c0 := clearTimer_graph s
  have main : ∀ end_, s.dijkstraEnd = some end_ → end_ ∈ mapKeys s.graph.vertices →
      ∃ s', finishDijkstra s = .ok s' := by
    intro end_ he hmem
    obtain ⟨path, h1, _, h3, h4⟩ := prevInv_chain _ _ _ _ hinv end_ hmem
    have hlen : path.length ≤ s.djPrevious.length := by
      have := nodup_length_le_of_subset path (mapKeys s.djPrevious) h1 (by
        intro x hx
        obtain ⟨q, hq⟩ := hinv.prev_def x (h3 x hx)
        rw [← mapGet_isSome_iff, hq]
        rfl)
      simpa [mapKeys] using this
    have hp := h4 (s.djPrevious.length + 1) [] (by omega)
    rw [List.append_nil] at hp
    obtain ⟨labels, hl⟩ := labelsOf_ok s.graph path h3
    unfold finishDijkstra
    simp only [c2, c3, c0, he, hp, hl]
    split
    · exact ⟨_, rfl⟩
    · exact ⟨_, rfl⟩
  refine ⟨?_, main⟩
  intro herr
  cases he : s.dijkstraEnd with
  | none =>
    unfold finishDijkstra at herr
    simp only [c2, he] at herr
    cases herr
  | some end_ =>
    by_cases hmem : end_ ∈ mapKeys s.graph.vertices
    · obtain ⟨s', hs'⟩ := main end_ he hmem
      rw [hs'] at herr
      cases herr
    · have hnone : mapGet s.djPrevious end_ = none := by
        cases hg : mapGet s.djPrevious end_ with
        | none => rfl
        | some q => exact absurd (hk end_ q hg) hmem
      unfold finishDijkstra at herr
      simp only [c2, c3, he, djPath_not_key _ _ hnone] at herr
      cases herr

section PrevKeys
variable [LinearOrderedRing R]

theorem djInit_prev_keys (start : String) (ks : List String) (v : String) :
    ∀ acc : List (String × WithTop R) × List (String × Option String) × List String,
      ∀ q, mapGet (ks.foldl (djInit start) acc).2.1 v = some q →
        v ∈ ks ∨ ∃ q', mapGet acc.2.1 v = some q' := by
  induction ks with
  | nil => intro acc q h; exact Or.inr ⟨q, h⟩
  | cons k ks ih =>
    intro acc q h
    rw [List.foldl_cons] at h
    rcases ih _ q h with h1 | ⟨q', h1⟩
    · exact Or.inl (List.mem_cons_of_mem _ h1)
    · simp only [djInit] at h1
      by_cases hvk : v = k
      · exact Or.inl (by simp [hvk])
      · rw [mapGet_mapSet_of_ne _ _ _ _ hvk] at h1
        exact Or.inr ⟨q', h1⟩

theorem dijkstraStep_end (s s' : State R) (h : dijkstraStep s = .ok s') :
    s'.dijkstraEnd = s.dijkstraEnd := by
  unfold dijkstraStep at h
  split at h
  · exact finishDijkstra_end _ s' h
  · split at h
    · exact finishDijkstra_end _ s' h
    · split at h
      · exact finishDijkstra_end _ s' h
      · simp only at h
        split at h
        · have h2 := finishDijkstra_end _ s' h
          exact h2
        · cases h
          rfl

/-- In every state of a Dijkstra run the keys of `djPrevious` are vertex ids and the
target is the one the run was started with. -/
theorem djReachable_prevKeys (s0 : State R) (start end_ : String) (mode : StepMode)
    (delayInput : Option R) (s : State R)
    (h : DjReachable s0 start end_ mode delayInput s) :
    (∀ v q, mapGet s.djPrevious v = some q → v ∈ mapKeys s0.graph.vertices) ∧
    s.dijkstraEnd = some end_ := by
  induction h with
  | init =>
    have key : ∀ v q, mapGet ((mapKeys s0.graph.vertices).foldl (djInit (R := R) start)
        ([], [], [])).2.1 v = some q → v ∈ mapKeys s0.graph.vertices := by
      intro v q hq
      rcases djInit_prev_keys (R := R) start _ v ([], [], []) q hq with h1 | ⟨q', h1⟩
      · exact h1
      · cases h1
    unfold startDijkstraVisualization
    simp only [clearTimer_graph, startVisualizationMode]
    by_cases hm : mode = .auto
    · simp only [hm, if_true, setTimer]
      exact ⟨key, trivial⟩
    · simp only [hm, if_false]
      exact ⟨key, trivial⟩
  | @step s s' hreach hstep ih =>
    obtain ⟨ih1, ih2⟩ := ih
    refine ⟨?_, (dijkstraStep_end s s' hstep).trans ih2⟩
    obtain ⟨_, hinv⟩ := djReachable_prevInv s0 start end_ mode delayInput s hreach
    rcases dijkstraStep_prev_cases s s' hstep with ⟨_, _, h3⟩ | ⟨c, _, _, _, h3⟩
    · rw [h3]
      exact ih1
    · rw [h3]
      intro v q hq
      rcases djRelax_foldl_prev c (setDelete s.djUnvisited c) s.graph.edges v
        (s.djDistances, s.djPrevious) with h1 | h1
      · rw [h1] at hq
        exact ih1 v q hq
      · exact hinv.unv_sub v ((mem_setDelete _ _ _).1 h1.1).1

/-- A call of `dijkstraStep` either returns without a call of `finishDijkstra`, or is the
call of `finishDijkstra` on the state `dijkstraAtFinish`. -/
theorem dijkstraStep_eq (s : State R) :
    (∃ s', dijkstraStep s = .ok s') ∨ dijkstraStep s = finishDijkstra (dijkstraAtFinish s) := by
  unfold dijkstraStep dijkstraAtFinish
  split
  · exact Or.inr rfl
  · split
    · exact Or.inr rfl
    · split
      · exact Or.inr rfl
      · simp only
        split
        · exact Or.inr rfl
        · exact Or.inl ⟨_, rfl⟩

theorem dijkstraAtFinish_cases (s : State R) :
    dijkstraAtFinish s = s ∨
    ∃ c, c ∈ s.djUnvisited ∧ (dijkstraAtFinish s).graph = s.graph ∧
      (dijkstraAtFinish s).djOrder = s.djOrder ++ [c] ∧
      (dijkstraAtFinish s).djUnvisited = setDelete s.djUnvisited c ∧
      (dijkstraAtFinish s).djPrevious =
        (s.graph.edges.foldl (djRelax c (setDelete s.djUnvisited c))
          (s.djDistances, s.djPrevious)).2 := by
  unfold dijkstraAtFinish
  split
  · exact Or.inl rfl
  · split
    · exact Or.inl rfl
    · rename_i current minDist hsel
      split
      · exact Or.inl rfl
      · right
        have hc : current ∈ s.djUnvisited := by
          rcases djSelect_spec s.djDistances s.djUnvisited with ⟨h1, _⟩ | ⟨c, m, h1, h2, _⟩
          · rw [hsel] at h1
            cases h1
          · rw [hsel] at h1
            cases h1
            exact h2
        exact ⟨current, hc, rfl, rfl, rfl, rfl⟩

/-- In a state of a Dijkstra run a call of `dijkstraStep` does not throw a `TypeError`. -/
theorem dijkstraStep_no_typeError (s0 : State R) (start end_ : String) (mode : StepMode)
    (delayInput : Option R) (s : State R)
    (h : DjReachable s0 start end_ mode delayInput s) :
    dijkstraStep s ≠ .error .typeError := by
  obtain ⟨hg, hinv⟩ := djReachable_prevInv s0 start end_ mode delayInput s h
  obtain ⟨hk, _⟩ := djReachable_prevKeys s0 start end_ mode delayInput s h
  rcases dijkstraStep_eq s with ⟨s', hs'⟩ | heq
  · rw [hs']
    exact Except.noConfusion
  · rw [heq]
    rcases dijkstraAtFinish_cases s with h1 | ⟨c, hc, h1, h2, h3, h4⟩
    · rw [h1]
      exact (finishDijkstra_returns s (by rw [hg]; exact hinv)
        (by rw [hg]; exact hk)).1
    · refine (finishDijkstra_returns _ ?_ ?_).1
      · rw [h1, h2, h3, h4, hg]
        exact prevInv_step _ _ _ _ _ _ c hinv hc
      · rw [h1, hg]
        intro v q hq
        rw [h4] at hq
        rcases djRelax_foldl_prev c (setDelete s.djUnvisited c) s.graph.edges v
          (s.djDistances, s.djPrevious) with e1 | e1
        · rw [e1] at hq
          exact hk v q hq
        · exact hinv.unv_sub v ((mem_setDelete _ _ _).1 e1.1).1

end PrevKeys

section PrevChainClaim
variable [LinearOrderedRing R]

/-- A reachable state of the Dijkstra run from A to C on the triangle graph in which the
path loop of `finishDijkstra` from C makes three rounds, one for each of C, B and A, before
it reads `null`: as many as the graph has vertices, not fewer. -/
theorem djPrevious_chain_as_long_as_vertex_count :
    ∃ s : State ℤ,
      DjReachable (State.init triangleGraph) "A" "C" .space none s ∧
      mapGet s.djPrevious "C" = some (some "B") ∧
      mapGet s.djPrevious "B" = some (some "A") ∧
      mapGet s.djPrevious "A" = some none ∧
      djPath s.djPrevious (s.djPrevious.length + 1) (some "C") [] = .ok ["A", "B", "C"] ∧
      ["A", "B", "C"].length = s.graph.vertices.length :=
  ⟨_, DjReachable.step (DjReachable.step DjReachable.init rfl) rfl,
    rfl, rfl, rfl, rfl, rfl⟩

/-- C25: in every state reachable from `startDijkstraVisualization` by returning calls of
`dijkstraStep`, for any edge weights, a predecessor in `djPrevious` that is not `null` is
in `djOrder`, and before the vertex that points to it when that vertex is in `djOrder` too
(a vertex that is not is still unvisited); and from every vertex `v` of the graph the path
loop of `finishDijkstra` ends, with any round budget above the length of its result and
with the one `finishDijkstra` has: the result ends in `v`, repeats no vertex, and has at
most as many entries (one per round of the loop) as the graph has vertices.  A call of
`dijkstraStep` in such a state does not throw a `TypeError`, and `finishDijkstra` returns
when the target is a vertex of the graph. -/
theorem djPrevious_chain_reaches_null (s0 : State R) (start end_ : String)
    (mode : StepMode) (delayInput : Option R) (s : State R)
    (h : DjReachable s0 start end_ mode delayInput s) :
    (∀ v u, mapGet s.djPrevious v = some (some u) →
      u ∈ s.djOrder ∧ (v ∈ s.djOrder → s.djOrder.indexOf u < s.djOrder.indexOf v) ∧
      (v ∉ s.djOrder → v ∈ s.djUnvisited)) ∧
    (∀ v ∈ mapKeys s.graph.vertices, ∃ path : List String,
      path.Nodup ∧ path.getLast? = some v ∧ (∀ x ∈ path, x ∈ mapKeys s.graph.vertices) ∧
      path.length ≤ s.graph.vertices.length ∧
      (∀ fuel acc, path.length + 1 ≤ fuel →
        djPath s.djPrevious fuel (some v) acc = .ok (path ++ acc)) ∧
      djPath s.djPrevious (s.djPrevious.length + 1) (some v) [] = .ok path) ∧
    dijkstraStep s ≠ .error .typeError ∧
    (end_ ∈ mapKeys s.graph.vertices → ∃ s', finishDijkstra s = .ok s') := by
  obtain ⟨hg, hinv⟩ := djReachable_prevInv s0 start end_ mode delayInput s h
  obtain ⟨hk, hend⟩ := djReachable_prevKeys s0 start end_ mode delayInput s h
  refine ⟨?_, ?_, dijkstraStep_no_typeError s0 start end_ mode delayInput s h,
    fun hmem => (finishDijkstra_returns s (by rw [hg]; exact hinv)
      (by rw [hg]; exact hk)).2 end_ hend hmem⟩
  · intro v u hvu
    obtain ⟨hu, hv⟩ := hinv.prev_lt v u hvu
    refine ⟨hu, ?_, ?_⟩
    · intro hvo
      rcases hv with hv | hv
      · exact absurd hv (hinv.order_sub v hvo).2
      · exact hv.2
    · intro hvo
      rcases hv with hv | hv
      · exact hv
      · exact absurd hv.1 hvo
  · rw [hg]
    intro v hv
    obtain ⟨path, h1, h2, h3, h4⟩ := prevInv_chain _ _ _ _ hinv v hv
    have hlen : path.length ≤ s0.graph.vertices.length := by
      have := nodup_length_le_of_subset path (mapKeys s0.graph.vertices) h1 h3
      simpa [mapKeys] using this
    have hlen2 : path.length ≤ s.djPrevious.length := by
      have := nodup_length_le_of_subset path (mapKeys s.djPrevious) h1 (by
        intro x hx
        obtain ⟨q, hq⟩ := hinv.prev_def x (h3 x hx)
        rw [← mapGet_isSome_iff, hq]
        rfl)
      simpa [mapKeys] using this
    refine ⟨path, h1, h2, h3, hlen, h4, ?_⟩
    have := h4 (s.djPrevious.length + 1) [] (by omega)
    simpa using this

/-- Witness for `djPrevious_chain_reaches_null`: the state after two steps of the run from
A to C on the triangle graph. -/
theorem djPrevious_chain_reaches_null_witness :
    ∃ s : State ℤ, DjReachable (State.init triangleGraph) "A" "C" .space none s ∧
      s.djOrder = ["A", "B"] ∧
      ∀ v ∈ mapKeys s.graph.vertices, ∃ path : List String,
        path.Nodup ∧ path.getLast? = some v ∧ (∀ x ∈ path, x ∈ mapKeys s.graph.vertices) ∧
        path.length ≤ s.graph.vertices.length ∧
        (∀ fuel acc, path.length + 1 ≤ fuel →
          djPath s.djPrevious fuel (some v) acc = .ok (path ++ acc)) ∧
        djPath s.djPrevious (s.djPrevious.length + 1) (some v) [] = .ok path :=
  ⟨_, DjReachable.step (DjReachable.step DjReachable.init rfl) rfl, rfl,
    (djPrevious_chain_reaches_null (State.init triangleGraph) "A" "C" .space none _
      (DjReachable.step (DjReachable.step DjReachable.init rfl) rfl)).2.1⟩

end PrevChainClaim

/-! ## The stack of the depth-first traversal -/

theorem clearTimer_dfs (s : State R) :
    (clearTimer s).dfsStack = s.dfsStack ∧ (clearTimer s).dfsVisited = s.dfsVisited ∧
    (clearTimer s).dfsOrder = s.dfsOrder ∧ (clearTimer s).algoMode = s.algoMode ∧
    (clearTimer s).alerts = s.alerts := by
  unfold clearTimer
  split <;> exact ⟨rfl, rfl, rfl, rfl, rfl⟩

theorem mem_dfsNeighbors_foldl (v n : String) (edges : List (Edge R)) :
    ∀ acc : List String,
      n ∈ edges.foldl (fun acc e =>
        if e.from_ = v then acc ++ [e.to_]
        else if e.isDirected = false ∧ e.to_ = v then acc ++ [e.from_]
        else acc) acc ↔ n ∈ acc ∨ Adj edges v n := by
  induction edges with
  | nil =>
    intro acc
    simp [Adj]
  | cons e es ih =>
    intro acc
    rw [List.foldl_cons, ih]
    have h1 : Adj (e :: es) v n ↔ neighborRule v e = some n ∨ Adj es v n := by
      simp [Adj]
    rw [h1]
    have h2 : (n ∈ (if e.from_ = v then acc ++ [e.to_]
        else if e.isDirected = false ∧ e.to_ = v then acc ++ [e.from_]
        else acc)) ↔ n ∈ acc ∨ neighborRule v e = some n := by
      unfold neighborRule
      by_cases c1 : e.from_ = v
      · simp [c1, eq_comm]
      · by_cases c2 : e.isDirected = false ∧ e.to_ = v
        · simp [c1, c2, eq_comm]
        · simp [c1, c2]
    rw [h2]
    tauto

theorem mem_dfsNeighbors (edges : List (Edge R)) (v n : String) :
    n ∈ dfsNeighbors edges v ↔ Adj edges v n := by
  unfold dfsNeighbors
  rw [mem_dfsNeighbors_foldl]
  simp

theorem dfsPush_foldl (visited : List String) (ns : List String) :
    ∀ stack : List String, (stack ++ visited).Nodup →
      (ns.foldl (dfsPush visited) stack ++ visited).Nodup ∧
      ∀ x, x ∈ ns.foldl (dfsPush visited) stack ↔ x ∈ stack ∨ (x ∈ ns ∧ x ∉ visited) := by
  induction ns with
  | nil => intro stack h; exact ⟨h, by simp⟩
  | cons n ns ih =>
    intro stack h
    rw [List.foldl_cons]
    have hstep : (dfsPush visited stack n ++ visited).Nodup ∧
        ∀ x, x ∈ dfsPush visited stack n ↔ x ∈ stack ∨ (x = n ∧ x ∉ visited) := by
      unfold dfsPush
      by_cases c : n ∉ visited ∧ n ∉ stack
      · rw [if_pos c]
        constructor
        · rw [List.append_assoc]
          have hp : (n :: (stack ++ visited)).Perm (stack ++ n :: visited) :=
            (List.perm_middle).symm
          have hn : (n :: (stack ++ visited)).Nodup :=
            List.nodup_cons.2 ⟨by simp [c.1, c.2], h⟩
          exact hp.nodup_iff.1 hn
        · intro x
          simp only [List.mem_append, List.mem_singleton]
          constructor
          · rintro (hx | hx)
            · exact Or.inl hx
            · exact Or.inr ⟨hx, hx ▸ c.1⟩
          · rintro (hx | ⟨hx, _⟩)
            · exact Or.inl hx
            · exact Or.inr hx
      · rw [if_neg c]
        refine ⟨h, fun x => ⟨Or.inl, ?_⟩⟩
        rintro (hx | ⟨hx, hv⟩)
        · exact hx
        · subst hx
          by_contra hs
          exact c ⟨hv, hs⟩
    obtain ⟨i1, i2⟩ := ih _ hstep.1
    refine ⟨i1, fun x => ?_⟩
    rw [i2, hstep.2]
    simp only [List.mem_cons]
    tauto

theorem dfsStep_nonempty (edges : List (Edge R)) (start : String) (s : State R)
    (current : String) (h : DfsInv edges start s)
    (hc : s.dfsStack.getLast? = some current) :
    current ∉ s.dfsVisited ∧ current ∉ s.dfsOrder ∧
    ∃ s' : State R, dfsStep s = .ok s' ∧ s'.dfsOrder = s.dfsOrder ++ [current] ∧
      s'.algoMode = s.algoMode ∧ s'.graph = s.graph ∧ s'.alerts = s.alerts ∧
      DfsInv edges start s' := by
  have hst : s.dfsStack.dropLast ++ [current] = s.dfsStack :=
    List.dropLast_append_getLast? current hc
  have hnd := h.nodup
  rw [← hst] at hnd
  have hcv : current ∉ s.dfsVisited := by
    intro hv
    exact (List.disjoint_left.1 (List.nodup_append.1 hnd).2.2) (by simp) hv
  refine ⟨hcv, by rw [h.ord]; exact hcv, ?_⟩
  have hvis : setAdd s.dfsVisited current = s.dfsVisited ++ [current] := by
    unfold setAdd
    rw [if_neg hcv]
  have hnd' : (s.dfsStack.dropLast ++ (s.dfsVisited ++ [current])).Nodup := by
    rw [List.append_assoc] at hnd
    exact (List.Perm.nodup_iff (List.Perm.append_left _ List.perm_append_comm)).1 hnd
  obtain ⟨f1, f2⟩ := dfsPush_foldl (s.dfsVisited ++ [current])
    (dfsNeighbors s.graph.edges current).reverse s.dfsStack.dropLast hnd'
  have hcur : Reach edges start current :=
    h.reach current (List.mem_append_left _ (by rw [← hst]; simp))
  refine ⟨{ s with
      dfsVisited := s.dfsVisited ++ [current], dfsOrder := s.dfsOrder ++ [current],
      algoCurrent := some current,
      dfsStack := (dfsNeighbors s.graph.edges current).reverse.foldl
        (dfsPush (s.dfsVisited ++ [current])) s.dfsStack.dropLast,
      algoNext := ((dfsNeighbors s.graph.edges current).reverse.foldl
        (dfsPush (s.dfsVisited ++ [current])) s.dfsStack.dropLast).getLast? },
    ?_, rfl, rfl, rfl, rfl, ?_⟩
  · unfold dfsStep
    rw [hc]
    simp only [if_neg hcv, hvis]
  · refine ⟨h.graph, f1, by simp only [h.ord], ?_, ?_, ?_⟩
    · intro x hx
      simp only [List.mem_append, f2, List.mem_reverse, List.mem_singleton] at hx
      rcases hx with (hx | ⟨hx, _⟩) | hx | hx
      · exact h.reach x (List.mem_append_left _ (by rw [← hst]; simp [hx]))
      · rw [mem_dfsNeighbors, h.graph] at hx
        exact Relation.ReflTransGen.tail hcur hx
      · exact h.reach x (List.mem_append_right _ hx)
      · rw [hx]
        exact hcur
    · intro x hx y hxy
      simp only [List.mem_append, List.mem_singleton] at hx
      simp only [f2, List.mem_reverse, List.mem_append, List.mem_singleton]
      rcases hx with hx | hx
      · rcases h.closed x hx y hxy with hy | hy
        · exact Or.inl (Or.inl hy)
        · rw [← hst] at hy
          simp only [List.mem_append, List.mem_singleton] at hy
          rcases hy with hy | hy
          · exact Or.inr (Or.inl hy)
          · exact Or.inl (Or.inr hy)
      · subst hx
        by_cases hy : y ∈ s.dfsVisited ∨ y = x
        · exact Or.inl hy
        · refine Or.inr (Or.inr ⟨?_, hy⟩)
          rw [mem_dfsNeighbors, h.graph]
          exact hxy
    · have := h.hasStart
      rw [← hst] at this
      simp only [List.mem_append, List.mem_singleton] at this
      simp only [f2, List.mem_append, List.mem_singleton]
      tauto

theorem dfsStep_inv (edges : List (Edge R)) (start : String) (s s' : State R)
    (h : DfsInv edges start s) (hs : dfsStep s = .ok s') : DfsInv edges start s' := by
  cases hc : s.dfsStack.getLast? with
  | some current =>
    obtain ⟨_, _, s2, h2, _, _, _, _, hinv⟩ := dfsStep_nonempty edges start s current h hc
    rw [h2] at hs
    cases hs
    exact hinv
  | none =>
    obtain ⟨c1, c2, c3, _, _⟩ := clearTimer_dfs s
    have c0 := clearTimer_graph s
    unfold dfsStep at hs
    rw [hc] at hs
    simp only [stopVisualizationMode] at hs
    split at hs
    · cases hs
    · cases hs
      exact ⟨by simp only [c0]; exact h.graph, by simp only [c1, c2]; exact h.nodup,
        by simp only [c2, c3]; exact h.ord, by simp only [c1, c2]; exact h.reach,
        by simp only [c1, c2]; exact h.closed, by simp only [c1, c2]; exact h.hasStart⟩

theorem stepThrown_dfsInv (edges : List (Edge R)) (start : String) (s : State R)
    (h : DfsInv edges start s) : DfsInv edges start (stepThrown s) := by
  obtain ⟨c1, c2, c3, _, _⟩ := clearTimer_dfs s
  have c0 := clearTimer_graph s
  unfold stepThrown stopVisualizationMode
  exact ⟨by simp only [c0]; exact h.graph, by simp only [c1, c2]; exact h.nodup,
    by simp only [c2, c3]; exact h.ord, by simp only [c1, c2]; exact h.reach,
    by simp only [c1, c2]; exact h.closed, by simp only [c1, c2]; exact h.hasStart⟩

theorem dfsInv_init [Ring R] [DecidableEq R] (s0 : State R) (start : String)
    (mode : StepMode) (delayInput : Option R) :
    DfsInv s0.graph.edges start (startDfsVisualization s0 start mode delayInput) ∧
    (startDfsVisualization s0 start mode delayInput).algoMode = .dfs ∧
    (startDfsVisualization s0 start mode delayInput).dfsOrder = [] ∧
    (startDfsVisualization s0 start mode delayInput).graph = s0.graph ∧
    (startDfsVisualization s0 start mode delayInput).alerts = s0.alerts := by
  obtain ⟨_, _, _, _, c5⟩ := clearTimer_dfs (startVisualizationMode s0)
  have c0 := clearTimer_graph (startVisualizationMode s0)
  have key : ∀ s : State R, s.graph = s0.graph → s.dfsStack = [start] → s.dfsVisited = [] →
      s.dfsOrder = [] → DfsInv s0.graph.edges start s := by
    intro s h1 h2 h3 h4
    refine ⟨by rw [h1], by rw [h2, h3]; simp, by rw [h3, h4], ?_, ?_, by rw [h2]; simp⟩
    · intro x hx
      rw [h2, h3] at hx
      simp only [List.append_nil, List.mem_singleton] at hx
      rw [hx]
      exact Relation.ReflTransGen.refl
    · intro x hx
      rw [h3] at hx
      cases hx
  unfold startDfsVisualization
  by_cases hm : mode = .auto
  · simp only [hm, if_true, setTimer]
    exact ⟨key _ c0 rfl rfl rfl, trivial, trivial, c0, c5⟩
  · simp only [hm, if_false]
    exact ⟨key _ c0 rfl rfl rfl, trivial, trivial, c0, c5⟩

theorem dfsReachable_inv [Ring R] [DecidableEq R] (s0 : State R) (start : String)
    (mode : StepMode) (delayInput : Option R) (s : State R)
    (h : DfsReachable s0 start mode delayInput s) : DfsInv s0.graph.edges start s := by
  induction h with
  | init => exact (dfsInv_init s0 start mode delayInput).1
  | @step s s' _ hstep ih => exact dfsStep_inv _ _ s s' ih hstep
  | thrown _ _ ih => exact stepThrown_dfsInv _ _ _ ih

theorem reach_dfsUniverse (edges : List (Edge R)) (start x : String)
    (h : Reach edges start x) : x ∈ dfsUniverse edges start := by
  induction h with
  | refl => simp [dfsUniverse]
  | tail _ hab _ =>
    obtain ⟨e, he, hn⟩ := hab
    unfold dfsUniverse
    refine List.mem_cons_of_mem _ (List.mem_flatten.2 ⟨[e.from_, e.to_],
      List.mem_map.2 ⟨e, he, rfl⟩, ?_⟩)
    unfold neighborRule at hn
    split at hn
    · cases hn
      simp
    · split at hn
      · cases hn
        simp
      · cases hn

theorem reach_mem_keys_of_start {g : Graph R} (hinv : EndpointsExist g) (start x : String)
    (hs : start ∈ mapKeys g.vertices) (h : Reach g.edges start x) :
    x ∈ mapKeys g.vertices := by
  induction h with
  | refl => exact hs
  | tail _ hab _ => exact adj_mem_keys hinv hab

theorem runDfs_succ (k : Nat) :
    ∀ (s sk s' : State R), runDfs k s = .ok sk → sk.algoMode = .dfs →
      dfsStep sk = .ok s' → runDfs (k + 1) s = .ok s' := by
  induction k with
  | zero =>
    intro s sk s' h1 h2 h3
    simp only [runDfs] at h1
    cases h1
    simp [runDfs, h2, h3]
  | succ k ih =>
    intro s sk s' h1 h2 h3
    rw [runDfs] at h1
    rw [runDfs]
    by_cases hm : s.algoMode = .dfs
    · rw [if_pos hm] at h1 ⊢
      cases hd : dfsStep s with
      | error e =>
        rw [hd] at h1
        cases h1
      | ok s1 =>
        rw [hd] at h1
        simp only at h1 ⊢
        exact ih s1 sk s' h1 h2 h3
    · rw [if_neg hm] at h1
      cases h1
      exact absurd h2 hm

/-- From a state of a depth-first run in which the invariant holds, the run goes on for as
many steps as there are reachable ids not yet visited, and then finds the stack empty. -/
theorem dfs_run (edges : List (Edge R)) (start : String) (n : Nat) :
    ∀ s : State R, DfsInv edges start s → s.algoMode = .dfs →
      (dfsUniverse edges start).length ≤ s.dfsVisited.length + n →
      ∃ rest : List String, (s.dfsOrder ++ rest).Nodup ∧
        (∀ v, v ∈ s.dfsOrder ++ rest ↔ Reach edges start v) ∧
        ∀ k, k ≤ rest.length → ∃ sk : State R, runDfs k s = .ok sk ∧ sk.algoMode = .dfs ∧
          sk.graph = s.graph ∧ sk.alerts = s.alerts ∧
          sk.dfsOrder = s.dfsOrder ++ rest.take k ∧ (sk.dfsStack = [] ↔ k = rest.length) := by
  have done : ∀ s : State R, DfsInv edges start s → s.algoMode = .dfs →
      s.dfsStack.getLast? = none →
      ∃ rest : List String, (s.dfsOrder ++ rest).Nodup ∧
        (∀ v, v ∈ s.dfsOrder ++ rest ↔ Reach edges start v) ∧
        ∀ k, k ≤ rest.length → ∃ sk : State R, runDfs k s = .ok sk ∧ sk.algoMode = .dfs ∧
          sk.graph = s.graph ∧ sk.alerts = s.alerts ∧
          sk.dfsOrder = s.dfsOrder ++ rest.take k ∧
          (sk.dfsStack = [] ↔ k = rest.length) := by
    intro s h hm hc
    have hnil : s.dfsStack = [] := List.getLast?_eq_none_iff.1 hc
    refine ⟨[], ?_, ?_, ?_⟩
    · have := h.nodup
      rw [hnil] at this
      simpa [h.ord] using this
    · intro v
      rw [List.append_nil, h.ord]
      constructor
      · intro hv
        exact h.reach v (List.mem_append_right _ hv)
      · intro hv
        induction hv with
        | refl =>
          have := h.hasStart
          rw [hnil] at this
          simpa using this
        | tail _ hab ih =>
          rcases h.closed _ ih _ hab with hy | hy
          · exact hy
          · rw [hnil] at hy
            cases hy
    · intro k hk
      have hk0 : k = 0 := by simpa using hk
      subst hk0
      exact ⟨s, rfl, hm, rfl, rfl, by simp, by simp [hnil]⟩
  induction n with
  | zero =>
    intro s h hm hlen
    cases hc : s.dfsStack.getLast? with
    | none => exact done s h hm hc
    | some current =>
      exfalso
      have hl : (s.dfsStack ++ s.dfsVisited).length ≤ (dfsUniverse edges start).length :=
        (List.Nodup.subperm h.nodup
          (fun x hx => reach_dfsUniverse edges start x (h.reach x hx))).length_le
      have hst : s.dfsStack.dropLast ++ [current] = s.dfsStack :=
        List.dropLast_append_getLast? current hc
      rw [← hst] at hl
      simp only [List.length_append, List.length_singleton] at hl
      omega
  | succ n ih =>
    intro s h hm hlen
    cases hc : s.dfsStack.getLast? with
    | none => exact done s h hm hc
    | some current =>
      obtain ⟨_, _, s', hs, ho, hmode, hg, ha, hinv⟩ :=
        dfsStep_nonempty edges start s current h hc
      have hv' : s'.dfsVisited.length = s.dfsVisited.length + 1 := by
        rw [← hinv.ord, ho, h.ord]
        simp
      obtain ⟨rest, r1, r2, r3⟩ := ih s' hinv (hmode.trans hm) (by omega)
      rw [ho, List.append_assoc] at r1 r2
      refine ⟨current :: rest, r1, r2, ?_⟩
      intro k hk
      cases k with
      | zero =>
        refine ⟨s, rfl, hm, rfl, rfl, by simp, ?_⟩
        constructor
        · intro hnil
          rw [hnil] at hc
          cases hc
        · intro h0
          simp at h0
      | succ j =>
        obtain ⟨sk, k1, k2, k3, k4, k5, k6⟩ := r3 j (by simpa using hk)
        refine ⟨sk, ?_, k2, k3.trans hg, k4.trans ha, ?_, ?_⟩
        · rw [runDfs, if_pos hm, hs]
          exact k1
        · rw [k5, ho, List.append_assoc]
          rfl
        · rw [k6]
          simp

theorem dfsStep_empty (s : State R) (labels : List String) (hnil : s.dfsStack = [])
    (hl : labelsOf s.graph s.dfsOrder = .ok labels) :
    ∃ s' : State R, dfsStep s = .ok s' ∧ s'.algoMode = .off ∧ s'.dfsOrder = s.dfsOrder ∧
      s'.alerts = s.alerts ++ [.dfsOrder labels] := by
  obtain ⟨_, _, c3, _, c5⟩ := clearTimer_dfs s
  have c0 := clearTimer_graph s
  unfold dfsStep
  rw [hnil]
  simp only [List.getLast?_nil, stopVisualizationMode, c0, c3, hl, c5]
  exact ⟨_, rfl, rfl, rfl, rfl⟩

section DfsClaim
variable [Ring R] [DecidableEq R]

/-- C26: in every state reachable from `startDfsVisualization` by calls of `dfsStep`
(calls that return and calls that throw), `dfsStack` holds no id twice and no id of
`dfsVisited`; hence the id that a call pops is not in `dfsVisited` (the already-visited
branch of `dfsStep` is not taken), and the call returns with exactly this id, which is
not in `dfsOrder`, appended to `dfsOrder`.  With `order` the list of the ids reachable from the start (each once), the
run makes `order.length` calls on a non-empty stack, the `k`-th of which leaves the first
`k` entries of `order` in `dfsOrder`, and the stack is empty after exactly these calls, so
that the next call, number `order.length + 1`, is the one that takes the termination
branch; when the edges reference existing vertices and the start is a vertex, that call
returns with the mode switched off and the order reported. -/
theorem dfs_stack_invariant_and_call_count (s0 : State R) (start : String)
    (mode : StepMode) (delayInput : Option R) (s : State R)
    (h : DfsReachable s0 start mode delayInput s) :
    (s.dfsStack.Nodup ∧ (∀ x ∈ s.dfsStack, x ∉ s.dfsVisited) ∧
      ∀ current, s.dfsStack.getLast? = some current →
        current ∉ s.dfsVisited ∧ current ∉ s.dfsOrder ∧
        ∃ s' : State R, dfsStep s = .ok s' ∧ s'.dfsOrder = s.dfsOrder ++ [current]) ∧
    ∃ order : List String, order.Nodup ∧
      (∀ v, v ∈ order ↔ Reach s0.graph.edges start v) ∧
      (∀ k, k ≤ order.length → ∃ sk : State R,
        runDfs k (startDfsVisualization s0 start mode delayInput) = .ok sk ∧
        sk.algoMode = .dfs ∧ sk.dfsOrder = order.take k ∧
        (sk.dfsStack = [] ↔ k = order.length)) ∧
      (EndpointsExist s0.graph → start ∈ mapKeys s0.graph.vertices →
        ∃ (s' : State R) (labels : List String),
          runDfs (order.length + 1) (startDfsVisualization s0 start mode delayInput) =
            .ok s' ∧
          s'.algoMode = .off ∧ s'.dfsOrder = order ∧
          s'.alerts = s0.alerts ++ [.dfsOrder labels]) := by
  have hinv := dfsReachable_inv s0 start mode delayInput s h
  constructor
  · have hnd := List.nodup_append.1 hinv.nodup
    refine ⟨hnd.1, fun x hx => List.disjoint_left.1 hnd.2.2 hx, ?_⟩
    intro current hc
    obtain ⟨h1, h2, s', h3, h4, _⟩ := dfsStep_nonempty _ start s current hinv hc
    exact ⟨h1, h2, s', h3, h4⟩
  · obtain ⟨i1, i2, i3, i4, i5⟩ := dfsInv_init s0 start mode delayInput
    obtain ⟨order, r1, r2, r3⟩ := dfs_run s0.graph.edges start
      (dfsUniverse s0.graph.edges start).length _ i1 i2 (by omega)
    rw [i3, List.nil_append] at r1 r2
    refine ⟨order, r1, r2, ?_, ?_⟩
    · intro k hk
      obtain ⟨sk, k1, k2, _, _, k5, k6⟩ := r3 k hk
      rw [i3, List.nil_append] at k5
      exact ⟨sk, k1, k2, k5, k6⟩
    · intro hend hstart
      obtain ⟨sk, k1, k2, k3, k4, k5, k6⟩ := r3 order.length (le_refl _)
      rw [i3, List.nil_append, List.take_length] at k5
      obtain ⟨labels, hl⟩ := labelsOf_ok s0.graph order (fun x hx =>
        reach_mem_keys_of_start hend start x hstart ((r2 x).1 hx))
      obtain ⟨s', e1, e2, e3, e4⟩ := dfsStep_empty sk labels (k6.2 rfl)
        (by rw [k3, i4, k5]; exact hl)
      exact ⟨s', labels, runDfs_succ _ _ sk s' k1 k2 e1, e2, e3.trans k5,
        by rw [e4, k4, i5]⟩

/-- Witness for `dfs_stack_invariant_and_call_count`: the state after one step of the run
from A on the kite graph, with B, C and D on the stack. -/
theorem dfs_stack_invariant_and_call_count_witness :
    ∃ s : State ℤ, DfsReachable (State.init kiteGraph) "A" .space none s ∧
      s.dfsStack = ["D", "C", "B"] ∧ s.dfsVisited = ["A"] ∧
      s.dfsStack.Nodup ∧ (∀ x ∈ s.dfsStack, x ∉ s.dfsVisited) ∧
      ∀ current, s.dfsStack.getLast? = some current →
        current ∉ s.dfsVisited ∧ current ∉ s.dfsOrder ∧
        ∃ s' : State ℤ, dfsStep s = .ok s' ∧ s'.dfsOrder = s.dfsOrder ++ [current] :=
  ⟨_, DfsReachable.step DfsReachable.init rfl, rfl, rfl,
    (dfs_stack_invariant_and_call_count (State.init kiteGraph) "A" .space none _
      (DfsReachable.step DfsReachable.init rfl)).1⟩

end DfsClaim

/-! ## Force-directed layout -/

theorem mem_mapKeys_mapSet {β : Type} (m : List (String × β)) (k k' : String) (v : β) :
    k' ∈ mapKeys (mapSet m k v) ↔ k' ∈ mapKeys m ∨ k' = k := by
  rw [← mapGet_isSome_iff, ← mapGet_isSome_iff]
  by_cases h : k' = k
  · subst h
    simp [mapGet_mapSet_self]
  · rw [mapGet_mapSet_of_ne _ _ _ _ h]
    simp [h]

theorem mapGet_mem {β : Type} (m : List (String × β)) (k : String) (v : β)
    (h : mapGet m k = some v) : (k, v) ∈ m := by
  induction m with
  | nil => cases h
  | cons p m ih =>
    obtain ⟨k', v'⟩ := p
    unfold mapGet at h
    by_cases hk : k' = k
    · rw [if_pos hk] at h
      cases h
      subst hk
      simp
    · rw [if_neg hk] at h
      exact List.mem_cons_of_mem _ (ih h)

theorem addForce_ok [Add R] (forces : List (String × (R × R))) (id : String) (fx fy : R)
    (h : id ∈ mapKeys forces) :
    ∃ f, addForce forces id fx fy = .ok f ∧ mapKeys f = mapKeys forces := by
  unfold addForce
  cases hg : mapGet forces id with
  | none => exact absurd h ((mapGet_eq_none_iff _ _).1 hg)
  | some f => exact ⟨_, rfl, mapKeys_mapSet_of_mem _ _ _ h⟩

theorem subForce_ok [Sub R] (forces : List (String × (R × R))) (id : String) (fx fy : R)
    (h : id ∈ mapKeys forces) :
    ∃ f, subForce forces id fx fy = .ok f ∧ mapKeys f = mapKeys forces := by
  unfold subForce
  cases hg : mapGet forces id with
  | none => exact absurd h ((mapGet_eq_none_iff _ _).1 hg)
  | some f => exact ⟨_, rfl, mapKeys_mapSet_of_mem _ _ _ h⟩

theorem forall2_keys (r : String × Vertex R → String × Vertex R → Prop)
    (hr : ∀ p p', r p p' → p'.1 = p.1 ∧ p'.2.id = p.2.id) :
    ∀ vs vs' : List (String × Vertex R), List.Forall₂ r vs vs' →
      mapKeys vs' = mapKeys vs ∧
      ((∀ p ∈ vs, p.2.id = p.1) → ∀ p ∈ vs', p.2.id = p.1) := by
  intro vs vs' h
  induction h with
  | nil => exact ⟨rfl, fun _ p hp => by cases hp⟩
  | @cons a b l1 l2 hab _ ih =>
    obtain ⟨i1, i2⟩ := ih
    constructor
    · simp only [mapKeys, List.map_cons] at i1 ⊢
      rw [i1, (hr a b hab).1]
    · intro hk p hp
      rcases List.mem_cons.1 hp with hp | hp
      · subst hp
        rw [(hr a p hab).2, (hr a p hab).1]
        exact hk a (by simp)
      · exact i2 (fun q hq => hk q (by simp [hq])) p hp

theorem layoutReady_of_keys (g g' : Graph R) (h : LayoutReady g) (he : g'.edges = g.edges)
    (hk : mapKeys g'.vertices = mapKeys g.vertices)
    (hid : ∀ p ∈ g'.vertices, p.2.id = p.1) : LayoutReady g' := by
  refine ⟨?_, hid⟩
  intro e hin
  rw [hk]
  exact h.1 e (by rw [← he]; exact hin)

section Force
variable [LinearOrderedField R]

theorem repel_ok (hypot : R → R → R) (v1 v2 : Vertex R) (forces : List (String × (R × R)))
    (h1 : v1.id ∈ mapKeys forces) (h2 : v2.id ∈ mapKeys forces) :
    ∃ f, repel hypot v1 v2 forces = .ok f ∧ mapKeys f = mapKeys forces := by
  unfold repel
  simp only
  obtain ⟨f1, e1, k1⟩ := subForce_ok forces v1.id
    ((100 * 100) / (hypot (v2.x - v1.x) (v2.y - v1.y) + 1 / 10) * (v2.x - v1.x) /
      (hypot (v2.x - v1.x) (v2.y - v1.y) + 1 / 10))
    ((100 * 100) / (hypot (v2.x - v1.x) (v2.y - v1.y) + 1 / 10) * (v2.y - v1.y) /
      (hypot (v2.x - v1.x) (v2.y - v1.y) + 1 / 10)) h1
  rw [e1]
  simp only
  obtain ⟨f2, e2, k2⟩ := addForce_ok f1 v2.id
    ((100 * 100) / (hypot (v2.x - v1.x) (v2.y - v1.y) + 1 / 10) * (v2.x - v1.x) /
      (hypot (v2.x - v1.x) (v2.y - v1.y) + 1 / 10))
    ((100 * 100) / (hypot (v2.x - v1.x) (v2.y - v1.y) + 1 / 10) * (v2.y - v1.y) /
      (hypot (v2.x - v1.x) (v2.y - v1.y) + 1 / 10)) (by rw [k1]; exact h2)
  exact ⟨f2, e2, k2.trans k1⟩

theorem repelFrom_ok (hypot : R → R → R) (v1 : Vertex R) (rest : List (Vertex R)) :
    ∀ forces : List (String × (R × R)), v1.id ∈ mapKeys forces →
      (∀ v ∈ rest, v.id ∈ mapKeys forces) →
      ∃ f, repelFrom hypot v1 rest forces = .ok f ∧ mapKeys f = mapKeys forces := by
  induction rest with
  | nil => intro forces _ _; exact ⟨forces, rfl, rfl⟩
  | cons v2 rest ih =>
    intro forces h1 h2
    obtain ⟨f1, e1, k1⟩ := repel_ok hypot v1 v2 forces h1 (h2 v2 (by simp))
    obtain ⟨f2, e2, k2⟩ := ih f1 (by rw [k1]; exact h1)
      (fun v hv => by rw [k1]; exact h2 v (by simp [hv]))
    exact ⟨f2, by simp only [repelFrom, e1, e2], k2.trans k1⟩

theorem repelAll_ok (hypot : R → R → R) (vs : List (Vertex R)) :
    ∀ forces : List (String × (R × R)), (∀ v ∈ vs, v.id ∈ mapKeys forces) →
      ∃ f, repelAll hypot vs forces = .ok f ∧ mapKeys f = mapKeys forces := by
  induction vs with
  | nil => intro forces _; exact ⟨forces, rfl, rfl⟩
  | cons v1 rest ih =>
    intro forces h
    obtain ⟨f1, e1, k1⟩ := repelFrom_ok hypot v1 rest forces (h v1 (by simp))
      (fun v hv => h v (by simp [hv]))
    obtain ⟨f2, e2, k2⟩ := ih f1 (fun v hv => by rw [k1]; exact h v (by simp [hv]))
    exact ⟨f2, by simp only [repelAll, e1, e2], k2.trans k1⟩

theorem attract_ok (hypot : R → R → R) (vertices : List (String × Vertex R)) (e : Edge R)
    (forces : List (String × (R × R)))
    (hkey : ∀ p ∈ vertices, p.2.id = p.1)
    (hf : ∀ id ∈ mapKeys vertices, id ∈ mapKeys forces)
    (h1 : e.from_ ∈ mapKeys vertices) (h2 : e.to_ ∈ mapKeys vertices) :
    ∃ f, attract hypot vertices e forces = .ok f ∧ mapKeys f = mapKeys forces := by
  unfold attract
  cases g1 : mapGet vertices e.from_ with
  | none => exact absurd h1 ((mapGet_eq_none_iff _ _).1 g1)
  | some v1 =>
    cases g2 : mapGet vertices e.to_ with
    | none => exact absurd h2 ((mapGet_eq_none_iff _ _).1 g2)
    | some v2 =>
      have i1 : v1.id = e.from_ := hkey _ (mapGet_mem _ _ _ g1)
      have i2 : v2.id = e.to_ := hkey _ (mapGet_mem _ _ _ g2)
      simp only
      obtain ⟨f1, e1, k1⟩ := addForce_ok forces v1.id
        ((hypot (v2.x - v1.x) (v2.y - v1.y) + 1 / 10) *
          (hypot (v2.x - v1.x) (v2.y - v1.y) + 1 / 10) / 100 * (v2.x - v1.x) /
          (hypot (v2.x - v1.x) (v2.y - v1.y) + 1 / 10))
        ((hypot (v2.x - v1.x) (v2.y - v1.y) + 1 / 10) *
          (hypot (v2.x - v1.x) (v2.y - v1.y) + 1 / 10) / 100 * (v2.y - v1.y) /
          (hypot (v2.x - v1.x) (v2.y - v1.y) + 1 / 10)) (by rw [i1]; exact hf _ h1)
      rw [e1]
      simp only
      obtain ⟨f2, e2, k2⟩ := subForce_ok f1 v2.id
        ((hypot (v2.x - v1.x) (v2.y - v1.y) + 1 / 10) *
          (hypot (v2.x - v1.x) (v2.y - v1.y) + 1 / 10) / 100 * (v2.x - v1.x) /
          (hypot (v2.x - v1.x) (v2.y - v1.y) + 1 / 10))
        ((hypot (v2.x - v1.x) (v2.y - v1.y) + 1 / 10) *
          (hypot (v2.x - v1.x) (v2.y - v1.y) + 1 / 10) / 100 * (v2.y - v1.y) /
          (hypot (v2.x - v1.x) (v2.y - v1.y) + 1 / 10)) (by rw [k1, i2]; exact hf _ h2)
      exact ⟨f2, e2, k2.trans k1⟩

theorem attractAll_ok (hypot : R → R → R) (vertices : List (String × Vertex R))
    (hkey : ∀ p ∈ vertices, p.2.id = p.1) (es : List (Edge R)) :
    ∀ forces : List (String × (R × R)),
      (∀ id ∈ mapKeys vertices, id ∈ mapKeys forces) →
      (∀ e ∈ es, e.from_ ∈ mapKeys vertices ∧ e.to_ ∈ mapKeys vertices) →
      ∃ f, attractAll hypot vertices es forces = .ok f ∧ mapKeys f = mapKeys forces := by
  induction es with
  | nil => intro forces _ _; exact ⟨forces, rfl, rfl⟩
  | cons e rest ih =>
    intro forces hf he
    obtain ⟨f1, e1, k1⟩ := attract_ok hypot vertices e forces hkey hf
      (he e (by simp)).1 (he e (by simp)).2
    obtain ⟨f2, e2, k2⟩ := ih f1 (fun id hid => by rw [k1]; exact hf id hid)
      (fun e' he' => he e' (by simp [he']))
    exact ⟨f2, by simp only [attractAll, e1, e2], k2.trans k1⟩

theorem mem_mapKeys_zeroForces (ks : List String) (id : String) :
    ∀ acc : List (String × (R × R)),
      id ∈ mapKeys (ks.foldl (fun f id => mapSet f id ((0 : R), (0 : R))) acc) ↔
        id ∈ mapKeys acc ∨ id ∈ ks := by
  induction ks with
  | nil => intro acc; simp
  | cons k ks ih =>
    intro acc
    rw [List.foldl_cons, ih, mem_mapKeys_mapSet]
    simp only [List.mem_cons]
    tauto

theorem computeForces_ok (hypot : R → R → R) (g : Graph R) (h : LayoutReady g) :
    ∃ f, computeForces hypot g = .ok f ∧ ∀ id ∈ mapKeys g.vertices, id ∈ mapKeys f := by
  unfold computeForces
  simp only
  have h0 : ∀ id ∈ mapKeys g.vertices, id ∈ mapKeys
      ((mapKeys g.vertices).foldl (fun f id => mapSet f id ((0 : R), (0 : R))) []) :=
    fun id hid => (mem_mapKeys_zeroForces _ id []).2 (Or.inr hid)
  obtain ⟨f1, e1, k1⟩ := repelAll_ok hypot (g.vertices.map Prod.snd) _ (by
    intro v hv
    obtain ⟨p, hp, rfl⟩ := List.mem_map.1 hv
    rw [h.2 p hp]
    exact h0 _ (List.mem_map.2 ⟨p, hp, rfl⟩))
  rw [e1]
  simp only
  obtain ⟨f2, e2, k2⟩ := attractAll_ok hypot g.vertices h.2 g.edges f1
    (fun id hid => by rw [k1]; exact h0 id hid) h.1
  exact ⟨f2, e2, fun id hid => by rw [k2, k1]; exact h0 id hid⟩

theorem hypot_le_of_sq (hypot : R → R → R) (hnn : ∀ a b, 0 ≤ hypot a b)
    (hsq : ∀ a b, hypot a b ^ 2 = a ^ 2 + b ^ 2) (a b c : R) (hc : 0 ≤ c)
    (h : a ^ 2 + b ^ 2 ≤ c ^ 2) : hypot a b ≤ c := by
  have h1 := hsq a b
  have h0 := hnn a b
  by_contra hlt
  push_neg at hlt
  nlinarith

theorem hypot_triangle (hypot : R → R → R) (hnn : ∀ a b, 0 ≤ hypot a b)
    (hsq : ∀ a b, hypot a b ^ 2 = a ^ 2 + b ^ 2) (a b c d : R) :
    hypot (a + c) (b + d) ≤ hypot a b + hypot c d := by
  have h1 := hsq a b
  have h2 := hsq c d
  have n1 := hnn a b
  have n2 := hnn c d
  have hcs : a * c + b * d ≤ hypot a b * hypot c d := by
    by_contra hlt
    push_neg at hlt
    have hp : 0 ≤ hypot a b * hypot c d := mul_nonneg n1 n2
    have hsqlt : (hypot a b * hypot c d) ^ 2 < (a * c + b * d) ^ 2 := by nlinarith
    have hmul : (hypot a b * hypot c d) ^ 2 = (a ^ 2 + b ^ 2) * (c ^ 2 + d ^ 2) := by
      rw [mul_pow, h1, h2]
    nlinarith [sq_nonneg (a * d - b * c)]
  apply hypot_le_of_sq hypot hnn hsq _ _ _ (add_nonneg n1 n2)
  nlinarith

theorem moveBy_id (hypot : R → R → R) (f : R × R) (v : Vertex R) :
    (moveBy hypot f v).id = v.id := by
  unfold moveBy
  simp only
  split <;> rfl

theorem moveBy_bound (hypot : R → R → R) (hnn : ∀ a b, 0 ≤ hypot a b)
    (hsq : ∀ a b, hypot a b ^ 2 = a ^ 2 + b ^ 2) (f : R × R) (v : Vertex R) :
    hypot ((moveBy hypot f v).x - v.x) ((moveBy hypot f v).y - v.y) ≤ 5 := by
  unfold moveBy
  simp only
  by_cases hd : hypot f.1 f.2 > 0
  · rw [if_pos hd]
    simp only [add_sub_cancel_left]
    apply hypot_le_of_sq hypot hnn hsq _ _ _ (by norm_num)
    have hm1 : 0 < min (hypot f.1 f.2) 50 := lt_min hd (by norm_num)
    have hm2 : min (hypot f.1 f.2) 50 ≤ 50 := min_le_right _ _
    have h2 := hsq f.1 f.2
    have hne : hypot f.1 f.2 ≠ 0 := ne_of_gt hd
    have key : (1 / 10 * (f.1 / hypot f.1 f.2) * min (hypot f.1 f.2) 50) ^ 2 +
        (1 / 10 * (f.2 / hypot f.1 f.2) * min (hypot f.1 f.2) 50) ^ 2 =
        (min (hypot f.1 f.2) 50 / 10) ^ 2 := by
      field_simp
      linear_combination (-(100 : R) * (min (hypot f.1 f.2) 50) ^ 2) * h2
    rw [key]
    nlinarith
  · rw [if_neg hd]
    apply hypot_le_of_sq hypot hnn hsq _ _ _ (by norm_num)
    simp only [sub_self]
    norm_num

theorem moveAll_ok (hypot : R → R → R) (hnn : ∀ a b, 0 ≤ hypot a b)
    (hsq : ∀ a b, hypot a b ^ 2 = a ^ 2 + b ^ 2) (forces : List (String × (R × R)))
    (vs : List (String × Vertex R)) (h : ∀ p ∈ vs, p.1 ∈ mapKeys forces) :
    ∃ vs', moveAll hypot forces vs = .ok vs' ∧
      List.Forall₂ (fun p p' => p'.1 = p.1 ∧
        (∃ f, mapGet forces p.1 = some f ∧ p'.2 = moveBy hypot f p.2) ∧
        hypot (p'.2.x - p.2.x) (p'.2.y - p.2.y) ≤ 5) vs vs' := by
  induction vs with
  | nil => exact ⟨[], rfl, List.Forall₂.nil⟩
  | cons p rest ih =>
    obtain ⟨id, v⟩ := p
    obtain ⟨rest', e1, r1⟩ := ih (fun q hq => h q (by simp [hq]))
    cases hg : mapGet forces id with
    | none => exact absurd (h (id, v) (by simp)) ((mapGet_eq_none_iff _ _).1 hg)
    | some f =>
      refine ⟨(id, moveBy hypot f v) :: rest', by simp only [moveAll, hg, e1], ?_⟩
      exact List.Forall₂.cons ⟨rfl, ⟨f, hg, rfl⟩, moveBy_bound hypot hnn hsq f v⟩ r1

theorem forall2_chain {α : Type} {r1 r2 r3 : α → α → Prop}
    (h : ∀ a b c, r1 a b → r2 b c → r3 a c) :
    ∀ l1 l2 l3 : List α, List.Forall₂ r1 l1 l2 → List.Forall₂ r2 l2 l3 →
      List.Forall₂ r3 l1 l3 := by
  intro l1 l2 l3 h1
  induction h1 generalizing l3 with
  | nil =>
    intro h2
    cases h2
    exact List.Forall₂.nil
  | cons hab _ ih =>
    intro h2
    cases h2 with
    | cons hbc h2' => exact List.Forall₂.cons (h _ _ _ hab hbc) (ih _ h2')

/-- One iteration on a graph that is ready for it: the forces are computed from the graph
as it is, then every vertex is moved by its force, by at most 5. -/
theorem forceIteration_ok (hypot : R → R → R) (hnn : ∀ a b, 0 ≤ hypot a b)
    (hsq : ∀ a b, hypot a b ^ 2 = a ^ 2 + b ^ 2) (g : Graph R) (h : LayoutReady g) :
    ∃ (forces : List (String × (R × R))) (g' : Graph R),
      computeForces hypot g = .ok forces ∧ forceIteration hypot g = .ok g' ∧
      g'.edges = g.edges ∧ LayoutReady g' ∧
      List.Forall₂ (fun p p' => p'.1 = p.1 ∧
        (∃ f, mapGet forces p.1 = some f ∧ p'.2 = moveBy hypot f p.2) ∧
        hypot (p'.2.x - p.2.x) (p'.2.y - p.2.y) ≤ 5) g.vertices g'.vertices := by
  obtain ⟨forces, e1, k1⟩ := computeForces_ok hypot g h
  obtain ⟨vs', e2, r2⟩ := moveAll_ok hypot hnn hsq forces g.vertices
    (fun p hp => k1 _ (List.mem_map.2 ⟨p, hp, rfl⟩))
  obtain ⟨q1, q2⟩ := forall2_keys _ (fun p p' hr => by
    obtain ⟨a1, ⟨f, _, a2⟩, _⟩ := hr
    exact ⟨a1, by rw [a2, moveBy_id]⟩) _ _ r2
  refine ⟨forces, { g with vertices := vs' }, e1, by simp only [forceIteration, e1, e2],
    rfl, layoutReady_of_keys g _ h rfl q1 (q2 h.2), r2⟩

theorem forceRounds_ok (hypot : R → R → R) (hnn : ∀ a b, 0 ≤ hypot a b)
    (hsq : ∀ a b, hypot a b ^ 2 = a ^ 2 + b ^ 2) (n : Nat) :
    ∀ g : Graph R, LayoutReady g →
      ∃ g' : Graph R, forceRounds hypot n g = .ok g' ∧ g'.edges = g.edges ∧
        LayoutReady g' ∧
        List.Forall₂ (fun p p' => p'.1 = p.1 ∧ p'.2.id = p.2.id ∧
          hypot (p'.2.x - p.2.x) (p'.2.y - p.2.y) ≤ 5 * (n : R)) g.vertices g'.vertices := by
  induction n with
  | zero =>
    intro g h
    refine ⟨g, rfl, rfl, h, List.forall₂_same.2 (fun p _ => ⟨rfl, rfl, ?_⟩)⟩
    apply hypot_le_of_sq hypot hnn hsq _ _ _ (by simp)
    simp
  | succ n ih =>
    intro g h
    obtain ⟨forces, g1, _, e1, d1, l1, r1⟩ := forceIteration_ok hypot hnn hsq g h
    obtain ⟨g', e2, d2, l2, r2⟩ := ih g1 l1
    refine ⟨g', by simp only [forceRounds, e1, e2], d2.trans d1, l2, ?_⟩
    refine forall2_chain ?_ _ _ _ r1 r2
    rintro a b c ⟨a1, ⟨f, _, a2⟩, a3⟩ ⟨b1, b2, b3⟩
    refine ⟨b1.trans a1, by rw [b2, a2, moveBy_id], ?_⟩
    have ht := hypot_triangle hypot hnn hsq (b.2.x - a.2.x) (b.2.y - a.2.y)
      (c.2.x - b.2.x) (c.2.y - b.2.y)
    have hx : b.2.x - a.2.x + (c.2.x - b.2.x) = c.2.x - a.2.x := by ring
    have hy : b.2.y - a.2.y + (c.2.y - b.2.y) = c.2.y - a.2.y := by ring
    rw [hx, hy] at ht
    push_cast
    linarith

theorem forceRounds_succ (hypot : R → R → R) (n : Nat) :
    ∀ g g1 g2 : Graph R, forceRounds hypot n g = .ok g1 →
      forceIteration hypot g1 = .ok g2 → forceRounds hypot (n + 1) g = .ok g2 := by
  induction n with
  | zero =>
    intro g g1 g2 h1 h2
    simp only [forceRounds] at h1
    cases h1
    simp only [forceRounds, h2]
  | succ n ih =>
    intro g g1 g2 h1 h2
    rw [forceRounds] at h1 ⊢
    cases hi : forceIteration hypot g with
    | error e =>
      rw [hi] at h1
      cases h1
    | ok g0 =>
      rw [hi] at h1
      simp only at h1 ⊢
      exact ih g0 g1 g2 h1 h2

/-- C21: over an ordered field in which `hypot` is the Euclidean norm, for every graph
whose edges reference existing vertices (and whose vertex records are stored under their
ids), `forceDirectedLayout` returns; each of its 100 iterations computes the map of forces
from the graph as the iteration finds it and then moves every vertex by the force stored
for it, by a Euclidean distance of at most 5; at the end the edges, the keys and the ids
are as before and every vertex is at a Euclidean distance of at most 500 from where it
started. -/
theorem forceDirectedLayout_moves_bounded (hypot : R → R → R) (s : State R)
    (hnn : ∀ a b, 0 ≤ hypot a b) (hsq : ∀ a b, hypot a b ^ 2 = a ^ 2 + b ^ 2)
    (hend : EndpointsExist s.graph) (hkey : ∀ p ∈ s.graph.vertices, p.2.id = p.1) :
    (∀ n, n < 100 → ∃ (g g' : Graph R) (forces : List (String × (R × R))),
      forceRounds hypot n s.graph = .ok g ∧ computeForces hypot g = .ok forces ∧
      forceIteration hypot g = .ok g' ∧ forceRounds hypot (n + 1) s.graph = .ok g' ∧
      List.Forall₂ (fun p p' => p'.1 = p.1 ∧
        (∃ f, mapGet forces p.1 = some f ∧ p'.2 = moveBy hypot f p.2) ∧
        hypot (p'.2.x - p.2.x) (p'.2.y - p.2.y) ≤ 5) g.vertices g'.vertices) ∧
    ∃ s' : State R, forceDirectedLayout hypot s = .ok s' ∧
      s'.graph.edges = s.graph.edges ∧
      List.Forall₂ (fun p p' => p'.1 = p.1 ∧ p'.2.id = p.2.id ∧
        hypot (p'.2.x - p.2.x) (p'.2.y - p.2.y) ≤ 500) s.graph.vertices s'.graph.vertices := by
  have hready : LayoutReady s.graph := ⟨hend, hkey⟩
  constructor
  · intro n _
    obtain ⟨g, e1, _, l1, _⟩ := forceRounds_ok hypot hnn hsq n s.graph hready
    obtain ⟨forces, g', e2, e3, _, _, r⟩ := forceIteration_ok hypot hnn hsq g l1
    exact ⟨g, g', forces, e1, e2, e3, forceRounds_succ hypot n _ g g' e1 e3, r⟩
  · obtain ⟨g, e1, d1, _, r⟩ := forceRounds_ok hypot hnn hsq 100 s.graph hready
    refine ⟨{ s with graph := g }, by simp only [forceDirectedLayout, e1], d1, ?_⟩
    refine List.Forall₂.imp ?_ r
    rintro a b ⟨h1, h2, h3⟩
    refine ⟨h1, h2, le_trans h3 ?_⟩
    norm_num

/-- Witness for `forceDirectedLayout_moves_bounded`: the real numbers with the square
root of the sum of the squares, on two vertices joined by an edge. -/
theorem forceDirectedLayout_moves_bounded_witness :
    ∃ s' : State ℝ,
      forceDirectedLayout (fun a b => Real.sqrt (a ^ 2 + b ^ 2))
        (State.init (linkedPoints ℝ)) = .ok s' ∧
      s'.graph.edges = (State.init (linkedPoints ℝ)).graph.edges ∧
      List.Forall₂ (fun p p' => p'.1 = p.1 ∧ p'.2.id = p.2.id ∧
        Real.sqrt ((p'.2.x - p.2.x) ^ 2 + (p'.2.y - p.2.y) ^ 2) ≤ 500)
        (State.init (linkedPoints ℝ)).graph.vertices s'.graph.vertices :=
  (forceDirectedLayout_moves_bounded (fun a b => Real.sqrt (a ^ 2 + b ^ 2))
    (State.init (linkedPoints ℝ)) (fun _ _ => Real.sqrt_nonneg _)
    (fun a b => Real.sq_sqrt (by positivity))
    (by simp [EndpointsExist, State.init, linkedPoints, pointsGraph, mapKeys])
    (by simp [State.init, linkedPoints, pointsGraph])).2

end Force

end GraphVis
